import Mathlib

/-!
Constrained 2D polygon triangulation (tu-testbed).

A shallow embedding of `base/vert_types.h` and `base/constrained_triangulate.cpp`.

Conventions of the embedding:

* `sint16` coordinates are `Int`; the range is the predicate `is_sint16`.
  `sint64` arithmetic is `Int` arithmetic followed by `wrap_sint64` after every
  operation, `int` arithmetic is followed by `wrap_sint32`.
* C++ `int` vertex indices are `Nat`; the sentinel `-1` is `Option.none`.
* `array<T>` is `List T`; `a[i]` is `List.getD` with a default record, which is
  only reached by an out-of-range index (an assertion failure in the source).
* Loops are structural recursions on a fuel that is the loop's own bound.
* `std::sort` is the insertion sort that the standard library runs on ranges of
  at most 16 elements. On longer ranges the library may leave equivalent
  elements in another order: the theorems about every input use only that the
  result is a sorted permutation, and `sort_and_remap_with` and `init_with`
  take the sorted index array as an argument.
-/

namespace ConstrainedTriangulate

/-! ## Machine integers -/

/-- Two's-complement reduction of an integer to the signed 64-bit range. -/
def wrap_sint64 (z : Int) : Int :=
  (z + 9223372036854775808) % 18446744073709551616 - 9223372036854775808

/-- Two's-complement reduction of an integer to the signed 32-bit range. -/
def wrap_sint32 (z : Int) : Int :=
  (z + 2147483648) % 4294967296 - 2147483648

/-- The value lies in the signed 16-bit range. -/
def is_sint16 (z : Int) : Prop := -32768 ≤ z ∧ z ≤ 32767

/-- The value lies in the signed 64-bit range. -/
def is_sint64 (z : Int) : Prop := -9223372036854775808 ≤ z ∧ z ≤ 9223372036854775807

instance (z : Int) : Decidable (is_sint16 z) := by
  unfold is_sint16; infer_instance

instance (z : Int) : Decidable (is_sint64 z) := by
  unfold is_sint64; infer_instance

/-! ## vert_types.h -/

/-- The struct `vec2<sint16>`. -/
structure vec2 where
  x : Int
  y : Int
deriving DecidableEq

/-- Both coordinates of the point are signed 16-bit values. -/
def vec2.is_sint16 (v : vec2) : Prop :=
  ConstrainedTriangulate.is_sint16 v.x ∧ ConstrainedTriangulate.is_sint16 v.y

instance (v : vec2) : Decidable v.is_sint16 := by
  unfold vec2.is_sint16; infer_instance

/-- The function `vec2::operator<`: lexicographic order, x first. -/
def vec2.lt (a v : vec2) : Bool :=
  if a.x < v.x then true
  else if a.x = v.x then (if a.y < v.y then true else false)
  else false

/-- The function `determinant_sint16` of vert_types.h, every `sint64` operation wrapped. -/
def determinant_sint16 (a b c : vec2) : Int :=
  wrap_sint64
    (wrap_sint64 (wrap_sint64 (b.x - a.x) * wrap_sint64 (c.y - a.y))
      - wrap_sint64 (wrap_sint64 (b.y - a.y) * wrap_sint64 (c.x - a.x)))

/-- The exact integer `(b.x-a.x)*(c.y-a.y) - (b.y-a.y)*(c.x-a.x)`. -/
def determinant_exact (a b c : vec2) : Int :=
  (b.x - a.x) * (c.y - a.y) - (b.y - a.y) * (c.x - a.x)

/-- The specialisation `vertex_left_test<sint16>`: the sign of the determinant. -/
def vertex_left_test (a b c : vec2) : Int :=
  let det := determinant_sint16 a b c
  if det > 0 then 1
  else if det < 0 then -1
  else 0

/-! ## Predicates of constrained_triangulate.cpp -/

/-- The function `vert_in_triangle`. -/
def vert_in_triangle (v v0 v1 v2 : vec2) : Bool :=
  let det0 := determinant_sint16 v0 v1 v
  if det0 ≥ 0 then
    let det1 := determinant_sint16 v1 v2 v
    if det1 ≥ 0 then
      let det2 := determinant_sint16 v2 v0 v
      if det2 ≥ 0 then true else false
    else false
  else false

/-- The function `vertex_in_cone`. -/
def vertex_in_cone (vert cone_v0 cone_v1 cone_v2 : vec2) : Bool :=
  let acute_cone : Bool := decide (vertex_left_test cone_v0 cone_v1 cone_v2 > 0)
  let left_of_01 : Bool := decide (vertex_left_test cone_v0 cone_v1 vert ≥ 0)
  let left_of_12 : Bool := decide (vertex_left_test cone_v1 cone_v2 vert ≥ 0)
  if acute_cone then left_of_01 && left_of_12
  else left_of_01 || left_of_12

/-- The closed triangle with corners `v0 v1 v2` as a point set: the convex
combinations of the three corners (interior and boundary). -/
def in_closed_triangle (p v0 v1 v2 : vec2) : Prop :=
  ∃ a b c : ℚ, 0 ≤ a ∧ 0 ≤ b ∧ 0 ≤ c ∧ a + b + c = 1 ∧
    (p.x : ℚ) = a * v0.x + b * v1.x + c * v2.x ∧
    (p.y : ℚ) = a * v0.y + b * v1.y + c * v2.y

/-! ## Records of constrained_triangulate.cpp -/

/-- The enum `poly_vert::state_enum`. -/
inductive state_enum where
  | DIRTY
  | REFLEX
  | DELETED
deriving DecidableEq

/-- The struct `poly_vert`. -/
structure poly_vert where
  m_v : vec2
  m_next : Nat
  m_prev : Nat
  m_state : state_enum
deriving DecidableEq

/-- The record an out-of-range array read yields in this embedding. -/
def poly_vert.dflt : poly_vert :=
  { m_v := { x := 0, y := 0 }, m_next := 0, m_prev := 0, m_state := state_enum.DIRTY }

/-- The constructor `poly_vert(x, y, prev, next)`. -/
def poly_vert.mk4 (x y : Int) (prev next : Nat) : poly_vert :=
  { m_v := { x := x, y := y }, m_next := next, m_prev := prev, m_state := state_enum.DIRTY }

/-- The struct `path_info`; `m_leftmost_vert = -1` is `none`. -/
structure path_info where
  m_begin_vert_orig : Nat
  m_end_vert_orig : Nat
  m_leftmost_vert : Option Nat
deriving DecidableEq

/-- Modelled from the spec: the type `index_box<sint16>` of base/grid_index.h, an
axis-aligned box given by its `min` and `max` corners. -/
structure index_box where
  min : vec2
  max : vec2
deriving DecidableEq

/-- Modelled from the spec: the constructor `index_box(p)` of base/grid_index.h,
the box that holds the single point `p`. -/
def index_box.of_point (p : vec2) : index_box := { min := p, max := p }

/-- Modelled from the spec: the method `index_box::expand_to_enclose` of
base/grid_index.h, the smallest box holding the box and the point. -/
def index_box.expand_to_enclose (b : index_box) (p : vec2) : index_box :=
  { min := { x := Min.min b.min.x p.x, y := Min.min b.min.y p.y },
    max := { x := Max.max b.max.x p.x, y := Max.max b.max.y p.y } }

/-- Modelled from the spec: the method `index_box::contains_point` of
base/grid_index.h, boundary included. -/
def index_box.contains_point (b : index_box) (p : vec2) : Bool :=
  decide (b.min.x ≤ p.x) && decide (p.x ≤ b.max.x) &&
  decide (b.min.y ≤ p.y) && decide (p.y ≤ b.max.y)

/-- The struct `tristate`.

Modelled from the spec: the types `grid_index_point` and `grid_index_box` of
base/grid_index.h. `m_reflex_point_index` lists the stored locations in
insertion order (the payload is never read); `m_edge_index` lists the stored
boxes with their slope payload, `none` before the index is created. A query
iterates every stored entry, which is a legal answer of the grid (a superset
of the entries that meet the query rectangle).

The fields `m_bbox` (only used to size the grids) and `m_debug_edges` (a
write-only debug buffer) are left out. -/
structure tristate where
  m_results : List Int
  m_verts : List poly_vert
  m_input_paths : List path_info
  m_next_dirty : Nat
  m_reflex_point_index : List vec2
  m_edge_index : Option (List (index_box × Bool))
  m_debug_halt_step : Int
deriving DecidableEq

/-- The array read `ts->m_verts[i]`. -/
def tristate.vert (ts : tristate) (i : Nat) : poly_vert :=
  ts.m_verts.getD i poly_vert.dflt

/-- The function `compare_vertices`. -/
def compare_vertices (a b : poly_vert) : Int :=
  if a.m_v.x < b.m_v.x then -1
  else if a.m_v.x > b.m_v.x then 1
  else
    if a.m_v.y < b.m_v.y then -1
    else if a.m_v.y > b.m_v.y then 1
    else 0

/-- The comparator `vert_index_sorter::operator()`. -/
def vert_index_sorter (verts : List poly_vert) (a b : Nat) : Bool :=
  decide (compare_vertices (verts.getD a poly_vert.dflt) (verts.getD b poly_vert.dflt) = -1)

/-- One insertion step of `std::sort`: `rev_sorted` is the sorted front part of
the range, last element first; `x` moves towards the front while it is less
than the element before it. -/
def std_sort_insert {α : Type} (less : α → α → Bool) (x : α) : List α → List α
  | [] => [x]
  | e :: rest => if less x e then e :: std_sort_insert less x rest else x :: e :: rest

/-- The call `std::sort(first, last, less)` as the insertion sort that the sort
of libstdc++ runs on a range of at most 16 elements. On a longer range
`std::sort` may leave elements that compare equal in another order: the
theorems about every input use only that the result is a sorted permutation of
the range (`std_sort_perm`, `std_sort_pairwise`), and `sort_and_remap_with`
and `init_with` take the sorted index array as an argument. -/
def std_sort {α : Type} (less : α → α → Bool) (l : List α) : List α :=
  (l.foldl (fun rev_sorted x => std_sort_insert less x rev_sorted) []).reverse

/-- The function `edges_intersect_sub`; the result is `(e0_vs_e1, e1_vs_e0)`. -/
def edges_intersect_sub (e0v0 e0v1 e1v0 e1v1 : vec2) : Int × Int :=
  if e0v0.x = e0v1.x ∧ e0v0.y = e0v1.y ∧ e1v0.x = e1v1.x ∧ e1v0.y = e1v1.y ∧
      e1v0.x = e0v0.x ∧ e1v0.y = e0v0.y then
    (0, 0)
  else
    let det10 := determinant_sint16 e0v0 e0v1 e1v0
    let det11 := determinant_sint16 e0v0 e0v1 e1v1
    let det1sign0 : Int := if det11 < 0 then -1 else if det11 > 0 then 1 else 0
    let det1sign : Int := if det10 < 0 then -det1sign0 else if det10 = 0 then 0 else det1sign0
    let e1_vs_e0 : Int := if det1sign > 0 then 1 else if det1sign < 0 then -1 else 0
    let det00 := determinant_sint16 e1v0 e1v1 e0v0
    let det01 := determinant_sint16 e1v0 e1v1 e0v1
    let det0sign0 : Int := if det01 < 0 then -1 else if det01 > 0 then 1 else 0
    let det0sign : Int := if det00 < 0 then -det0sign0 else if det00 = 0 then 0 else det0sign0
    let e0_vs_e1 : Int := if det0sign > 0 then 1 else if det0sign < 0 then -1 else 0
    (e0_vs_e1, e1_vs_e0)

/-- The body of the loop of `any_edge_intersects` for one indexed entry: the
edge is rebuilt from its box and slope flag and tested against `ev0 ev1`. -/
def edge_entry_intersects (ev0 ev1 : vec2) (entry : index_box × Bool) : Bool :=
  let eev0 : vec2 := { x := entry.1.min.x, y := if entry.2 = false then entry.1.max.y else entry.1.min.y }
  let eev1 : vec2 := { x := entry.1.max.x, y := if entry.2 = false then entry.1.min.y else entry.1.max.y }
  let r := edges_intersect_sub ev0 ev1 eev0 eev1
  let e_crosses_line_of_ee : Bool := decide (r.1 < 0)
  let ee_touches_line_of_e : Bool := decide (r.2 ≤ 0)
  e_crosses_line_of_ee && ee_touches_line_of_e

/-- The function `any_edge_intersects` for the edge `(m_0, m_1)`. -/
def any_edge_intersects (ts : tristate) (m_0 m_1 : Nat) (edge_index : List (index_box × Bool)) : Bool :=
  let ev0 := (ts.vert m_0).m_v
  let ev1 := (ts.vert m_1).m_v
  edge_index.any (edge_entry_intersects ev0 ev1)

/-- The loop of `find_valid_bridge_vert`: `i` runs from `n - 1` down to `0`. -/
def find_valid_bridge_vert_loop (ts : tristate) (v1 : Nat) (edge_index : List (index_box × Bool)) :
    Nat → Option Nat
  | 0 => none
  | i + 1 =>
    if !any_edge_intersects ts v1 i edge_index then some i
    else find_valid_bridge_vert_loop ts v1 edge_index i

/-- The function `find_valid_bridge_vert` (release build: the trailing
`assert(0)` compiles away and the fallback `v1 - 1` is returned). -/
def find_valid_bridge_vert (ts : tristate) (v1 : Nat) (edge_index : List (index_box × Bool)) : Nat :=
  match find_valid_bridge_vert_loop ts v1 edge_index v1 with
  | some i => i
  | none => v1 - 1

/-- The function `add_edge`; the slope product is computed in `int`. -/
def add_edge (edge_index : List (index_box × Bool)) (v0 v1 : vec2) : List (index_box × Bool) :=
  let m_slope_up : Bool :=
    decide (wrap_sint32 (wrap_sint32 (v1.x - v0.x) * wrap_sint32 (v1.y - v0.y)) > 0)
  let bound := (index_box.of_point v0).expand_to_enclose v1
  edge_index ++ [(bound, m_slope_up)]

/-- The function `add_all_edges_into_index`. -/
def add_all_edges_into_index (ts : tristate) (edge_index : List (index_box × Bool)) :
    List (index_box × Bool) :=
  (List.range ts.m_verts.length).foldl
    (fun idx i => add_edge idx (ts.vert i).m_v (ts.vert (ts.vert i).m_next).m_v) edge_index

/-- The write `ts->m_verts[i].m_next = n`. -/
def set_next (verts : List poly_vert) (i n : Nat) : List poly_vert :=
  verts.set i { verts.getD i poly_vert.dflt with m_next := n }

/-- The write `ts->m_verts[i].m_prev = p`. -/
def set_prev (verts : List poly_vert) (i p : Nat) : List poly_vert :=
  verts.set i { verts.getD i poly_vert.dflt with m_prev := p }

/-- The write `ts->m_verts[i].m_state = s`. -/
def set_state (verts : List poly_vert) (i : Nat) (s : state_enum) : List poly_vert :=
  verts.set i { verts.getD i poly_vert.dflt with m_state := s }

/-- The bridge splice of `join_paths_into_one_poly` (lines 387-400) for the
leftmost vertex `v1` of one path. -/
def join_one_path (ts : tristate) (v1 : Nat) : tristate :=
  let edge_index := ts.m_edge_index.getD []
  let v2 := find_valid_bridge_vert ts v1 edge_index
  let n1 := ts.m_verts.length
  let n2 := n1 + 1
  let verts0 := ts.m_verts ++ [ts.vert v1, ts.vert v2]
  let verts1 := set_prev verts0 v1 v2
  let verts2 := set_next verts1 v2 v1
  let verts3 := set_next verts2 n1 n2
  let verts4 := set_prev verts3 n2 n1
  let verts5 := set_next verts4 (verts4.getD n1 poly_vert.dflt).m_prev n1
  let verts6 := set_prev verts5 (verts5.getD n2 poly_vert.dflt).m_next n2
  let edge_index1 := add_edge edge_index (verts6.getD v1 poly_vert.dflt).m_v (verts6.getD v2 poly_vert.dflt).m_v
  { ts with m_verts := verts6, m_edge_index := some edge_index1 }

/-- The order `path_info::operator<`, with `-1` for `none`. -/
def path_info.lt (a b : path_info) : Bool :=
  match a.m_leftmost_vert, b.m_leftmost_vert with
  | none, none => false
  | none, some _ => true
  | some _, none => false
  | some x, some y => decide (x < y)

/-- The function `join_paths_into_one_poly`. -/
def join_paths_into_one_poly (ts : tristate) : tristate :=
  if ts.m_input_paths.length > 1 then
    let paths := std_sort path_info.lt ts.m_input_paths
    let ts1 : tristate := { ts with m_input_paths := paths }
    let ts2 : tristate := { ts1 with m_edge_index := some (add_all_edges_into_index ts1 []) }
    (paths.drop 1).foldl
      (fun t pi =>
        match pi.m_leftmost_vert with
        | some v1 => if v1 > 0 then join_one_path t v1 else t
        | none => t)
      ts2
  else ts

/-- The function `sort_and_remap`. -/
def sort_and_remap (ts : tristate) : tristate :=
  let verts := ts.m_verts
  let vert_indices := std_sort (vert_index_sorter verts) (List.range verts.length)
  let old_to_new : List Nat :=
    (List.range vert_indices.length).foldl
      (fun o2n i => o2n.set (vert_indices.getD i 0) i) (List.replicate verts.length 0)
  let out := vert_indices.map (fun old_index => verts.getD old_index poly_vert.dflt)
  let remapped := out.map (fun v =>
    { v with m_next := old_to_new.getD v.m_next 0, m_prev := old_to_new.getD v.m_prev 0 })
  let paths := ts.m_input_paths.map (fun pi =>
    { pi with m_leftmost_vert := pi.m_leftmost_vert.map (fun l => old_to_new.getD l 0) })
  { ts with m_verts := remapped, m_input_paths := paths }

/-- The inner loop of `init` (lines 502-519) over the interleaved coordinates
of one path; returns the vertex array and the path's `m_leftmost_vert`. -/
def ingest_path_loop (verts : List poly_vert) (leftmost : Option Nat) (previous_vert : Nat) :
    List Int → List poly_vert × Option Nat
  | x :: y :: rest =>
    let vert_index := verts.length
    let verts1 := verts ++ [poly_vert.mk4 x y previous_vert (vert_index + 1)]
    let leftmost1 : Option Nat :=
      match leftmost with
      | none => some vert_index
      | some l =>
        if compare_vertices (verts1.getD l poly_vert.dflt) (verts1.getD vert_index poly_vert.dflt) > 0
        then some vert_index else some l
    ingest_path_loop verts1 leftmost1 vert_index rest
  | _ => (verts, leftmost)

/-- One iteration of the outer loop of `init` (lines 491-522): ingest one path. -/
def ingest_path (acc : List poly_vert × List path_info) (path : List Int) :
    List poly_vert × List path_info :=
  let verts := acc.1
  let m_begin_vert_orig := verts.length
  let path_length := path.length / 2
  let previous_vert := verts.length + path_length - 1
  let r := ingest_path_loop verts none previous_vert path
  let verts1 := set_next r.1 (r.1.length - 1) m_begin_vert_orig
  (verts1, acc.2 ++ [{ m_begin_vert_orig := m_begin_vert_orig,
                       m_end_vert_orig := verts1.length,
                       m_leftmost_vert := r.2 }])

/-- The loop over consecutive triples of one path in `init` (lines 540-550);
`n` counts the remaining iterations. -/
def reflex_loop (verts : List poly_vert) : Nat → Nat → Nat → Nat → List vec2 → List vec2
  | 0, _, _, _, idx => idx
  | n + 1, j, k, l, idx =>
    let v0 := (verts.getD l poly_vert.dflt).m_v
    let v1 := (verts.getD k poly_vert.dflt).m_v
    let v2 := (verts.getD j poly_vert.dflt).m_v
    let idx1 := if vertex_left_test v0 v1 v2 ≤ 0 then idx ++ [v1] else idx
    reflex_loop verts n (j + 1) j k idx1

/-- The reflex classification of `init` (lines 531-552) for one path. -/
def add_reflex_of_path (verts : List poly_vert) (idx : List vec2) (pi : path_info) : List vec2 :=
  let pathsize := pi.m_end_vert_orig - pi.m_begin_vert_orig
  if pathsize > 2 then
    reflex_loop verts pathsize pi.m_begin_vert_orig (pi.m_end_vert_orig - 1)
      (pi.m_end_vert_orig - 2) idx
  else idx

/-- The function `init`, started on empty results. -/
def init (paths : List (List Int)) (debug_halt_step : Int) : tristate :=
  let r := paths.foldl ingest_path ([], [])
  let reflex := r.2.foldl (add_reflex_of_path r.1) []
  let ts0 : tristate :=
    { m_results := [], m_verts := r.1, m_input_paths := r.2, m_next_dirty := 0,
      m_reflex_point_index := reflex, m_edge_index := none,
      m_debug_halt_step := debug_halt_step }
  let ts1 := sort_and_remap ts0
  if ts1.m_input_paths.length > 1 then
    sort_and_remap (join_paths_into_one_poly ts1)
  else ts1

/-- The function `any_reflex_vert_in_triangle`. -/
def any_reflex_vert_in_triangle (ts : tristate) (vi0 vi1 vi2 : Nat) : Bool :=
  let v0 := (ts.vert vi0).m_v
  let v1 := (ts.vert vi1).m_v
  let v2 := (ts.vert vi2).m_v
  let query_bound := ((index_box.of_point v0).expand_to_enclose v1).expand_to_enclose v2
  ts.m_reflex_point_index.any (fun location =>
    if v0 = location ∨ v1 = location ∨ v2 = location then false
    else if query_bound.contains_point location then vert_in_triangle location v0 v1 v2
    else false)

/-- The first `while` of `find_ear_vertex` (lines 798-801): `vi1_begin`. -/
def coincident_begin (verts : List poly_vert) (p : vec2) : Nat → Nat
  | 0 => 0
  | b + 1 => if (verts.getD b poly_vert.dflt).m_v = p then coincident_begin verts p b else b + 1

/-- The second `while` of `find_ear_vertex` (lines 802-805): `vi1_end`; `n`
bounds the remaining iterations. -/
def coincident_end (verts : List poly_vert) (p : vec2) : Nat → Nat → Nat
  | 0, e => e
  | n + 1, e =>
    if e < verts.length ∧ (verts.getD e poly_vert.dflt).m_v = p then coincident_end verts p n (e + 1)
    else e

/-- One iteration of the loop that picks the inside-most outgoing edge
(lines 809-824). -/
def pick_out_edge (ts : tristate) (vi0 vi1 : Nat) (vi2 : Option Nat) (i : Nat) : Option Nat :=
  let v := (ts.vert i).m_next
  if (ts.vert v).m_state = state_enum.DELETED then vi2
  else if vertex_left_test (ts.vert vi0).m_v (ts.vert vi1).m_v (ts.vert v).m_v > 0 then
    match vi2 with
    | none => some v
    | some w =>
      if vertex_in_cone (ts.vert v).m_v (ts.vert vi0).m_v (ts.vert vi1).m_v (ts.vert w).m_v
      then some v else some w
  else vi2

/-- The test of one incoming edge (lines 831-840): it blocks the ear. -/
def in_edge_blocks (ts : tristate) (vi0 vi1 vi2 : Nat) (i : Nat) : Bool :=
  let v := (ts.vert i).m_prev
  if (ts.vert v).m_state = state_enum.DELETED then false
  else
    decide ((ts.vert v).m_v ≠ (ts.vert vi0).m_v) &&
    decide ((ts.vert v).m_v ≠ (ts.vert vi2).m_v) &&
    decide (vertex_left_test (ts.vert vi0).m_v (ts.vert vi1).m_v (ts.vert v).m_v > 0) &&
    vertex_in_cone (ts.vert v).m_v (ts.vert vi0).m_v (ts.vert vi1).m_v (ts.vert vi2).m_v

/-- One iteration of the valence loop (lines 855-875) on `(valence0, valence1)`. -/
def valence_step (ts : tristate) (vi0 vi2 : Nat) (val : Int × Int) (i : Nat) : Int × Int :=
  let v_in := (ts.vert i).m_prev
  if (ts.vert v_in).m_state = state_enum.DELETED then val
  else
    let val1 : Int × Int :=
      if (ts.vert v_in).m_v = (ts.vert vi2).m_v then (val.1, val.2 - 1)
      else if (ts.vert v_in).m_v = (ts.vert vi0).m_v then (val.1 + 1, val.2)
      else val
    let v_out := (ts.vert i).m_next
    if (ts.vert v_out).m_v = (ts.vert vi2).m_v then (val1.1, val1.2 + 1)
    else if (ts.vert v_out).m_v = (ts.vert vi0).m_v then (val1.1 - 1, val1.2)
    else val1

/-- The function `find_ear_vertex`; the result `-1` is `none`. -/
def find_ear_vertex (ts : tristate) (vi0 vi1 : Nat) : Option Nat :=
  if (ts.vert vi0).m_v = (ts.vert vi1).m_v then
    some (ts.vert vi1).m_next
  else if (ts.vert vi1).m_state = state_enum.REFLEX then
    none
  else
    let vi1_begin := coincident_begin ts.m_verts (ts.vert vi1).m_v vi1
    let vi1_end := coincident_end ts.m_verts (ts.vert vi1).m_v (ts.m_verts.length - (vi1 + 1)) (vi1 + 1)
    let range := List.range' vi1_begin (vi1_end - vi1_begin)
    match range.foldl (pick_out_edge ts vi0 vi1) none with
    | none => none
    | some vi2 =>
      if range.any (in_edge_blocks ts vi0 vi1 vi2) then none
      else
        let val := range.foldl (valence_step ts vi0 vi2) (0, 0)
        if val.1 < 1 ∧ val.2 < 1 then none
        else if any_reflex_vert_in_triangle ts vi0 vi1 vi2 then none
        else some vi2

/-- The loop of lines 1002-1005: move the dirty cursor back over coincident
predecessors. -/
def rewind_dirty (verts : List poly_vert) : Nat → Nat
  | 0 => 0
  | d + 1 =>
    if (verts.getD d poly_vert.dflt).m_v = (verts.getD (d + 1) poly_vert.dflt).m_v
    then rewind_dirty verts d else d + 1

/-- The relink of lines 956-984 on the vertex array. -/
def clip_links (verts : List poly_vert) (vi0 vi1 vi2 : Nat) : List poly_vert :=
  let vi2p := (verts.getD vi2 poly_vert.dflt).m_prev
  let verts1 :=
    if vi2p ≠ vi1 then
      let vi1n := (verts.getD vi1 poly_vert.dflt).m_next
      set_next (set_prev (set_prev (set_next verts vi2p vi1n) vi1n vi2p) vi2 vi1) vi1 vi2
    else verts
  let verts2 := set_next (set_prev (set_state verts1 vi1 state_enum.DELETED) vi1 vi1) vi1 vi1
  set_prev (set_next verts2 vi0 vi2) vi2 vi0

/-- The clip of `find_and_clip_ear` (lines 956-1029) once `vi2 >= 0` is known;
`ts.m_next_dirty` is already advanced past `vi1`. -/
def clip_ear (ts : tristate) (vi0 vi1 vi2 : Nat) : tristate :=
  let verts := clip_links ts.m_verts vi0 vi1 vi2
  let d0 := if vi0 < ts.m_next_dirty then vi0 else ts.m_next_dirty
  let d1 := if vi1 < d0 then vi1 else d0
  let d2 := if vi2 < d1 then vi2 else d1
  let d3 := rewind_dirty verts d2
  let p0 := (verts.getD vi0 poly_vert.dflt).m_v
  let p1 := (verts.getD vi1 poly_vert.dflt).m_v
  let p2 := (verts.getD vi2 poly_vert.dflt).m_v
  let results :=
    if vi0 ≠ vi1 ∧ vi0 ≠ vi2 ∧ vi1 ≠ vi2 then
      ts.m_results ++ [p0.x, p0.y, p1.x, p1.y, p2.x, p2.y]
    else ts.m_results
  { ts with m_verts := verts, m_next_dirty := d3, m_results := results }

/-- The `while` loop of `find_and_clip_ear`; `n` bounds the remaining iterations. -/
def find_and_clip_ear_loop : Nat → tristate → Bool × tristate
  | 0, ts => (false, ts)
  | n + 1, ts =>
    if ts.m_next_dirty < ts.m_verts.length then
      let vi1 := ts.m_next_dirty
      let vi0 := (ts.vert vi1).m_prev
      let ts1 : tristate := { ts with m_next_dirty := ts.m_next_dirty + 1 }
      if (ts1.vert vi1).m_state = state_enum.DELETED then find_and_clip_ear_loop n ts1
      else if vi0 = vi1 then find_and_clip_ear_loop n ts1
      else
        match find_ear_vertex ts1 vi0 vi1 with
        | some vi2 => (true, clip_ear ts1 vi0 vi1 vi2)
        | none => find_and_clip_ear_loop n ts1
    else (false, ts)

/-- The function `find_and_clip_ear`. -/
def find_and_clip_ear (ts : tristate) : Bool × tristate :=
  find_and_clip_ear_loop (ts.m_verts.length - ts.m_next_dirty) ts

/-- The function `check_debug_dump` (the debug buffer it fills is left out). -/
def check_debug_dump (ts : tristate) : Bool × tristate :=
  if ts.m_debug_halt_step > 0 then
    let ts1 : tristate := { ts with m_debug_halt_step := ts.m_debug_halt_step - 1 }
    if ts1.m_debug_halt_step = 0 then (true, ts1) else (false, ts1)
  else (false, ts)

/-- The `while` loop of `triangulate_plane`; `n` bounds the remaining calls of
`find_and_clip_ear`. -/
def triangulate_plane_loop : Nat → tristate → tristate
  | 0, ts => ts
  | n + 1, ts =>
    let r := find_and_clip_ear ts
    if r.1 then
      let d := check_debug_dump r.2
      if d.1 then d.2 else triangulate_plane_loop n d.2
    else r.2

/-- The function `triangulate_plane`: every successful call of
`find_and_clip_ear` deletes a vertex, so `length + 1` calls are enough. -/
def triangulate_plane (ts : tristate) : tristate :=
  triangulate_plane_loop (ts.m_verts.length + 1) ts

/-- The function `constrained_triangulate::compute` on an empty `results`
array; the value is the content of `results` on return. -/
def compute (paths : List (List Int)) (debug_halt_step : Int) : List Int :=
  (triangulate_plane (init paths debug_halt_step)).m_results

/-! ## Reading the output -/

/-- A triangle of the output: three corners. -/
structure triangle where
  p0 : vec2
  p1 : vec2
  p2 : vec2
deriving DecidableEq

/-- The triangles of an output array: six consecutive values each. -/
def triangles_of : List Int → List triangle
  | x0 :: y0 :: x1 :: y1 :: x2 :: y2 :: rest =>
    { p0 := { x := x0, y := y0 }, p1 := { x := x1, y := y1 }, p2 := { x := x2, y := y2 } }
      :: triangles_of rest
  | _ => []

/-- Twice the signed area of a triangle. -/
def triangle.area2 (t : triangle) : Int := determinant_exact t.p0 t.p1 t.p2

/-- Twice the total signed area of a list of triangles. -/
def total_area2 (ts : List triangle) : Int := (ts.map triangle.area2).sum

/-- The vertices of a path given as interleaved coordinates. -/
def path_points : List Int → List vec2
  | x :: y :: rest => { x := x, y := y } :: path_points rest
  | _ => []

/-- Twice the signed area of the closed polygon through the points, as the
triangle fan around its first point. -/
def fan_area2 (o : vec2) : List vec2 → Int
  | a :: b :: rest => determinant_exact o a b + fan_area2 o (b :: rest)
  | _ => 0

/-- Twice the signed area of the closed polygon through the points. -/
def polygon_area2 : List vec2 → Int
  | [] => 0
  | o :: rest => fan_area2 o rest

/-! ## Invariants and properties used in the statements -/

/-- The ring invariant that `check_loops_valid` asserts, with the convention
for deleted vertices: every non-DELETED vertex `i` has valid links with
`next(prev(i)) = i` and `prev(next(i)) = i`, and every DELETED vertex is a
self-loop. -/
def loops_valid (verts : List poly_vert) : Prop :=
  ∀ i, i < verts.length →
    if (verts.getD i poly_vert.dflt).m_state = state_enum.DELETED then
      (verts.getD i poly_vert.dflt).m_next = i ∧ (verts.getD i poly_vert.dflt).m_prev = i
    else
      (verts.getD i poly_vert.dflt).m_prev < verts.length ∧
      (verts.getD i poly_vert.dflt).m_next < verts.length ∧
      (verts.getD (verts.getD i poly_vert.dflt).m_prev poly_vert.dflt).m_next = i ∧
      (verts.getD (verts.getD i poly_vert.dflt).m_next poly_vert.dflt).m_prev = i

instance (verts : List poly_vert) : Decidable (loops_valid verts) := by
  unfold loops_valid; infer_instance

/-- The ring invariant over link functions `N` (next), `P` (prev) and the set
`D` of deleted indices, for indices below `n`. -/
def ring_ok (n : Nat) (N P : Nat → Nat) (D : Nat → Prop) : Prop :=
  ∀ i, i < n → (D i → N i = i ∧ P i = i) ∧ (¬ D i → P i < n ∧ N i < n ∧ N (P i) = i ∧ P (N i) = i)

/-- The number of DELETED vertices of the array. -/
def deleted_count (verts : List poly_vert) : Nat :=
  (verts.map poly_vert.m_state).count state_enum.DELETED

/-- The output values of a list of triangles: six values each. -/
def values_of : List triangle → List Int
  | [] => []
  | t :: rest => t.p0.x :: t.p0.y :: t.p1.x :: t.p1.y :: t.p2.x :: t.p2.y :: values_of rest

/-- The property of an emitted triangle: not clockwise, and of positive area
unless its first two corners coincide. -/
def triangle.not_clockwise (t : triangle) : Prop :=
  determinant_sint16 t.p0 t.p1 t.p2 ≥ 0 ∧
  (t.p0 ≠ t.p1 → determinant_sint16 t.p0 t.p1 t.p2 > 0)

/-- The output array holds whole triangles, all satisfying `good`. -/
def results_all (good : triangle → Prop) (results : List Int) : Prop :=
  ∃ tris : List triangle, results = values_of tris ∧ ∀ t ∈ tris, good t

/-- A decidable certificate that a strictly counter-clockwise triangle does
not hold the point `p`. -/
def ccw_and_excludes (p : vec2) (t : triangle) : Bool :=
  decide (determinant_exact t.p0 t.p1 t.p2 > 0) &&
  !(decide (determinant_exact t.p0 t.p1 p ≥ 0) && decide (determinant_exact t.p1 t.p2 p ≥ 0) &&
    decide (determinant_exact t.p2 t.p0 p ≥ 0))

/-- The three corners of the triangle have an x coordinate in `[lo, hi]` and a
y coordinate in `[0, 100]`. -/
def triangle.in_column (t : triangle) (lo hi : Int) : Prop :=
  (lo ≤ t.p0.x ∧ t.p0.x ≤ hi ∧ 0 ≤ t.p0.y ∧ t.p0.y ≤ 100) ∧
  (lo ≤ t.p1.x ∧ t.p1.x ≤ hi ∧ 0 ≤ t.p1.y ∧ t.p1.y ≤ 100) ∧
  (lo ≤ t.p2.x ∧ t.p2.x ≤ hi ∧ 0 ≤ t.p2.y ∧ t.p2.y ≤ 100)

instance (t : triangle) (lo hi : Int) : Decidable (t.in_column lo hi) := by
  unfold triangle.in_column; infer_instance

/-- The triangle with its corners rotated by one place. -/
def triangle.rotate (t : triangle) : triangle := { p0 := t.p1, p1 := t.p2, p2 := t.p0 }

/-- The two triangles have the same corners in the same cyclic order. -/
def triangle.same_up_to_rotation (t u : triangle) : Prop :=
  t = u ∨ t = u.rotate ∨ t = u.rotate.rotate

instance (t u : triangle) : Decidable (t.same_up_to_rotation u) := by
  unfold triangle.same_up_to_rotation; infer_instance

/-- The list holds exactly two triangles, `a` and `b` in either order, each up
to rotation of its corners. -/
def is_split_into (l : List triangle) (a b : triangle) : Prop :=
  match l with
  | [x, y] =>
    (x.same_up_to_rotation a ∧ y.same_up_to_rotation b) ∨
    (x.same_up_to_rotation b ∧ y.same_up_to_rotation a)
  | _ => False

instance (l : List triangle) (a b : triangle) : Decidable (is_split_into l a b) := by
  unfold is_split_into
  split <;> infer_instance

/-- The number of non-DELETED vertices of the array. -/
def live_count (verts : List poly_vert) : Nat := verts.length - deleted_count verts

/-- The number of calls of `find_and_clip_ear` that return true in the loop of
`triangulate_plane` run with fuel `n`. -/
def clips_of_loop : Nat → tristate → Nat
  | 0, _ => 0
  | n + 1, ts =>
    let r := find_and_clip_ear ts
    if r.1 then
      let d := check_debug_dump r.2
      if d.1 then 1 else 1 + clips_of_loop n d.2
    else 0

/-- The function `find_valid_bridge_vert` in a build with assertions enabled:
`none` is a failed assertion (`assert(v1 > 0)` of line 293 or `assert(0)` of
line 303), which aborts the program. -/
def find_valid_bridge_vert_asserting (ts : tristate) (v1 : Nat)
    (edge_index : List (index_box × Bool)) : Option Nat :=
  if v1 > 0 then
    match find_valid_bridge_vert_loop ts v1 edge_index v1 with
    | some i => some i
    | none => none
  else none

/-- A state for the bridge fallback: vertex 0 at (0,0), vertex 1 at (10,0), and
an indexed vertical edge from (5,-5) to (5,5) that the only candidate segment
(1, 0) crosses. -/
def blocked_bridge_state : tristate :=
  { m_results := [],
    m_verts := [poly_vert.mk4 0 0 0 0, poly_vert.mk4 10 0 1 1],
    m_input_paths := [],
    m_next_dirty := 0,
    m_reflex_point_index := [],
    m_edge_index := some [({ min := { x := 5, y := -5 }, max := { x := 5, y := 5 } }, false)],
    m_debug_halt_step := 0 }

/-- Every vertex of the array has state DIRTY. -/
def all_dirty (verts : List poly_vert) : Prop :=
  ∀ v ∈ verts, v.m_state = state_enum.DIRTY

/-- The first endpoint `eev0` that `any_edge_intersects` rebuilds from an
indexed entry (lines 267-272). -/
def entry_v0 (entry : index_box × Bool) : vec2 :=
  { x := entry.1.min.x, y := if entry.2 = false then entry.1.max.y else entry.1.min.y }

/-- The second endpoint `eev1` that `any_edge_intersects` rebuilds from an
indexed entry (lines 267-272). -/
def entry_v1 (entry : index_box × Bool) : vec2 :=
  { x := entry.1.max.x, y := if entry.2 = false then entry.1.min.y else entry.1.max.y }

/-- The points `c` and `d` lie strictly on opposite sides of the line through
`a` and `b`, as `determinant_sint16` sees them. -/
def strictly_opposite_sides (a b c d : vec2) : Prop :=
  (determinant_sint16 a b c < 0 ∧ determinant_sint16 a b d > 0) ∨
  (determinant_sint16 a b c > 0 ∧ determinant_sint16 a b d < 0)

/-- The points `c` and `d` lie strictly on the same side of the line through
`a` and `b`, as `determinant_sint16` sees them. -/
def strictly_same_side (a b c d : vec2) : Prop :=
  (determinant_sint16 a b c < 0 ∧ determinant_sint16 a b d < 0) ∨
  (determinant_sint16 a b c > 0 ∧ determinant_sint16 a b d > 0)

instance (a b c d : vec2) : Decidable (strictly_opposite_sides a b c d) := by
  unfold strictly_opposite_sides; infer_instance

instance (a b c d : vec2) : Decidable (strictly_same_side a b c d) := by
  unfold strictly_same_side; infer_instance

/-- The point `p` of the rational plane lies on the closed segment from `a`
to `b`. -/
def on_closed_segment (p : ℚ × ℚ) (a b : vec2) : Prop :=
  ∃ t : ℚ, 0 ≤ t ∧ t ≤ 1 ∧ p.1 = a.x + t * (b.x - a.x) ∧ p.2 = a.y + t * (b.y - a.y)

/-- The point `p` lies in the open interior of the segment from `a` to `b`: on
the segment and different from its two endpoints. -/
def in_open_interior (p : ℚ × ℚ) (a b : vec2) : Prop :=
  on_closed_segment p a b ∧ p ≠ ((a.x : ℚ), (a.y : ℚ)) ∧ p ≠ ((b.x : ℚ), (b.y : ℚ))

/-- Some point of the closed segment `ee0 ee1` lies in the open interior of the
segment `e0 e1`: the definition of intersection in the header comment of
`any_edge_intersects`. -/
def touches_interior (e0 e1 ee0 ee1 : vec2) : Prop :=
  ∃ p : ℚ × ℚ, on_closed_segment p ee0 ee1 ∧ in_open_interior p e0 e1

/-- A state with the candidate vertices 0 at (0,0) and 1 at (4,0) and the edge
index that `add_edge` builds for the single edge (1,0)-(3,0). -/
def collinear_overlap_state : tristate :=
  { m_results := [],
    m_verts := [poly_vert.mk4 0 0 0 0, poly_vert.mk4 4 0 1 1],
    m_input_paths := [],
    m_next_dirty := 0,
    m_reflex_point_index := [],
    m_edge_index := some (add_edge [] { x := 1, y := 0 } { x := 3, y := 0 }),
    m_debug_halt_step := 0 }

/-- The array `vert_indices` of `sort_and_remap` after the sort (line 433). -/
def sorted_indices (verts : List poly_vert) : List Nat :=
  std_sort (vert_index_sorter verts) (List.range verts.length)

/-- The array `old_to_new` of `sort_and_remap` (lines 455-458). -/
def old_to_new_map (verts : List poly_vert) : List Nat :=
  (List.range (sorted_indices verts).length).foldl
    (fun o2n i => o2n.set ((sorted_indices verts).getD i 0) i) (List.replicate verts.length 0)

/-- The relabelling of `sort_and_remap`: the new index of the old index `i`. -/
def relabel (verts : List poly_vert) (i : Nat) : Nat := (old_to_new_map verts).getD i 0

/-- The rewrite of the links of one vertex by `sort_and_remap` (lines 467-470). -/
def relink (verts : List poly_vert) (v : poly_vert) : poly_vert :=
  { v with m_next := relabel verts v.m_next, m_prev := relabel verts v.m_prev }

/-- The lexicographic order of `compare_vertices` on positions: x first, then y. -/
def lex_lt (p q : vec2) : Prop := p.x < q.x ∨ (p.x = q.x ∧ p.y < q.y)

instance (p q : vec2) : Decidable (lex_lt p q) := by
  unfold lex_lt; infer_instance

/-- The index `l` is the first lexicographically smallest vertex among the
indices `b ≤ j < e`. -/
def first_min (verts : List poly_vert) (b e l : Nat) : Prop :=
  b ≤ l ∧ l < e ∧
  (∀ j, b ≤ j → j < e →
    ¬ lex_lt (verts.getD j poly_vert.dflt).m_v (verts.getD l poly_vert.dflt).m_v) ∧
  (∀ j, b ≤ j → j < l →
    lex_lt (verts.getD l poly_vert.dflt).m_v (verts.getD j poly_vert.dflt).m_v)

/-- The state of one path after ingest: its vertices occupy the indices
`[begin, end)`, linked into a ring in index order, and its leftmost index is
the first lexicographically smallest vertex of the range. -/
def path_ok (verts : List poly_vert) (pi : path_info) : Prop :=
  pi.m_begin_vert_orig < pi.m_end_vert_orig ∧ pi.m_end_vert_orig ≤ verts.length ∧
  (∀ i, pi.m_begin_vert_orig ≤ i → i < pi.m_end_vert_orig →
    (verts.getD i poly_vert.dflt).m_next
      = (if i + 1 = pi.m_end_vert_orig then pi.m_begin_vert_orig else i + 1) ∧
    (verts.getD i poly_vert.dflt).m_prev
      = (if i = pi.m_begin_vert_orig then pi.m_end_vert_orig - 1 else i - 1)) ∧
  ∃ l, pi.m_leftmost_vert = some l ∧
    first_min verts pi.m_begin_vert_orig pi.m_end_vert_orig l

/-- The index range `[begin, end)` of a path. -/
def path_info.range_of (pi : path_info) : List Nat :=
  List.range' pi.m_begin_vert_orig (pi.m_end_vert_orig - pi.m_begin_vert_orig)

/-- The update of `m_leftmost_vert` for the vertex just appended at
`vert_index` (lines 515-518). -/
def leftmost_update (verts1 : List poly_vert) (lm : Option Nat) (vert_index : Nat) : Option Nat :=
  match lm with
  | none => some vert_index
  | some l =>
    if compare_vertices (verts1.getD l poly_vert.dflt) (verts1.getD vert_index poly_vert.dflt) > 0
    then some vert_index else some l

/-- The state of the vertex array and of the path descriptors after the ingest
of some paths: no state is set, every path is linked as a ring on its own index
range, and the ranges follow each other from index 0 to the end of the array. -/
def ingest_ok (acc : List poly_vert × List path_info) : Prop :=
  all_dirty acc.1 ∧ (∀ pi ∈ acc.2, path_ok acc.1 pi) ∧
  (acc.2.map path_info.range_of).flatten = List.range acc.1.length

/-- The vertex `y` follows the vertex `x`: the forward link of `x` is `y` and
the backward link of `y` is `x`. -/
def linked (verts : List poly_vert) (x y : Nat) : Prop :=
  (verts.getD x poly_vert.dflt).m_next = y ∧ (verts.getD y poly_vert.dflt).m_prev = x

/-- The indices of the list, in order, are linked into a ring: each one is
followed by the next one of the list, and the last one by the first. -/
def is_ring (verts : List poly_vert) : List Nat → Prop
  | [] => False
  | a :: l => List.Chain (linked verts) a (l ++ [a])

/-- The index reached from `i` by following `k` forward links. -/
def next_steps (verts : List poly_vert) : Nat → Nat → Nat
  | 0, i => i
  | k + 1, i => next_steps verts k (verts.getD i poly_vert.dflt).m_next

/-- The list `C` is the ring of the path `pi`: its indices are linked into a
ring, and the leftmost vertex of the path is the smallest index of the ring. -/
def path_ring (verts : List poly_vert) (pi : path_info) (C : List Nat) : Prop :=
  is_ring verts C ∧ ∃ l, pi.m_leftmost_vert = some l ∧ l ∈ C ∧ ∀ x ∈ C, l ≤ x

/-- The state of the join loop of `join_paths_into_one_poly`: the paths joined
so far form the ring `M`, every path still to join has its own ring `f pi`,
every index of the array is on exactly one of these rings, the paths to join
are in the order of their leftmost vertices, and some vertex of `M` is not
after any of them. -/
def join_inv (f : path_info → List Nat) (verts : List poly_vert) (M : List Nat)
    (rest : List path_info) : Prop :=
  is_ring verts M ∧ (∀ pi ∈ rest, path_ring verts pi (f pi)) ∧
  (M ++ (rest.map f).flatten).Perm (List.range verts.length) ∧
  rest.Pairwise (fun a b => path_info.lt b a = false) ∧
  ∃ m0, m0 ∈ M ∧ ∀ pi ∈ rest, ∀ l, pi.m_leftmost_vert = some l → m0 ≤ l

/-- The scan of `find_and_clip_ear` (lines 922-936) up to the ear that it finds:
the state with the cursor advanced past `vi1`, and `(vi0, vi1, vi2)`; `none`
when the loop ends without an ear. `n` bounds the remaining iterations. -/
def ear_scan_loop : Nat → tristate → Option (tristate × Nat × Nat × Nat)
  | 0, _ => none
  | n + 1, ts =>
    if ts.m_next_dirty < ts.m_verts.length then
      let vi1 := ts.m_next_dirty
      let vi0 := (ts.vert vi1).m_prev
      let ts1 : tristate := { ts with m_next_dirty := ts.m_next_dirty + 1 }
      if (ts1.vert vi1).m_state = state_enum.DELETED then ear_scan_loop n ts1
      else if vi0 = vi1 then ear_scan_loop n ts1
      else
        match find_ear_vertex ts1 vi0 vi1 with
        | some vi2 => some (ts1, vi0, vi1, vi2)
        | none => ear_scan_loop n ts1
    else none

/-- The ear `(vi0, vi1, vi2)` that a call of `find_and_clip_ear` clips, with the
state in which the clip is made. -/
def ear_scan (ts : tristate) : Option (tristate × Nat × Nat × Nat) :=
  ear_scan_loop (ts.m_verts.length - ts.m_next_dirty) ts

/-- The state after `n` calls of `find_and_clip_ear` in the loop of
`triangulate_plane` that all return true (the debug halt is left aside);
`none` when one of the calls returns false. -/
def clip_steps : Nat → tristate → Option tristate
  | 0, ts => some ts
  | n + 1, ts =>
    let r := find_and_clip_ear ts
    if r.1 then clip_steps n (check_debug_dump r.2).2 else none

/-- The state of one path descriptor after ingest, whatever the other paths
are: its range has one index per coordinate pair of the path, the vertices of
the range have the positions of the path, in order, and, when the path is not
empty, its leftmost index is in the range and no vertex of the range is
lexicographically smaller than the vertex there. -/
def path_ingested (verts : List poly_vert) (path : List Int) (pi : path_info) : Prop :=
  pi.m_end_vert_orig = pi.m_begin_vert_orig + path.length / 2 ∧
  pi.m_end_vert_orig ≤ verts.length ∧
  (∀ t, t < path.length / 2 →
    (verts.getD (pi.m_begin_vert_orig + t) poly_vert.dflt).m_v
      = (path_points path).getD t { x := 0, y := 0 }) ∧
  (2 ≤ path.length →
    ∃ l, pi.m_leftmost_vert = some l ∧ pi.m_begin_vert_orig ≤ l ∧ l < pi.m_end_vert_orig ∧
      ∀ j, pi.m_begin_vert_orig ≤ j → j < pi.m_end_vert_orig →
        ¬ lex_lt (verts.getD j poly_vert.dflt).m_v (verts.getD l poly_vert.dflt).m_v)

/-- The index before `h` on the ring of the range `[b, e)`. -/
def cyc_prev (b e h : Nat) : Nat := if h = b then e - 1 else h - 1

/-- The index after `h` on the ring of the range `[b, e)`. -/
def cyc_next (b e h : Nat) : Nat := if h + 1 = e then b else h + 1

/-- The reflex entries of one ring as the spec words them, for a ring of more
than two vertices: the position of every vertex `here` of the range with
`turn(prev, here, next) <= 0`, once each, in the order `e - 1, b, ..., e - 2` in
which the loop visits them; a ring of one or two vertices gives no entry. -/
def reflex_entries (verts : List poly_vert) (pi : path_info) : List vec2 :=
  if pi.m_end_vert_orig - pi.m_begin_vert_orig > 2 then
    (((pi.m_end_vert_orig - 1) ::
        List.range' pi.m_begin_vert_orig (pi.m_end_vert_orig - pi.m_begin_vert_orig - 1)).filter
      (fun h => decide (vertex_left_test
        (verts.getD (cyc_prev pi.m_begin_vert_orig pi.m_end_vert_orig h) poly_vert.dflt).m_v
        (verts.getD h poly_vert.dflt).m_v
        (verts.getD (cyc_next pi.m_begin_vert_orig pi.m_end_vert_orig h) poly_vert.dflt).m_v
          ≤ 0))).map
      (fun h => (verts.getD h poly_vert.dflt).m_v)
  else []

/-- The point `p` is lexicographically (x, then y) not after the point `q`. -/
def lex_le (p q : vec2) : Prop := p.x < q.x ∨ (p.x = q.x ∧ p.y ≤ q.y)

instance (p q : vec2) : Decidable (lex_le p q) := by
  unfold lex_le; infer_instance

/-- The vertex array is sorted: positions do not go down, lexicographically, as
the index goes up. -/
def verts_sorted (verts : List poly_vert) : Prop :=
  ∀ j, j < verts.length → ∀ i, i < j →
    lex_le (verts.getD i poly_vert.dflt).m_v (verts.getD j poly_vert.dflt).m_v

instance (verts : List poly_vert) : Decidable (verts_sorted verts) := by
  unfold verts_sorted; infer_instance

/-- The bounding box of the three corners that `any_reflex_vert_in_triangle`
builds as `query_bound` (lines 589-591). -/
def triangle_bound (v0 v1 v2 : vec2) : index_box :=
  ((index_box.of_point v0).expand_to_enclose v1).expand_to_enclose v2

/-- The state that `init` has built when every path is ingested and the reflex
points are indexed (lines 479-555), before the first call of `sort_and_remap`. -/
def ingest_state (paths : List (List Int)) (debug_halt_step : Int) : tristate :=
  let r := paths.foldl ingest_path ([], [])
  let reflex := r.2.foldl (add_reflex_of_path r.1) []
  { m_results := [], m_verts := r.1, m_input_paths := r.2, m_next_dirty := 0,
    m_reflex_point_index := reflex, m_edge_index := none,
    m_debug_halt_step := debug_halt_step }

/-- One iteration of the join loop of `join_paths_into_one_poly` (lines 351-411)
for the path `pi`. -/
def join_step (t : tristate) (pi : path_info) : tristate :=
  match pi.m_leftmost_vert with
  | some v1 => if v1 > 0 then join_one_path t v1 else t
  | none => t

/-- The coincident range of `vi1` that `find_ear_vertex` computes (lines
797-805): the indices `vi1_begin ≤ i < vi1_end`, in the order the three loops
of the function visit them. -/
def coincident_range (ts : tristate) (vi1 : Nat) : List Nat :=
  let vi1_begin := coincident_begin ts.m_verts (ts.vert vi1).m_v vi1
  let vi1_end :=
    coincident_end ts.m_verts (ts.vert vi1).m_v (ts.m_verts.length - (vi1 + 1)) (vi1 + 1)
  List.range' vi1_begin (vi1_end - vi1_begin)

/-- The value of `vi2` after the selection loop of `find_ear_vertex` (lines
807-824); `-1` is `none`. -/
def select_apex (ts : tristate) (vi0 vi1 : Nat) : Option Nat :=
  (coincident_range ts vi1).foldl (pick_out_edge ts vi0 vi1) none

/-- The counters `(valence0, valence1)` after the valence loop of
`find_ear_vertex` (lines 852-876). -/
def valence_counts (ts : tristate) (vi0 vi1 vi2 : Nat) : Int × Int :=
  (coincident_range ts vi1).foldl (valence_step ts vi0 vi2) (0, 0)

/-- The valence rule in the words of the specification, for one index `i` of
the coincident range: with `p_in` the position of the backward neighbour and
`p_out` the position of the forward neighbour of `i`, `p_in = position(v2)`
decrements valence1, else `p_in = position(v0)` increments valence0; then
`p_out = position(v2)` increments valence1, else `p_out = position(v0)`
decrements valence0. No index is skipped. -/
def valence_step_spec (ts : tristate) (vi0 vi2 : Nat) (val : Int × Int) (i : Nat) : Int × Int :=
  let p_in := (ts.vert (ts.vert i).m_prev).m_v
  let p_out := (ts.vert (ts.vert i).m_next).m_v
  let val1 : Int × Int :=
    if p_in = (ts.vert vi2).m_v then (val.1, val.2 - 1)
    else if p_in = (ts.vert vi0).m_v then (val.1 + 1, val.2)
    else val
  if p_out = (ts.vert vi2).m_v then (val1.1, val1.2 + 1)
  else if p_out = (ts.vert vi0).m_v then (val1.1 - 1, val1.2)
  else val1

/-- The counters `(valence0, valence1)` in the words of the specification: the
rule applied to every index of the coincident range. -/
def valence_counts_spec (ts : tristate) (vi0 vi1 vi2 : Nat) : Int × Int :=
  (coincident_range ts vi1).foldl (valence_step_spec ts vi0 vi2) (0, 0)

/-- The vertex `c` is a candidate apex for the edge `(vi0, vi1)`: it is the
forward neighbour of an index of the coincident range of `vi1`, it is not
DELETED, and `(vi0, vi1, c)` is a strict left turn. -/
def is_candidate (ts : tristate) (vi0 vi1 c : Nat) : Prop :=
  ∃ i ∈ coincident_range ts vi1, c = (ts.vert i).m_next ∧
    (ts.vert c).m_state ≠ state_enum.DELETED ∧
    vertex_left_test (ts.vert vi0).m_v (ts.vert vi1).m_v (ts.vert c).m_v > 0

instance (ts : tristate) (vi0 vi1 c : Nat) : Decidable (is_candidate ts vi0 vi1 c) := by
  unfold is_candidate; infer_instance

/-- The state after `init` of a square with a square hole: the bridge gives two
vertices at (0,4) and two at (1,1). -/
def square_with_hole_state : tristate :=
  init [[0, 0, 4, 0, 4, 4, 0, 4], [1, 1, 1, 3, 3, 3, 3, 1]] 0

/-- The state of the square with a square hole after the first clip, which
deletes vertex 2, one of the two vertices at (0,4). -/
def square_with_hole_clipped : tristate :=
  (find_and_clip_ear square_with_hole_state).2

/-- The state after `init` of a quadrilateral with a reflex vertex at (1,1);
no two vertices share a position. -/
def reflex_quad_state : tristate :=
  init [[0, 0, 4, 0, 1, 1, 0, 4]] 0

/-- The function `sort_and_remap` with the content that the call of `std::sort`
(line 433) leaves in `vert_indices` given as an argument: the rest of the
function (lines 435-477) builds `old_to_new`, the output array, the links and
the leftmost indices from it. -/
def sort_and_remap_with (vert_indices : List Nat) (ts : tristate) : tristate :=
  let verts := ts.m_verts
  let old_to_new : List Nat :=
    (List.range vert_indices.length).foldl
      (fun o2n i => o2n.set (vert_indices.getD i 0) i) (List.replicate verts.length 0)
  let out := vert_indices.map (fun old_index => verts.getD old_index poly_vert.dflt)
  let remapped := out.map (fun v =>
    { v with m_next := old_to_new.getD v.m_next 0, m_prev := old_to_new.getD v.m_prev 0 })
  let paths := ts.m_input_paths.map (fun pi =>
    { pi with m_leftmost_vert := pi.m_leftmost_vert.map (fun l => old_to_new.getD l 0) })
  { ts with m_verts := remapped, m_input_paths := paths }

/-- The function `init` with the results of its two sorts of the index array
given as arguments: `order1` for the call of `sort_and_remap` of line 556 and
`order2` for the call of line 559. -/
def init_with (order1 order2 : List Nat) (paths : List (List Int)) (debug_halt_step : Int) :
    tristate :=
  let r := paths.foldl ingest_path ([], [])
  let reflex := r.2.foldl (add_reflex_of_path r.1) []
  let ts0 : tristate :=
    { m_results := [], m_verts := r.1, m_input_paths := r.2, m_next_dirty := 0,
      m_reflex_point_index := reflex, m_edge_index := none,
      m_debug_halt_step := debug_halt_step }
  let ts1 := sort_and_remap_with order1 ts0
  if ts1.m_input_paths.length > 1 then
    sort_and_remap_with order2 (join_paths_into_one_poly ts1)
  else ts1

/-- The list `order` is a result that `std::sort` with `vert_index_sorter` may
leave in the index array of `verts`: every index of the array once, and no
index before one whose vertex compares less. -/
def is_sorted_order (verts : List poly_vert) (order : List Nat) : Prop :=
  order.length = verts.length ∧ order.Nodup ∧ (∀ i ∈ order, i < verts.length) ∧
  order.Pairwise (fun a b => vert_index_sorter verts b a = false)

instance (verts : List poly_vert) (order : List Nat) : Decidable (is_sorted_order verts order) := by
  unfold is_sorted_order; infer_instance

/-- No other vertex of the index range of the path is at the position of the
leftmost vertex of the path. -/
def leftmost_once (verts : List poly_vert) (pi : path_info) : Prop :=
  ∀ l, pi.m_leftmost_vert = some l →
    ∀ x, pi.m_begin_vert_orig ≤ x → x < pi.m_end_vert_orig →
      (verts.getD x poly_vert.dflt).m_v = (verts.getD l poly_vert.dflt).m_v → x = l

/-- The lexicographically smallest position of the input path occurs once in
it: a position of the path that no position of the path is below is the
position of one vertex only. -/
def leftmost_position_once (path : List Int) : Prop :=
  ∀ i, i < path.length / 2 → ∀ j, j < path.length / 2 →
    (path_points path).getD i { x := 0, y := 0 } = (path_points path).getD j { x := 0, y := 0 } →
    (∀ t, t < path.length / 2 →
      ¬ lex_lt ((path_points path).getD t { x := 0, y := 0 })
        ((path_points path).getD i { x := 0, y := 0 })) →
    i = j

instance (path : List Int) : Decidable (leftmost_position_once path) := by
  unfold leftmost_position_once; infer_instance

/-- An input of two islands of 17 vertices in all: a heptagon, and a decagon
whose first two vertices are both at (20,0), its lexicographically smallest
position. -/
def doubled_leftmost_input : List (List Int) :=
  [[0, 0, 4, 0, 8, 0, 8, 4, 8, 8, 4, 8, 0, 8],
   [20, 0, 20, 0, 24, 0, 28, 0, 28, 4, 28, 8, 24, 8, 22, 8, 20, 8, 20, 4]]

/-- The index array after the first sort of `doubled_leftmost_input` by the
introsort of libstdc++: the median-of-three pivot is index 8, which is swapped
to the front, so index 8 ends before index 7, the other vertex at (20,0). -/
def doubled_leftmost_order1 : List Nat :=
  [0, 6, 1, 5, 2, 3, 4, 8, 7, 16, 15, 14, 9, 13, 10, 11, 12]

/-- The index array after the second sort of `doubled_leftmost_input` by the
introsort of libstdc++. -/
def doubled_leftmost_order2 : List Nat :=
  [0, 1, 2, 3, 4, 5, 6, 18, 17, 8, 7, 9, 10, 11, 12, 13, 14, 15, 16]

/-- An input of two islands of 17 vertices in all, like
`doubled_leftmost_input`, but the two coincident vertices of the second path
are at (24,0), which is not its smallest position. -/
def doubled_inner_input : List (List Int) :=
  [[0, 0, 4, 0, 8, 0, 8, 4, 8, 8, 4, 8, 0, 8],
   [20, 0, 24, 0, 24, 0, 28, 0, 28, 4, 28, 8, 24, 8, 22, 8, 20, 8, 20, 4]]

/-! ## Exact predicates -/

theorem wrap_sint64_of_is_sint64 (z : Int) (h : is_sint64 z) : wrap_sint64 z = z := by
  unfold is_sint64 at h
  unfold wrap_sint64
  omega

theorem mul_bound_of_diff (p q : Int) (hp1 : -65535 ≤ p) (hp2 : p ≤ 65535)
    (hq1 : -65535 ≤ q) (hq2 : q ≤ 65535) :
    -4294836225 ≤ p * q ∧ p * q ≤ 4294836225 := by
  constructor
  · nlinarith [mul_nonneg (sub_nonneg.2 hp2) (sub_nonneg.2 hq1),
      mul_nonneg (sub_nonneg.2 hp1) (sub_nonneg.2 hq2)]
  · nlinarith [mul_nonneg (sub_nonneg.2 hp2) (sub_nonneg.2 hq2),
      mul_nonneg (sub_nonneg.2 hp1) (sub_nonneg.2 hq1)]

theorem determinant_sint16_eq_exact (a b c : vec2)
    (ha : a.is_sint16) (hb : b.is_sint16) (hc : c.is_sint16) :
    determinant_sint16 a b c = determinant_exact a b c := by
  obtain ⟨⟨hax1, hax2⟩, hay1, hay2⟩ := ha
  obtain ⟨⟨hbx1, hbx2⟩, hby1, hby2⟩ := hb
  obtain ⟨⟨hcx1, hcx2⟩, hcy1, hcy2⟩ := hc
  have h1 := mul_bound_of_diff (b.x - a.x) (c.y - a.y) (by omega) (by omega) (by omega) (by omega)
  have h2 := mul_bound_of_diff (b.y - a.y) (c.x - a.x) (by omega) (by omega) (by omega) (by omega)
  unfold determinant_sint16 determinant_exact
  rw [wrap_sint64_of_is_sint64 (b.x - a.x) (by unfold is_sint64; omega),
    wrap_sint64_of_is_sint64 (c.y - a.y) (by unfold is_sint64; omega),
    wrap_sint64_of_is_sint64 (b.y - a.y) (by unfold is_sint64; omega),
    wrap_sint64_of_is_sint64 (c.x - a.x) (by unfold is_sint64; omega),
    wrap_sint64_of_is_sint64 ((b.x - a.x) * (c.y - a.y)) (by unfold is_sint64; omega),
    wrap_sint64_of_is_sint64 ((b.y - a.y) * (c.x - a.x)) (by unfold is_sint64; omega),
    wrap_sint64_of_is_sint64 _ (by unfold is_sint64; omega)]

theorem vertex_left_test_eq_sign (a b c : vec2) :
    vertex_left_test a b c = Int.sign (determinant_sint16 a b c) := by
  unfold vertex_left_test
  rcases lt_trichotomy (determinant_sint16 a b c) 0 with h | h | h
  · simp [Int.sign_eq_neg_one_of_neg h, h, not_lt.2 (le_of_lt h)]
  · simp [h]
  · simp [Int.sign_eq_one_of_pos h, h]

theorem vertex_left_test_pos_iff (a b c : vec2) :
    vertex_left_test a b c > 0 ↔ determinant_sint16 a b c > 0 := by
  unfold vertex_left_test
  constructor
  · intro h
    by_contra hn
    simp only [hn, if_false] at h
    split_ifs at h <;> omega
  · intro h
    simp [h]

theorem vertex_left_test_nonneg_iff (a b c : vec2) :
    vertex_left_test a b c ≥ 0 ↔ determinant_sint16 a b c ≥ 0 := by
  unfold vertex_left_test
  constructor
  · intro h
    by_contra hn
    have hlt : determinant_sint16 a b c < 0 := by omega
    have hnp : ¬ determinant_sint16 a b c > 0 := by omega
    simp only [hnp, hlt, if_false, if_true] at h
    omega
  · intro h
    simp only
    split_ifs <;> omega

/-- C4: for points with signed 16-bit coordinates, every intermediate value of
`determinant_sint16` lies in the signed 64-bit range, the result is the exact
integer `(b.x-a.x)*(c.y-a.y) - (b.y-a.y)*(c.x-a.x)`, and `vertex_left_test`
is the sign (-1, 0 or +1) of that integer. -/
theorem determinant_sint16_exact_no_overflow (a b c : vec2)
    (ha : a.is_sint16) (hb : b.is_sint16) (hc : c.is_sint16) :
    is_sint64 (b.x - a.x) ∧ is_sint64 (c.y - a.y) ∧
    is_sint64 (b.y - a.y) ∧ is_sint64 (c.x - a.x) ∧
    is_sint64 ((b.x - a.x) * (c.y - a.y)) ∧ is_sint64 ((b.y - a.y) * (c.x - a.x)) ∧
    is_sint64 ((b.x - a.x) * (c.y - a.y) - (b.y - a.y) * (c.x - a.x)) ∧
    determinant_sint16 a b c = (b.x - a.x) * (c.y - a.y) - (b.y - a.y) * (c.x - a.x) ∧
    vertex_left_test a b c
      = Int.sign ((b.x - a.x) * (c.y - a.y) - (b.y - a.y) * (c.x - a.x)) := by
  have hdet := determinant_sint16_eq_exact a b c ha hb hc
  have hsign := vertex_left_test_eq_sign a b c
  rw [hdet] at hsign
  unfold determinant_exact at hdet hsign
  obtain ⟨⟨hax1, hax2⟩, hay1, hay2⟩ := ha
  obtain ⟨⟨hbx1, hbx2⟩, hby1, hby2⟩ := hb
  obtain ⟨⟨hcx1, hcx2⟩, hcy1, hcy2⟩ := hc
  have h1 := mul_bound_of_diff (b.x - a.x) (c.y - a.y) (by omega) (by omega) (by omega) (by omega)
  have h2 := mul_bound_of_diff (b.y - a.y) (c.x - a.x) (by omega) (by omega) (by omega) (by omega)
  refine ⟨?_, ?_, ?_, ?_, ?_, ?_, ?_, hdet, hsign⟩ <;> (unfold is_sint64; omega)

/-- C4 at the extreme corners of the 16-bit range. -/
theorem determinant_sint16_exact_no_overflow_witness :
    determinant_sint16 ⟨-32768, -32768⟩ ⟨32767, -32768⟩ ⟨-32768, 32767⟩ = 4294836225 ∧
    vertex_left_test ⟨-32768, -32768⟩ ⟨32767, -32768⟩ ⟨-32768, 32767⟩ = 1 := by
  have h := determinant_sint16_exact_no_overflow ⟨-32768, -32768⟩ ⟨32767, -32768⟩ ⟨-32768, 32767⟩
    (by decide) (by decide) (by decide)
  exact ⟨by rw [h.2.2.2.2.2.2.2.1]; decide, by rw [h.2.2.2.2.2.2.2.2]; decide⟩

theorem vert_in_triangle_eq_true_iff (p v0 v1 v2 : vec2) :
    vert_in_triangle p v0 v1 v2 = true ↔
      determinant_sint16 v0 v1 p ≥ 0 ∧ determinant_sint16 v1 v2 p ≥ 0 ∧
      determinant_sint16 v2 v0 p ≥ 0 := by
  unfold vert_in_triangle
  simp only
  split_ifs <;> simp_all

theorem in_closed_triangle_of_dets (p v0 v1 v2 : vec2)
    (hccw : determinant_exact v0 v1 v2 > 0)
    (h0 : determinant_exact v0 v1 p ≥ 0) (h1 : determinant_exact v1 v2 p ≥ 0)
    (h2 : determinant_exact v2 v0 p ≥ 0) : in_closed_triangle p v0 v1 v2 := by
  unfold determinant_exact at hccw h0 h1 h2
  have hD : ((determinant_exact v0 v1 v2 : Int) : ℚ) > 0 := by
    unfold determinant_exact; exact_mod_cast hccw
  have hDne : ((determinant_exact v0 v1 v2 : Int) : ℚ) ≠ 0 := ne_of_gt hD
  have q0 : ((determinant_exact v0 v1 p : Int) : ℚ) ≥ 0 := by
    unfold determinant_exact; exact_mod_cast h0
  have q1 : ((determinant_exact v1 v2 p : Int) : ℚ) ≥ 0 := by
    unfold determinant_exact; exact_mod_cast h1
  have q2 : ((determinant_exact v2 v0 p : Int) : ℚ) ≥ 0 := by
    unfold determinant_exact; exact_mod_cast h2
  refine ⟨(determinant_exact v1 v2 p : ℚ) / (determinant_exact v0 v1 v2 : ℚ),
    (determinant_exact v2 v0 p : ℚ) / (determinant_exact v0 v1 v2 : ℚ),
    (determinant_exact v0 v1 p : ℚ) / (determinant_exact v0 v1 v2 : ℚ),
    div_nonneg q1 (le_of_lt hD), div_nonneg q2 (le_of_lt hD), div_nonneg q0 (le_of_lt hD),
    ?_, ?_, ?_⟩
  · field_simp
    unfold determinant_exact
    push_cast
    ring
  · field_simp
    unfold determinant_exact
    push_cast
    ring
  · field_simp
    unfold determinant_exact
    push_cast
    ring

theorem dets_of_in_closed_triangle (p v0 v1 v2 : vec2)
    (hccw : determinant_exact v0 v1 v2 > 0) (h : in_closed_triangle p v0 v1 v2) :
    determinant_exact v0 v1 p ≥ 0 ∧ determinant_exact v1 v2 p ≥ 0 ∧
    determinant_exact v2 v0 p ≥ 0 := by
  obtain ⟨a, b, c, ha, hb, hc, hsum, hx, hy⟩ := h
  have hD : ((determinant_exact v0 v1 v2 : Int) : ℚ) > 0 := by exact_mod_cast hccw
  have e0 : ((determinant_exact v0 v1 p : Int) : ℚ) = c * (determinant_exact v0 v1 v2 : Int) := by
    have ha1 : a = 1 - b - c := by linarith
    unfold determinant_exact
    push_cast
    rw [hx, hy, ha1]
    ring
  have e1 : ((determinant_exact v1 v2 p : Int) : ℚ) = a * (determinant_exact v0 v1 v2 : Int) := by
    have hb1 : b = 1 - a - c := by linarith
    unfold determinant_exact
    push_cast
    rw [hx, hy, hb1]
    ring
  have e2 : ((determinant_exact v2 v0 p : Int) : ℚ) = b * (determinant_exact v0 v1 v2 : Int) := by
    have hc1 : c = 1 - a - b := by linarith
    unfold determinant_exact
    push_cast
    rw [hx, hy, hc1]
    ring
  have n0 : ((determinant_exact v0 v1 p : Int) : ℚ) ≥ 0 := by
    rw [e0]; exact mul_nonneg hc (le_of_lt hD)
  have n1 : ((determinant_exact v1 v2 p : Int) : ℚ) ≥ 0 := by
    rw [e1]; exact mul_nonneg ha (le_of_lt hD)
  have n2 : ((determinant_exact v2 v0 p : Int) : ℚ) ≥ 0 := by
    rw [e2]; exact mul_nonneg hb (le_of_lt hD)
  exact ⟨by exact_mod_cast n0, by exact_mod_cast n1, by exact_mod_cast n2⟩

/-- C5, as the code has it: for 16-bit points whose corners `v0 v1 v2` are in
strictly counter-clockwise order (positive determinant), `vert_in_triangle`
returns true if and only if `p` lies in the closed triangle (interior or
boundary). -/
theorem vert_in_triangle_iff_closed_triangle_ccw (p v0 v1 v2 : vec2)
    (hp : p.is_sint16) (h0 : v0.is_sint16) (h1 : v1.is_sint16) (h2 : v2.is_sint16)
    (hccw : determinant_sint16 v0 v1 v2 > 0) :
    vert_in_triangle p v0 v1 v2 = true ↔ in_closed_triangle p v0 v1 v2 := by
  rw [determinant_sint16_eq_exact v0 v1 v2 h0 h1 h2] at hccw
  rw [vert_in_triangle_eq_true_iff, determinant_sint16_eq_exact v0 v1 p h0 h1 hp,
    determinant_sint16_eq_exact v1 v2 p h1 h2 hp, determinant_sint16_eq_exact v2 v0 p h2 h0 hp]
  constructor
  · rintro ⟨a, b, c⟩
    exact in_closed_triangle_of_dets p v0 v1 v2 hccw a b c
  · intro h
    exact dets_of_in_closed_triangle p v0 v1 v2 hccw h

/-- C5 at a boundary point of a counter-clockwise triangle. -/
theorem vert_in_triangle_iff_closed_triangle_ccw_witness :
    determinant_sint16 ⟨0, 0⟩ ⟨4, 0⟩ ⟨0, 4⟩ > 0 ∧
    (vert_in_triangle ⟨2, 2⟩ ⟨0, 0⟩ ⟨4, 0⟩ ⟨0, 4⟩ = true ↔
      in_closed_triangle ⟨2, 2⟩ ⟨0, 0⟩ ⟨4, 0⟩ ⟨0, 4⟩) :=
  ⟨by decide,
   vert_in_triangle_iff_closed_triangle_ccw ⟨2, 2⟩ ⟨0, 0⟩ ⟨4, 0⟩ ⟨0, 4⟩
     (by decide) (by decide) (by decide) (by decide) (by decide)⟩

/-- C5 as stated fails for clockwise corners: the point (1,1) lies inside the
triangle (0,0), (0,4), (4,0), all four points are 16-bit, and
`vert_in_triangle` returns false. -/
theorem vert_in_triangle_clockwise_counterexample :
    (vec2.is_sint16 ⟨1, 1⟩ ∧ vec2.is_sint16 ⟨0, 0⟩ ∧ vec2.is_sint16 ⟨0, 4⟩ ∧
      vec2.is_sint16 ⟨4, 0⟩) ∧
    in_closed_triangle ⟨1, 1⟩ ⟨0, 0⟩ ⟨0, 4⟩ ⟨4, 0⟩ ∧
    vert_in_triangle ⟨1, 1⟩ ⟨0, 0⟩ ⟨0, 4⟩ ⟨4, 0⟩ = false := by
  refine ⟨by decide, ⟨1 / 2, 1 / 4, 1 / 4, by norm_num, by norm_num, by norm_num, by norm_num,
    by norm_num, by norm_num⟩, by decide⟩

/-- C6: `vertex_in_cone(p, c0, c1, c2)` is the conjunction of the two
non-negative turn tests when `turn(c0, c1, c2) > 0` and their disjunction
otherwise. -/
theorem vertex_in_cone_spec (p c0 c1 c2 : vec2) :
    vertex_in_cone p c0 c1 c2 =
      if vertex_left_test c0 c1 c2 > 0 then
        (decide (vertex_left_test c0 c1 p ≥ 0) && decide (vertex_left_test c1 c2 p ≥ 0))
      else
        (decide (vertex_left_test c0 c1 p ≥ 0) || decide (vertex_left_test c1 c2 p ≥ 0)) := by
  unfold vertex_in_cone
  by_cases h : vertex_left_test c0 c1 c2 > 0 <;> simp [h]

/-! ## End-to-end scenarios -/

theorem not_in_closed_triangle_of_ccw_and_excludes (p : vec2) (t : triangle)
    (h : ccw_and_excludes p t = true) : ¬ in_closed_triangle p t.p0 t.p1 t.p2 := by
  unfold ccw_and_excludes at h
  simp only [Bool.and_eq_true, decide_eq_true_eq, Bool.not_eq_true', Bool.and_eq_false_imp] at h
  intro hin
  obtain ⟨a, b, c⟩ := dets_of_in_closed_triangle p t.p0 t.p1 t.p2 h.1 hin
  have hf := h.2 ⟨a, b⟩
  simp only [decide_eq_false_iff_not] at hf
  exact hf c

theorem compute_concave_L_output :
    compute [[0, 0, 200, 0, 200, 100, 100, 100, 100, 200, 0, 200]] 0 =
      [100, 200, 0, 200, 0, 0, 100, 100, 100, 200, 0, 0,
       100, 100, 0, 0, 200, 0, 200, 100, 100, 100, 200, 0] := by
  decide

/-- C7: on the concave L input compute emits exactly 4 triangles (24 values),
each of positive area, whose areas total 30000 (doubled: 60000), and no emitted
triangle contains the point (150, 150). -/
theorem compute_concave_L :
    (compute [[0, 0, 200, 0, 200, 100, 100, 100, 100, 200, 0, 200]] 0).length = 24 ∧
    (triangles_of (compute [[0, 0, 200, 0, 200, 100, 100, 100, 100, 200, 0, 200]] 0)).length = 4 ∧
    (∀ t ∈ triangles_of (compute [[0, 0, 200, 0, 200, 100, 100, 100, 100, 200, 0, 200]] 0),
      t.area2 > 0) ∧
    total_area2 (triangles_of (compute [[0, 0, 200, 0, 200, 100, 100, 100, 100, 200, 0, 200]] 0))
      = 2 * 30000 ∧
    ∀ t ∈ triangles_of (compute [[0, 0, 200, 0, 200, 100, 100, 100, 100, 200, 0, 200]] 0),
      ¬ in_closed_triangle ⟨150, 150⟩ t.p0 t.p1 t.p2 := by
  rw [compute_concave_L_output]
  refine ⟨by decide, by decide, by decide, by decide, ?_⟩
  intro t ht
  apply not_in_closed_triangle_of_ccw_and_excludes
  revert t
  decide

theorem compute_square_with_hole_output :
    compute [[0, 0, 300, 0, 300, 300, 0, 300], [100, 200, 200, 200, 200, 100, 100, 100]] 0 =
      [100, 100, 0, 300, 0, 0, 100, 100, 0, 0, 300, 0, 0, 300, 100, 100, 100, 200,
       300, 300, 0, 300, 100, 200, 200, 100, 100, 100, 300, 0, 300, 300, 100, 200, 200, 200,
       200, 200, 200, 100, 300, 0, 300, 300, 200, 200, 300, 0] := by
  decide

/-- C8: on the square with a reverse-wound square hole the emitted triangles
(each of positive area) have total area 80000 (doubled: 160000) and none of them
contains the point (150, 150). -/
theorem compute_square_with_hole :
    (∀ t ∈ triangles_of (compute
        [[0, 0, 300, 0, 300, 300, 0, 300], [100, 200, 200, 200, 200, 100, 100, 100]] 0),
      t.area2 > 0) ∧
    total_area2 (triangles_of (compute
        [[0, 0, 300, 0, 300, 300, 0, 300], [100, 200, 200, 200, 200, 100, 100, 100]] 0))
      = 2 * 80000 ∧
    ∀ t ∈ triangles_of (compute
        [[0, 0, 300, 0, 300, 300, 0, 300], [100, 200, 200, 200, 200, 100, 100, 100]] 0),
      ¬ in_closed_triangle ⟨150, 150⟩ t.p0 t.p1 t.p2 := by
  rw [compute_square_with_hole_output]
  refine ⟨by decide, by decide, ?_⟩
  intro t ht
  apply not_in_closed_triangle_of_ccw_and_excludes
  revert t
  decide

theorem compute_two_islands_output :
    compute [[0, 0, 100, 0, 100, 100, 0, 100], [200, 0, 300, 0, 300, 100, 200, 100]] 0 =
      [0, 100, 0, 0, 100, 0, 100, 100, 0, 100, 100, 0,
       200, 100, 200, 0, 300, 0, 300, 100, 200, 100, 300, 0] := by
  decide

/-- C9: on the two disjoint squares given as two paths the emitted triangles
have total area 20000 (doubled: 40000); every triangle has positive area and
has its corners on one square, the triangles on each square total 10000, so
both squares are triangulated and nothing is emitted in the gap
`100 < x < 200` that the bridge spans. -/
theorem compute_two_islands :
    total_area2 (triangles_of (compute
        [[0, 0, 100, 0, 100, 100, 0, 100], [200, 0, 300, 0, 300, 100, 200, 100]] 0))
      = 2 * 20000 ∧
    (∀ t ∈ triangles_of (compute
        [[0, 0, 100, 0, 100, 100, 0, 100], [200, 0, 300, 0, 300, 100, 200, 100]] 0),
      t.area2 > 0 ∧ (t.in_column 0 100 ∨ t.in_column 200 300)) ∧
    total_area2 ((triangles_of (compute
        [[0, 0, 100, 0, 100, 100, 0, 100], [200, 0, 300, 0, 300, 100, 200, 100]] 0)).filter
        (fun t => decide (t.in_column 0 100))) = 2 * 10000 ∧
    total_area2 ((triangles_of (compute
        [[0, 0, 100, 0, 100, 100, 0, 100], [200, 0, 300, 0, 300, 100, 200, 100]] 0)).filter
        (fun t => decide (t.in_column 200 300))) = 2 * 10000 := by
  rw [compute_two_islands_output]
  refine ⟨by decide, by decide, by decide, by decide⟩

theorem compute_degenerate_edge_output :
    compute [[0, 0, 50, 0, 50, 0, 100, 0, 100, 100, 0, 100]] 0 =
      [0, 100, 0, 0, 50, 0, 100, 100, 0, 100, 50, 0, 100, 100, 50, 0, 100, 0] := by
  decide

theorem compute_square_output :
    compute [[0, 0, 100, 0, 100, 100, 0, 100]] 0 =
      [0, 100, 0, 0, 100, 0, 100, 100, 0, 100, 100, 0] := by
  decide

/-- C10 as stated fails: on the input with two consecutive coincident vertices
compute emits 18 values (3 triangles), on the plain rectangle 12 values
(2 triangles); the two results differ. -/
theorem compute_degenerate_edge_counterexample :
    compute [[0, 0, 50, 0, 50, 0, 100, 0, 100, 100, 0, 100]] 0
      ≠ compute [[0, 0, 100, 0, 100, 100, 0, 100]] 0 ∧
    (triangles_of (compute [[0, 0, 50, 0, 50, 0, 100, 0, 100, 100, 0, 100]] 0)).length = 3 ∧
    (triangles_of (compute [[0, 0, 100, 0, 100, 100, 0, 100]] 0)).length = 2 := by
  rw [compute_degenerate_edge_output, compute_square_output]
  decide

/-- C10, as the code has it: on the input with two consecutive coincident
vertices compute emits triangles of positive area and of total area 10000
(doubled: 20000), the same total area as for the plain rectangle, all inside
the rectangle. -/
theorem compute_degenerate_edge_area :
    total_area2 (triangles_of (compute [[0, 0, 50, 0, 50, 0, 100, 0, 100, 100, 0, 100]] 0))
      = 2 * 10000 ∧
    total_area2 (triangles_of (compute [[0, 0, 100, 0, 100, 100, 0, 100]] 0)) = 2 * 10000 ∧
    (∀ t ∈ triangles_of (compute [[0, 0, 50, 0, 50, 0, 100, 0, 100, 100, 0, 100]] 0),
      t.area2 > 0 ∧ t.in_column 0 100) := by
  rw [compute_degenerate_edge_output, compute_square_output]
  refine ⟨by decide, by decide, by decide⟩

/-! ## Ring links under the clip -/


theorem getD_set_eq {α : Type} (l : List α) (i j : Nat) (a d : α) :
    (l.set i a).getD j d = if i = j ∧ i < l.length then a else l.getD j d := by
  simp only [List.getD_eq_getElem?_getD, List.getElem?_set]
  by_cases hij : i = j
  · subst hij
    by_cases hi : i < l.length
    · simp [hi]
    · simp [hi, List.getElem?_eq_none (not_lt.1 hi)]
  · simp [hij]

theorem length_set_next (verts : List poly_vert) (i n : Nat) :
    (set_next verts i n).length = verts.length := by
  simp [set_next]

theorem length_set_prev (verts : List poly_vert) (i n : Nat) :
    (set_prev verts i n).length = verts.length := by
  simp [set_prev]

theorem length_set_state (verts : List poly_vert) (i : Nat) (s : state_enum) :
    (set_state verts i s).length = verts.length := by
  simp [set_state]

theorem next_set_next (verts : List poly_vert) (i n j : Nat) :
    ((set_next verts i n).getD j poly_vert.dflt).m_next =
      if i = j ∧ i < verts.length then n else (verts.getD j poly_vert.dflt).m_next := by
  unfold set_next
  rw [getD_set_eq]
  split_ifs <;> rfl

theorem prev_set_next (verts : List poly_vert) (i n j : Nat) :
    ((set_next verts i n).getD j poly_vert.dflt).m_prev = (verts.getD j poly_vert.dflt).m_prev := by
  unfold set_next
  rw [getD_set_eq]
  split_ifs with h
  · rw [h.1]
  · rfl

theorem state_set_next (verts : List poly_vert) (i n j : Nat) :
    ((set_next verts i n).getD j poly_vert.dflt).m_state = (verts.getD j poly_vert.dflt).m_state := by
  unfold set_next
  rw [getD_set_eq]
  split_ifs with h
  · rw [h.1]
  · rfl

theorem pos_set_next (verts : List poly_vert) (i n j : Nat) :
    ((set_next verts i n).getD j poly_vert.dflt).m_v = (verts.getD j poly_vert.dflt).m_v := by
  unfold set_next
  rw [getD_set_eq]
  split_ifs with h
  · rw [h.1]
  · rfl

theorem prev_set_prev (verts : List poly_vert) (i n j : Nat) :
    ((set_prev verts i n).getD j poly_vert.dflt).m_prev =
      if i = j ∧ i < verts.length then n else (verts.getD j poly_vert.dflt).m_prev := by
  unfold set_prev
  rw [getD_set_eq]
  split_ifs <;> rfl

theorem next_set_prev (verts : List poly_vert) (i n j : Nat) :
    ((set_prev verts i n).getD j poly_vert.dflt).m_next = (verts.getD j poly_vert.dflt).m_next := by
  unfold set_prev
  rw [getD_set_eq]
  split_ifs with h
  · rw [h.1]
  · rfl

theorem state_set_prev (verts : List poly_vert) (i n j : Nat) :
    ((set_prev verts i n).getD j poly_vert.dflt).m_state = (verts.getD j poly_vert.dflt).m_state := by
  unfold set_prev
  rw [getD_set_eq]
  split_ifs with h
  · rw [h.1]
  · rfl

theorem pos_set_prev (verts : List poly_vert) (i n j : Nat) :
    ((set_prev verts i n).getD j poly_vert.dflt).m_v = (verts.getD j poly_vert.dflt).m_v := by
  unfold set_prev
  rw [getD_set_eq]
  split_ifs with h
  · rw [h.1]
  · rfl

theorem state_set_state (verts : List poly_vert) (i : Nat) (s : state_enum) (j : Nat) :
    ((set_state verts i s).getD j poly_vert.dflt).m_state =
      if i = j ∧ i < verts.length then s else (verts.getD j poly_vert.dflt).m_state := by
  unfold set_state
  rw [getD_set_eq]
  split_ifs <;> rfl

theorem next_set_state (verts : List poly_vert) (i : Nat) (s : state_enum) (j : Nat) :
    ((set_state verts i s).getD j poly_vert.dflt).m_next = (verts.getD j poly_vert.dflt).m_next := by
  unfold set_state
  rw [getD_set_eq]
  split_ifs with h
  · rw [h.1]
  · rfl

theorem prev_set_state (verts : List poly_vert) (i : Nat) (s : state_enum) (j : Nat) :
    ((set_state verts i s).getD j poly_vert.dflt).m_prev = (verts.getD j poly_vert.dflt).m_prev := by
  unfold set_state
  rw [getD_set_eq]
  split_ifs with h
  · rw [h.1]
  · rfl

theorem pos_set_state (verts : List poly_vert) (i : Nat) (s : state_enum) (j : Nat) :
    ((set_state verts i s).getD j poly_vert.dflt).m_v = (verts.getD j poly_vert.dflt).m_v := by
  unfold set_state
  rw [getD_set_eq]
  split_ifs with h
  · rw [h.1]
  · rfl


theorem ring_ok_splice (n : Nat) (N P : Nat → Nat) (D : Nat → Prop) (H : ring_ok n N P D)
    (a v1 : Nat) (ha : a < n) (hv : v1 < n) (hDa : ¬ D a) (hDv : ¬ D v1) (hne : a ≠ v1) :
    ring_ok n (fun j => if j = v1 then N a else if j = a then N v1 else N j)
      (fun j => if j = N a then v1 else if j = N v1 then a else P j) D := by
  obtain ⟨-, Ha⟩ := H a ha
  obtain ⟨-, Hv⟩ := H v1 hv
  obtain ⟨_, hNa, _, hPNa⟩ := Ha hDa
  obtain ⟨_, hNv, _, hPNv⟩ := Hv hDv
  have hNne : N a ≠ N v1 := by
    intro h; rw [h] at hPNa; omega
  intro j hj
  obtain ⟨Hj1, Hj2⟩ := H j hj
  constructor
  · intro hD
    obtain ⟨h1, h2⟩ := Hj1 hD
    have e1 : j ≠ v1 := by rintro rfl; exact hDv hD
    have e2 : j ≠ a := by rintro rfl; exact hDa hD
    have e3 : j ≠ N a := by rintro rfl; rw [hPNa] at h2; exact e2 h2.symm
    have e4 : j ≠ N v1 := by rintro rfl; rw [hPNv] at h2; exact e1 h2.symm
    simp [e1, e2, e3, e4, h1, h2]
  · intro hD
    obtain ⟨h1, h2, h3, h4⟩ := Hj2 hD
    refine ⟨?_, ?_, ?_, ?_⟩
    · simp only; split_ifs <;> omega
    · simp only; split_ifs <;> omega
    · simp only
      by_cases c1 : j = N a
      · simp [c1]
      · by_cases c2 : j = N v1
        · simp [c1, c2, hne, hNne.symm]
        · have d1 : P j ≠ v1 := by
            intro h; rw [h] at h3; exact c2 h3.symm
          have d2 : P j ≠ a := by
            intro h; rw [h] at h3; exact c1 h3.symm
          simp [c1, c2, d1, d2, h3]
    · simp only
      by_cases c1 : j = v1
      · simp [c1]
      · by_cases c2 : j = a
        · subst c2
          simp [hne, hNne.symm]
        · have d1 : N j ≠ N a := by
            intro h; rw [h] at h4; rw [hPNa] at h4; exact c2 h4.symm
          have d2 : N j ≠ N v1 := by
            intro h; rw [h] at h4; rw [hPNv] at h4; exact c1 h4.symm
          simp [c1, c2, d1, d2, h4]

theorem ring_ok_unlink (n : Nat) (N P : Nat → Nat) (D : Nat → Prop) (H : ring_ok n N P D)
    (v1 : Nat) (hv : v1 < n) (hDv : ¬ D v1) (hne : P v1 ≠ v1) :
    ring_ok n (fun j => if j = P v1 then N v1 else if j = v1 then v1 else N j)
      (fun j => if j = N v1 then P v1 else if j = v1 then v1 else P j)
      (fun j => j = v1 ∨ D j) := by
  obtain ⟨-, Hv⟩ := H v1 hv
  obtain ⟨hP, hN, hNP, hPN⟩ := Hv hDv
  have hne2 : N v1 ≠ v1 := by
    intro h; rw [h] at hPN; exact hne hPN
  intro j hj
  obtain ⟨Hj1, Hj2⟩ := H j hj
  constructor
  · rintro (rfl | hD)
    · simp [hne.symm, hne2.symm]
    · obtain ⟨h1, h2⟩ := Hj1 hD
      have e1 : j ≠ v1 := by rintro rfl; exact hDv hD
      have e3 : j ≠ P v1 := by rintro rfl; rw [hNP] at h1; exact e1 h1.symm
      have e4 : j ≠ N v1 := by rintro rfl; rw [hPN] at h2; exact e1 h2.symm
      simp [e1, e3, e4, h1, h2]
  · intro hD
    have c0 : j ≠ v1 := fun h => hD (Or.inl h)
    have hD : ¬ D j := fun h => hD (Or.inr h)
    obtain ⟨h1, h2, h3, h4⟩ := Hj2 hD
    refine ⟨?_, ?_, ?_, ?_⟩
    · simp only; split_ifs <;> omega
    · simp only; split_ifs <;> omega
    · simp only
      by_cases c1 : j = N v1
      · simp [c1]
      · have d1 : P j ≠ v1 := by
          intro h; rw [h] at h3; exact c1 h3.symm
        by_cases c2 : P j = P v1
        · exfalso; rw [c2, hNP] at h3; exact c0 h3.symm
        · simp [c0, c1, c2, d1, h3]
    · simp only
      by_cases c1 : j = P v1
      · simp [c1]
      · have d1 : N j ≠ v1 := by
          intro h; rw [h] at h4; exact c1 h4.symm
        by_cases c2 : N j = N v1
        · exfalso; rw [c2, hPN] at h4; exact c0 h4.symm
        · simp [c0, c1, c2, d1, h4]

theorem ring_ok_congr (n : Nat) (N P N2 P2 : Nat → Nat) (D D2 : Nat → Prop)
    (H : ring_ok n N P D) (hN : ∀ i, i < n → N2 i = N i) (hP : ∀ i, i < n → P2 i = P i)
    (hD : ∀ i, i < n → (D2 i ↔ D i)) : ring_ok n N2 P2 D2 := by
  intro i hi
  obtain ⟨H1, H2⟩ := H i hi
  constructor
  · intro h
    rw [hN i hi, hP i hi]
    exact H1 ((hD i hi).1 h)
  · intro h
    obtain ⟨a, b, c, d⟩ := H2 (fun h2 => h ((hD i hi).2 h2))
    rw [hN i hi, hP i hi, hN _ a, hP _ b]
    exact ⟨a, b, c, d⟩

theorem loops_valid_iff_ring_ok (verts : List poly_vert) :
    loops_valid verts ↔
      ring_ok verts.length (fun i => (verts.getD i poly_vert.dflt).m_next)
        (fun i => (verts.getD i poly_vert.dflt).m_prev)
        (fun i => (verts.getD i poly_vert.dflt).m_state = state_enum.DELETED) := by
  unfold loops_valid ring_ok
  constructor
  · intro H i hi
    have := H i hi
    constructor
    · intro hD
      rw [if_pos hD] at this
      exact this
    · intro hD
      rw [if_neg hD] at this
      exact this
  · intro H i hi
    obtain ⟨H1, H2⟩ := H i hi
    split_ifs with hD
    · exact H1 hD
    · exact H2 hD

theorem loops_valid_clip_links (verts : List poly_vert) (vi0 vi1 vi2 : Nat)
    (H : loops_valid verts) (h1 : vi1 < verts.length)
    (hs1 : (verts.getD vi1 poly_vert.dflt).m_state ≠ state_enum.DELETED)
    (h0 : vi0 = (verts.getD vi1 poly_vert.dflt).m_prev) (hne : vi0 ≠ vi1)
    (h2 : vi2 < verts.length)
    (hs2 : (verts.getD vi2 poly_vert.dflt).m_state ≠ state_enum.DELETED)
    (hne2 : vi2 ≠ vi1) :
    loops_valid (clip_links verts vi0 vi1 vi2) := by
  rw [loops_valid_iff_ring_ok] at H ⊢
  have Hv1 := (H vi1 h1).2 hs1
  have Hv2 := (H vi2 h2).2 hs2
  obtain ⟨hp1, hn1, hnp1, hpn1⟩ := Hv1
  obtain ⟨hp2, hn2, hnp2, hpn2⟩ := Hv2
  simp only at hp1 hn1 hnp1 hpn1 hp2 hn2 hnp2 hpn2
  have hv0 : vi0 < verts.length := by rw [h0]; exact hp1
  -- the state after the optional fixup satisfies the ring invariant
  have key : ∀ verts1 : List poly_vert, verts1.length = verts.length →
      ring_ok verts1.length (fun i => (verts1.getD i poly_vert.dflt).m_next)
        (fun i => (verts1.getD i poly_vert.dflt).m_prev)
        (fun i => (verts1.getD i poly_vert.dflt).m_state = state_enum.DELETED) →
      (verts1.getD vi1 poly_vert.dflt).m_state ≠ state_enum.DELETED →
      (verts1.getD vi1 poly_vert.dflt).m_prev = vi0 →
      (verts1.getD vi1 poly_vert.dflt).m_next = vi2 →
      ring_ok (set_prev (set_next (set_next (set_prev (set_state verts1 vi1 state_enum.DELETED)
          vi1 vi1) vi1 vi1) vi0 vi2) vi2 vi0).length
        (fun i => ((set_prev (set_next (set_next (set_prev (set_state verts1 vi1 state_enum.DELETED)
          vi1 vi1) vi1 vi1) vi0 vi2) vi2 vi0).getD i poly_vert.dflt).m_next)
        (fun i => ((set_prev (set_next (set_next (set_prev (set_state verts1 vi1 state_enum.DELETED)
          vi1 vi1) vi1 vi1) vi0 vi2) vi2 vi0).getD i poly_vert.dflt).m_prev)
        (fun i => ((set_prev (set_next (set_next (set_prev (set_state verts1 vi1 state_enum.DELETED)
          vi1 vi1) vi1 vi1) vi0 vi2) vi2 vi0).getD i poly_vert.dflt).m_state
            = state_enum.DELETED) := by
    intro verts1 hlen H1 hs hp hn
    have h1b : vi1 < verts1.length := by omega
    have hne1 : (verts1.getD vi1 poly_vert.dflt).m_prev ≠ vi1 := by rw [hp]; exact hne
    have U := ring_ok_unlink verts1.length _ _ _ H1 vi1 h1b hs hne1
    simp only [length_set_next, length_set_prev, length_set_state]
    refine ring_ok_congr _ _ _ _ _ _ _ U ?_ ?_ ?_
    · intro i hi
      simp only [prev_set_prev, next_set_prev, next_set_next, next_set_state, length_set_next,
        length_set_prev, length_set_state, hp, hn, hlen]
      split_ifs <;> first | rfl | omega
    · intro i hi
      simp only [prev_set_prev, prev_set_next, prev_set_state, length_set_next,
        length_set_prev, length_set_state, hp, hn, hlen]
      split_ifs <;> first | rfl | omega
    · intro i hi
      simp only [state_set_prev, state_set_next, state_set_state, hlen]
      by_cases c2 : i = vi1
      · simp [c2, h1]
      · simp [c2, Ne.symm c2]
  unfold clip_links
  simp only
  by_cases hc : (verts.getD vi2 poly_vert.dflt).m_prev ≠ vi1
  · rw [if_pos hc]
    have hsa : (verts.getD (verts.getD vi2 poly_vert.dflt).m_prev poly_vert.dflt).m_state
        ≠ state_enum.DELETED := by
      intro hd
      have h3 := (H _ hp2).1 hd
      simp only at h3
      rw [hnp2] at h3
      rw [← h3.1] at hd
      exact hs2 hd
    have S := ring_ok_splice verts.length _ _ _ H (verts.getD vi2 poly_vert.dflt).m_prev vi1
      hp2 h1 hsa hs1 hc
    simp only [hnp2] at S
    have hb : (verts.getD vi1 poly_vert.dflt).m_next ≠ vi1 := by
      intro h
      rw [h] at hpn1
      exact hne (by rw [h0]; exact hpn1)
    apply key
    · simp only [length_set_next, length_set_prev]
    · simp only [length_set_next, length_set_prev]
      refine ring_ok_congr _ _ _ _ _ _ _ S ?_ ?_ ?_
      · intro i hi
        simp only [next_set_next, next_set_prev, length_set_prev, length_set_next]
        split_ifs <;> first | rfl | omega
      · intro i hi
        simp only [prev_set_next, prev_set_prev, length_set_prev, length_set_next]
        split_ifs <;> first | rfl | omega
      · intro i hi
        simp only [state_set_next, state_set_prev]
    · simp only [state_set_next, state_set_prev]
      exact hs1
    · simp only [prev_set_next, prev_set_prev, length_set_next, length_set_prev]
      rw [if_neg, if_neg]
      · exact h0.symm
      · intro h; exact hb h.1
      · intro h; exact hne2 h.1
    · simp only [next_set_next, length_set_prev, length_set_next]
      rw [if_pos ⟨trivial, h1⟩]
  · rw [if_neg hc]
    push_neg at hc
    apply key verts rfl H hs1 h0.symm
    rw [← hc, hnp2]

theorem wrap_sint64_zero : wrap_sint64 0 = 0 := by decide

theorem determinant_sint16_same_01 (a c : vec2) : determinant_sint16 a a c = 0 := by
  unfold determinant_sint16
  simp [wrap_sint64_zero]

theorem determinant_sint16_same_12 (a b : vec2) : determinant_sint16 a b b = 0 := by
  unfold determinant_sint16
  rw [mul_comm (wrap_sint64 (b.x - a.x)) (wrap_sint64 (b.y - a.y)), sub_self, wrap_sint64_zero]

theorem determinant_sint16_same_02 (a b : vec2) : determinant_sint16 a b a = 0 := by
  unfold determinant_sint16
  simp [wrap_sint64_zero]

theorem ne_of_vertex_left_test_pos (a b c : vec2) (h : vertex_left_test a b c > 0) :
    a ≠ b ∧ c ≠ b ∧ c ≠ a := by
  rw [vertex_left_test_pos_iff] at h
  refine ⟨?_, ?_, ?_⟩
  · rintro rfl; rw [determinant_sint16_same_01] at h; omega
  · rintro rfl; rw [determinant_sint16_same_12] at h; omega
  · rintro rfl; rw [determinant_sint16_same_02] at h; omega

theorem pick_out_edge_fold (ts : tristate) (vi0 vi1 : Nat) (Q : Nat → Prop) (l : List Nat)
    (hQ : ∀ i ∈ l, (ts.vert (ts.vert i).m_next).m_state ≠ state_enum.DELETED →
      vertex_left_test (ts.vert vi0).m_v (ts.vert vi1).m_v (ts.vert (ts.vert i).m_next).m_v > 0 →
      Q (ts.vert i).m_next) :
    ∀ acc : Option Nat, (∀ w, acc = some w → Q w) →
      ∀ v, l.foldl (pick_out_edge ts vi0 vi1) acc = some v → Q v := by
  induction l with
  | nil =>
    intro acc hacc v hv
    exact hacc v hv
  | cons i rest ih =>
    intro acc hacc v hv
    rw [List.foldl_cons] at hv
    refine ih (fun j hj => hQ j (List.mem_cons_of_mem _ hj)) _ ?_ v hv
    intro w hw
    unfold pick_out_edge at hw
    simp only at hw
    have hQi := hQ i (List.mem_cons_self _ _)
    split_ifs at hw with c1 c2
    · exact hacc w hw
    · cases acc with
      | none =>
        simp only [Option.some.injEq] at hw
        rw [← hw]
        exact hQi c1 c2
      | some u =>
        simp only at hw
        split_ifs at hw
        · simp only [Option.some.injEq] at hw
          rw [← hw]
          exact hQi c1 c2
        · exact hacc w hw
    · exact hacc w hw

theorem coincident_end_le (verts : List poly_vert) (p : vec2) :
    ∀ n e, e ≤ verts.length → coincident_end verts p n e ≤ verts.length := by
  intro n
  induction n with
  | zero => intro e he; exact he
  | succ n ih =>
    intro e he
    unfold coincident_end
    split_ifs with h
    · exact ih (e + 1) h.1
    · exact he

/-- What `find_ear_vertex` returns is the forward neighbour of `vi1` for a
zero-length edge, and otherwise a live strict left turn that is the forward
neighbour of a valid index. -/
theorem find_ear_vertex_some (ts : tristate) (vi0 vi1 vi2 : Nat) (h1 : vi1 < ts.m_verts.length)
    (h : find_ear_vertex ts vi0 vi1 = some vi2) :
    ((ts.vert vi0).m_v = (ts.vert vi1).m_v ∧ vi2 = (ts.vert vi1).m_next) ∨
    ((ts.vert vi0).m_v ≠ (ts.vert vi1).m_v ∧
      (ts.vert vi2).m_state ≠ state_enum.DELETED ∧
      vertex_left_test (ts.vert vi0).m_v (ts.vert vi1).m_v (ts.vert vi2).m_v > 0 ∧
      ∃ i, i < ts.m_verts.length ∧ vi2 = (ts.vert i).m_next) := by
  unfold find_ear_vertex at h
  by_cases c0 : (ts.vert vi0).m_v = (ts.vert vi1).m_v
  · left
    rw [if_pos c0] at h
    simp only [Option.some.injEq] at h
    exact ⟨c0, h.symm⟩
  · right
    rw [if_neg c0] at h
    refine ⟨c0, ?_⟩
    split_ifs at h with c1
    simp only at h
    have hfold := pick_out_edge_fold ts vi0 vi1
      (fun w => (ts.vert w).m_state ≠ state_enum.DELETED ∧
        vertex_left_test (ts.vert vi0).m_v (ts.vert vi1).m_v (ts.vert w).m_v > 0 ∧
        ∃ i, i < ts.m_verts.length ∧ w = (ts.vert i).m_next)
      (List.range' (coincident_begin ts.m_verts (ts.vert vi1).m_v vi1)
        (coincident_end ts.m_verts (ts.vert vi1).m_v (ts.m_verts.length - (vi1 + 1)) (vi1 + 1)
          - coincident_begin ts.m_verts (ts.vert vi1).m_v vi1))
      (by
        intro i hi hd hl
        refine ⟨hd, hl, i, ?_, rfl⟩
        rw [List.mem_range'_1] at hi
        have := coincident_end_le ts.m_verts (ts.vert vi1).m_v (ts.m_verts.length - (vi1 + 1))
          (vi1 + 1) h1
        omega)
      none (by intro w hw; cases hw)
    split at h
    · cases h
    · rename_i w hw
      have hq := hfold w hw
      split_ifs at h
      simp only [Option.some.injEq] at h
      rw [← h]
      exact hq

/-- Under the ring invariant the vertex `find_ear_vertex` returns for a live
`vi1` with `vi0 = prev(vi1) ≠ vi1` is a live valid index other than `vi1`. -/
theorem find_ear_vertex_valid (ts : tristate) (vi0 vi1 vi2 : Nat)
    (H : loops_valid ts.m_verts) (h1 : vi1 < ts.m_verts.length)
    (hs1 : (ts.vert vi1).m_state ≠ state_enum.DELETED)
    (h0 : vi0 = (ts.vert vi1).m_prev) (hne : vi0 ≠ vi1)
    (h : find_ear_vertex ts vi0 vi1 = some vi2) :
    vi2 < ts.m_verts.length ∧ (ts.vert vi2).m_state ≠ state_enum.DELETED ∧ vi2 ≠ vi1 := by
  have Hv1 := H vi1 h1
  unfold tristate.vert at hs1 h0
  rw [if_neg hs1] at Hv1
  obtain ⟨hp1, hn1, hnp1, hpn1⟩ := Hv1
  rcases find_ear_vertex_some ts vi0 vi1 vi2 h1 h with ⟨-, hv⟩ | ⟨-, hd, hl, i, hi, hv⟩
  · unfold tristate.vert at hv
    have hne2 : vi2 ≠ vi1 := by
      intro e
      rw [hv] at e
      rw [e] at hpn1
      exact hne (by rw [h0]; exact hpn1)
    refine ⟨by rw [hv]; exact hn1, ?_, hne2⟩
    intro hd
    unfold tristate.vert at hd
    have Hv2 := H vi2 (by rw [hv]; exact hn1)
    rw [if_pos hd] at Hv2
    rw [← hv] at hpn1
    rw [hpn1] at Hv2
    exact hne2 Hv2.2.symm
  · refine ⟨?_, hd, ?_⟩
    · unfold tristate.vert at hv hd
      have Hi := H i hi
      split_ifs at Hi with c
      · rw [hv, Hi.1]; exact hi
      · rw [hv]; exact Hi.2.1
    · rintro rfl
      exact (ne_of_vertex_left_test_pos _ _ _ hl).2.1 rfl

theorem find_and_clip_ear_loop_succ (n : Nat) (ts : tristate) :
    find_and_clip_ear_loop (n + 1) ts =
      if ts.m_next_dirty < ts.m_verts.length then
        if (ts.vert ts.m_next_dirty).m_state = state_enum.DELETED then
          find_and_clip_ear_loop n { ts with m_next_dirty := ts.m_next_dirty + 1 }
        else if (ts.vert ts.m_next_dirty).m_prev = ts.m_next_dirty then
          find_and_clip_ear_loop n { ts with m_next_dirty := ts.m_next_dirty + 1 }
        else
          match find_ear_vertex { ts with m_next_dirty := ts.m_next_dirty + 1 }
              (ts.vert ts.m_next_dirty).m_prev ts.m_next_dirty with
          | some vi2 =>
            (true, clip_ear { ts with m_next_dirty := ts.m_next_dirty + 1 }
              (ts.vert ts.m_next_dirty).m_prev ts.m_next_dirty vi2)
          | none => find_and_clip_ear_loop n { ts with m_next_dirty := ts.m_next_dirty + 1 }
      else (false, ts) := rfl

theorem loops_valid_find_and_clip_ear_loop (n : Nat) :
    ∀ ts : tristate, loops_valid ts.m_verts →
      loops_valid (find_and_clip_ear_loop n ts).2.m_verts := by
  induction n with
  | zero => intro ts H; exact H
  | succ n ih =>
    intro ts H
    rw [find_and_clip_ear_loop_succ]
    split_ifs with c1 c2 c3
    · exact ih _ H
    · exact ih _ H
    · split
      · rename_i vi2 hv
        have hval := find_ear_vertex_valid { ts with m_next_dirty := ts.m_next_dirty + 1 }
          _ _ vi2 H c1 c2 rfl c3 hv
        exact loops_valid_clip_links ts.m_verts _ _ vi2 H c1 c2 rfl c3 hval.1 hval.2.1 hval.2.2
      · exact ih _ H
    · exact H

/-- C3: if before a call of `find_and_clip_ear` every non-DELETED vertex `v`
has valid links with `next(prev(v)) = v` and `prev(next(v)) = v` and every
DELETED vertex is a self-loop, then the same holds after the call, whatever
the call returns and whichever branch of the clip it takes. -/
theorem find_and_clip_ear_preserves_loops_valid (ts : tristate)
    (H : loops_valid ts.m_verts) : loops_valid (find_and_clip_ear ts).2.m_verts := by
  unfold find_and_clip_ear
  exact loops_valid_find_and_clip_ear_loop _ ts H

/-- C3 on the state that `init` builds for the rectangle with a doubled vertex:
the invariant holds before the first call of `find_and_clip_ear` and after it. -/
theorem find_and_clip_ear_preserves_loops_valid_witness :
    loops_valid (init [[0, 0, 50, 0, 50, 0, 100, 0, 100, 100, 0, 100]] 0).m_verts ∧
    loops_valid
      (find_and_clip_ear (init [[0, 0, 50, 0, 50, 0, 100, 0, 100, 100, 0, 100]] 0)).2.m_verts :=
  ⟨by decide, find_and_clip_ear_preserves_loops_valid _ (by decide)⟩

theorem triangles_of_values_of (tris : List triangle) : triangles_of (values_of tris) = tris := by
  induction tris with
  | nil => rfl
  | cons t rest ih =>
    simp only [values_of, triangles_of, ih]

theorem values_of_append (a b : List triangle) :
    values_of (a ++ b) = values_of a ++ values_of b := by
  induction a with
  | nil => rfl
  | cons t rest ih => simp [values_of, ih]

theorem results_all_append (good : triangle → Prop) (results : List Int) (t : triangle)
    (h : results_all good results) (ht : good t) :
    results_all good (results ++ [t.p0.x, t.p0.y, t.p1.x, t.p1.y, t.p2.x, t.p2.y]) := by
  obtain ⟨tris, hr, hg⟩ := h
  refine ⟨tris ++ [t], ?_, ?_⟩
  · rw [values_of_append, hr]
    rfl
  · intro u hu
    rw [List.mem_append] at hu
    rcases hu with hu | hu
    · exact hg u hu
    · rw [List.mem_singleton] at hu
      rw [hu]
      exact ht

theorem pos_clip_links (verts : List poly_vert) (vi0 vi1 vi2 i : Nat) :
    ((clip_links verts vi0 vi1 vi2).getD i poly_vert.dflt).m_v
      = (verts.getD i poly_vert.dflt).m_v := by
  unfold clip_links
  simp only
  split_ifs <;> simp only [pos_set_next, pos_set_prev, pos_set_state]

theorem length_clip_links (verts : List poly_vert) (vi0 vi1 vi2 : Nat) :
    (clip_links verts vi0 vi1 vi2).length = verts.length := by
  unfold clip_links
  simp only
  split_ifs <;> simp only [length_set_next, length_set_prev, length_set_state]

theorem results_clip_ear (ts : tristate) (vi0 vi1 vi2 : Nat) :
    (clip_ear ts vi0 vi1 vi2).m_results =
      if vi0 ≠ vi1 ∧ vi0 ≠ vi2 ∧ vi1 ≠ vi2 then
        ts.m_results ++ [(ts.vert vi0).m_v.x, (ts.vert vi0).m_v.y, (ts.vert vi1).m_v.x,
          (ts.vert vi1).m_v.y, (ts.vert vi2).m_v.x, (ts.vert vi2).m_v.y]
      else ts.m_results := by
  unfold clip_ear tristate.vert
  simp only [pos_clip_links]

theorem not_clockwise_of_find_ear_vertex (ts : tristate) (vi0 vi1 vi2 : Nat)
    (h1 : vi1 < ts.m_verts.length) (h : find_ear_vertex ts vi0 vi1 = some vi2) :
    triangle.not_clockwise
      { p0 := (ts.vert vi0).m_v, p1 := (ts.vert vi1).m_v, p2 := (ts.vert vi2).m_v } := by
  unfold triangle.not_clockwise
  simp only
  rcases find_ear_vertex_some ts vi0 vi1 vi2 h1 h with ⟨he, -⟩ | ⟨-, -, hl, -⟩
  · rw [he, determinant_sint16_same_01]
    exact ⟨le_refl 0, fun hne => absurd rfl hne⟩
  · rw [vertex_left_test_pos_iff] at hl
    exact ⟨le_of_lt hl, fun _ => hl⟩

theorem results_all_find_and_clip_ear_loop (n : Nat) :
    ∀ ts : tristate, results_all triangle.not_clockwise ts.m_results →
      results_all triangle.not_clockwise (find_and_clip_ear_loop n ts).2.m_results := by
  induction n with
  | zero => intro ts H; exact H
  | succ n ih =>
    intro ts H
    rw [find_and_clip_ear_loop_succ]
    split_ifs with c1 c2 c3
    · exact ih _ H
    · exact ih _ H
    · split
      · rename_i vi2 hv
        simp only
        rw [results_clip_ear]
        split_ifs
        · exact results_all_append _ _
            { p0 := (ts.vert (ts.vert ts.m_next_dirty).m_prev).m_v,
              p1 := (ts.vert ts.m_next_dirty).m_v, p2 := (ts.vert vi2).m_v } H
            (not_clockwise_of_find_ear_vertex
              { ts with m_next_dirty := ts.m_next_dirty + 1 } _ _ vi2 c1 hv)
        · exact H
      · exact ih _ H
    · exact H

theorem results_check_debug_dump (ts : tristate) :
    (check_debug_dump ts).2.m_results = ts.m_results := by
  unfold check_debug_dump
  simp only
  split_ifs <;> rfl

theorem results_all_triangulate_plane_loop (n : Nat) :
    ∀ ts : tristate, results_all triangle.not_clockwise ts.m_results →
      results_all triangle.not_clockwise (triangulate_plane_loop n ts).m_results := by
  induction n with
  | zero => intro ts H; exact H
  | succ n ih =>
    intro ts H
    have hstep : results_all triangle.not_clockwise (find_and_clip_ear ts).2.m_results :=
      results_all_find_and_clip_ear_loop _ ts H
    unfold triangulate_plane_loop
    simp only
    split_ifs
    · rw [results_check_debug_dump]; exact hstep
    · apply ih
      rw [results_check_debug_dump]; exact hstep
    · exact hstep

theorem results_sort_and_remap (ts : tristate) : (sort_and_remap ts).m_results = ts.m_results := rfl

theorem results_join_one_path (ts : tristate) (v1 : Nat) :
    (join_one_path ts v1).m_results = ts.m_results := rfl

theorem results_join_paths_into_one_poly (ts : tristate) :
    (join_paths_into_one_poly ts).m_results = ts.m_results := by
  unfold join_paths_into_one_poly
  split_ifs
  · simp only
    generalize (List.drop 1 (std_sort path_info.lt ts.m_input_paths)) = l
    have : ∀ t : tristate, t.m_results = ts.m_results →
        (l.foldl (fun t pi =>
          match pi.m_leftmost_vert with
          | some v1 => if v1 > 0 then join_one_path t v1 else t
          | none => t) t).m_results = ts.m_results := by
      induction l with
      | nil => intro t ht; exact ht
      | cons pi rest ih =>
        intro t ht
        rw [List.foldl_cons]
        apply ih
        split
        · split_ifs
          · rw [results_join_one_path]; exact ht
          · exact ht
        · exact ht
    exact this _ rfl
  · rfl

theorem results_init (paths : List (List Int)) (debug_halt_step : Int) :
    (init paths debug_halt_step).m_results = [] := by
  unfold init
  simp only
  split_ifs
  · rw [results_sort_and_remap, results_join_paths_into_one_poly, results_sort_and_remap]
  · rw [results_sort_and_remap]

/-- C2, as the code has it: whatever the input, every triangle `(p0, p1, p2)`
that compute emits has `determinant(p0, p1, p2) >= 0`, and the determinant is
strictly positive unless `p0 = p1` (a zero-length edge clipped as a trivial
ear). -/
theorem compute_triangles_not_clockwise (paths : List (List Int)) (debug_halt_step : Int)
    (t : triangle) (ht : t ∈ triangles_of (compute paths debug_halt_step)) :
    determinant_sint16 t.p0 t.p1 t.p2 ≥ 0 ∧
    (t.p0 ≠ t.p1 → determinant_sint16 t.p0 t.p1 t.p2 > 0) := by
  have h : results_all triangle.not_clockwise (compute paths debug_halt_step) := by
    unfold compute triangulate_plane
    apply results_all_triangulate_plane_loop
    rw [results_init]
    exact ⟨[], rfl, fun t ht => absurd ht (List.not_mem_nil t)⟩
  obtain ⟨tris, hr, hg⟩ := h
  rw [hr, triangles_of_values_of] at ht
  exact hg t ht

/-! ## The fuel of the loops is enough -/


theorem getD_eq_getElem_of_lt (verts : List poly_vert) (i : Nat) (h : i < verts.length) :
    verts.getD i poly_vert.dflt = verts[i] := by
  rw [List.getD_eq_getElem?_getD, List.getElem?_eq_getElem h]
  rfl

theorem map_state_eq_of_state_eq (a b : List poly_vert) (hl : a.length = b.length)
    (h : ∀ i, (a.getD i poly_vert.dflt).m_state = (b.getD i poly_vert.dflt).m_state) :
    a.map poly_vert.m_state = b.map poly_vert.m_state := by
  apply List.ext_getElem
  · simp [hl]
  · intro n h1 h2
    simp only [List.length_map] at h1 h2
    rw [List.getElem_map, List.getElem_map, ← getD_eq_getElem_of_lt a n h1,
      ← getD_eq_getElem_of_lt b n h2]
    exact h n

theorem map_state_set_next (verts : List poly_vert) (i n : Nat) :
    (set_next verts i n).map poly_vert.m_state = verts.map poly_vert.m_state :=
  map_state_eq_of_state_eq _ _ (length_set_next verts i n) (state_set_next verts i n)

theorem map_state_set_prev (verts : List poly_vert) (i n : Nat) :
    (set_prev verts i n).map poly_vert.m_state = verts.map poly_vert.m_state :=
  map_state_eq_of_state_eq _ _ (length_set_prev verts i n) (state_set_prev verts i n)

theorem map_state_set_state (verts : List poly_vert) (i : Nat) (s : state_enum) :
    (set_state verts i s).map poly_vert.m_state = (verts.map poly_vert.m_state).set i s := by
  unfold set_state
  rw [List.map_set]

theorem map_state_clip_links (verts : List poly_vert) (vi0 vi1 vi2 : Nat) :
    (clip_links verts vi0 vi1 vi2).map poly_vert.m_state
      = (verts.map poly_vert.m_state).set vi1 state_enum.DELETED := by
  unfold clip_links
  simp only
  split_ifs <;>
    simp only [map_state_set_next, map_state_set_prev, map_state_set_state]

theorem deleted_count_le (verts : List poly_vert) : deleted_count verts ≤ verts.length := by
  unfold deleted_count
  have := List.count_le_length state_enum.DELETED (verts.map poly_vert.m_state)
  simpa using this

theorem deleted_count_clip_links (verts : List poly_vert) (vi0 vi1 vi2 : Nat)
    (h1 : vi1 < verts.length)
    (hs : (verts.getD vi1 poly_vert.dflt).m_state ≠ state_enum.DELETED) :
    deleted_count (clip_links verts vi0 vi1 vi2) = deleted_count verts + 1 := by
  unfold deleted_count
  rw [map_state_clip_links, List.count_set _ _ _ _ (by simpa using h1)]
  rw [getD_eq_getElem_of_lt verts vi1 h1] at hs
  simp [hs]

/-- A call of `find_and_clip_ear` that returns true deletes exactly one vertex;
a call that returns false leaves the vertex array as it is. -/
theorem find_and_clip_ear_loop_deleted_count (n : Nat) :
    ∀ ts : tristate,
      (find_and_clip_ear_loop n ts).2.m_verts.length = ts.m_verts.length ∧
      ((find_and_clip_ear_loop n ts).1 = true →
        deleted_count (find_and_clip_ear_loop n ts).2.m_verts
          = deleted_count ts.m_verts + 1) ∧
      ((find_and_clip_ear_loop n ts).1 = false →
        (find_and_clip_ear_loop n ts).2.m_verts = ts.m_verts) := by
  induction n with
  | zero =>
    intro ts
    exact ⟨rfl, fun h => Bool.noConfusion h, fun _ => rfl⟩
  | succ n ih =>
    intro ts
    rw [find_and_clip_ear_loop_succ]
    split_ifs with c1 c2 c3
    · exact ih _
    · exact ih _
    · split
      · rename_i vi2 hv
        refine ⟨length_clip_links _ _ _ _, fun _ => ?_, fun h => Bool.noConfusion h⟩
        exact deleted_count_clip_links ts.m_verts _ _ vi2 c1 c2
      · exact ih _
    · exact ⟨rfl, fun h => absurd h (by simp), fun _ => rfl⟩

theorem verts_check_debug_dump (ts : tristate) :
    (check_debug_dump ts).2.m_verts = ts.m_verts := by
  unfold check_debug_dump
  simp only
  split_ifs <;> rfl

/-- More fuel than there are live vertices never changes the result of the
loop of `triangulate_plane`: the loop ends on a call of `find_and_clip_ear`
that returns false (or on the debug halt), not on the fuel. -/
theorem triangulate_plane_loop_fuel (n : Nat) :
    ∀ (ts : tristate) (m : Nat), ts.m_verts.length - deleted_count ts.m_verts < n → n ≤ m →
      triangulate_plane_loop m ts = triangulate_plane_loop n ts := by
  induction n with
  | zero => intro ts m h; omega
  | succ n ih =>
    intro ts m h hm
    obtain ⟨m, rfl⟩ : ∃ k, m = k + 1 := ⟨m - 1, by omega⟩
    unfold triangulate_plane_loop
    simp only
    have hstep := find_and_clip_ear_loop_deleted_count
      (ts.m_verts.length - ts.m_next_dirty) ts
    by_cases c : (find_and_clip_ear ts).1 = true
    · rw [if_pos c, if_pos c]
      split_ifs
      · rfl
      · apply ih
        · rw [verts_check_debug_dump]
          have h1 := hstep.1
          have h2 := hstep.2.1 c
          have h3 := deleted_count_le (find_and_clip_ear ts).2.m_verts
          unfold find_and_clip_ear at h3 ⊢
          omega
        · omega
    · rw [if_neg c, if_neg c]

/-- Extra fuel never changes the result of the loop of `find_and_clip_ear`. -/
theorem find_and_clip_ear_loop_fuel (n : Nat) :
    ∀ (ts : tristate) (m : Nat), ts.m_verts.length - ts.m_next_dirty ≤ n → n ≤ m →
      find_and_clip_ear_loop m ts = find_and_clip_ear_loop n ts := by
  induction n with
  | zero =>
    intro ts m h hm
    cases m with
    | zero => rfl
    | succ m =>
      rw [find_and_clip_ear_loop_succ, if_neg (by omega)]
      rfl
  | succ n ih =>
    intro ts m h hm
    obtain ⟨m, rfl⟩ : ∃ k, m = k + 1 := ⟨m - 1, by omega⟩
    rw [find_and_clip_ear_loop_succ, find_and_clip_ear_loop_succ]
    split_ifs with c1 c2 c3
    · exact ih _ m (by simp only; omega) (by omega)
    · exact ih _ m (by simp only; omega) (by omega)
    · split
      · rfl
      · exact ih _ m (by simp only; omega) (by omega)
    · rfl

/-- C2 on the square: the first emitted triangle is counter-clockwise. -/
theorem compute_triangles_not_clockwise_witness :
    (⟨⟨0, 100⟩, ⟨0, 0⟩, ⟨100, 0⟩⟩ : triangle)
      ∈ triangles_of (compute [[0, 0, 100, 0, 100, 100, 0, 100]] 0) ∧
    (determinant_sint16 ⟨0, 100⟩ ⟨0, 0⟩ ⟨100, 0⟩ ≥ 0 ∧
      ((⟨0, 100⟩ : vec2) ≠ ⟨0, 0⟩ → determinant_sint16 ⟨0, 100⟩ ⟨0, 0⟩ ⟨100, 0⟩ > 0)) :=
  ⟨by rw [compute_square_output]; decide,
   compute_triangles_not_clockwise [[0, 0, 100, 0, 100, 100, 0, 100]] 0
     ⟨⟨0, 100⟩, ⟨0, 0⟩, ⟨100, 0⟩⟩ (by rw [compute_square_output]; decide)⟩

theorem compute_doubled_corner_output :
    compute [[0, 0, 100, 0, 100, 0, 100, 100, 0, 100]] 0 =
      [0, 100, 0, 0, 100, 0, 100, 100, 0, 100, 100, 0, 100, 0, 100, 0, 100, 100] := by
  decide

/-- C2 as stated fails: the path (0,0), (100,0), (100,0), (100,100), (0,100) is
counter-clockwise (positive signed area) with two consecutive coincident
vertices, and compute emits the triangle (100,0), (100,0), (100,100), whose
determinant is 0, not strictly positive. -/
theorem compute_zero_area_triangle_counterexample :
    polygon_area2 (path_points [0, 0, 100, 0, 100, 0, 100, 100, 0, 100]) > 0 ∧
    (⟨⟨100, 0⟩, ⟨100, 0⟩, ⟨100, 100⟩⟩ : triangle)
      ∈ triangles_of (compute [[0, 0, 100, 0, 100, 0, 100, 100, 0, 100]] 0) ∧
    ¬ determinant_sint16 ⟨100, 0⟩ ⟨100, 0⟩ ⟨100, 100⟩ > 0 := by
  rw [compute_doubled_corner_output]
  decide

/-! ## The square scenario and the shape of the output -/

/-- C11: on the square input compute appends exactly 12 values, forming 2
triangles of total area 10000 (doubled: 20000), and the two triangles are one
of the two diagonal splits of the square, each triangle up to rotation of its
corners: here the split along the diagonal from (100,0) to (0,100). -/
theorem compute_square_diagonal_split :
    (compute [[0, 0, 100, 0, 100, 100, 0, 100]] 0).length = 12 ∧
    (triangles_of (compute [[0, 0, 100, 0, 100, 100, 0, 100]] 0)).length = 2 ∧
    total_area2 (triangles_of (compute [[0, 0, 100, 0, 100, 100, 0, 100]] 0)) = 2 * 10000 ∧
    (is_split_into (triangles_of (compute [[0, 0, 100, 0, 100, 100, 0, 100]] 0))
        ⟨⟨0, 0⟩, ⟨100, 0⟩, ⟨100, 100⟩⟩ ⟨⟨0, 0⟩, ⟨100, 100⟩, ⟨0, 100⟩⟩ ∨
      is_split_into (triangles_of (compute [[0, 0, 100, 0, 100, 100, 0, 100]] 0))
        ⟨⟨0, 0⟩, ⟨100, 0⟩, ⟨0, 100⟩⟩ ⟨⟨100, 0⟩, ⟨100, 100⟩, ⟨0, 100⟩⟩) ∧
    is_split_into (triangles_of (compute [[0, 0, 100, 0, 100, 100, 0, 100]] 0))
        ⟨⟨0, 0⟩, ⟨100, 0⟩, ⟨0, 100⟩⟩ ⟨⟨100, 0⟩, ⟨100, 100⟩, ⟨0, 100⟩⟩ := by
  rw [compute_square_output]
  decide

theorem length_values_of (tris : List triangle) : (values_of tris).length = 6 * tris.length := by
  induction tris with
  | nil => rfl
  | cons t rest ih =>
    simp only [values_of, List.length_cons, ih]
    omega

theorem compute_whole_triangles (paths : List (List Int)) (debug_halt_step : Int) :
    ∃ tris : List triangle, compute paths debug_halt_step = values_of tris := by
  have h : results_all triangle.not_clockwise (compute paths debug_halt_step) := by
    unfold compute triangulate_plane
    apply results_all_triangulate_plane_loop
    rw [results_init]
    exact ⟨[], rfl, fun t ht => absurd ht (List.not_mem_nil t)⟩
  obtain ⟨tris, hr, -⟩ := h
  exact ⟨tris, hr⟩

/-- C12: a successful clip of `(v0, v1, v2)` appends exactly the six values
`x(v0), y(v0), x(v1), y(v1), x(v2), y(v2)` in that order when the three indices
are pairwise distinct and appends nothing otherwise (the positions are the
same before and after the relink); hence the number of values compute appends
is a multiple of 6. -/
theorem clip_ear_appends_six_values :
    (∀ (ts : tristate) (vi0 vi1 vi2 : Nat),
      (vi0 ≠ vi1 ∧ vi0 ≠ vi2 ∧ vi1 ≠ vi2 →
        (clip_ear ts vi0 vi1 vi2).m_results =
          ts.m_results ++ [(ts.vert vi0).m_v.x, (ts.vert vi0).m_v.y, (ts.vert vi1).m_v.x,
            (ts.vert vi1).m_v.y, (ts.vert vi2).m_v.x, (ts.vert vi2).m_v.y]) ∧
      (¬ (vi0 ≠ vi1 ∧ vi0 ≠ vi2 ∧ vi1 ≠ vi2) →
        (clip_ear ts vi0 vi1 vi2).m_results = ts.m_results) ∧
      (∀ i, ((clip_ear ts vi0 vi1 vi2).vert i).m_v = (ts.vert i).m_v)) ∧
    (∀ (paths : List (List Int)) (debug_halt_step : Int),
      6 ∣ (compute paths debug_halt_step).length) := by
  constructor
  · intro ts vi0 vi1 vi2
    refine ⟨fun h => ?_, fun h => ?_, fun i => ?_⟩
    · rw [results_clip_ear, if_pos h]
    · rw [results_clip_ear, if_neg h]
    · unfold clip_ear tristate.vert
      exact pos_clip_links ts.m_verts vi0 vi1 vi2 i
  · intro paths debug_halt_step
    obtain ⟨tris, h⟩ := compute_whole_triangles paths debug_halt_step
    rw [h, length_values_of]
    exact Dvd.intro _ rfl

/-! ## Termination of the clip loop -/

theorem find_and_clip_ear_loop_states (n : Nat) :
    ∀ ts : tristate, (find_and_clip_ear_loop n ts).1 = true →
      ∃ v, v < ts.m_verts.length ∧ (ts.vert v).m_state ≠ state_enum.DELETED ∧
        (find_and_clip_ear_loop n ts).2.m_verts.map poly_vert.m_state
          = (ts.m_verts.map poly_vert.m_state).set v state_enum.DELETED := by
  induction n with
  | zero => intro ts h; exact absurd h (by simp [find_and_clip_ear_loop])
  | succ n ih =>
    intro ts
    rw [find_and_clip_ear_loop_succ]
    split_ifs with c1 c2 c3
    · exact ih _
    · exact ih _
    · split
      · rename_i vi2 hv
        intro _
        exact ⟨ts.m_next_dirty, c1, c2, map_state_clip_links ts.m_verts _ _ vi2⟩
      · exact ih _
    · intro h; exact absurd h (by simp)

theorem clips_of_loop_le (n : Nat) :
    ∀ ts : tristate, clips_of_loop n ts ≤ live_count ts.m_verts := by
  induction n with
  | zero => intro ts; exact Nat.zero_le _
  | succ n ih =>
    intro ts
    unfold clips_of_loop
    simp only
    have hstep := find_and_clip_ear_loop_deleted_count
      (ts.m_verts.length - ts.m_next_dirty) ts
    have hle := deleted_count_le (find_and_clip_ear ts).2.m_verts
    by_cases c : (find_and_clip_ear ts).1 = true
    · rw [if_pos c]
      have h1 := hstep.1
      have h2 := hstep.2.1 c
      have h3 := ih (check_debug_dump (find_and_clip_ear ts).2).2
      unfold live_count at h3 ⊢
      rw [verts_check_debug_dump] at h3
      unfold find_and_clip_ear at hle h3 ⊢
      split_ifs <;> omega
    · rw [if_neg c]
      exact Nat.zero_le _

/-- C13: from every state (in particular every state whose links satisfy the
ring invariant) `triangulate_plane` terminates: a call of `find_and_clip_ear`
gives its result within `size - next_dirty` iterations, however much more fuel
it gets; a call that returns true turns exactly one non-DELETED vertex into a
DELETED one and changes no other state; the loop of `triangulate_plane` gives
its result within `size + 1` calls, however much more fuel it gets; and the
number of calls that return true is at most the number of non-DELETED
vertices. -/
theorem triangulate_plane_terminates (ts : tristate) :
    (∀ m, ts.m_verts.length - ts.m_next_dirty ≤ m →
      find_and_clip_ear_loop m ts = find_and_clip_ear ts) ∧
    ((find_and_clip_ear ts).1 = true →
      ∃ v, v < ts.m_verts.length ∧ (ts.vert v).m_state ≠ state_enum.DELETED ∧
        (find_and_clip_ear ts).2.m_verts.map poly_vert.m_state
          = (ts.m_verts.map poly_vert.m_state).set v state_enum.DELETED) ∧
    (∀ m, ts.m_verts.length + 1 ≤ m →
      triangulate_plane_loop m ts = triangulate_plane ts) ∧
    (∀ m, clips_of_loop m ts ≤ live_count ts.m_verts) := by
  refine ⟨fun m hm => ?_, ?_, fun m hm => ?_, fun m => clips_of_loop_le m ts⟩
  · exact find_and_clip_ear_loop_fuel _ ts m (le_refl _) hm
  · exact find_and_clip_ear_loop_states _ ts
  · unfold triangulate_plane
    apply triangulate_plane_loop_fuel _ ts m _ hm
    have := deleted_count_le ts.m_verts
    omega

/-! ## The bridge fallback -/

theorem find_valid_bridge_vert_loop_none (ts : tristate) (v1 : Nat)
    (edge_index : List (index_box × Bool)) :
    ∀ n, (∀ i, i < n → any_edge_intersects ts v1 i edge_index = true) →
      find_valid_bridge_vert_loop ts v1 edge_index n = none := by
  intro n
  induction n with
  | zero => intro _; rfl
  | succ n ih =>
    intro h
    unfold find_valid_bridge_vert_loop
    rw [h n (Nat.lt_succ_self n)]
    simp only [Bool.not_true, Bool.false_eq_true, if_false]
    exact ih (fun i hi => h i (Nat.lt_succ_of_lt hi))

/-- C19, as the code has it: for `v1 > 0`, when every index `i` in `[0, v1)`
gives a segment `(v1, i)` that crosses some indexed edge, find_valid_bridge_vert
returns `v1 - 1` in a build with assertions compiled out, and in a build with
assertions enabled the `assert(0)` of line 303 fails before the fallback. -/
theorem find_valid_bridge_vert_fallback (ts : tristate) (v1 : Nat)
    (edge_index : List (index_box × Bool)) (hv : v1 > 0)
    (h : ∀ i, i < v1 → any_edge_intersects ts v1 i edge_index = true) :
    find_valid_bridge_vert ts v1 edge_index = v1 - 1 ∧
    find_valid_bridge_vert_asserting ts v1 edge_index = none := by
  have hl := find_valid_bridge_vert_loop_none ts v1 edge_index v1 h
  unfold find_valid_bridge_vert find_valid_bridge_vert_asserting
  rw [hl, if_pos hv]
  exact ⟨rfl, rfl⟩

/-- C19 on a state whose only candidate segment crosses an indexed edge. -/
theorem find_valid_bridge_vert_fallback_witness :
    find_valid_bridge_vert blocked_bridge_state 1
        [({ min := { x := 5, y := -5 }, max := { x := 5, y := 5 } }, false)] = 1 - 1 ∧
    find_valid_bridge_vert_asserting blocked_bridge_state 1
        [({ min := { x := 5, y := -5 }, max := { x := 5, y := 5 } }, false)] = none :=
  find_valid_bridge_vert_fallback blocked_bridge_state 1 _ (by decide) (by decide)

/-- C19 as stated fails in a build with assertions enabled: with `v1 = 1 > 0`
and the only candidate segment `(1, 0)` crossing an indexed edge, the function
reaches `assert(0)` and aborts instead of returning `v1 - 1`. -/
theorem find_valid_bridge_vert_abort_counterexample :
    (1 : Nat) > 0 ∧
    (∀ i, i < 1 → any_edge_intersects blocked_bridge_state 1 i
      [({ min := { x := 5, y := -5 }, max := { x := 5, y := 5 } }, false)] = true) ∧
    find_valid_bridge_vert_asserting blocked_bridge_state 1
      [({ min := { x := 5, y := -5 }, max := { x := 5, y := 5 } }, false)] = none := by
  decide

/-! ## Vertex states after ingest -/

theorem state_getD_of_all_dirty (verts : List poly_vert) (h : all_dirty verts) (i : Nat) :
    (verts.getD i poly_vert.dflt).m_state = state_enum.DIRTY := by
  rw [List.getD_eq_getElem?_getD]
  cases hget : verts[i]? with
  | none => rfl
  | some v => exact h v (List.getElem?_mem hget)

theorem all_dirty_set (verts : List poly_vert) (h : all_dirty verts) (i : Nat) (a : poly_vert)
    (ha : a.m_state = state_enum.DIRTY) : all_dirty (verts.set i a) := by
  intro v hv
  rcases List.mem_or_eq_of_mem_set hv with hv | rfl
  · exact h v hv
  · exact ha

theorem all_dirty_set_next (verts : List poly_vert) (h : all_dirty verts) (i n : Nat) :
    all_dirty (set_next verts i n) :=
  all_dirty_set verts h i _ (state_getD_of_all_dirty verts h i)

theorem all_dirty_set_prev (verts : List poly_vert) (h : all_dirty verts) (i n : Nat) :
    all_dirty (set_prev verts i n) :=
  all_dirty_set verts h i _ (state_getD_of_all_dirty verts h i)

theorem all_dirty_append (a b : List poly_vert) (ha : all_dirty a) (hb : all_dirty b) :
    all_dirty (a ++ b) := by
  intro v hv
  rcases List.mem_append.1 hv with hv | hv
  · exact ha v hv
  · exact hb v hv

theorem all_dirty_ingest_path_loop :
    ∀ (n : Nat) (path : List Int), path.length ≤ n →
    ∀ (verts : List poly_vert) (leftmost : Option Nat) (previous_vert : Nat),
      all_dirty verts → all_dirty (ingest_path_loop verts leftmost previous_vert path).1 := by
  intro n
  induction n with
  | zero =>
    intro path hp verts leftmost previous_vert h
    have : path = [] := List.length_eq_zero.1 (Nat.le_zero.1 hp)
    subst this
    exact h
  | succ n ih =>
    intro path hp verts leftmost previous_vert h
    match path, hp with
    | [], _ => exact h
    | [_], _ => exact h
    | x :: y :: rest, hp =>
      unfold ingest_path_loop
      simp only
      apply ih rest (by simp only [List.length_cons] at hp; omega)
      apply all_dirty_append _ _ h
      intro v hv
      rw [List.mem_singleton] at hv
      rw [hv]
      rfl

theorem all_dirty_ingest_path (acc : List poly_vert × List path_info) (path : List Int)
    (h : all_dirty acc.1) : all_dirty (ingest_path acc path).1 := by
  unfold ingest_path
  simp only
  apply all_dirty_set_next
  exact all_dirty_ingest_path_loop _ path (le_refl _) _ _ _ h

theorem all_dirty_foldl_ingest_path (paths : List (List Int)) :
    ∀ acc : List poly_vert × List path_info, all_dirty acc.1 →
      all_dirty (paths.foldl ingest_path acc).1 := by
  induction paths with
  | nil => intro acc h; exact h
  | cons p rest ih =>
    intro acc h
    rw [List.foldl_cons]
    exact ih _ (all_dirty_ingest_path acc p h)

theorem all_dirty_sort_and_remap (ts : tristate) (h : all_dirty ts.m_verts) :
    all_dirty (sort_and_remap ts).m_verts := by
  unfold sort_and_remap
  simp only
  intro v hv
  rw [List.mem_map] at hv
  obtain ⟨w, hw, rfl⟩ := hv
  rw [List.mem_map] at hw
  obtain ⟨i, -, rfl⟩ := hw
  exact state_getD_of_all_dirty ts.m_verts h i

theorem all_dirty_join_one_path (ts : tristate) (v1 : Nat) (h : all_dirty ts.m_verts) :
    all_dirty (join_one_path ts v1).m_verts := by
  unfold join_one_path
  simp only
  apply all_dirty_set_prev
  apply all_dirty_set_next
  apply all_dirty_set_prev
  apply all_dirty_set_next
  apply all_dirty_set_next
  apply all_dirty_set_prev
  apply all_dirty_append _ _ h
  intro v hv
  simp only [List.mem_cons, List.mem_singleton, List.not_mem_nil, or_false] at hv
  rcases hv with rfl | rfl
  · exact state_getD_of_all_dirty ts.m_verts h _
  · exact state_getD_of_all_dirty ts.m_verts h _

theorem all_dirty_join_paths_into_one_poly (ts : tristate) (h : all_dirty ts.m_verts) :
    all_dirty (join_paths_into_one_poly ts).m_verts := by
  unfold join_paths_into_one_poly
  split_ifs
  · simp only
    generalize (List.drop 1 (std_sort path_info.lt ts.m_input_paths)) = l
    have key : ∀ t : tristate, all_dirty t.m_verts →
        all_dirty (l.foldl (fun t pi =>
          match pi.m_leftmost_vert with
          | some v1 => if v1 > 0 then join_one_path t v1 else t
          | none => t) t).m_verts := by
      induction l with
      | nil => intro t ht; exact ht
      | cons pi rest ih =>
        intro t ht
        rw [List.foldl_cons]
        apply ih
        split
        · split_ifs
          · exact all_dirty_join_one_path t _ ht
          · exact ht
        · exact ht
    exact key _ h
  · exact h

/-- C20, as the code has it: after ingest every vertex has state DIRTY,
whatever its turn: the positions of the vertices with
`turn(prev, here, next) <= 0` are inserted in the reflex index, but no state is
set to REFLEX (neither by the ingest loops nor by the sort and join that
complete `init`). -/
theorem init_all_states_dirty (paths : List (List Int)) (debug_halt_step : Int) :
    (∀ v ∈ (paths.foldl ingest_path ([], [])).1, v.m_state = state_enum.DIRTY) ∧
    (∀ v ∈ (init paths debug_halt_step).m_verts, v.m_state = state_enum.DIRTY) := by
  have h0 : all_dirty (paths.foldl ingest_path ([], [])).1 :=
    all_dirty_foldl_ingest_path paths ([], []) (fun v hv => absurd hv (List.not_mem_nil v))
  refine ⟨h0, ?_⟩
  unfold init
  simp only
  split_ifs
  · apply all_dirty_sort_and_remap
    apply all_dirty_join_paths_into_one_poly
    exact all_dirty_sort_and_remap _ h0
  · exact all_dirty_sort_and_remap _ h0

/-- C20 as stated fails on the concave L: after `init` the vertex at index 2,
at (100,100), has `turn(prev, here, next) <= 0` and its position is in the
reflex index, yet its state is DIRTY, not REFLEX. -/
theorem init_reflex_state_counterexample :
    ((init [[0, 0, 200, 0, 200, 100, 100, 100, 100, 200, 0, 200]] 0).vert 2).m_v
      = ⟨100, 100⟩ ∧
    vertex_left_test
      ((init [[0, 0, 200, 0, 200, 100, 100, 100, 100, 200, 0, 200]] 0).vert
        ((init [[0, 0, 200, 0, 200, 100, 100, 100, 100, 200, 0, 200]] 0).vert 2).m_prev).m_v
      ((init [[0, 0, 200, 0, 200, 100, 100, 100, 100, 200, 0, 200]] 0).vert 2).m_v
      ((init [[0, 0, 200, 0, 200, 100, 100, 100, 100, 200, 0, 200]] 0).vert
        ((init [[0, 0, 200, 0, 200, 100, 100, 100, 100, 200, 0, 200]] 0).vert 2).m_next).m_v
      ≤ 0 ∧
    (⟨100, 100⟩ : vec2)
      ∈ (init [[0, 0, 200, 0, 200, 100, 100, 100, 100, 200, 0, 200]] 0).m_reflex_point_index ∧
    ((init [[0, 0, 200, 0, 200, 100, 100, 100, 100, 200, 0, 200]] 0).vert 2).m_state
      = state_enum.DIRTY ∧
    ((init [[0, 0, 200, 0, 200, 100, 100, 100, 100, 200, 0, 200]] 0).vert 2).m_state
      ≠ state_enum.REFLEX := by
  decide

/-! ## The crossing test of the bridge finder -/

theorem edge_entry_intersects_eq (ev0 ev1 : vec2) (entry : index_box × Bool) :
    edge_entry_intersects ev0 ev1 entry =
      (decide ((edges_intersect_sub ev0 ev1 (entry_v0 entry) (entry_v1 entry)).1 < 0) &&
        decide ((edges_intersect_sub ev0 ev1 (entry_v0 entry) (entry_v1 entry)).2 ≤ 0)) := rfl

theorem edges_intersect_sub_fst_neg_iff (e0v0 e0v1 e1v0 e1v1 : vec2) :
    (edges_intersect_sub e0v0 e0v1 e1v0 e1v1).1 < 0 ↔
      strictly_opposite_sides e1v0 e1v1 e0v0 e0v1 := by
  unfold edges_intersect_sub strictly_opposite_sides
  by_cases hz : e0v0.x = e0v1.x ∧ e0v0.y = e0v1.y ∧ e1v0.x = e1v1.x ∧ e1v0.y = e1v1.y ∧
      e1v0.x = e0v0.x ∧ e1v0.y = e0v0.y
  · rw [if_pos hz]
    have h1 : e1v0 = e1v1 := by
      cases e1v0; cases e1v1; simp only [vec2.mk.injEq]; exact ⟨hz.2.2.1, hz.2.2.2.1⟩
    rw [h1, determinant_sint16_same_01, determinant_sint16_same_01]
    simp
  · rw [if_neg hz]
    simp only
    rcases lt_trichotomy (determinant_sint16 e1v0 e1v1 e0v0) 0 with a | a | a <;>
    rcases lt_trichotomy (determinant_sint16 e1v0 e1v1 e0v1) 0 with b | b | b <;>
    split_ifs <;> omega

theorem edges_intersect_sub_snd_nonpos_iff (e0v0 e0v1 e1v0 e1v1 : vec2) :
    (edges_intersect_sub e0v0 e0v1 e1v0 e1v1).2 ≤ 0 ↔
      ¬ strictly_same_side e0v0 e0v1 e1v0 e1v1 := by
  unfold edges_intersect_sub strictly_same_side
  by_cases hz : e0v0.x = e0v1.x ∧ e0v0.y = e0v1.y ∧ e1v0.x = e1v1.x ∧ e1v0.y = e1v1.y ∧
      e1v0.x = e0v0.x ∧ e1v0.y = e0v0.y
  · rw [if_pos hz]
    have h1 : e0v0 = e0v1 := by
      cases e0v0; cases e0v1; simp only [vec2.mk.injEq]; exact ⟨hz.1, hz.2.1⟩
    rw [h1, determinant_sint16_same_01, determinant_sint16_same_01]
    simp
  · rw [if_neg hz]
    simp only
    rcases lt_trichotomy (determinant_sint16 e0v0 e0v1 e1v0) 0 with a | a | a <;>
    rcases lt_trichotomy (determinant_sint16 e0v0 e0v1 e1v1) 0 with b | b | b <;>
    split_ifs <;> omega

/-- The crossing test of `any_edge_intersects` in terms of sides: the endpoints
of `e` lie strictly on opposite sides of the line of `ee`, and the endpoints
of `ee` do not lie strictly on the same side of the line of `e`. -/
theorem edge_entry_intersects_iff (ev0 ev1 : vec2) (entry : index_box × Bool) :
    edge_entry_intersects ev0 ev1 entry = true ↔
      strictly_opposite_sides (entry_v0 entry) (entry_v1 entry) ev0 ev1 ∧
      ¬ strictly_same_side ev0 ev1 (entry_v0 entry) (entry_v1 entry) := by
  rw [edge_entry_intersects_eq, Bool.and_eq_true, decide_eq_true_iff, decide_eq_true_iff,
    edges_intersect_sub_fst_neg_iff, edges_intersect_sub_snd_nonpos_iff]

/-- C18: if the candidate segment `e` has an endpoint at the position of an
endpoint of the indexed edge `ee`, the crossing test of `any_edge_intersects`
does not count `ee` as crossing `e`; and if the endpoints of each segment lie
strictly on opposite sides of the line of the other, it does. -/
theorem crossing_test_shared_endpoint_and_proper_crossing :
    (∀ (ev0 ev1 : vec2) (entry : index_box × Bool),
      (ev0 = entry_v0 entry ∨ ev0 = entry_v1 entry ∨
        ev1 = entry_v0 entry ∨ ev1 = entry_v1 entry) →
      edge_entry_intersects ev0 ev1 entry = false) ∧
    (∀ (ev0 ev1 : vec2) (entry : index_box × Bool),
      strictly_opposite_sides (entry_v0 entry) (entry_v1 entry) ev0 ev1 →
      strictly_opposite_sides ev0 ev1 (entry_v0 entry) (entry_v1 entry) →
      edge_entry_intersects ev0 ev1 entry = true) := by
  constructor
  · intro ev0 ev1 entry h
    rw [← Bool.not_eq_true, edge_entry_intersects_iff]
    rintro ⟨ho, -⟩
    unfold strictly_opposite_sides at ho
    rcases h with h | h | h | h
    · rw [h, determinant_sint16_same_02] at ho; omega
    · rw [h, determinant_sint16_same_12] at ho; omega
    · rw [h, determinant_sint16_same_02] at ho; omega
    · rw [h, determinant_sint16_same_12] at ho; omega
  · intro ev0 ev1 entry h1 h2
    rw [edge_entry_intersects_iff]
    refine ⟨h1, ?_⟩
    unfold strictly_opposite_sides at h2
    unfold strictly_same_side
    omega

/-- C18 on two concrete entries: the edge (0,0)-(10,10) stored with slope flag
true shares the endpoint (0,0) with the candidate (0,0)-(10,-3) and is not
counted; stored as the other diagonal of its box it properly crosses the
candidate (0,5)-(10,5) and is counted. -/
theorem crossing_test_shared_endpoint_and_proper_crossing_witness :
    edge_entry_intersects ⟨0, 0⟩ ⟨10, -3⟩ (⟨⟨0, 0⟩, ⟨10, 10⟩⟩, true) = false ∧
    edge_entry_intersects ⟨0, 5⟩ ⟨10, 5⟩ (⟨⟨0, 0⟩, ⟨10, 10⟩⟩, false) = true :=
  ⟨crossing_test_shared_endpoint_and_proper_crossing.1 ⟨0, 0⟩ ⟨10, -3⟩
     (⟨⟨0, 0⟩, ⟨10, 10⟩⟩, true) (by decide),
   crossing_test_shared_endpoint_and_proper_crossing.2 ⟨0, 5⟩ ⟨10, 5⟩
     (⟨⟨0, 0⟩, ⟨10, 10⟩⟩, false) (by decide) (by decide)⟩

theorem strictly_opposite_of_touches_interior (e0 e1 ee0 ee1 : vec2)
    (h : touches_interior e0 e1 ee0 ee1)
    (hn : ¬ (determinant_exact ee0 ee1 e0 = 0 ∧ determinant_exact ee0 ee1 e1 = 0)) :
    ((determinant_exact ee0 ee1 e0 < 0 ∧ determinant_exact ee0 ee1 e1 > 0) ∨
      (determinant_exact ee0 ee1 e0 > 0 ∧ determinant_exact ee0 ee1 e1 < 0)) ∧
    ¬ ((determinant_exact e0 e1 ee0 < 0 ∧ determinant_exact e0 e1 ee1 < 0) ∨
      (determinant_exact e0 e1 ee0 > 0 ∧ determinant_exact e0 e1 ee1 > 0)) := by
  obtain ⟨p, ⟨s, hs0, hs1, hsx, hsy⟩, ⟨t, ht0, ht1, htx, hty⟩, hpa, hpb⟩ := h
  have ht0' : t ≠ 0 := by
    rintro rfl
    apply hpa
    ext
    · simpa using htx
    · simpa using hty
  have ht1' : t ≠ 1 := by
    rintro rfl
    apply hpb
    ext
    · simp only [htx]; ring
    · simp only [hty]; ring
  have htpos : 0 < t := lt_of_le_of_ne ht0 (Ne.symm ht0')
  have htlt : t < 1 := lt_of_le_of_ne ht1 ht1'
  -- the point lies on both lines
  have k1 : (1 - t) * (determinant_exact ee0 ee1 e0 : ℚ) + t * (determinant_exact ee0 ee1 e1 : ℚ)
      = 0 := by
    have hx : (e0.x : ℚ) + t * (e1.x - e0.x) = ee0.x + s * (ee1.x - ee0.x) := by
      rw [← htx, ← hsx]
    have hy : (e0.y : ℚ) + t * (e1.y - e0.y) = ee0.y + s * (ee1.y - ee0.y) := by
      rw [← hty, ← hsy]
    unfold determinant_exact
    push_cast
    linear_combination (↑ee1.x - ↑ee0.x) * hy - (↑ee1.y - ↑ee0.y) * hx
  have k2 : (1 - s) * (determinant_exact e0 e1 ee0 : ℚ) + s * (determinant_exact e0 e1 ee1 : ℚ)
      = 0 := by
    have hx : (e0.x : ℚ) + t * (e1.x - e0.x) = ee0.x + s * (ee1.x - ee0.x) := by
      rw [← htx, ← hsx]
    have hy : (e0.y : ℚ) + t * (e1.y - e0.y) = ee0.y + s * (ee1.y - ee0.y) := by
      rw [← hty, ← hsy]
    unfold determinant_exact
    push_cast
    linear_combination (↑e1.y - ↑e0.y) * hx - (↑e1.x - ↑e0.x) * hy
  constructor
  · rcases lt_trichotomy (determinant_exact ee0 ee1 e0) 0 with a | a | a
    · left
      refine ⟨a, ?_⟩
      have a' : (determinant_exact ee0 ee1 e0 : ℚ) < 0 := by exact_mod_cast a
      have : (0 : ℚ) < determinant_exact ee0 ee1 e1 := by
        by_contra hc
        push_neg at hc
        nlinarith [mul_pos (sub_pos.2 htlt) (neg_pos.2 a'), mul_nonneg ht0 (neg_nonneg.2 hc)]
      exact_mod_cast this
    · exfalso
      apply hn
      refine ⟨a, ?_⟩
      have a' : (determinant_exact ee0 ee1 e0 : ℚ) = 0 := by exact_mod_cast a
      rw [a', mul_zero, zero_add] at k1
      have := (mul_eq_zero.1 k1).resolve_left ht0'
      exact_mod_cast this
    · right
      refine ⟨a, ?_⟩
      have a' : (0 : ℚ) < determinant_exact ee0 ee1 e0 := by exact_mod_cast a
      have : (determinant_exact ee0 ee1 e1 : ℚ) < 0 := by
        by_contra hc
        push_neg at hc
        nlinarith [mul_pos (sub_pos.2 htlt) a', mul_nonneg ht0 hc]
      exact_mod_cast this
  · rintro (⟨a, b⟩ | ⟨a, b⟩)
    · have a' : (determinant_exact e0 e1 ee0 : ℚ) < 0 := by exact_mod_cast a
      have b' : (determinant_exact e0 e1 ee1 : ℚ) < 0 := by exact_mod_cast b
      rcases eq_or_lt_of_le hs0 with rfl | hspos
      · simp at k2; linarith
      · nlinarith [mul_nonneg (sub_nonneg.2 hs1) (le_of_lt (neg_pos.2 a')),
          mul_pos hspos (neg_pos.2 b')]
    · have a' : (0 : ℚ) < determinant_exact e0 e1 ee0 := by exact_mod_cast a
      have b' : (0 : ℚ) < determinant_exact e0 e1 ee1 := by exact_mod_cast b
      rcases eq_or_lt_of_le hs0 with rfl | hspos
      · simp at k2; linarith
      · nlinarith [mul_nonneg (sub_nonneg.2 hs1) (le_of_lt a'), mul_pos hspos b']

theorem cross_difference_identity (e0 e1 ee0 ee1 : vec2) :
    determinant_exact e0 e1 ee1 - determinant_exact e0 e1 ee0
      = determinant_exact ee0 ee1 e0 - determinant_exact ee0 ee1 e1 := by
  unfold determinant_exact
  ring

theorem touches_interior_of_sides (e0 e1 ee0 ee1 : vec2)
    (ho : (determinant_exact ee0 ee1 e0 < 0 ∧ determinant_exact ee0 ee1 e1 > 0) ∨
      (determinant_exact ee0 ee1 e0 > 0 ∧ determinant_exact ee0 ee1 e1 < 0))
    (hs : ¬ ((determinant_exact e0 e1 ee0 < 0 ∧ determinant_exact e0 e1 ee1 < 0) ∨
      (determinant_exact e0 e1 ee0 > 0 ∧ determinant_exact e0 e1 ee1 > 0))) :
    touches_interior e0 e1 ee0 ee1 := by
  have hid := cross_difference_identity e0 e1 ee0 ee1
  have hD : determinant_exact ee0 ee1 e0 - determinant_exact ee0 ee1 e1 ≠ 0 := by omega
  have hDq : ((determinant_exact ee0 ee1 e0 : ℚ) - (determinant_exact ee0 ee1 e1 : ℚ)) ≠ 0 := by
    exact_mod_cast hD
  have hne : e0 ≠ e1 := by
    rintro rfl
    omega
  -- parameters of the common point on the two segments
  have ht : 0 < (determinant_exact ee0 ee1 e0 : ℚ)
        / ((determinant_exact ee0 ee1 e0 : ℚ) - (determinant_exact ee0 ee1 e1 : ℚ)) ∧
      (determinant_exact ee0 ee1 e0 : ℚ)
        / ((determinant_exact ee0 ee1 e0 : ℚ) - (determinant_exact ee0 ee1 e1 : ℚ)) < 1 := by
    rcases ho with ⟨a, b⟩ | ⟨a, b⟩
    · have a' : (determinant_exact ee0 ee1 e0 : ℚ) < 0 := by exact_mod_cast a
      have b' : (0 : ℚ) < determinant_exact ee0 ee1 e1 := by exact_mod_cast b
      have hneg : (determinant_exact ee0 ee1 e0 : ℚ) - (determinant_exact ee0 ee1 e1 : ℚ) < 0 := by
        linarith
      exact ⟨div_pos_of_neg_of_neg a' hneg, by rw [div_lt_one_of_neg hneg]; linarith⟩
    · have a' : (0 : ℚ) < determinant_exact ee0 ee1 e0 := by exact_mod_cast a
      have b' : (determinant_exact ee0 ee1 e1 : ℚ) < 0 := by exact_mod_cast b
      have hpos : 0 < (determinant_exact ee0 ee1 e0 : ℚ) - (determinant_exact ee0 ee1 e1 : ℚ) := by
        linarith
      exact ⟨div_pos a' hpos, by rw [div_lt_one hpos]; linarith⟩
  have hs' : 0 ≤ -(determinant_exact e0 e1 ee0 : ℚ)
        / ((determinant_exact ee0 ee1 e0 : ℚ) - (determinant_exact ee0 ee1 e1 : ℚ)) ∧
      -(determinant_exact e0 e1 ee0 : ℚ)
        / ((determinant_exact ee0 ee1 e0 : ℚ) - (determinant_exact ee0 ee1 e1 : ℚ)) ≤ 1 := by
    have hidq : (determinant_exact e0 e1 ee1 : ℚ) - (determinant_exact e0 e1 ee0 : ℚ)
        = (determinant_exact ee0 ee1 e0 : ℚ) - (determinant_exact ee0 ee1 e1 : ℚ) := by
      exact_mod_cast hid
    rcases lt_or_gt_of_ne hD with hneg | hpos
    · have hnegq : (determinant_exact ee0 ee1 e0 : ℚ) - (determinant_exact ee0 ee1 e1 : ℚ) < 0 := by
        exact_mod_cast hneg
      have h10 : 0 ≤ determinant_exact e0 e1 ee0 := by omega
      have h11 : determinant_exact e0 e1 ee1 ≤ 0 := by omega
      have h10q : (0 : ℚ) ≤ determinant_exact e0 e1 ee0 := by exact_mod_cast h10
      have h11q : (determinant_exact e0 e1 ee1 : ℚ) ≤ 0 := by exact_mod_cast h11
      constructor
      · exact div_nonneg_of_nonpos (by linarith) (le_of_lt hnegq)
      · rw [div_le_one_of_neg hnegq]; linarith
    · have hposq : 0 < (determinant_exact ee0 ee1 e0 : ℚ) - (determinant_exact ee0 ee1 e1 : ℚ) := by
        exact_mod_cast hpos
      have h10 : determinant_exact e0 e1 ee0 ≤ 0 := by omega
      have h11 : 0 ≤ determinant_exact e0 e1 ee1 := by omega
      have h10q : (determinant_exact e0 e1 ee0 : ℚ) ≤ 0 := by exact_mod_cast h10
      have h11q : (0 : ℚ) ≤ determinant_exact e0 e1 ee1 := by exact_mod_cast h11
      constructor
      · exact div_nonneg (by linarith) (le_of_lt hposq)
      · rw [div_le_one hposq]; linarith
  refine ⟨((e0.x : ℚ) + (determinant_exact ee0 ee1 e0 : ℚ)
        / ((determinant_exact ee0 ee1 e0 : ℚ) - (determinant_exact ee0 ee1 e1 : ℚ)) * (e1.x - e0.x),
      (e0.y : ℚ) + (determinant_exact ee0 ee1 e0 : ℚ)
        / ((determinant_exact ee0 ee1 e0 : ℚ) - (determinant_exact ee0 ee1 e1 : ℚ)) * (e1.y - e0.y)),
    ⟨_, hs'.1, hs'.2, ?_, ?_⟩, ⟨_, le_of_lt ht.1, le_of_lt ht.2, rfl, rfl⟩, ?_, ?_⟩
  · simp only
    field_simp
    unfold determinant_exact
    push_cast
    ring
  · simp only
    field_simp
    unfold determinant_exact
    push_cast
    ring
  · intro hp
    rw [Prod.mk.injEq] at hp
    have hx := hp.1
    have hy := hp.2
    have tne := ne_of_gt ht.1
    have hx0 : ((e1.x : ℚ) - e0.x) = 0 := by
      have : (determinant_exact ee0 ee1 e0 : ℚ)
        / ((determinant_exact ee0 ee1 e0 : ℚ) - (determinant_exact ee0 ee1 e1 : ℚ))
          * ((e1.x : ℚ) - e0.x) = 0 := by linarith
      exact (mul_eq_zero.1 this).resolve_left tne
    have hy0 : ((e1.y : ℚ) - e0.y) = 0 := by
      have : (determinant_exact ee0 ee1 e0 : ℚ)
        / ((determinant_exact ee0 ee1 e0 : ℚ) - (determinant_exact ee0 ee1 e1 : ℚ))
          * ((e1.y : ℚ) - e0.y) = 0 := by linarith
      exact (mul_eq_zero.1 this).resolve_left tne
    apply hne
    cases e0; cases e1
    simp only [vec2.mk.injEq]
    simp only at hx0 hy0
    constructor
    · have : ((_ : Int) : ℚ) = ((_ : Int) : ℚ) := (sub_eq_zero.1 hx0).symm
      exact_mod_cast this
    · have : ((_ : Int) : ℚ) = ((_ : Int) : ℚ) := (sub_eq_zero.1 hy0).symm
      exact_mod_cast this
  · intro hp
    rw [Prod.mk.injEq] at hp
    have hx := hp.1
    have hy := hp.2
    have tne : (determinant_exact ee0 ee1 e0 : ℚ)
        / ((determinant_exact ee0 ee1 e0 : ℚ) - (determinant_exact ee0 ee1 e1 : ℚ)) - 1 ≠ 0 := by
      have := ht.2
      intro h; linarith
    have hx0 : ((e1.x : ℚ) - e0.x) = 0 := by
      have : ((determinant_exact ee0 ee1 e0 : ℚ)
        / ((determinant_exact ee0 ee1 e0 : ℚ) - (determinant_exact ee0 ee1 e1 : ℚ)) - 1)
          * ((e1.x : ℚ) - e0.x) = 0 := by linarith
      exact (mul_eq_zero.1 this).resolve_left tne
    have hy0 : ((e1.y : ℚ) - e0.y) = 0 := by
      have : ((determinant_exact ee0 ee1 e0 : ℚ)
        / ((determinant_exact ee0 ee1 e0 : ℚ) - (determinant_exact ee0 ee1 e1 : ℚ)) - 1)
          * ((e1.y : ℚ) - e0.y) = 0 := by linarith
      exact (mul_eq_zero.1 this).resolve_left tne
    apply hne
    cases e0; cases e1
    simp only [vec2.mk.injEq]
    simp only at hx0 hy0
    constructor
    · have : ((_ : Int) : ℚ) = ((_ : Int) : ℚ) := (sub_eq_zero.1 hx0).symm
      exact_mod_cast this
    · have : ((_ : Int) : ℚ) = ((_ : Int) : ℚ) := (sub_eq_zero.1 hy0).symm
      exact_mod_cast this

theorem entry_endpoints_is_sint16 (entry : index_box × Bool)
    (hmin : entry.1.min.is_sint16) (hmax : entry.1.max.is_sint16) :
    (entry_v0 entry).is_sint16 ∧ (entry_v1 entry).is_sint16 := by
  unfold entry_v0 entry_v1 vec2.is_sint16
  simp only
  constructor <;> constructor
  · exact hmin.1
  · split_ifs
    · exact hmax.2
    · exact hmin.2
  · exact hmax.1
  · split_ifs
    · exact hmin.2
    · exact hmax.2

/-- For 16-bit points the crossing test of `any_edge_intersects` holds exactly
when some point of the closed segment `ee` lies in the open interior of `e`
and the endpoints of `e` are not both on the line of `ee`. -/
theorem edge_entry_intersects_iff_touches_interior (ev0 ev1 : vec2) (entry : index_box × Bool)
    (h0 : ev0.is_sint16) (h1 : ev1.is_sint16)
    (hmin : entry.1.min.is_sint16) (hmax : entry.1.max.is_sint16) :
    edge_entry_intersects ev0 ev1 entry = true ↔
      touches_interior ev0 ev1 (entry_v0 entry) (entry_v1 entry) ∧
      ¬ (determinant_exact (entry_v0 entry) (entry_v1 entry) ev0 = 0 ∧
        determinant_exact (entry_v0 entry) (entry_v1 entry) ev1 = 0) := by
  obtain ⟨g0, g1⟩ := entry_endpoints_is_sint16 entry hmin hmax
  rw [edge_entry_intersects_iff]
  unfold strictly_opposite_sides strictly_same_side
  rw [determinant_sint16_eq_exact _ _ _ g0 g1 h0, determinant_sint16_eq_exact _ _ _ g0 g1 h1,
    determinant_sint16_eq_exact _ _ _ h0 h1 g0, determinant_sint16_eq_exact _ _ _ h0 h1 g1]
  constructor
  · rintro ⟨ho, hs⟩
    exact ⟨touches_interior_of_sides _ _ _ _ ho hs, by omega⟩
  · rintro ⟨ht, hn⟩
    exact strictly_opposite_of_touches_interior _ _ _ _ ht hn

/-- C17 fails on collinear overlap: the indexed edge (1,0)-(3,0), stored by
`add_edge` as the box from (1,0) to (3,0) with slope flag false and rebuilt
with these endpoints, lies in the open interior of the candidate segment from
vertex 1 at (4,0) to vertex 0 at (0,0), for instance at the point (2,0), and
`any_edge_intersects` returns false. -/
theorem any_edge_intersects_misses_collinear_overlap :
    collinear_overlap_state.m_edge_index = some [(⟨⟨1, 0⟩, ⟨3, 0⟩⟩, false)] ∧
    entry_v0 (⟨⟨1, 0⟩, ⟨3, 0⟩⟩, false) = ⟨1, 0⟩ ∧
    entry_v1 (⟨⟨1, 0⟩, ⟨3, 0⟩⟩, false) = ⟨3, 0⟩ ∧
    (collinear_overlap_state.vert 1).m_v = ⟨4, 0⟩ ∧
    (collinear_overlap_state.vert 0).m_v = ⟨0, 0⟩ ∧
    touches_interior ⟨4, 0⟩ ⟨0, 0⟩ ⟨1, 0⟩ ⟨3, 0⟩ ∧
    any_edge_intersects collinear_overlap_state 1 0 [(⟨⟨1, 0⟩, ⟨3, 0⟩⟩, false)] = false := by
  refine ⟨by decide, by decide, by decide, by decide, by decide, ?_, by decide⟩
  refine ⟨((2 : ℚ), (0 : ℚ)), ⟨1 / 2, by norm_num, by norm_num, by norm_num, by norm_num⟩,
    ⟨1 / 2, by norm_num, by norm_num, by norm_num, by norm_num⟩, ?_, ?_⟩
  · intro h
    rw [Prod.mk.injEq] at h
    norm_num at h
  · intro h
    rw [Prod.mk.injEq] at h
    norm_num at h

/-! ## The sort -/

theorem std_sort_insert_perm {α : Type} (less : α → α → Bool) (x : α) (l : List α) :
    (std_sort_insert less x l).Perm (x :: l) := by
  induction l with
  | nil => exact List.Perm.refl _
  | cons e rest ih =>
    unfold std_sort_insert
    split_ifs
    · exact (List.Perm.cons e ih).trans (List.Perm.swap x e rest)
    · exact List.Perm.refl _

theorem std_sort_foldl_perm {α : Type} (less : α → α → Bool) (l : List α) :
    ∀ acc : List α,
      (l.foldl (fun rev_sorted x => std_sort_insert less x rev_sorted) acc).Perm (l ++ acc) := by
  induction l with
  | nil => intro acc; exact List.Perm.refl _
  | cons x rest ih =>
    intro acc
    rw [List.foldl_cons]
    refine (ih _).trans ?_
    refine (List.Perm.append_left rest (std_sort_insert_perm less x acc)).trans ?_
    simp only [List.cons_append]
    exact (List.perm_middle).trans (List.Perm.refl _)

/-- The output of `std_sort` is a rearrangement of its input. -/
theorem std_sort_perm {α : Type} (less : α → α → Bool) (l : List α) :
    (std_sort less l).Perm l := by
  unfold std_sort
  refine (List.reverse_perm _).trans ?_
  have := std_sort_foldl_perm less l []
  simpa using this

theorem std_sort_insert_pairwise {α : Type} (less : α → α → Bool)
    (hasymm : ∀ a b, less a b = true → less b a = false)
    (htrans : ∀ a b c, less a b = false → less b c = false → less a c = false)
    (x : α) (l : List α) (h : l.Pairwise (fun a b => less a b = false)) :
    (std_sort_insert less x l).Pairwise (fun a b => less a b = false) := by
  induction l with
  | nil => exact List.pairwise_singleton _ _
  | cons e rest ih =>
    unfold std_sort_insert
    rw [List.pairwise_cons] at h
    split_ifs with c
    · rw [List.pairwise_cons]
      refine ⟨?_, ih h.2⟩
      intro b hb
      have hb2 := (List.Perm.mem_iff (std_sort_insert_perm less x rest)).1 hb
      rw [List.mem_cons] at hb2
      rcases hb2 with rfl | hb2
      · exact hasymm _ _ c
      · exact h.1 b hb2
    · rw [List.pairwise_cons]
      refine ⟨?_, List.pairwise_cons.2 h⟩
      have c' : less x e = false := by simpa using c
      intro b hb
      rw [List.mem_cons] at hb
      rcases hb with rfl | hb
      · exact c'
      · exact htrans _ _ _ c' (h.1 b hb)

/-- The output of `std_sort` is ascending: no later element is less than an
earlier one, for a comparator that is asymmetric and whose negation is
transitive. -/
theorem std_sort_pairwise {α : Type} (less : α → α → Bool)
    (hasymm : ∀ a b, less a b = true → less b a = false)
    (htrans : ∀ a b c, less a b = false → less b c = false → less a c = false)
    (l : List α) : (std_sort less l).Pairwise (fun a b => less b a = false) := by
  unfold std_sort
  rw [List.pairwise_reverse]
  have key : ∀ (l acc : List α), acc.Pairwise (fun a b => less a b = false) →
      (l.foldl (fun rev_sorted x => std_sort_insert less x rev_sorted) acc).Pairwise
        (fun a b => less a b = false) := by
    intro l
    induction l with
    | nil => intro acc h; exact h
    | cons x rest ih =>
      intro acc h
      rw [List.foldl_cons]
      exact ih _ (std_sort_insert_pairwise less hasymm htrans x acc h)
  exact key l [] List.Pairwise.nil

theorem compare_vertices_eq_neg_one_iff (a b : poly_vert) :
    compare_vertices a b = -1 ↔ a.m_v.x < b.m_v.x ∨ (a.m_v.x = b.m_v.x ∧ a.m_v.y < b.m_v.y) := by
  unfold compare_vertices
  split_ifs <;> (try simp only [false_iff, true_iff]) <;> omega

theorem compare_vertices_le_zero_iff (a b : poly_vert) :
    compare_vertices a b ≤ 0 ↔ compare_vertices b a ≠ -1 := by
  unfold compare_vertices
  split_ifs <;> omega

theorem compare_vertices_eq_zero_iff (a b : poly_vert) :
    compare_vertices a b = 0 ↔ a.m_v = b.m_v := by
  unfold compare_vertices
  cases a with
  | mk av an ap as =>
    cases b with
    | mk bv bn bp bs =>
      cases av; cases bv
      simp only [vec2.mk.injEq]
      split_ifs <;> (try simp only [false_iff, true_iff]) <;> omega

theorem vert_index_sorter_asymm (verts : List poly_vert) (a b : Nat)
    (h : vert_index_sorter verts a b = true) : vert_index_sorter verts b a = false := by
  unfold vert_index_sorter at h ⊢
  simp only [decide_eq_true_eq, decide_eq_false_iff_not] at h ⊢
  rw [compare_vertices_eq_neg_one_iff] at h ⊢
  omega

theorem vert_index_sorter_trans (verts : List poly_vert) (a b c : Nat)
    (h1 : vert_index_sorter verts a b = false) (h2 : vert_index_sorter verts b c = false) :
    vert_index_sorter verts a c = false := by
  unfold vert_index_sorter at h1 h2 ⊢
  simp only [decide_eq_false_iff_not] at h1 h2 ⊢
  rw [compare_vertices_eq_neg_one_iff] at h1 h2 ⊢
  omega

theorem sort_and_remap_verts (ts : tristate) :
    (sort_and_remap ts).m_verts =
      ((sorted_indices ts.m_verts).map (fun old_index =>
        ts.m_verts.getD old_index poly_vert.dflt)).map (relink ts.m_verts) := rfl

theorem sort_and_remap_paths (ts : tristate) :
    (sort_and_remap ts).m_input_paths =
      ts.m_input_paths.map (fun pi =>
        { pi with m_leftmost_vert := pi.m_leftmost_vert.map (relabel ts.m_verts) }) := rfl

theorem sorted_indices_perm (verts : List poly_vert) :
    (sorted_indices verts).Perm (List.range verts.length) :=
  std_sort_perm _ _

theorem length_sorted_indices (verts : List poly_vert) :
    (sorted_indices verts).length = verts.length := by
  rw [(sorted_indices_perm verts).length_eq, List.length_range]

theorem sorted_indices_nodup (verts : List poly_vert) : (sorted_indices verts).Nodup :=
  (sorted_indices_perm verts).nodup_iff.2 (List.nodup_range _)

theorem getD_mem_of_lt {α : Type} (l : List α) (k : Nat) (d : α) (h : k < l.length) :
    l.getD k d ∈ l := by
  rw [List.getD_eq_getElem?_getD, List.getElem?_eq_getElem h]
  exact List.getElem_mem _

theorem sorted_indices_getD_lt (verts : List poly_vert) (k : Nat) (h : k < verts.length) :
    (sorted_indices verts).getD k 0 < verts.length := by
  have hm := getD_mem_of_lt (sorted_indices verts) k 0 (by rw [length_sorted_indices]; exact h)
  rw [(sorted_indices_perm verts).mem_iff, List.mem_range] at hm
  exact hm

theorem sorted_indices_surj (verts : List poly_vert) (i : Nat) (h : i < verts.length) :
    ∃ k, k < verts.length ∧ (sorted_indices verts).getD k 0 = i := by
  have hm : i ∈ sorted_indices verts := by
    rw [(sorted_indices_perm verts).mem_iff, List.mem_range]
    exact h
  obtain ⟨k, hk, hki⟩ := List.getElem_of_mem hm
  refine ⟨k, by rw [← length_sorted_indices verts]; exact hk, ?_⟩
  rw [List.getD_eq_getElem?_getD, List.getElem?_eq_getElem hk]
  exact hki

theorem getD_inj_of_nodup (l : List Nat) (hn : l.Nodup) (a b : Nat) (ha : a < l.length)
    (hb : b < l.length) (h : l.getD a 0 = l.getD b 0) : a = b := by
  rw [List.getD_eq_getElem?_getD, List.getD_eq_getElem?_getD, List.getElem?_eq_getElem ha,
    List.getElem?_eq_getElem hb] at h
  simp only [Option.getD_some] at h
  exact (List.Nodup.getElem_inj_iff hn).1 h

theorem old_to_new_foldl (vi : List Nat) (hn : vi.Nodup) (init : List Nat)
    (hlt : ∀ k, k < vi.length → vi.getD k 0 < init.length) :
    ∀ m, m ≤ vi.length →
      ((List.range m).foldl (fun o2n i => o2n.set (vi.getD i 0) i) init).length = init.length ∧
      ∀ k, k < m →
        ((List.range m).foldl (fun o2n i => o2n.set (vi.getD i 0) i) init).getD (vi.getD k 0) 0
          = k := by
  intro m
  induction m with
  | zero => intro _; exact ⟨rfl, fun k hk => absurd hk (Nat.not_lt_zero k)⟩
  | succ m ih =>
    intro hm
    obtain ⟨hl, hk⟩ := ih (Nat.le_of_succ_le hm)
    rw [List.range_succ, List.foldl_append]
    simp only [List.foldl_cons, List.foldl_nil]
    refine ⟨by rw [List.length_set]; exact hl, ?_⟩
    intro k hkm
    rw [getD_set_eq]
    by_cases c : k = m
    · subst c
      rw [if_pos ⟨rfl, by rw [hl]; exact hlt k hm⟩]
    · have hne : vi.getD m 0 ≠ vi.getD k 0 := by
        intro e
        exact c (getD_inj_of_nodup vi hn k m (by omega) hm e.symm)
      rw [if_neg (fun h => hne h.1)]
      exact hk k (by omega)

/-- The relabelling sends the old index at place `k` of the sorted index array
to `k`. -/
theorem relabel_sorted_indices (verts : List poly_vert) (k : Nat) (h : k < verts.length) :
    relabel verts ((sorted_indices verts).getD k 0) = k := by
  unfold relabel old_to_new_map
  have := old_to_new_foldl (sorted_indices verts) (sorted_indices_nodup verts)
    (List.replicate verts.length 0)
    (by
      intro k hk
      rw [List.length_replicate]
      exact sorted_indices_getD_lt verts k (by rw [← length_sorted_indices verts]; exact hk))
    (sorted_indices verts).length (le_refl _)
  exact this.2 k (by rw [length_sorted_indices]; exact h)

theorem relabel_lt (verts : List poly_vert) (i : Nat) (h : i < verts.length) :
    relabel verts i < verts.length := by
  obtain ⟨k, hk, rfl⟩ := sorted_indices_surj verts i h
  rw [relabel_sorted_indices verts k hk]
  exact hk

theorem sorted_indices_relabel (verts : List poly_vert) (i : Nat) (h : i < verts.length) :
    (sorted_indices verts).getD (relabel verts i) 0 = i := by
  obtain ⟨k, hk, rfl⟩ := sorted_indices_surj verts i h
  rw [relabel_sorted_indices verts k hk]

theorem relabel_injective (verts : List poly_vert) (i j : Nat) (hi : i < verts.length)
    (hj : j < verts.length) (h : relabel verts i = relabel verts j) : i = j := by
  rw [← sorted_indices_relabel verts i hi, ← sorted_indices_relabel verts j hj, h]

theorem getD_map_of_lt {α β : Type} (f : α → β) (l : List α) (k : Nat) (h : k < l.length)
    (d : β) (d2 : α) : (l.map f).getD k d = f (l.getD k d2) := by
  rw [List.getD_eq_getElem?_getD, List.getD_eq_getElem?_getD, List.getElem?_map,
    List.getElem?_eq_getElem h]
  rfl

theorem length_sort_and_remap (ts : tristate) :
    (sort_and_remap ts).m_verts.length = ts.m_verts.length := by
  rw [sort_and_remap_verts, List.length_map, List.length_map, length_sorted_indices]

/-- The vertex at the new index `k` is the old vertex at place `k` of the
sorted index array, with its links relabelled. -/
theorem sort_and_remap_getD (ts : tristate) (k : Nat) (h : k < ts.m_verts.length) :
    (sort_and_remap ts).m_verts.getD k poly_vert.dflt =
      relink ts.m_verts (ts.m_verts.getD ((sorted_indices ts.m_verts).getD k 0) poly_vert.dflt) := by
  rw [sort_and_remap_verts]
  rw [getD_map_of_lt (relink ts.m_verts) _ k
    (by rw [List.length_map, length_sorted_indices]; exact h) poly_vert.dflt poly_vert.dflt]
  rw [getD_map_of_lt _ (sorted_indices ts.m_verts) k
    (by rw [length_sorted_indices]; exact h) poly_vert.dflt 0]

/-- The vertex at the new index `relabel i` is the old vertex `i`, with its
links relabelled. -/
theorem sort_and_remap_getD_relabel (ts : tristate) (i : Nat) (h : i < ts.m_verts.length) :
    (sort_and_remap ts).m_verts.getD (relabel ts.m_verts i) poly_vert.dflt =
      relink ts.m_verts (ts.m_verts.getD i poly_vert.dflt) := by
  rw [sort_and_remap_getD ts _ (relabel_lt ts.m_verts i h), sorted_indices_relabel ts.m_verts i h]

theorem sorted_indices_pairwise (verts : List poly_vert) :
    (sorted_indices verts).Pairwise (fun a b => vert_index_sorter verts b a = false) :=
  std_sort_pairwise _ (vert_index_sorter_asymm verts) (vert_index_sorter_trans verts) _

theorem getD_nat_eq_getElem (l : List Nat) (k : Nat) (h : k < l.length) : l.getD k 0 = l[k] := by
  rw [List.getD_eq_getElem?_getD, List.getElem?_eq_getElem h]
  rfl

theorem compare_vertices_relink (verts : List poly_vert) (a b : poly_vert) :
    compare_vertices (relink verts a) (relink verts b) = compare_vertices a b := rfl

theorem sort_and_remap_ordered (ts : tristate) (i j : Nat) (hij : i < j)
    (hj : j < ts.m_verts.length) :
    compare_vertices ((sort_and_remap ts).vert i) ((sort_and_remap ts).vert j) ≤ 0 := by
  unfold tristate.vert
  rw [sort_and_remap_getD ts i (by omega), sort_and_remap_getD ts j hj,
    compare_vertices_le_zero_iff, compare_vertices_relink]
  have hp := sorted_indices_pairwise ts.m_verts
  rw [List.pairwise_iff_getElem] at hp
  have hi2 : i < (sorted_indices ts.m_verts).length := by rw [length_sorted_indices]; omega
  have hj2 : j < (sorted_indices ts.m_verts).length := by rw [length_sorted_indices]; omega
  have h := hp i j hi2 hj2 hij
  unfold vert_index_sorter at h
  simp only [decide_eq_false_iff_not] at h
  rw [getD_nat_eq_getElem _ i hi2, getD_nat_eq_getElem _ j hj2]
  exact h

/-- C15: after `sort_and_remap` the vertex array is ordered by (x, then y)
ascending, `compare_vertices(verts[i], verts[j]) <= 0` for all indices
`i < j`; consequently the vertices of equal position occupy a contiguous range
of indices. -/
theorem sort_and_remap_sorted (ts : tristate) :
    (∀ i j, i < j → j < (sort_and_remap ts).m_verts.length →
      compare_vertices ((sort_and_remap ts).vert i) ((sort_and_remap ts).vert j) ≤ 0) ∧
    (∀ i j k, i ≤ j → j ≤ k → k < (sort_and_remap ts).m_verts.length →
      ((sort_and_remap ts).vert i).m_v = ((sort_and_remap ts).vert k).m_v →
      ((sort_and_remap ts).vert j).m_v = ((sort_and_remap ts).vert i).m_v) := by
  have h1 : ∀ i j, i < j → j < (sort_and_remap ts).m_verts.length →
      compare_vertices ((sort_and_remap ts).vert i) ((sort_and_remap ts).vert j) ≤ 0 := by
    intro i j hij hj
    rw [length_sort_and_remap] at hj
    exact sort_and_remap_ordered ts i j hij hj
  refine ⟨h1, ?_⟩
  intro i j k hij hjk hk he
  rcases Nat.eq_or_lt_of_le hij with rfl | hij2
  · rfl
  rcases Nat.eq_or_lt_of_le hjk with rfl | hjk2
  · exact he.symm
  have a := h1 i j hij2 (by omega)
  have b := h1 j k hjk2 hk
  rw [compare_vertices_le_zero_iff, Ne, compare_vertices_eq_neg_one_iff] at a b
  rw [← he] at b
  generalize ((sort_and_remap ts).vert i) = vi at a b ⊢
  generalize ((sort_and_remap ts).vert j) = vj at a b ⊢
  cases vi with
  | mk av an ap as =>
    cases vj with
    | mk bv bn bp bs =>
      cases av; cases bv
      simp only [vec2.mk.injEq] at a b ⊢
      omega

theorem relink_fields (verts : List poly_vert) (v : poly_vert) :
    (relink verts v).m_v = v.m_v ∧ (relink verts v).m_state = v.m_state ∧
    (relink verts v).m_next = relabel verts v.m_next ∧
    (relink verts v).m_prev = relabel verts v.m_prev := ⟨rfl, rfl, rfl, rfl⟩

theorem loops_valid_sort_and_remap (ts : tristate) (H : loops_valid ts.m_verts) :
    loops_valid (sort_and_remap ts).m_verts := by
  intro k hk
  rw [length_sort_and_remap] at hk ⊢
  obtain ⟨hk2, -⟩ : (sorted_indices ts.m_verts).getD k 0 < ts.m_verts.length ∧ True :=
    ⟨sorted_indices_getD_lt ts.m_verts k hk, trivial⟩
  have hrel := relabel_sorted_indices ts.m_verts k hk
  have Hi := H _ hk2
  rw [sort_and_remap_getD ts k hk]
  simp only [relink_fields]
  split_ifs at Hi with c
  · rw [if_pos c, Hi.1, Hi.2, hrel]
    exact ⟨rfl, rfl⟩
  · rw [if_neg c]
    obtain ⟨hp, hn, hnp, hpn⟩ := Hi
    refine ⟨relabel_lt _ _ hp, relabel_lt _ _ hn, ?_, ?_⟩
    · rw [sort_and_remap_getD_relabel ts _ hp]
      simp only [relink_fields]
      rw [hnp, hrel]
    · rw [sort_and_remap_getD_relabel ts _ hn]
      simp only [relink_fields]
      rw [hpn, hrel]

/-- C16: `sort_and_remap` is a relabelling by a permutation `s` of the vertex
indices: `s` maps the indices below the vertex count one-to-one into
themselves; for every old index `i` the new vertex `s(i)` has the position and
state of the old vertex `i`, `next(s(i)) = s(old next(i))` and
`prev(s(i)) = s(old prev(i))`; every path's leftmost index becomes
`s(old leftmost)`; the vertex count is unchanged and the ring invariant is
preserved. -/
theorem sort_and_remap_is_relabelling (ts : tristate) :
    ∃ s : Nat → Nat,
      (∀ i, i < ts.m_verts.length → s i < ts.m_verts.length) ∧
      (∀ i j, i < ts.m_verts.length → j < ts.m_verts.length → s i = s j → i = j) ∧
      (∀ k, k < ts.m_verts.length → ∃ i, i < ts.m_verts.length ∧ s i = k) ∧
      (sort_and_remap ts).m_verts.length = ts.m_verts.length ∧
      (∀ i, i < ts.m_verts.length →
        ((sort_and_remap ts).vert (s i)).m_v = (ts.vert i).m_v ∧
        ((sort_and_remap ts).vert (s i)).m_state = (ts.vert i).m_state ∧
        ((sort_and_remap ts).vert (s i)).m_next = s (ts.vert i).m_next ∧
        ((sort_and_remap ts).vert (s i)).m_prev = s (ts.vert i).m_prev) ∧
      (sort_and_remap ts).m_input_paths =
        ts.m_input_paths.map (fun pi =>
          { pi with m_leftmost_vert := pi.m_leftmost_vert.map s }) ∧
      (loops_valid ts.m_verts → loops_valid (sort_and_remap ts).m_verts) := by
  refine ⟨relabel ts.m_verts, fun i hi => relabel_lt _ i hi,
    fun i j hi hj h => relabel_injective _ i j hi hj h,
    fun k hk => ⟨_, sorted_indices_getD_lt _ k hk, relabel_sorted_indices _ k hk⟩,
    length_sort_and_remap ts, ?_, sort_and_remap_paths ts, loops_valid_sort_and_remap ts⟩
  intro i hi
  unfold tristate.vert
  rw [sort_and_remap_getD_relabel ts i hi]
  exact relink_fields _ _

/-! ## The vertex array after ingest -/

theorem getD_append_left_of_lt {α : Type} (l l2 : List α) (i : Nat) (d : α) (h : i < l.length) :
    (l ++ l2).getD i d = l.getD i d := by
  rw [List.getD_eq_getElem?_getD, List.getD_eq_getElem?_getD, List.getElem?_append_left h]

theorem getD_append_right_of_le {α : Type} (l l2 : List α) (i : Nat) (d : α)
    (h : l.length ≤ i) : (l ++ l2).getD i d = l2.getD (i - l.length) d := by
  rw [List.getD_eq_getElem?_getD, List.getD_eq_getElem?_getD, List.getElem?_append_right h]

theorem compare_vertices_pos_iff (a b : poly_vert) :
    compare_vertices a b > 0 ↔ lex_lt b.m_v a.m_v := by
  unfold compare_vertices lex_lt
  split_ifs <;> omega

theorem vert_index_sorter_iff (verts : List poly_vert) (a b : Nat) :
    vert_index_sorter verts a b = true ↔
      lex_lt (verts.getD a poly_vert.dflt).m_v (verts.getD b poly_vert.dflt).m_v := by
  unfold vert_index_sorter lex_lt
  rw [decide_eq_true_iff, compare_vertices_eq_neg_one_iff]

theorem lex_lt_irrefl (p : vec2) : ¬ lex_lt p p := by
  unfold lex_lt; omega

theorem lex_lt_trans (p q r : vec2) (h1 : lex_lt p q) (h2 : lex_lt q r) : lex_lt p r := by
  unfold lex_lt at *; omega

theorem lex_lt_of_lt_of_not_lt (p q r : vec2) (h1 : lex_lt p q) (h2 : ¬ lex_lt r q) :
    lex_lt p r := by
  unfold lex_lt at *; omega

theorem not_lex_lt_trans (p q r : vec2) (h1 : ¬ lex_lt p q) (h2 : ¬ lex_lt q r) :
    ¬ lex_lt p r := by
  unfold lex_lt at *; omega

theorem first_min_congr (verts verts2 : List poly_vert) (b e l : Nat)
    (h : ∀ i, i < e → (verts2.getD i poly_vert.dflt).m_v = (verts.getD i poly_vert.dflt).m_v)
    (hm : first_min verts b e l) : first_min verts2 b e l := by
  obtain ⟨h1, h2, h3, h4⟩ := hm
  refine ⟨h1, h2, ?_, ?_⟩
  · intro j hj1 hj2
    rw [h j hj2, h l h2]
    exact h3 j hj1 hj2
  · intro j hj1 hj2
    rw [h j (by omega), h l h2]
    exact h4 j hj1 hj2

/-- What the inner loop of `init` does to the vertex array and to the leftmost
index of the path being read. -/
theorem ingest_path_loop_spec :
    ∀ (n : Nat) (path : List Int), path.length ≤ n →
    ∀ (verts : List poly_vert) (lm : Option Nat) (pv : Nat),
      (ingest_path_loop verts lm pv path).1.length = verts.length + path.length / 2 ∧
      (∀ i, i < verts.length →
        (ingest_path_loop verts lm pv path).1.getD i poly_vert.dflt
          = verts.getD i poly_vert.dflt) ∧
      (∀ i, verts.length ≤ i → i < verts.length + path.length / 2 →
        ((ingest_path_loop verts lm pv path).1.getD i poly_vert.dflt).m_next = i + 1 ∧
        ((ingest_path_loop verts lm pv path).1.getD i poly_vert.dflt).m_prev
          = (if i = verts.length then pv else i - 1)) ∧
      (∀ b, (lm = none → b = verts.length) →
        (∀ l, lm = some l → first_min verts b verts.length l) →
        ((ingest_path_loop verts lm pv path).2 = none → lm = none ∧ path.length < 2) ∧
        (∀ l, (ingest_path_loop verts lm pv path).2 = some l →
          first_min (ingest_path_loop verts lm pv path).1 b
            (verts.length + path.length / 2) l)) := by
  intro n
  induction n with
  | zero =>
    intro path hp verts lm pv
    have : path = [] := List.length_eq_zero.1 (Nat.le_zero.1 hp)
    subst this
    refine ⟨rfl, fun i _ => rfl, fun i h1 h2 => by simp at h2; omega, ?_⟩
    intro b hb hl
    exact ⟨fun h => ⟨h, by simp⟩, fun l h => hl l h⟩
  | succ n ih =>
    intro path hp verts lm pv
    match path, hp with
    | [], _ =>
      refine ⟨rfl, fun i _ => rfl, fun i h1 h2 => by simp at h2; omega, ?_⟩
      intro b hb hl
      exact ⟨fun h => ⟨h, by simp⟩, fun l h => hl l h⟩
    | [a], _ =>
      have e : ingest_path_loop verts lm pv [a] = (verts, lm) := rfl
      have l2 : [a].length / 2 = 0 := by simp
      rw [e, l2]
      refine ⟨rfl, fun i _ => rfl, fun i h1 h2 => by omega, ?_⟩
      intro b hb hl
      exact ⟨fun h => ⟨h, by simp⟩, fun l h => hl l h⟩
    | x :: y :: rest, hp =>
      have e : ingest_path_loop verts lm pv (x :: y :: rest) =
          ingest_path_loop (verts ++ [poly_vert.mk4 x y pv (verts.length + 1)])
            (leftmost_update (verts ++ [poly_vert.mk4 x y pv (verts.length + 1)]) lm verts.length)
            verts.length rest := rfl
      have l2 : (x :: y :: rest).length / 2 = rest.length / 2 + 1 := by
        simp only [List.length_cons]; omega
      rw [e, l2]
      have hrest : rest.length ≤ n := by simp only [List.length_cons] at hp; omega
      obtain ⟨ih1, ih2, ih3, ih4⟩ := ih rest hrest
        (verts ++ [poly_vert.mk4 x y pv (verts.length + 1)])
        (leftmost_update (verts ++ [poly_vert.mk4 x y pv (verts.length + 1)]) lm verts.length)
        verts.length
      have hlen1 : (verts ++ [poly_vert.mk4 x y pv (verts.length + 1)]).length
          = verts.length + 1 := by simp
      rw [hlen1] at ih1 ih2 ih3 ih4
      have hnew : (verts ++ [poly_vert.mk4 x y pv (verts.length + 1)]).getD verts.length
          poly_vert.dflt = poly_vert.mk4 x y pv (verts.length + 1) := by
        rw [getD_append_right_of_le _ _ _ _ (le_refl _), Nat.sub_self]
        rfl
      have hold : ∀ i, i < verts.length →
          (verts ++ [poly_vert.mk4 x y pv (verts.length + 1)]).getD i poly_vert.dflt
            = verts.getD i poly_vert.dflt :=
        fun i hi => getD_append_left_of_lt _ _ _ _ hi
      refine ⟨by omega, ?_, ?_, ?_⟩
      · intro i hi
        rw [ih2 i (by omega), hold i hi]
      · intro i h1 h2
        rcases Nat.eq_or_lt_of_le h1 with rfl | hlt
        · rw [ih2 _ (by omega), hnew]
          simp [poly_vert.mk4]
        · obtain ⟨a1, a2⟩ := ih3 i (by omega) (by omega)
          rw [a1, a2]
          refine ⟨rfl, ?_⟩
          split_ifs <;> omega
      · intro b hb hl
        have key := ih4 b (by
            intro h
            unfold leftmost_update at h
            cases lm with
            | none => simp at h
            | some l => simp only at h; split_ifs at h)
          (by
            intro l1 h1
            unfold leftmost_update at h1
            cases lm with
            | none =>
              simp only [Option.some.injEq] at h1
              subst h1
              have hb2 := hb rfl
              subst hb2
              refine ⟨le_refl _, by omega, ?_, ?_⟩
              · intro j hj1 hj2
                have : j = verts.length := by omega
                subst this
                exact lex_lt_irrefl _
              · intro j hj1 hj2
                omega
            | some l =>
              have hm := hl l rfl
              obtain ⟨m1, m2, m3, m4⟩ := hm
              simp only at h1
              rw [hnew, hold l m2] at h1
              split_ifs at h1 with c
              · simp only [Option.some.injEq] at h1
                subst h1
                rw [compare_vertices_pos_iff] at c
                simp only [poly_vert.mk4] at c
                refine ⟨by omega, by omega, ?_, ?_⟩
                · intro j hj1 hj2
                  rw [hnew]
                  rcases Nat.eq_or_lt_of_le (Nat.le_of_lt_succ hj2) with rfl | hlt
                  · rw [hnew]; exact lex_lt_irrefl _
                  · rw [hold j hlt]
                    intro hc
                    exact m3 j hj1 hlt (lex_lt_trans _ _ _ hc c)
                · intro j hj1 hj2
                  rw [hnew, hold j hj2]
                  exact lex_lt_of_lt_of_not_lt _ _ _ c (m3 j hj1 hj2)
              · simp only [Option.some.injEq] at h1
                subst h1
                rw [compare_vertices_pos_iff] at c
                simp only [poly_vert.mk4] at c
                refine ⟨m1, by omega, ?_, ?_⟩
                · intro j hj1 hj2
                  rw [hold l m2]
                  rcases Nat.eq_or_lt_of_le (Nat.le_of_lt_succ hj2) with rfl | hlt
                  · rw [hnew]; exact c
                  · rw [hold j hlt]
                    exact m3 j hj1 hlt
                · intro j hj1 hj2
                  rw [hold l m2, hold j (by omega)]
                  exact m4 j hj1 hj2)
        refine ⟨?_, ?_⟩
        · intro h
          exfalso
          have := (key.1 h).1
          unfold leftmost_update at this
          cases lm with
          | none => simp at this
          | some l => simp only at this; split_ifs at this
        · intro l h
          have := key.2 l h
          rw [show verts.length + (rest.length / 2 + 1) = verts.length + 1 + rest.length / 2 by
            omega]
          exact this

theorem getD_set_next_of_ne (verts : List poly_vert) (i n j : Nat) (h : i ≠ j) :
    (set_next verts i n).getD j poly_vert.dflt = verts.getD j poly_vert.dflt := by
  unfold set_next
  rw [getD_set_eq, if_neg (fun c => h c.1)]

theorem getD_set_prev_of_ne (verts : List poly_vert) (i n j : Nat) (h : i ≠ j) :
    (set_prev verts i n).getD j poly_vert.dflt = verts.getD j poly_vert.dflt := by
  unfold set_prev
  rw [getD_set_eq, if_neg (fun c => h c.1)]

theorem path_ok_congr (verts verts2 : List poly_vert) (pi : path_info)
    (h : ∀ i, i < pi.m_end_vert_orig →
      verts2.getD i poly_vert.dflt = verts.getD i poly_vert.dflt)
    (hl : verts.length ≤ verts2.length) (hp : path_ok verts pi) : path_ok verts2 pi := by
  obtain ⟨h1, h2, h3, l, h4, h5⟩ := hp
  refine ⟨h1, by omega, ?_, l, h4, first_min_congr verts verts2 _ _ l (fun i hi => by rw [h i hi]) h5⟩
  intro i hi1 hi2
  rw [h i hi2]
  exact h3 i hi1 hi2

/-- What one iteration of the outer loop of `init` does for a path of at least
one vertex. -/
theorem ingest_path_spec (acc : List poly_vert × List path_info) (path : List Int)
    (hp : 2 ≤ path.length) :
    (ingest_path acc path).1.length = acc.1.length + path.length / 2 ∧
    (∀ i, i < acc.1.length →
      (ingest_path acc path).1.getD i poly_vert.dflt = acc.1.getD i poly_vert.dflt) ∧
    ∃ pi, (ingest_path acc path).2 = acc.2 ++ [pi] ∧
      pi.m_begin_vert_orig = acc.1.length ∧
      pi.m_end_vert_orig = acc.1.length + path.length / 2 ∧
      path_ok (ingest_path acc path).1 pi := by
  obtain ⟨s1, s2, s3, s4⟩ := ingest_path_loop_spec path.length path (le_refl _) acc.1 none
    (acc.1.length + path.length / 2 - 1)
  have hm : 1 ≤ path.length / 2 := by omega
  unfold ingest_path
  simp only
  have hlen : (set_next
      (ingest_path_loop acc.1 none (acc.1.length + path.length / 2 - 1) path).1
      ((ingest_path_loop acc.1 none (acc.1.length + path.length / 2 - 1) path).1.length - 1)
      acc.1.length).length = acc.1.length + path.length / 2 := by
    rw [length_set_next, s1]
  have hpi : ∀ lm, (ingest_path_loop acc.1 none (acc.1.length + path.length / 2 - 1) path).2 = lm →
      path_ok (set_next
        (ingest_path_loop acc.1 none (acc.1.length + path.length / 2 - 1) path).1
        ((ingest_path_loop acc.1 none (acc.1.length + path.length / 2 - 1) path).1.length - 1)
        acc.1.length)
      { m_begin_vert_orig := acc.1.length,
        m_end_vert_orig := acc.1.length + path.length / 2,
        m_leftmost_vert := lm } := by
    intro lm hlm
    obtain ⟨k1, k2⟩ := s4 acc.1.length (fun _ => rfl) (fun l h => by cases h)
    unfold path_ok
    refine ⟨?_, ?_, ?_, ?_⟩
    · show acc.1.length < acc.1.length + path.length / 2
      omega
    · show acc.1.length + path.length / 2 ≤ _
      rw [hlen]
    · intro i hi1 hi2
      have hi1b : acc.1.length ≤ i := hi1
      have hi2b : i < acc.1.length + path.length / 2 := hi2
      obtain ⟨a1, a2⟩ := s3 i hi1b hi2b
      rw [next_set_next, prev_set_next, a2, s1]
      constructor
      · show (if _ then _ else _) = if i + 1 = acc.1.length + path.length / 2 then acc.1.length
          else i + 1
        split_ifs with c1 c2 c3
        · rfl
        · omega
        · omega
        · exact a1
      · show (if _ then _ else _) = if i = acc.1.length then acc.1.length + path.length / 2 - 1
          else i - 1
        rfl
    · cases lm with
      | none => exact absurd (k1 hlm).2 (by omega)
      | some l =>
        refine ⟨l, rfl, ?_⟩
        exact first_min_congr _ _ _ _ l (fun i _ => pos_set_next _ _ _ i) (k2 l hlm)
  refine ⟨hlen, ?_, _, rfl, rfl, ?_⟩
  · intro i hi
    rw [getD_set_next_of_ne _ _ _ _ (by rw [s1]; omega), s2 i hi]
  · simp only
    rw [hlen]
    exact ⟨rfl, hpi _ rfl⟩

theorem range_of_mk (b e : Nat) (l : Option Nat) :
    path_info.range_of { m_begin_vert_orig := b, m_end_vert_orig := e, m_leftmost_vert := l }
      = List.range' b (e - b) := rfl

theorem ingest_ok_ingest_path (acc : List poly_vert × List path_info) (path : List Int)
    (hp : 2 ≤ path.length) (h : ingest_ok acc) : ingest_ok (ingest_path acc path) := by
  obtain ⟨h1, h2, h3⟩ := h
  obtain ⟨s1, s2, pi, s3, s4, s5, s6⟩ := ingest_path_spec acc path hp
  refine ⟨all_dirty_ingest_path acc path h1, ?_, ?_⟩
  · intro q hq
    rw [s3, List.mem_append, List.mem_singleton] at hq
    rcases hq with hq | rfl
    · have hq2 := h2 q hq
      exact path_ok_congr acc.1 _ q (fun i hi => s2 i (by have := hq2.2.1; omega))
        (by rw [s1]; omega) hq2
    · exact s6
  · rw [s3, List.map_append, List.flatten_append, h3, s1]
    simp only [List.map_cons, List.map_nil, List.flatten_cons, List.flatten_nil, List.append_nil]
    unfold path_info.range_of
    rw [s4, s5, List.range_eq_range', List.range_eq_range']
    rw [show acc.1.length + path.length / 2 - acc.1.length = path.length / 2 by omega]
    have := @List.range'_append 0 acc.1.length (path.length / 2) 1
    rw [Nat.add_comm (path.length / 2) acc.1.length] at this
    simpa using this

theorem ingest_ok_foldl (paths : List (List Int)) (hp : ∀ p ∈ paths, 2 ≤ p.length) :
    ∀ acc : List poly_vert × List path_info, ingest_ok acc →
      ingest_ok (paths.foldl ingest_path acc) ∧
      (paths.foldl ingest_path acc).2.length = acc.2.length + paths.length := by
  induction paths with
  | nil => intro acc h; exact ⟨h, rfl⟩
  | cons p rest ih =>
    intro acc h
    rw [List.foldl_cons]
    obtain ⟨a, b⟩ := ih (fun q hq => hp q (List.mem_cons_of_mem _ hq)) _
      (ingest_ok_ingest_path acc p (hp p (List.mem_cons_self _ _)) h)
    refine ⟨a, ?_⟩
    rw [b]
    obtain ⟨-, -, pi, s3, -⟩ := ingest_path_spec acc p (hp p (List.mem_cons_self _ _))
    rw [s3, List.length_append, List.length_cons, List.length_cons, List.length_nil]
    omega

theorem ingest_ok_nil : ingest_ok ([], []) :=
  ⟨fun v hv => absurd hv (List.not_mem_nil v), fun pi hpi => absurd hpi (List.not_mem_nil pi), rfl⟩

/-! ## Rings of forward links -/

theorem is_ring_range_of (verts : List poly_vert) (pi : path_info) (h : path_ok verts pi) :
    is_ring verts pi.range_of := by
  obtain ⟨h1, h2, h3, -⟩ := h
  have key : ∀ k i, i + k + 1 = pi.m_end_vert_orig → pi.m_begin_vert_orig ≤ i →
      List.Chain (linked verts) i
        (List.range' (i + 1) k ++ [pi.m_begin_vert_orig]) := by
    intro k
    induction k with
    | zero =>
      intro i hi hb
      simp only [List.range'_zero, List.nil_append, List.chain_cons, List.Chain.nil, and_true]
      unfold linked
      rw [(h3 i hb (by omega)).1, if_pos (by omega),
        (h3 pi.m_begin_vert_orig (le_refl _) (by omega)).2, if_pos rfl]
      exact ⟨rfl, by omega⟩
    | succ k ih =>
      intro i hi hb
      rw [List.range'_succ, List.cons_append, List.chain_cons]
      refine ⟨?_, ih (i + 1) (by omega) (by omega)⟩
      unfold linked
      rw [(h3 i hb (by omega)).1, if_neg (by omega), (h3 (i + 1) (by omega) (by omega)).2,
        if_neg (by omega)]
      exact ⟨rfl, by omega⟩
  unfold path_info.range_of
  obtain ⟨m, hm⟩ : ∃ m, pi.m_end_vert_orig - pi.m_begin_vert_orig = m + 1 :=
    ⟨pi.m_end_vert_orig - pi.m_begin_vert_orig - 1, by omega⟩
  rw [hm, List.range'_succ]
  exact key m pi.m_begin_vert_orig (by omega) (le_refl _)

theorem mem_range_of (pi : path_info) (i : Nat) :
    i ∈ pi.range_of ↔ pi.m_begin_vert_orig ≤ i ∧ i < pi.m_end_vert_orig := by
  unfold path_info.range_of
  rw [List.mem_range'_1]
  omega

theorem exists_path_of_lt (acc : List poly_vert × List path_info) (h : ingest_ok acc) (i : Nat)
    (hi : i < acc.1.length) : ∃ pi ∈ acc.2, i ∈ pi.range_of := by
  have hm : i ∈ (acc.2.map path_info.range_of).flatten := by
    rw [h.2.2, List.mem_range]; exact hi
  rw [List.mem_flatten] at hm
  obtain ⟨l, hl, hil⟩ := hm
  rw [List.mem_map] at hl
  obtain ⟨pi, hpi, rfl⟩ := hl
  exact ⟨pi, hpi, hil⟩

theorem loops_valid_of_ingest_ok (acc : List poly_vert × List path_info) (h : ingest_ok acc) :
    loops_valid acc.1 := by
  intro i hi
  obtain ⟨pi, hpi, hmem⟩ := exists_path_of_lt acc h i hi
  rw [mem_range_of] at hmem
  obtain ⟨h1, h2, h3, -⟩ := h.2.1 pi hpi
  have hs := state_getD_of_all_dirty acc.1 h.1 i
  rw [if_neg (by rw [hs]; decide)]
  obtain ⟨a1, a2⟩ := h3 i hmem.1 hmem.2
  rw [a1, a2]
  refine ⟨by split_ifs <;> omega, by split_ifs <;> omega, ?_, ?_⟩
  · by_cases c : i = pi.m_begin_vert_orig
    · rw [if_pos c, (h3 _ (by omega) (by omega)).1, if_pos (by omega)]
      exact c.symm
    · rw [if_neg c, (h3 _ (by omega) (by omega)).1, if_neg (by omega)]
      omega
  · by_cases c : i + 1 = pi.m_end_vert_orig
    · rw [if_pos c, (h3 _ (by omega) (by omega)).2, if_pos rfl]
      omega
    · rw [if_neg c, (h3 _ (by omega) (by omega)).2, if_neg (by omega)]
      omega

theorem is_ring_rotate (verts : List poly_vert) (A B : List Nat) (b : Nat)
    (h : is_ring verts (A ++ b :: B)) : is_ring verts (b :: (B ++ A)) := by
  cases A with
  | nil => simpa using h
  | cons a A2 =>
    simp only [is_ring, List.cons_append, List.append_assoc] at h ⊢
    rw [List.chain_split] at h ⊢
    exact ⟨h.2, h.1⟩

theorem is_ring_congr (verts verts2 : List poly_vert) (C : List Nat)
    (h : ∀ x ∈ C, (verts2.getD x poly_vert.dflt).m_next = (verts.getD x poly_vert.dflt).m_next ∧
      (verts2.getD x poly_vert.dflt).m_prev = (verts.getD x poly_vert.dflt).m_prev)
    (hr : is_ring verts C) : is_ring verts2 C := by
  cases C with
  | nil => exact hr
  | cons a l =>
    simp only [is_ring] at hr ⊢
    rw [List.Chain.iff_mem] at hr
    refine List.Chain.imp ?_ hr
    have hm : ∀ z, z ∈ a :: (l ++ [a]) → z ∈ a :: l := by
      intro z hz
      rw [List.mem_cons, List.mem_append, List.mem_singleton] at hz
      rcases hz with rfl | hz | rfl
      · exact List.mem_cons_self _ _
      · exact List.mem_cons_of_mem _ hz
      · exact List.mem_cons_self _ _
    rintro x y ⟨hx, hy, hxy⟩
    unfold linked at hxy ⊢
    rw [(h x (hm x hx)).1, (h y (hm y (List.mem_cons_of_mem _ hy))).2]
    exact hxy

theorem is_ring_sort_and_remap (ts : tristate) (C : List Nat) (hC : ∀ x ∈ C, x < ts.m_verts.length)
    (hr : is_ring ts.m_verts C) :
    is_ring (sort_and_remap ts).m_verts (C.map (relabel ts.m_verts)) := by
  cases C with
  | nil => exact hr
  | cons a l =>
    simp only [is_ring, List.map_cons] at hr ⊢
    rw [List.Chain.iff_mem] at hr
    have : List.map (relabel ts.m_verts) l ++ [relabel ts.m_verts a]
        = List.map (relabel ts.m_verts) (l ++ [a]) := by simp
    rw [this, List.chain_map]
    refine List.Chain.imp ?_ hr
    have hm : ∀ z, z ∈ a :: (l ++ [a]) → z < ts.m_verts.length := by
      intro z hz
      rw [List.mem_cons, List.mem_append, List.mem_singleton] at hz
      rcases hz with rfl | hz | rfl
      · exact hC _ (List.mem_cons_self _ _)
      · exact hC _ (List.mem_cons_of_mem _ hz)
      · exact hC _ (List.mem_cons_self _ _)
    rintro x y ⟨hx, hy, hxy⟩
    unfold linked at hxy ⊢
    rw [sort_and_remap_getD_relabel ts x (hm x hx),
      sort_and_remap_getD_relabel ts y (hm y (List.mem_cons_of_mem _ hy))]
    simp only [relink_fields]
    rw [hxy.1, hxy.2]
    exact ⟨rfl, rfl⟩

theorem is_ring_iff (verts : List poly_vert) (L : List Nat) :
    is_ring verts L ↔
      L ≠ [] ∧ List.Chain' (linked verts) L ∧
      ∀ x, L.getLast? = some x → ∀ y, L.head? = some y → linked verts x y := by
  cases L with
  | nil => simp [is_ring]
  | cons a l =>
    have : is_ring verts (a :: l) ↔ List.Chain' (linked verts) ((a :: l) ++ [a]) := Iff.rfl
    rw [this, List.chain'_append]
    simp only [List.chain'_singleton, true_and, Option.mem_def, List.head?_cons,
      Option.some.injEq, ne_eq, reduceCtorEq, not_false_eq_true]

theorem chain'_interior {R S : Nat → Nat → Prop} :
    ∀ L : List Nat, List.Chain' R L →
      (∀ x y, x ∈ L.dropLast → y ∈ L.tail → R x y → S x y) → List.Chain' S L
  | [], _, _ => List.chain'_nil
  | [_], _, _ => List.chain'_singleton _
  | a :: b :: l, h, hi => by
    rw [List.chain'_cons] at h ⊢
    refine ⟨hi a b (by simp) (by simp) h.1, chain'_interior (b :: l) h.2 ?_⟩
    intro x y hx hy hxy
    refine hi x y ?_ ?_ hxy
    · rw [List.dropLast_cons₂]
      exact List.mem_cons_of_mem _ hx
    · exact List.mem_of_mem_tail hy

theorem getLast_not_mem_dropLast (L : List Nat) (hn : L.Nodup) (u : Nat)
    (hu : L.getLast? = some u) : u ∉ L.dropLast := by
  have h := List.dropLast_append_getLast? u hu
  rw [← h] at hn
  intro hm
  exact (List.nodup_append.1 hn).2.2 hm (List.mem_singleton_self u)

theorem head_not_mem_tail (L : List Nat) (hn : L.Nodup) (w : Nat)
    (hw : L.head? = some w) : w ∉ L.tail := by
  cases L with
  | nil => simp at hw
  | cons a l =>
    simp only [List.head?_cons, Option.some.injEq] at hw
    subst hw
    exact (List.nodup_cons.1 hn).1

theorem next_steps_of_chain (verts : List poly_vert) :
    ∀ (l : List Nat) (a : Nat), List.Chain (linked verts) a l →
      ∀ k, k < (a :: l).length → next_steps verts k a = (a :: l).getD k 0 := by
  intro l
  induction l with
  | nil =>
    intro a _ k hk
    have : k = 0 := by simpa using hk
    subst this
    rfl
  | cons b l ih =>
    intro a h k hk
    rw [List.chain_cons] at h
    cases k with
    | zero => rfl
    | succ k =>
      show next_steps verts k (verts.getD a poly_vert.dflt).m_next = (b :: l).getD k 0
      rw [h.1.1]
      exact ih b h.2 k (by simpa using hk)

/-- A ring that holds every index of the array: from any vertex, following
forward links reaches every vertex in fewer steps than the array is long, and
comes back to the start after exactly that many steps, not sooner. -/
theorem ring_steps (verts : List poly_vert) (L : List Nat) (hr : is_ring verts L)
    (hp : L.Perm (List.range verts.length)) (i : Nat) (hi : i < verts.length) :
    (∀ j, j < verts.length → ∃ k, k < verts.length ∧ next_steps verts k i = j) ∧
    next_steps verts verts.length i = i ∧
    ∀ m, 0 < m → m < verts.length → next_steps verts m i ≠ i := by
  have hmem : i ∈ L := by rw [hp.mem_iff, List.mem_range]; exact hi
  obtain ⟨A, B, rfl⟩ := List.append_of_mem hmem
  have hrot := is_ring_rotate verts A B i hr
  have hperm : (i :: (B ++ A)).Perm (List.range verts.length) := by
    refine List.Perm.trans ?_ hp
    exact (List.perm_middle.trans (List.Perm.cons i List.perm_append_comm)).symm
  have hnd : (i :: (B ++ A)).Nodup := hperm.nodup_iff.2 (List.nodup_range _)
  have hlen : B.length + A.length + 1 = verts.length := by
    have := hperm.length_eq
    rw [List.length_range] at this
    simpa using this
  have key := next_steps_of_chain verts ((B ++ A) ++ [i]) i hrot
  have hgl : ∀ k, k < verts.length →
      (i :: ((B ++ A) ++ [i])).getD k 0 = (i :: (B ++ A)).getD k 0 := by
    intro k hk
    rw [← List.cons_append]
    exact getD_append_left_of_lt _ _ k 0 (by simp only [List.length_cons, List.length_append]; omega)
  refine ⟨?_, ?_, ?_⟩
  · intro j hj
    have hj2 : j ∈ i :: (B ++ A) := by rw [hperm.mem_iff, List.mem_range]; exact hj
    obtain ⟨k, hk, hkj⟩ := List.getElem_of_mem hj2
    have hk2 : k < verts.length := by simp only [List.length_cons, List.length_append] at hk; omega
    refine ⟨k, hk2, ?_⟩
    rw [key k (by simp only [List.length_cons, List.length_append, List.length_nil]; omega),
      hgl k hk2, getD_nat_eq_getElem _ k hk]
    exact hkj
  · rw [key verts.length
      (by simp only [List.length_cons, List.length_append, List.length_nil]; omega),
      ← List.cons_append,
      getD_append_right_of_le _ _ _ 0 (by simp only [List.length_cons, List.length_append]; omega)]
    have : verts.length - (i :: (B ++ A)).length = 0 := by
      simp only [List.length_cons, List.length_append]; omega
    rw [this]
    rfl
  · intro m hm0 hm hmi
    rw [key m (by simp only [List.length_cons, List.length_append, List.length_nil]; omega),
      hgl m hm] at hmi
    have h0 : (i :: (B ++ A)).getD 0 0 = i := rfl
    have := getD_inj_of_nodup (i :: (B ++ A)) hnd m 0
      (by simp only [List.length_cons, List.length_append]; omega) (by simp) (by rw [hmi, h0])
    omega

/-! ## The bridge splice -/

theorem getD_append_two (l : List poly_vert) (a b : poly_vert) (x : Nat) :
    (l ++ [a, b]).getD x poly_vert.dflt =
      if x < l.length then l.getD x poly_vert.dflt
      else if x = l.length then a
      else if x = l.length + 1 then b else poly_vert.dflt := by
  split_ifs with h1 h2 h3
  · exact getD_append_left_of_lt _ _ _ _ h1
  · rw [getD_append_right_of_le _ _ _ _ (by omega), h2, Nat.sub_self]; rfl
  · rw [getD_append_right_of_le _ _ _ _ (by omega), h3, Nat.add_sub_cancel_left]; rfl
  · rw [getD_append_right_of_le _ _ _ _ (by omega)]
    rw [List.getD_eq_default]
    simp only [List.length_cons, List.length_nil]
    omega

theorem find_valid_bridge_vert_loop_lt (ts : tristate) (v1 : Nat)
    (idx : List (index_box × Bool)) :
    ∀ k i, find_valid_bridge_vert_loop ts v1 idx k = some i → i < k := by
  intro k
  induction k with
  | zero => intro i h; simp [find_valid_bridge_vert_loop] at h
  | succ k ih =>
    intro i h
    unfold find_valid_bridge_vert_loop at h
    split_ifs at h
    · simp only [Option.some.injEq] at h; omega
    · have := ih i h; omega

theorem find_valid_bridge_vert_lt (ts : tristate) (v1 : Nat) (idx : List (index_box × Bool))
    (h : 0 < v1) : find_valid_bridge_vert ts v1 idx < v1 := by
  unfold find_valid_bridge_vert
  split
  · exact find_valid_bridge_vert_loop_lt ts v1 idx v1 _ (by assumption)
  · omega


/-- The links after the six writes of the bridge splice, for the bridge from
`v1` to `v2`: the copies of `v1` and `v2` are at `n` and `n + 1`, where `n` is
the length of the array before. -/
theorem bridge_links (V : List poly_vert) (v1 v2 x : Nat) (hv1 : v1 < V.length)
    (hv2 : v2 < V.length) (hu : (V.getD v1 poly_vert.dflt).m_prev < V.length)
    (hw : (V.getD v2 poly_vert.dflt).m_next < V.length)
    (V0 V1 V2 V3 V4 V5 V6 : List poly_vert)
    (h0 : V0 = V ++ [V.getD v1 poly_vert.dflt, V.getD v2 poly_vert.dflt])
    (h1 : V1 = set_prev V0 v1 v2) (h2 : V2 = set_next V1 v2 v1)
    (h3 : V3 = set_next V2 V.length (V.length + 1))
    (h4 : V4 = set_prev V3 (V.length + 1) V.length)
    (h5 : V5 = set_next V4 (V4.getD V.length poly_vert.dflt).m_prev V.length)
    (h6 : V6 = set_prev V5 (V5.getD (V.length + 1) poly_vert.dflt).m_next (V.length + 1)) :
    V6.length = V.length + 2 ∧
    (V6.getD x poly_vert.dflt).m_next =
      (if x = (V.getD v1 poly_vert.dflt).m_prev then V.length
       else if x = V.length then V.length + 1
       else if x = v2 then v1
       else if x = V.length + 1 then (V.getD v2 poly_vert.dflt).m_next
       else (V.getD x poly_vert.dflt).m_next) ∧
    (V6.getD x poly_vert.dflt).m_prev =
      (if x = (V.getD v2 poly_vert.dflt).m_next then V.length + 1
       else if x = V.length + 1 then V.length
       else if x = v1 then v2
       else if x = V.length then (V.getD v1 poly_vert.dflt).m_prev
       else (V.getD x poly_vert.dflt).m_prev) := by
  have l0 : V0.length = V.length + 2 := by rw [h0]; simp
  have l1 : V1.length = V.length + 2 := by rw [h1, length_set_prev, l0]
  have l2 : V2.length = V.length + 2 := by rw [h2, length_set_next, l1]
  have l3 : V3.length = V.length + 2 := by rw [h3, length_set_next, l2]
  have l4 : V4.length = V.length + 2 := by rw [h4, length_set_prev, l3]
  have l5 : V5.length = V.length + 2 := by rw [h5, length_set_next, l4]
  have l6 : V6.length = V.length + 2 := by rw [h6, length_set_prev, l5]
  have N0 : ∀ y, (V0.getD y poly_vert.dflt).m_next =
      if y < V.length then (V.getD y poly_vert.dflt).m_next
      else if y = V.length then (V.getD v1 poly_vert.dflt).m_next
      else if y = V.length + 1 then (V.getD v2 poly_vert.dflt).m_next
      else poly_vert.dflt.m_next := by
    intro y; rw [h0, getD_append_two]; split_ifs <;> rfl
  have P0 : ∀ y, (V0.getD y poly_vert.dflt).m_prev =
      if y < V.length then (V.getD y poly_vert.dflt).m_prev
      else if y = V.length then (V.getD v1 poly_vert.dflt).m_prev
      else if y = V.length + 1 then (V.getD v2 poly_vert.dflt).m_prev
      else poly_vert.dflt.m_prev := by
    intro y; rw [h0, getD_append_two]; split_ifs <;> rfl
  have hd : (V.getD x poly_vert.dflt).m_next = poly_vert.dflt.m_next ∨ x < V.length := by
    by_cases c : x < V.length
    · exact Or.inr c
    · left; rw [List.getD_eq_default _ _ (by omega)]
  have hd2 : (V.getD x poly_vert.dflt).m_prev = poly_vert.dflt.m_prev ∨ x < V.length := by
    by_cases c : x < V.length
    · exact Or.inr c
    · left; rw [List.getD_eq_default _ _ (by omega)]
  have hu4 : (V4.getD V.length poly_vert.dflt).m_prev = (V.getD v1 poly_vert.dflt).m_prev := by
    rw [h4, prev_set_prev, h3, prev_set_next, h2, prev_set_next, h1, prev_set_prev, P0]
    split_ifs <;> first | rfl | omega
  have hw5 : (V5.getD (V.length + 1) poly_vert.dflt).m_next
      = (V.getD v2 poly_vert.dflt).m_next := by
    rw [h5, next_set_next, hu4, h4, next_set_prev, h3, next_set_next, h2, next_set_next, h1,
      next_set_prev, N0]
    split_ifs <;> first | rfl | omega
  refine ⟨l6, ?_, ?_⟩
  · rw [h6, next_set_prev, h5, next_set_next, hu4, l4, h4, next_set_prev, h3, next_set_next, l2,
      h2, next_set_next, l1, h1, next_set_prev, N0]
    generalize (V.getD x poly_vert.dflt).m_next = nx at hd ⊢
    generalize (V.getD v1 poly_vert.dflt).m_prev = u at hu ⊢
    generalize (V.getD v2 poly_vert.dflt).m_next = w
    generalize (V.getD v1 poly_vert.dflt).m_next = w1
    generalize poly_vert.dflt.m_next = dn at hd ⊢
    generalize V.length = n at *
    clear hd2 hu4 hw5 P0 N0 l0 l1 l2 l3 l4 l5 l6 h0 h1 h2 h3 h4 h5 h6
    split_ifs <;> omega
  · rw [h6, prev_set_prev, hw5, l5, h5, prev_set_next, h4, prev_set_prev, l3, h3, prev_set_next,
      h2, prev_set_next, h1, prev_set_prev, l0, P0]
    generalize (V.getD x poly_vert.dflt).m_prev = px at hd2 ⊢
    generalize (V.getD v2 poly_vert.dflt).m_next = w at hw ⊢
    generalize (V.getD v1 poly_vert.dflt).m_prev = u
    generalize (V.getD v2 poly_vert.dflt).m_prev = u2
    generalize poly_vert.dflt.m_prev = dn at hd2 ⊢
    generalize V.length = n at *
    clear hd hu4 hw5 P0 N0 l0 l1 l2 l3 l4 l5 l6 h0 h1 h2 h3 h4 h5 h6
    split_ifs <;> omega

theorem join_one_path_links (ts : tristate) (v1 v2 x : Nat)
    (hv2e : find_valid_bridge_vert ts v1 (ts.m_edge_index.getD []) = v2)
    (hv1 : v1 < ts.m_verts.length) (hv2 : v2 < ts.m_verts.length)
    (hu : (ts.m_verts.getD v1 poly_vert.dflt).m_prev < ts.m_verts.length)
    (hw : (ts.m_verts.getD v2 poly_vert.dflt).m_next < ts.m_verts.length) :
    (join_one_path ts v1).m_verts.length = ts.m_verts.length + 2 ∧
    ((join_one_path ts v1).m_verts.getD x poly_vert.dflt).m_next =
      (if x = (ts.m_verts.getD v1 poly_vert.dflt).m_prev then ts.m_verts.length
       else if x = ts.m_verts.length then ts.m_verts.length + 1
       else if x = v2 then v1
       else if x = ts.m_verts.length + 1 then (ts.m_verts.getD v2 poly_vert.dflt).m_next
       else (ts.m_verts.getD x poly_vert.dflt).m_next) ∧
    ((join_one_path ts v1).m_verts.getD x poly_vert.dflt).m_prev =
      (if x = (ts.m_verts.getD v2 poly_vert.dflt).m_next then ts.m_verts.length + 1
       else if x = ts.m_verts.length + 1 then ts.m_verts.length
       else if x = v1 then v2
       else if x = ts.m_verts.length then (ts.m_verts.getD v1 poly_vert.dflt).m_prev
       else (ts.m_verts.getD x poly_vert.dflt).m_prev) := by
  subst hv2e
  exact bridge_links ts.m_verts v1 _ x hv1 hv2 hu hw _ _ _ _ _ _ _ rfl rfl rfl rfl rfl rfl rfl

theorem is_ring_rotate_to (verts : List poly_vert) (L : List Nat) (x : Nat)
    (hr : is_ring verts L) (hx : x ∈ L) :
    ∃ l, is_ring verts (x :: l) ∧ (x :: l).Perm L := by
  obtain ⟨A, B, rfl⟩ := List.append_of_mem hx
  exact ⟨B ++ A, is_ring_rotate verts A B x hr,
    (List.perm_middle.trans (List.Perm.cons x List.perm_append_comm)).symm⟩

/-- The bridge splice joins two rings: the ring through `v1` and the ring
through the bridge vertex `v2` become one ring that also holds the two copies;
the links of all other vertices stay as they are. -/
theorem join_one_path_ring (ts : tristate) (v1 v2 : Nat) (c m : List Nat)
    (hv2e : find_valid_bridge_vert ts v1 (ts.m_edge_index.getD []) = v2)
    (hC : is_ring ts.m_verts (v1 :: c)) (hM : is_ring ts.m_verts (v2 :: m))
    (hnd : ((v2 :: m) ++ (v1 :: c)).Nodup)
    (hlt : ∀ x ∈ (v2 :: m) ++ (v1 :: c), x < ts.m_verts.length) :
    (join_one_path ts v1).m_verts.length = ts.m_verts.length + 2 ∧
    is_ring (join_one_path ts v1).m_verts
      (v2 :: ((v1 :: c) ++ ([ts.m_verts.length, ts.m_verts.length + 1] ++ m))) ∧
    ∀ x, x < ts.m_verts.length → x ∉ (v2 :: m) ++ (v1 :: c) →
      ((join_one_path ts v1).m_verts.getD x poly_vert.dflt).m_next
        = (ts.m_verts.getD x poly_vert.dflt).m_next ∧
      ((join_one_path ts v1).m_verts.getD x poly_vert.dflt).m_prev
        = (ts.m_verts.getD x poly_vert.dflt).m_prev := by
  -- the predecessor `u` of `v1` and the successor `w` of `v2`
  obtain ⟨-, chC, clC⟩ := (is_ring_iff ts.m_verts (v1 :: c)).1 hC
  have hu := List.getLast?_eq_getLast (v1 :: c) (List.cons_ne_nil _ _)
  have huC : (v1 :: c).getLast (List.cons_ne_nil _ _) ∈ v1 :: c := List.getLast_mem _
  generalize (v1 :: c).getLast (List.cons_ne_nil _ _) = u at hu huC
  have hRu := clC u hu v1 rfl
  have hM2 : List.Chain' (linked ts.m_verts) (v2 :: (m ++ [v2])) := hM
  rw [List.chain'_cons'] at hM2
  obtain ⟨hM3, chM⟩ := hM2
  have hne : m ++ [v2] ≠ [] := by simp
  have hw := List.head?_eq_head hne
  have hwM : (m ++ [v2]).head hne ∈ m ++ [v2] := List.head_mem _
  generalize (m ++ [v2]).head hne = w at hw hwM
  have hRw := hM3 w hw
  -- membership facts
  have hndM : (v2 :: m).Nodup := (List.nodup_append.1 hnd).1
  have hndC : (v1 :: c).Nodup := (List.nodup_append.1 hnd).2.1
  have hdis : ∀ a, a ∈ v2 :: m → a ∈ v1 :: c → False :=
    fun a h1 h2 => (List.nodup_append.1 hnd).2.2 h1 h2
  have hndM2 : (m ++ [v2]).Nodup := (List.perm_append_singleton v2 m).nodup_iff.2 hndM
  have hM_of : ∀ a, a ∈ m ++ [v2] → a ∈ v2 :: m :=
    fun a h => (List.perm_append_singleton v2 m).mem_iff.1 h
  have hltM : ∀ a, a ∈ v2 :: m → a < ts.m_verts.length :=
    fun a h => hlt a (List.mem_append_left _ h)
  have hltC : ∀ a, a ∈ v1 :: c → a < ts.m_verts.length :=
    fun a h => hlt a (List.mem_append_right _ h)
  have hv1C : v1 ∈ v1 :: c := List.mem_cons_self _ _
  have hv2M : v2 ∈ v2 :: m := List.mem_cons_self _ _
  have hwM2 := hM_of w hwM
  unfold linked at hRu hRw
  have key := fun x => join_one_path_links ts v1 v2 x hv2e (hltC v1 hv1C) (hltM v2 hv2M)
    (by rw [hRu.2]; exact hltC u huC) (by rw [hRw.1]; exact hltM w hwM2)
  rw [hRu.2, hRw.1] at key
  have hN := fun x => (key x).2.1
  have hP := fun x => (key x).2.2
  have hv1n := hltC v1 hv1C
  have hv2n := hltM v2 hv2M
  have hun := hltC u huC
  have hwn := hltM w hwM2
  have huv2 : u ≠ v2 := fun e => hdis u (e ▸ hv2M) huC
  have hv1w : v1 ≠ w := fun e => hdis v1 (e ▸ hwM2) hv1C
  refine ⟨(key 0).1, ?_, ?_⟩
  · show List.Chain' (linked (join_one_path ts v1).m_verts)
      ((v2 :: ((v1 :: c) ++ ([ts.m_verts.length, ts.m_verts.length + 1] ++ m))) ++ [v2])
    have e : (v2 :: ((v1 :: c) ++ ([ts.m_verts.length, ts.m_verts.length + 1] ++ m))) ++ [v2]
        = v2 :: ((v1 :: c) ++ (ts.m_verts.length :: (ts.m_verts.length + 1) :: (m ++ [v2]))) := by
      simp
    rw [e]
    refine List.chain'_cons'.2 ⟨?_, List.chain'_append.2
      ⟨?_, List.chain'_cons'.2 ⟨?_, List.chain'_cons'.2 ⟨?_, ?_⟩⟩, ?_⟩⟩
    · intro y hy
      have : y = v1 := by simpa using hy.symm
      subst this
      unfold linked
      rw [hN, hP]
      constructor <;> split_ifs <;> omega
    · refine chain'_interior (v1 :: c) chC ?_
      intro x y hx hy hxy
      have hxu : x ≠ u := fun e => getLast_not_mem_dropLast _ hndC u hu (e ▸ hx)
      have hxC := List.mem_of_mem_dropLast hx
      have hyC := List.mem_of_mem_tail hy
      have hyv1 : y ≠ v1 := fun e => head_not_mem_tail _ hndC v1 rfl (e ▸ hy)
      have hxv2 : x ≠ v2 := fun e => hdis x (e ▸ hv2M) hxC
      have hyw : y ≠ w := fun e => hdis y (e ▸ hwM2) hyC
      have := hltC x hxC
      have := hltC y hyC
      unfold linked at hxy ⊢
      rw [hN, hP]
      constructor <;> split_ifs <;> omega
    · intro y hy
      have : y = ts.m_verts.length + 1 := by simpa using hy.symm
      subst this
      unfold linked
      rw [hN, hP]
      constructor <;> split_ifs <;> omega
    · intro y hy
      have : y = w := by
        rw [Option.mem_def, hw] at hy
        exact (Option.some.inj hy).symm
      subst this
      unfold linked
      rw [hN, hP]
      constructor <;> split_ifs <;> omega
    · refine chain'_interior (m ++ [v2]) chM ?_
      intro x y hx hy hxy
      rw [List.dropLast_concat] at hx
      have hxM : x ∈ v2 :: m := List.mem_cons_of_mem _ hx
      have hyM := hM_of y (List.mem_of_mem_tail hy)
      have hxv2 : x ≠ v2 := fun e => (List.nodup_cons.1 hndM).1 (e ▸ hx)
      have hyw : y ≠ w := fun e => head_not_mem_tail _ hndM2 w hw (e ▸ hy)
      have hxu : x ≠ u := fun e => hdis x hxM (e ▸ huC)
      have hyv1 : y ≠ v1 := fun e => hdis y hyM (e ▸ hv1C)
      have := hltM x hxM
      have := hltM y hyM
      unfold linked at hxy ⊢
      rw [hN, hP]
      constructor <;> split_ifs <;> omega
    · intro x hx y hy
      have hx2 : x = u := by
        rw [Option.mem_def, hu] at hx
        exact (Option.some.inj hx).symm
      have hy2 : y = ts.m_verts.length := by simpa using hy.symm
      subst hx2 hy2
      unfold linked
      rw [hN, hP]
      constructor <;> split_ifs <;> omega
  · intro x hx hxn
    have hxu : x ≠ u := fun e => hxn (List.mem_append_right _ (e ▸ huC))
    have hxv1 : x ≠ v1 := fun e => hxn (List.mem_append_right _ (e ▸ hv1C))
    have hxv2 : x ≠ v2 := fun e => hxn (List.mem_append_left _ (e ▸ hv2M))
    have hxw : x ≠ w := fun e => hxn (List.mem_append_left _ (e ▸ hwM2))
    rw [hN, hP]
    constructor <;> split_ifs <;> omega

/-! ## The join loop keeps one ring per path and merges them -/

theorem path_info_lt_asymm (a b : path_info) (h : path_info.lt a b = true) :
    path_info.lt b a = false := by
  unfold path_info.lt at *
  cases ha : a.m_leftmost_vert <;> cases hb : b.m_leftmost_vert <;> rw [ha, hb] at h <;>
    simp only [decide_eq_true_eq, decide_eq_false_iff_not] at * <;> first | rfl | omega | exact Bool.noConfusion h

theorem path_info_lt_trans (a b c : path_info) (h1 : path_info.lt a b = false)
    (h2 : path_info.lt b c = false) : path_info.lt a c = false := by
  unfold path_info.lt at *
  cases ha : a.m_leftmost_vert <;> cases hb : b.m_leftmost_vert <;>
    cases hc : c.m_leftmost_vert <;> rw [ha, hb] at h1 <;> rw [hb, hc] at h2 <;>
    simp only [decide_eq_true_eq, decide_eq_false_iff_not] at * <;>
    first | rfl | omega | exact Bool.noConfusion h1 | exact Bool.noConfusion h2

theorem path_info_lt_false_iff (a b : path_info) (la lb : Nat)
    (ha : a.m_leftmost_vert = some la) (hb : b.m_leftmost_vert = some lb)
    (h : path_info.lt b a = false) : la ≤ lb := by
  unfold path_info.lt at h
  rw [ha, hb] at h
  simp only [decide_eq_false_iff_not] at h
  omega

theorem map_relabel_range_perm (verts : List poly_vert) :
    ((List.range verts.length).map (relabel verts)).Perm (List.range verts.length) := by
  rw [List.perm_ext_iff_of_nodup ?_ (List.nodup_range _)]
  · intro a
    rw [List.mem_map, List.mem_range]
    constructor
    · rintro ⟨x, hx, rfl⟩
      exact relabel_lt verts x (List.mem_range.1 hx)
    · intro ha
      exact ⟨(sorted_indices verts).getD a 0,
        List.mem_range.2 (sorted_indices_getD_lt verts a ha), relabel_sorted_indices verts a ha⟩
  · refine List.Nodup.map_on ?_ (List.nodup_range _)
    intro x hx y hy hxy
    exact relabel_injective verts x y (List.mem_range.1 hx) (List.mem_range.1 hy) hxy

theorem range_add_two (n : Nat) : List.range (n + 2) = List.range n ++ [n, n + 1] := by
  rw [show n + 2 = (n + 1) + 1 from rfl, List.range_succ, List.range_succ]
  simp

theorem join_fold_ring (f : path_info → List Nat) :
    ∀ (rest : List path_info) (t : tristate) (M : List Nat), join_inv f t.m_verts M rest →
      ∃ M2, is_ring (rest.foldl (fun t pi =>
          match pi.m_leftmost_vert with
          | some v1 => if v1 > 0 then join_one_path t v1 else t
          | none => t) t).m_verts M2 ∧
        M2.Perm (List.range (rest.foldl (fun t pi =>
          match pi.m_leftmost_vert with
          | some v1 => if v1 > 0 then join_one_path t v1 else t
          | none => t) t).m_verts.length) ∧
        (rest.foldl (fun t pi =>
          match pi.m_leftmost_vert with
          | some v1 => if v1 > 0 then join_one_path t v1 else t
          | none => t) t).m_verts.length = t.m_verts.length + 2 * rest.length := by
  intro rest
  induction rest with
  | nil =>
    intro t M h
    exact ⟨M, h.1, by simpa using h.2.2.1, rfl⟩
  | cons pi rest ih =>
    intro t M h
    obtain ⟨hM, hR, hP, hS, m0, hm0, hm0le⟩ := h
    obtain ⟨hCr, v1, hl, hv1C, hmin⟩ := hR pi (List.mem_cons_self _ _)
    simp only [List.map_cons, List.flatten_cons] at hP
    have hnd : (M ++ (f pi ++ (rest.map f).flatten)).Nodup :=
      hP.nodup_iff.2 (List.nodup_range _)
    have hall : ∀ x, x ∈ M ++ (f pi ++ (rest.map f).flatten) ↔ x < t.m_verts.length := by
      intro x
      rw [hP.mem_iff, List.mem_range]
    have hdisMC : ∀ x, x ∈ M → x ∈ f pi → False := fun x h1 h2 =>
      (List.nodup_append.1 hnd).2.2 h1 (List.mem_append_left _ h2)
    have hdisMF : ∀ x, x ∈ M → x ∈ (rest.map f).flatten → False := fun x h1 h2 =>
      (List.nodup_append.1 hnd).2.2 h1 (List.mem_append_right _ h2)
    have hdisCF : ∀ x, x ∈ f pi → x ∈ (rest.map f).flatten → False := fun x h1 h2 =>
      (List.nodup_append.1 (List.nodup_append.1 hnd).2.1).2.2 h1 h2
    have hndM : M.Nodup := (List.nodup_append.1 hnd).1
    have hndC : (f pi).Nodup := (List.nodup_append.1 (List.nodup_append.1 hnd).2.1).1
    have hv1pos : 0 < v1 := by
      have h1 := hm0le pi (List.mem_cons_self _ _) v1 hl
      have h2 : m0 ≠ v1 := fun e => hdisMC m0 hm0 (e ▸ hv1C)
      omega
    have hv1n : v1 < t.m_verts.length :=
      (hall v1).1 (List.mem_append_right _ (List.mem_append_left _ hv1C))
    have hv2lt := find_valid_bridge_vert_lt t v1 (t.m_edge_index.getD []) hv1pos
    generalize hv2e : find_valid_bridge_vert t v1 (t.m_edge_index.getD []) = v2 at hv2lt
    have hrest : ∀ pi2 ∈ rest, ∀ x ∈ f pi2, v1 ≤ x := by
      intro pi2 hpi2 x hx
      obtain ⟨-, l2, hl2, -, hmin2⟩ := hR pi2 (List.mem_cons_of_mem _ hpi2)
      have := path_info_lt_false_iff pi pi2 v1 l2 hl hl2
        ((List.pairwise_cons.1 hS).1 pi2 hpi2)
      have := hmin2 x hx
      omega
    have hmemF : ∀ x, x ∈ (rest.map f).flatten → ∃ pi2 ∈ rest, x ∈ f pi2 := by
      intro x hx
      rw [List.mem_flatten] at hx
      obtain ⟨L, hL, hxL⟩ := hx
      rw [List.mem_map] at hL
      obtain ⟨pi2, hpi2, rfl⟩ := hL
      exact ⟨pi2, hpi2, hxL⟩
    have hv2M : v2 ∈ M := by
      have h1 := (hall v2).2 (by omega)
      rw [List.mem_append, List.mem_append] at h1
      rcases h1 with h1 | h1 | h1
      · exact h1
      · have := hmin v2 h1; omega
      · obtain ⟨pi2, hpi2, hx⟩ := hmemF v2 h1
        have := hrest pi2 hpi2 v2 hx; omega
    obtain ⟨c, hc, hcp⟩ := is_ring_rotate_to t.m_verts (f pi) v1 hCr hv1C
    obtain ⟨m, hm, hmp⟩ := is_ring_rotate_to t.m_verts M v2 hM hv2M
    have hpMC : ((v2 :: m) ++ (v1 :: c)).Perm (M ++ f pi) := hmp.append hcp
    have hndMC : (M ++ f pi).Nodup := by
      rw [← List.append_assoc] at hnd
      exact (List.nodup_append.1 hnd).1
    have hnd2 : ((v2 :: m) ++ (v1 :: c)).Nodup := hpMC.nodup_iff.2 hndMC
    have hlt2 : ∀ x ∈ (v2 :: m) ++ (v1 :: c), x < t.m_verts.length := by
      intro x hx
      have hx2 := hpMC.mem_iff.1 hx
      refine (hall x).1 ?_
      rw [List.mem_append] at hx2 ⊢
      rcases hx2 with hx2 | hx2
      · exact Or.inl hx2
      · exact Or.inr (List.mem_append_left _ hx2)
    obtain ⟨hlen, hring, hsame⟩ := join_one_path_ring t v1 v2 c m hv2e hc hm hnd2 hlt2
    have hstep : (match pi.m_leftmost_vert with
          | some v1 => if v1 > 0 then join_one_path t v1 else t
          | none => t) = join_one_path t v1 := by
      simp only [hl]
      exact if_pos hv1pos
    rw [List.foldl_cons, hstep]
    have hinv : join_inv f (join_one_path t v1).m_verts
        (v2 :: ((v1 :: c) ++ ([t.m_verts.length, t.m_verts.length + 1] ++ m))) rest := by
      refine ⟨hring, ?_, ?_, (List.pairwise_cons.1 hS).2, m0, ?_, ?_⟩
      · intro pi2 hpi2
        obtain ⟨hr2, hl2⟩ := hR pi2 (List.mem_cons_of_mem _ hpi2)
        refine ⟨is_ring_congr t.m_verts _ (f pi2) ?_ hr2, hl2⟩
        intro x hx
        have hxF : x ∈ (rest.map f).flatten := by
          rw [List.mem_flatten]
          exact ⟨f pi2, List.mem_map_of_mem f hpi2, hx⟩
        refine hsame x ((hall x).1
          (List.mem_append_right _ (List.mem_append_right _ hxF))) ?_
        intro hx2
        have hx3 := hpMC.mem_iff.1 hx2
        rw [List.mem_append] at hx3
        rcases hx3 with hx3 | hx3
        · exact hdisMF x hx3 hxF
        · exact hdisCF x hx3 hxF
      · rw [hlen, range_add_two, List.perm_iff_count]
        intro a
        have e1 := hmp.count_eq a
        have e2 := hcp.count_eq a
        have e3 := hP.count_eq a
        simp only [List.count_append, List.count_cons, List.count_nil] at e1 e2 e3 ⊢
        omega
      · have := hmp.mem_iff.2 hm0
        rw [List.mem_cons] at this
        rcases this with h1 | h1
        · rw [h1]; exact List.mem_cons_self _ _
        · refine List.mem_cons_of_mem _ ?_
          simp only [List.mem_append]
          exact Or.inr (Or.inr h1)
      · intro pi2 hpi2
        exact hm0le pi2 (List.mem_cons_of_mem _ hpi2)
    obtain ⟨M2, a1, a2, a3⟩ := ih (join_one_path t v1) _ hinv
    refine ⟨M2, a1, a2, ?_⟩
    rw [a3, hlen, List.length_cons]
    omega

/-! ## The paths after the first sort -/

theorem ingest_length_foldl (paths : List (List Int)) (hp : ∀ p ∈ paths, 2 ≤ p.length) :
    ∀ acc : List poly_vert × List path_info,
      (paths.foldl ingest_path acc).1.length
        = acc.1.length + (paths.map (fun p => p.length / 2)).sum := by
  induction paths with
  | nil => intro acc; simp
  | cons p rest ih =>
    intro acc
    rw [List.foldl_cons, ih (fun q hq => hp q (List.mem_cons_of_mem _ hq)),
      (ingest_path_spec acc p (hp p (List.mem_cons_self _ _))).1, List.map_cons, List.sum_cons]
    omega

/-- After the first sort every path has its ring, which holds its leftmost
vertex, and the rings hold every index once. -/
theorem path_leftmost_after_sort (ts0 : tristate)
    (hI : ingest_ok (ts0.m_verts, ts0.m_input_paths)) :
    (∀ pi ∈ (sort_and_remap ts0).m_input_paths,
      is_ring (sort_and_remap ts0).m_verts (pi.range_of.map (relabel ts0.m_verts)) ∧
      ∃ l, pi.m_leftmost_vert = some l ∧ l ∈ pi.range_of.map (relabel ts0.m_verts)) ∧
    (((sort_and_remap ts0).m_input_paths.map
      (fun pi => pi.range_of.map (relabel ts0.m_verts))).flatten).Perm
      (List.range (sort_and_remap ts0).m_verts.length) := by
  obtain ⟨-, hok, hfl⟩ := hI
  simp only at hok hfl
  constructor
  · intro pi hpi
    rw [sort_and_remap_paths, List.mem_map] at hpi
    obtain ⟨pi0, hpi0, rfl⟩ := hpi
    have hpo := hok pi0 hpi0
    have hring := is_ring_range_of ts0.m_verts pi0 hpo
    obtain ⟨h1, h2, h3, l, hl, hfm⟩ := hpo
    have hlt : ∀ x ∈ pi0.range_of, x < ts0.m_verts.length := by
      intro x hx
      rw [mem_range_of] at hx
      omega
    refine ⟨is_ring_sort_and_remap ts0 pi0.range_of hlt hring, relabel ts0.m_verts l, ?_, ?_⟩
    · show pi0.m_leftmost_vert.map (relabel ts0.m_verts) = some (relabel ts0.m_verts l)
      rw [hl]; rfl
    · refine List.mem_map_of_mem _ ?_
      show l ∈ pi0.range_of
      rw [mem_range_of]
      exact ⟨hfm.1, hfm.2.1⟩
  · rw [length_sort_and_remap, sort_and_remap_paths, List.map_map]
    have e : (List.map ((fun pi : path_info => pi.range_of.map (relabel ts0.m_verts)) ∘
        fun pi : path_info =>
          { pi with m_leftmost_vert := pi.m_leftmost_vert.map (relabel ts0.m_verts) })
        ts0.m_input_paths).flatten
        = ((ts0.m_input_paths.map path_info.range_of).flatten).map (relabel ts0.m_verts) := by
      rw [List.map_flatten, List.map_map]
      rfl
    rw [e, hfl]
    exact map_relabel_range_perm ts0.m_verts

/-- After the first sort, the leftmost index of every path is a valid index,
and every path after the first in the order of the leftmost vertices has a
leftmost index above zero. -/
theorem leftmost_pos_after_first (ts0 : tristate)
    (hI : ingest_ok (ts0.m_verts, ts0.m_input_paths)) :
    ∀ pi ∈ (std_sort path_info.lt (sort_and_remap ts0).m_input_paths).drop 1,
      ∃ l, pi.m_leftmost_vert = some l ∧ 0 < l ∧ l < (sort_and_remap ts0).m_verts.length := by
  obtain ⟨hA, hB⟩ := path_leftmost_after_sort ts0 hI
  have hperm := std_sort_perm path_info.lt (sort_and_remap ts0).m_input_paths
  have hsorted := std_sort_pairwise path_info.lt path_info_lt_asymm path_info_lt_trans
    (sort_and_remap ts0).m_input_paths
  cases hs : std_sort path_info.lt (sort_and_remap ts0).m_input_paths with
  | nil => intro pi hpi; simp at hpi
  | cons p0 rest =>
    rw [hs] at hperm hsorted
    intro pi hpi
    simp only [List.drop_succ_cons, List.drop_zero] at hpi
    obtain ⟨-, l0, hl0, hl0C⟩ := hA p0 (hperm.mem_iff.1 (List.mem_cons_self _ _))
    obtain ⟨-, l, hl, hlC⟩ := hA pi (hperm.mem_iff.1 (List.mem_cons_of_mem _ hpi))
    have hle : l0 ≤ l :=
      path_info_lt_false_iff p0 pi l0 l hl0 hl ((List.pairwise_cons.1 hsorted).1 pi hpi)
    have hP : ((p0.range_of.map (relabel ts0.m_verts)) ++
        (rest.map (fun pi => pi.range_of.map (relabel ts0.m_verts))).flatten).Perm
        (List.range (sort_and_remap ts0).m_verts.length) := by
      refine List.Perm.trans ?_ hB
      have := (hperm.map (fun pi : path_info => pi.range_of.map (relabel ts0.m_verts))).flatten
      simpa using this
    have hnd := hP.nodup_iff.2 (List.nodup_range _)
    have hlF : l ∈ (rest.map (fun pi => pi.range_of.map (relabel ts0.m_verts))).flatten := by
      rw [List.mem_flatten]
      exact ⟨_, List.mem_map.2 ⟨pi, hpi, rfl⟩, hlC⟩
    have hne : l0 ≠ l := by
      intro e
      refine (List.nodup_append.1 hnd).2.2 hl0C ?_
      rw [e]
      exact hlF
    have hlt : l < (sort_and_remap ts0).m_verts.length :=
      List.mem_range.1 (hP.mem_iff.1 (List.mem_append_right _ hlF))
    exact ⟨l, hl, by omega, hlt⟩

theorem init_eq (paths : List (List Int)) (debug_halt_step : Int) :
    ∃ ts0 : tristate, ts0.m_verts = (paths.foldl ingest_path ([], [])).1 ∧
      ts0.m_input_paths = (paths.foldl ingest_path ([], [])).2 ∧
      init paths debug_halt_step =
        if (sort_and_remap ts0).m_input_paths.length > 1 then
          sort_and_remap (join_paths_into_one_poly (sort_and_remap ts0))
        else sort_and_remap ts0 :=
  ⟨{ m_results := [], m_verts := (paths.foldl ingest_path ([], [])).1,
     m_input_paths := (paths.foldl ingest_path ([], [])).2, m_next_dirty := 0,
     m_reflex_point_index :=
       (paths.foldl ingest_path ([], [])).2.foldl
         (add_reflex_of_path (paths.foldl ingest_path ([], [])).1) [],
     m_edge_index := none, m_debug_halt_step := debug_halt_step }, rfl, rfl, rfl⟩

/-! ## The ear of a clip -/

theorem ear_scan_loop_succ (n : Nat) (ts : tristate) :
    ear_scan_loop (n + 1) ts =
      if ts.m_next_dirty < ts.m_verts.length then
        if (ts.vert ts.m_next_dirty).m_state = state_enum.DELETED then
          ear_scan_loop n { ts with m_next_dirty := ts.m_next_dirty + 1 }
        else if (ts.vert ts.m_next_dirty).m_prev = ts.m_next_dirty then
          ear_scan_loop n { ts with m_next_dirty := ts.m_next_dirty + 1 }
        else
          match find_ear_vertex { ts with m_next_dirty := ts.m_next_dirty + 1 }
              (ts.vert ts.m_next_dirty).m_prev ts.m_next_dirty with
          | some vi2 =>
            some ({ ts with m_next_dirty := ts.m_next_dirty + 1 },
              (ts.vert ts.m_next_dirty).m_prev, ts.m_next_dirty, vi2)
          | none => ear_scan_loop n { ts with m_next_dirty := ts.m_next_dirty + 1 }
      else none := rfl

/-- The scan and `find_and_clip_ear` agree: the call returns true exactly when
the scan finds an ear, and the state it returns is the clip of that ear. -/
theorem ear_scan_loop_spec (n : Nat) :
    ∀ ts : tristate,
      (∀ t v0 v1 v2, ear_scan_loop n ts = some (t, v0, v1, v2) →
        find_and_clip_ear_loop n ts = (true, clip_ear t v0 v1 v2) ∧
        t.m_verts = ts.m_verts ∧ v1 < ts.m_verts.length ∧ t.m_next_dirty = v1 + 1 ∧
        (ts.vert v1).m_state ≠ state_enum.DELETED ∧ v0 = (ts.vert v1).m_prev ∧ v0 ≠ v1 ∧
        find_ear_vertex t v0 v1 = some v2) ∧
      (ear_scan_loop n ts = none → (find_and_clip_ear_loop n ts).1 = false) := by
  induction n with
  | zero =>
    intro ts
    exact ⟨fun t v0 v1 v2 h => by simp [ear_scan_loop] at h, fun _ => rfl⟩
  | succ n ih =>
    intro ts
    rw [ear_scan_loop_succ, find_and_clip_ear_loop_succ]
    split_ifs with c1 c2 c3
    · exact ih _
    · exact ih _
    · cases hv : find_ear_vertex { ts with m_next_dirty := ts.m_next_dirty + 1 }
          (ts.vert ts.m_next_dirty).m_prev ts.m_next_dirty with
      | none => exact ih _
      | some vi2 =>
        refine ⟨?_, fun h => by simp at h⟩
        intro t v0 v1 v2 h
        simp only [Option.some.injEq, Prod.mk.injEq] at h
        obtain ⟨rfl, rfl, rfl, rfl⟩ := h
        exact ⟨rfl, rfl, c1, rfl, c2, rfl, c3, hv⟩
    · exact ⟨fun t v0 v1 v2 h => by simp at h, fun _ => rfl⟩

theorem ear_scan_spec (ts t : tristate) (v0 v1 v2 : Nat)
    (h : ear_scan ts = some (t, v0, v1, v2)) :
    find_and_clip_ear ts = (true, clip_ear t v0 v1 v2) ∧
    t.m_verts = ts.m_verts ∧ v1 < ts.m_verts.length ∧ t.m_next_dirty = v1 + 1 ∧
    (ts.vert v1).m_state ≠ state_enum.DELETED ∧ v0 = (ts.vert v1).m_prev ∧ v0 ≠ v1 ∧
    find_ear_vertex t v0 v1 = some v2 :=
  (ear_scan_loop_spec _ ts).1 t v0 v1 v2 h

theorem ear_scan_of_true (ts : tristate) (h : (find_and_clip_ear ts).1 = true) :
    ∃ t v0 v1 v2, ear_scan ts = some (t, v0, v1, v2) := by
  cases hs : ear_scan ts with
  | none =>
    have := (ear_scan_loop_spec _ ts).2 hs
    unfold find_and_clip_ear at h
    rw [this] at h
    exact Bool.noConfusion h
  | some r =>
    obtain ⟨t, v0, v1, v2⟩ := r
    exact ⟨t, v0, v1, v2, rfl⟩

theorem rewind_dirty_spec (verts : List poly_vert) :
    ∀ d, rewind_dirty verts d ≤ d ∧
      (verts.getD (rewind_dirty verts d) poly_vert.dflt).m_v = (verts.getD d poly_vert.dflt).m_v ∧
      (rewind_dirty verts d = 0 ∨
        (verts.getD (rewind_dirty verts d - 1) poly_vert.dflt).m_v
          ≠ (verts.getD (rewind_dirty verts d) poly_vert.dflt).m_v) := by
  intro d
  induction d with
  | zero => exact ⟨le_refl _, rfl, Or.inl rfl⟩
  | succ d ih =>
    unfold rewind_dirty
    split_ifs with c
    · obtain ⟨a1, a2, a3⟩ := ih
      exact ⟨by omega, by rw [a2, c], a3⟩
    · exact ⟨le_refl _, rfl, Or.inr c⟩

theorem next_dirty_clip_ear (ts : tristate) (vi0 vi1 vi2 : Nat) :
    (clip_ear ts vi0 vi1 vi2).m_next_dirty =
      rewind_dirty (clip_links ts.m_verts vi0 vi1 vi2)
        (min vi2 (min vi1 (min vi0 ts.m_next_dirty))) := by
  unfold clip_ear
  simp only
  congr 1
  simp only [Nat.min_def]
  split_ifs <;> omega

theorem verts_clip_ear (ts : tristate) (vi0 vi1 vi2 : Nat) :
    (clip_ear ts vi0 vi1 vi2).m_verts = clip_links ts.m_verts vi0 vi1 vi2 := rfl

/-- The links and states after the relink of a clip, vertex by vertex; `a` is
the old `prev(vi2)` and `b` the old `next(vi1)`. -/
theorem clip_links_fields (verts : List poly_vert) (vi0 vi1 vi2 i : Nat)
    (h0 : vi0 < verts.length) (h1 : vi1 < verts.length) (h2 : vi2 < verts.length)
    (ha : (verts.getD vi2 poly_vert.dflt).m_prev < verts.length)
    (hb : (verts.getD vi1 poly_vert.dflt).m_next < verts.length) :
    ((clip_links verts vi0 vi1 vi2).getD i poly_vert.dflt).m_next =
      (if i = vi0 then vi2 else if i = vi1 then vi1
       else if (verts.getD vi2 poly_vert.dflt).m_prev ≠ vi1 ∧
          i = (verts.getD vi2 poly_vert.dflt).m_prev
        then (verts.getD vi1 poly_vert.dflt).m_next
       else (verts.getD i poly_vert.dflt).m_next) ∧
    ((clip_links verts vi0 vi1 vi2).getD i poly_vert.dflt).m_prev =
      (if i = vi2 then vi0 else if i = vi1 then vi1
       else if (verts.getD vi2 poly_vert.dflt).m_prev ≠ vi1 ∧
          i = (verts.getD vi1 poly_vert.dflt).m_next
        then (verts.getD vi2 poly_vert.dflt).m_prev
       else (verts.getD i poly_vert.dflt).m_prev) ∧
    ((clip_links verts vi0 vi1 vi2).getD i poly_vert.dflt).m_state =
      (if i = vi1 then state_enum.DELETED else (verts.getD i poly_vert.dflt).m_state) := by
  unfold clip_links
  simp only
  refine ⟨?_, ?_, ?_⟩
  · by_cases hc : (verts.getD vi2 poly_vert.dflt).m_prev ≠ vi1
    · rw [if_pos hc]
      simp only [next_set_prev, next_set_next, next_set_state, length_set_next, length_set_prev,
        length_set_state]
      generalize (verts.getD i poly_vert.dflt).m_next = ni
      generalize (verts.getD vi2 poly_vert.dflt).m_prev = a at ha hc ⊢
      generalize (verts.getD vi1 poly_vert.dflt).m_next = b at hb ⊢
      generalize verts.length = n at *
      split_ifs <;> omega
    · rw [if_neg hc]
      simp only [next_set_prev, next_set_next, next_set_state, length_set_next, length_set_prev,
        length_set_state]
      generalize (verts.getD i poly_vert.dflt).m_next = ni
      generalize (verts.getD vi2 poly_vert.dflt).m_prev = a at ha hc ⊢
      generalize (verts.getD vi1 poly_vert.dflt).m_next = b at hb ⊢
      generalize verts.length = n at *
      split_ifs <;> omega
  · by_cases hc : (verts.getD vi2 poly_vert.dflt).m_prev ≠ vi1
    · rw [if_pos hc]
      simp only [prev_set_prev, prev_set_next, prev_set_state, length_set_next, length_set_prev,
        length_set_state]
      generalize (verts.getD i poly_vert.dflt).m_prev = ni
      generalize (verts.getD vi2 poly_vert.dflt).m_prev = a at ha hc ⊢
      generalize (verts.getD vi1 poly_vert.dflt).m_next = b at hb ⊢
      generalize verts.length = n at *
      split_ifs <;> omega
    · rw [if_neg hc]
      simp only [prev_set_prev, prev_set_next, prev_set_state, length_set_next, length_set_prev,
        length_set_state]
      generalize (verts.getD i poly_vert.dflt).m_prev = ni
      generalize (verts.getD vi2 poly_vert.dflt).m_prev = a at ha hc ⊢
      generalize (verts.getD vi1 poly_vert.dflt).m_next = b at hb ⊢
      generalize verts.length = n at *
      split_ifs <;> omega
  · split_ifs <;>
      simp only [state_set_prev, state_set_next, state_set_state, length_set_next,
        length_set_prev, length_set_state] <;>
      split_ifs <;> first | rfl | (exfalso; omega)

theorem loops_valid_live (verts : List poly_vert) (H : loops_valid verts) (y : Nat)
    (hy : y < verts.length) (hs : (verts.getD y poly_vert.dflt).m_state ≠ state_enum.DELETED) :
    (verts.getD y poly_vert.dflt).m_prev < verts.length ∧
    (verts.getD y poly_vert.dflt).m_next < verts.length ∧
    (verts.getD (verts.getD y poly_vert.dflt).m_prev poly_vert.dflt).m_next = y ∧
    (verts.getD (verts.getD y poly_vert.dflt).m_next poly_vert.dflt).m_prev = y ∧
    (verts.getD (verts.getD y poly_vert.dflt).m_prev poly_vert.dflt).m_state
      ≠ state_enum.DELETED ∧
    (verts.getD (verts.getD y poly_vert.dflt).m_next poly_vert.dflt).m_state
      ≠ state_enum.DELETED := by
  have Hy := H y hy
  rw [if_neg hs] at Hy
  obtain ⟨a1, a2, a3, a4⟩ := Hy
  refine ⟨a1, a2, a3, a4, ?_, ?_⟩
  · intro hd
    have Hp := H _ a1
    rw [if_pos hd, a3] at Hp
    rw [← Hp.1] at hd
    exact hs hd
  · intro hd
    have Hn := H _ a2
    rw [if_pos hd, a4] at Hn
    rw [← Hn.2] at hd
    exact hs hd

theorem loops_valid_deleted (verts : List poly_vert) (H : loops_valid verts) (i : Nat)
    (hi : i < verts.length) (hd : (verts.getD i poly_vert.dflt).m_state = state_enum.DELETED) :
    (verts.getD i poly_vert.dflt).m_next = i ∧ (verts.getD i poly_vert.dflt).m_prev = i := by
  have Hi := H i hi
  rw [if_pos hd] at Hi
  exact Hi

/-- What the ring invariant gives about the five vertices that a clip writes:
`vi0`, `vi1`, `vi2`, `a = prev(vi2)` and `b = next(vi1)` are valid, live and
placed on the ring as the fixup expects. -/
theorem ear_scan_facts (ts t : tristate) (v0 v1 v2 : Nat) (H : loops_valid ts.m_verts)
    (h : ear_scan ts = some (t, v0, v1, v2)) :
    v0 < ts.m_verts.length ∧ v1 < ts.m_verts.length ∧ v2 < ts.m_verts.length ∧
    (ts.m_verts.getD v2 poly_vert.dflt).m_prev < ts.m_verts.length ∧
    (ts.m_verts.getD v1 poly_vert.dflt).m_next < ts.m_verts.length ∧
    (ts.m_verts.getD v0 poly_vert.dflt).m_state ≠ state_enum.DELETED ∧
    (ts.m_verts.getD v1 poly_vert.dflt).m_state ≠ state_enum.DELETED ∧
    (ts.m_verts.getD v2 poly_vert.dflt).m_state ≠ state_enum.DELETED ∧
    (ts.m_verts.getD (ts.m_verts.getD v2 poly_vert.dflt).m_prev poly_vert.dflt).m_state
      ≠ state_enum.DELETED ∧
    (ts.m_verts.getD (ts.m_verts.getD v1 poly_vert.dflt).m_next poly_vert.dflt).m_state
      ≠ state_enum.DELETED ∧
    v0 ≠ v1 ∧ v2 ≠ v1 ∧ (ts.m_verts.getD v2 poly_vert.dflt).m_prev ≠ v0 ∧
    (ts.m_verts.getD v1 poly_vert.dflt).m_next ≠ v1 ∧
    ((ts.m_verts.getD v2 poly_vert.dflt).m_prev ≠ v1 →
      (ts.m_verts.getD v1 poly_vert.dflt).m_next ≠ v2) := by
  obtain ⟨-, hv, h1, -, hs1, h0, hne, hf⟩ := ear_scan_spec ts t v0 v1 v2 h
  unfold tristate.vert at hs1 h0
  have hval := find_ear_vertex_valid t v0 v1 v2 (by rw [hv]; exact H) (by rw [hv]; exact h1)
    (by unfold tristate.vert; rw [hv]; exact hs1) (by unfold tristate.vert; rw [hv]; exact h0)
    hne hf
  unfold tristate.vert at hval
  rw [hv] at hval
  obtain ⟨h2, hs2, hne2⟩ := hval
  obtain ⟨p1, n1, np1, pn1, sp1, sn1⟩ := loops_valid_live ts.m_verts H v1 h1 hs1
  obtain ⟨p2, n2, np2, pn2, sp2, sn2⟩ := loops_valid_live ts.m_verts H v2 h2 hs2
  rw [← h0] at p1 np1 sp1
  refine ⟨p1, h1, h2, p2, n1, sp1, hs1, hs2, sp2, sn1, hne, hne2, ?_, ?_, ?_⟩
  · intro e
    rw [e, np1] at np2
    exact hne2 np2.symm
  · intro e
    rw [e] at pn1
    exact hne (by rw [h0]; exact pn1)
  · intro hc e
    rw [e] at pn1
    exact hc pn1

/-- C26: after a successful clip of `(v0, v1, v2)` the dirty cursor `c` is a
valid index with `c <= min(v0, v1, v2)`, the position at `c` equals the position
at the index `min(v0, v1, v2)`, and either `c = 0` or the position at `c - 1`
differs from the position at `c`. -/
theorem clip_rewinds_dirty_cursor (ts t : tristate) (v0 v1 v2 : Nat)
    (h : ear_scan ts = some (t, v0, v1, v2)) :
    (find_and_clip_ear ts).1 = true ∧
    (find_and_clip_ear ts).2.m_next_dirty < (find_and_clip_ear ts).2.m_verts.length ∧
    (find_and_clip_ear ts).2.m_next_dirty ≤ min v0 (min v1 v2) ∧
    ((find_and_clip_ear ts).2.vert (find_and_clip_ear ts).2.m_next_dirty).m_v
      = ((find_and_clip_ear ts).2.vert (min v0 (min v1 v2))).m_v ∧
    ((find_and_clip_ear ts).2.m_next_dirty = 0 ∨
      ((find_and_clip_ear ts).2.vert ((find_and_clip_ear ts).2.m_next_dirty - 1)).m_v
        ≠ ((find_and_clip_ear ts).2.vert (find_and_clip_ear ts).2.m_next_dirty).m_v) := by
  obtain ⟨he, hv, h1, hd, -, -, -, -⟩ := ear_scan_spec ts t v0 v1 v2 h
  rw [he]
  simp only
  unfold tristate.vert
  rw [next_dirty_clip_ear, verts_clip_ear, hd]
  have hm : min v2 (min v1 (min v0 (v1 + 1))) = min v0 (min v1 v2) := by
    simp only [Nat.min_def]
    split_ifs <;> omega
  rw [hm]
  obtain ⟨a1, a2, a3⟩ := rewind_dirty_spec (clip_links t.m_verts v0 v1 v2) (min v0 (min v1 v2))
  refine ⟨trivial, ?_, a1, a2, a3⟩
  rw [length_clip_links]
  have hle : min v0 (min v1 v2) ≤ v1 := Nat.le_trans (Nat.min_le_right _ _) (Nat.min_le_left _ _)
  rw [← hv] at h1
  exact Nat.lt_of_le_of_lt (Nat.le_trans a1 hle) h1

/-- C26 on the first clip of the square: the ear is `(1, 0, 2)` and the cursor
goes back to 0. -/
theorem clip_rewinds_dirty_cursor_witness :
    ear_scan (init [[0, 0, 100, 0, 100, 100, 0, 100]] 0)
      = some ({ init [[0, 0, 100, 0, 100, 100, 0, 100]] 0 with m_next_dirty := 1 }, 1, 0, 2) ∧
    (find_and_clip_ear (init [[0, 0, 100, 0, 100, 100, 0, 100]] 0)).2.m_next_dirty = 0 :=
  ⟨by decide,
    Nat.le_zero.1 (clip_rewinds_dirty_cursor (init [[0, 0, 100, 0, 100, 100, 0, 100]] 0)
      { init [[0, 0, 100, 0, 100, 100, 0, 100]] 0 with m_next_dirty := 1 } 1 0 2
      (by decide)).2.2.1⟩

/-- C25: after a successful clip of `(v0, v1, v2)` in a state with the ring
invariant: `v1` is DELETED with `next(v1) = prev(v1) = v1`, `next(v0) = v2` and
`prev(v2) = v0`; no vertex position changes, no state other than that of `v1`
changes, and the only other links that change are `next(a) := b` and
`prev(b) := a` for `a` the old `prev(v2)` and `b` the old `next(v1)`, and only
when `a != v1`. -/
theorem clip_frame (ts t : tristate) (v0 v1 v2 : Nat) (H : loops_valid ts.m_verts)
    (h : ear_scan ts = some (t, v0, v1, v2)) :
    (find_and_clip_ear ts).1 = true ∧
    ((find_and_clip_ear ts).2.vert v1).m_state = state_enum.DELETED ∧
    ((find_and_clip_ear ts).2.vert v1).m_next = v1 ∧
    ((find_and_clip_ear ts).2.vert v1).m_prev = v1 ∧
    ((find_and_clip_ear ts).2.vert v0).m_next = v2 ∧
    ((find_and_clip_ear ts).2.vert v2).m_prev = v0 ∧
    (∀ i, ((find_and_clip_ear ts).2.vert i).m_v = (ts.vert i).m_v) ∧
    (∀ i, i ≠ v1 → ((find_and_clip_ear ts).2.vert i).m_state = (ts.vert i).m_state) ∧
    ((ts.vert v2).m_prev ≠ v1 →
      ((find_and_clip_ear ts).2.vert (ts.vert v2).m_prev).m_next = (ts.vert v1).m_next ∧
      ((find_and_clip_ear ts).2.vert (ts.vert v1).m_next).m_prev = (ts.vert v2).m_prev) ∧
    (∀ i, i ≠ v1 → i ≠ v0 → i ≠ (ts.vert v2).m_prev →
      ((find_and_clip_ear ts).2.vert i).m_next = (ts.vert i).m_next) ∧
    (∀ i, i ≠ v1 → i ≠ v2 → ((ts.vert v2).m_prev ≠ v1 → i ≠ (ts.vert v1).m_next) →
      ((find_and_clip_ear ts).2.vert i).m_prev = (ts.vert i).m_prev) := by
  obtain ⟨he, hv, -, -, -, -, -, -⟩ := ear_scan_spec ts t v0 v1 v2 h
  obtain ⟨f0, f1, f2, fa, fb, -, -, -, -, -, n01, n21, na0, nb1, nb2⟩ :=
    ear_scan_facts ts t v0 v1 v2 H h
  rw [he]
  simp only
  unfold tristate.vert
  rw [verts_clip_ear, hv]
  have key := fun i => clip_links_fields ts.m_verts v0 v1 v2 i f0 f1 f2 fa fb
  refine ⟨trivial, ?_, ?_, ?_, ?_, ?_, ?_, ?_, ?_, ?_, ?_⟩
  · rw [(key v1).2.2, if_pos rfl]
  · rw [(key v1).1, if_neg (Ne.symm n01), if_pos rfl]
  · rw [(key v1).2.1, if_neg (Ne.symm n21), if_pos rfl]
  · rw [(key v0).1, if_pos rfl]
  · rw [(key v2).2.1, if_pos rfl]
  · intro i
    exact pos_clip_links ts.m_verts v0 v1 v2 i
  · intro i hi
    rw [(key i).2.2, if_neg hi]
  · intro hc
    constructor
    · rw [(key _).1, if_neg na0, if_neg hc, if_pos ⟨hc, rfl⟩]
    · rw [(key _).2.1, if_neg (nb2 hc), if_neg nb1, if_pos ⟨hc, rfl⟩]
  · intro i h1 h0 ha
    rw [(key i).1, if_neg h0, if_neg h1, if_neg (fun c => ha c.2)]
  · intro i h1 h2 hb
    rw [(key i).2.1, if_neg h2, if_neg h1, if_neg (fun c => hb c.1 c.2)]

/-- C25 on a clip that takes the fixup branch: on the path (1,1), (3,2), (2,3),
(1,1), (0,1) the first ear is `(3, 2, 4)`, with `a = prev(4) = 1` and
`b = next(2) = 0`. -/
theorem clip_frame_witness :
    loops_valid (init [[1, 1, 3, 2, 2, 3, 1, 1, 0, 1]] 0).m_verts ∧
    ear_scan (init [[1, 1, 3, 2, 2, 3, 1, 1, 0, 1]] 0)
      = some ({ init [[1, 1, 3, 2, 2, 3, 1, 1, 0, 1]] 0 with m_next_dirty := 3 }, 3, 2, 4) ∧
    ((find_and_clip_ear (init [[1, 1, 3, 2, 2, 3, 1, 1, 0, 1]] 0)).2.vert 2).m_state
      = state_enum.DELETED :=
  ⟨by decide, by decide,
    (clip_frame (init [[1, 1, 3, 2, 2, 3, 1, 1, 0, 1]] 0)
      { init [[1, 1, 3, 2, 2, 3, 1, 1, 0, 1]] 0 with m_next_dirty := 3 } 3 2 4
      (by decide) (by decide)).2.1⟩

/-! ## DELETED vertices stay as they are -/

theorem clip_steps_succ (n : Nat) (ts : tristate) :
    clip_steps (n + 1) ts =
      if (find_and_clip_ear ts).1 then clip_steps n (check_debug_dump (find_and_clip_ear ts).2).2
      else none := rfl

/-- One clip leaves a DELETED vertex as it is, and its ear does not use it. -/
theorem deleted_vertex_step (ts : tristate) (H : loops_valid ts.m_verts) (i : Nat)
    (hd : (ts.vert i).m_state = state_enum.DELETED)
    (hc : (find_and_clip_ear ts).1 = true) :
    ((check_debug_dump (find_and_clip_ear ts).2).2.vert i).m_state = state_enum.DELETED ∧
    ((check_debug_dump (find_and_clip_ear ts).2).2.vert i).m_next = (ts.vert i).m_next ∧
    ((check_debug_dump (find_and_clip_ear ts).2).2.vert i).m_prev = (ts.vert i).m_prev := by
  obtain ⟨t, v0, v1, v2, h⟩ := ear_scan_of_true ts hc
  obtain ⟨he, hv, -, -, -, -, -, -⟩ := ear_scan_spec ts t v0 v1 v2 h
  obtain ⟨f0, f1, f2, fa, fb, s0, s1, s2, sa, sb, -⟩ := ear_scan_facts ts t v0 v1 v2 H h
  unfold tristate.vert at hd ⊢
  rw [verts_check_debug_dump, he]
  simp only
  rw [verts_clip_ear, hv]
  obtain ⟨k1, k2, k3⟩ := clip_links_fields ts.m_verts v0 v1 v2 i f0 f1 f2 fa fb
  have e0 : i ≠ v0 := fun e => s0 (e ▸ hd)
  have e1 : i ≠ v1 := fun e => s1 (e ▸ hd)
  have e2 : i ≠ v2 := fun e => s2 (e ▸ hd)
  have ea : i ≠ (ts.m_verts.getD v2 poly_vert.dflt).m_prev := fun e => sa (e ▸ hd)
  have eb : i ≠ (ts.m_verts.getD v1 poly_vert.dflt).m_next := fun e => sb (e ▸ hd)
  refine ⟨?_, ?_, ?_⟩
  · rw [k3, if_neg e1]; exact hd
  · rw [k1, if_neg e0, if_neg e1, if_neg (fun c => ea c.2)]
  · rw [k2, if_neg e2, if_neg e1, if_neg (fun c => eb c.2)]

theorem loops_valid_clip_step (ts : tristate) (H : loops_valid ts.m_verts) :
    loops_valid (check_debug_dump (find_and_clip_ear ts).2).2.m_verts ∧
    (check_debug_dump (find_and_clip_ear ts).2).2.m_verts.length = ts.m_verts.length := by
  rw [verts_check_debug_dump]
  unfold find_and_clip_ear
  exact ⟨loops_valid_find_and_clip_ear_loop _ ts H,
    (find_and_clip_ear_loop_deleted_count _ ts).1⟩

theorem loops_valid_clip_steps (n : Nat) :
    ∀ ts0 ts : tristate, loops_valid ts0.m_verts → clip_steps n ts0 = some ts →
      loops_valid ts.m_verts ∧ ts.m_verts.length = ts0.m_verts.length := by
  induction n with
  | zero =>
    intro ts0 ts H h
    simp only [clip_steps, Option.some.injEq] at h
    subst h
    exact ⟨H, rfl⟩
  | succ n ih =>
    intro ts0 ts H h
    rw [clip_steps_succ] at h
    split_ifs at h with c
    obtain ⟨a, b⟩ := loops_valid_clip_step ts0 H
    obtain ⟨a2, b2⟩ := ih _ ts a h
    exact ⟨a2, by rw [b2, b]⟩

theorem deleted_vertex_steps (m : Nat) :
    ∀ ts ts2 : tristate, loops_valid ts.m_verts → clip_steps m ts = some ts2 →
      ∀ i, i < ts.m_verts.length → (ts.vert i).m_state = state_enum.DELETED →
        (ts2.vert i).m_state = state_enum.DELETED ∧
        (ts2.vert i).m_next = (ts.vert i).m_next ∧ (ts2.vert i).m_prev = (ts.vert i).m_prev := by
  induction m with
  | zero =>
    intro ts ts2 H h i hi hd
    simp only [clip_steps, Option.some.injEq] at h
    subst h
    exact ⟨hd, rfl, rfl⟩
  | succ m ih =>
    intro ts ts2 H h i hi hd
    rw [clip_steps_succ] at h
    split_ifs at h with c
    obtain ⟨a, b⟩ := loops_valid_clip_step ts H
    obtain ⟨s1, s2, s3⟩ := deleted_vertex_step ts H i hd c
    obtain ⟨r1, r2, r3⟩ := ih _ ts2 a h i (by rw [b]; exact hi) s1
    exact ⟨r1, by rw [r2, s2], by rw [r3, s3]⟩

/-- C21: in every state reached by any number of clips from a state with the
ring invariant (as the state after ingest is), a DELETED vertex has both links
pointing to itself, keeps its state and its links under every later clip, and
is never the `v0`, `v1` or `v2` of a later clip. -/
theorem deleted_vertex_frozen (ts0 : tristate) (H : loops_valid ts0.m_verts) (n : Nat)
    (ts : tristate) (hr : clip_steps n ts0 = some ts) (i : Nat) (hi : i < ts.m_verts.length)
    (hd : (ts.vert i).m_state = state_enum.DELETED) :
    ((ts.vert i).m_next = i ∧ (ts.vert i).m_prev = i) ∧
    ∀ m ts2, clip_steps m ts = some ts2 →
      ((ts2.vert i).m_state = state_enum.DELETED ∧ (ts2.vert i).m_next = i ∧
        (ts2.vert i).m_prev = i) ∧
      ∀ t v0 v1 v2, ear_scan ts2 = some (t, v0, v1, v2) → i ≠ v0 ∧ i ≠ v1 ∧ i ≠ v2 := by
  obtain ⟨Hts, hlen⟩ := loops_valid_clip_steps n ts0 ts H hr
  have hself := loops_valid_deleted ts.m_verts Hts i hi hd
  refine ⟨hself, ?_⟩
  intro m ts2 h2
  obtain ⟨H2, hlen2⟩ := loops_valid_clip_steps m ts ts2 Hts h2
  obtain ⟨r1, r2, r3⟩ := deleted_vertex_steps m ts ts2 Hts h2 i hi hd
  unfold tristate.vert at r2 r3
  refine ⟨⟨r1, by unfold tristate.vert; rw [r2, hself.1],
    by unfold tristate.vert; rw [r3, hself.2]⟩, ?_⟩
  intro t v0 v1 v2 he
  obtain ⟨-, -, -, -, -, s0, s1, s2, -⟩ := ear_scan_facts ts2 t v0 v1 v2 H2 he
  unfold tristate.vert at r1
  exact ⟨fun e => s0 (e ▸ r1), fun e => s1 (e ▸ r1), fun e => s2 (e ▸ r1)⟩

/-- C21 on the square: the first clip deletes vertex 0, which is then linked
to itself. -/
theorem deleted_vertex_frozen_witness :
    loops_valid (init [[0, 0, 100, 0, 100, 100, 0, 100]] 0).m_verts ∧
    clip_steps 1 (init [[0, 0, 100, 0, 100, 100, 0, 100]] 0)
      = some (check_debug_dump
          (find_and_clip_ear (init [[0, 0, 100, 0, 100, 100, 0, 100]] 0)).2).2 ∧
    ((check_debug_dump
      (find_and_clip_ear (init [[0, 0, 100, 0, 100, 100, 0, 100]] 0)).2).2.vert 0).m_state
        = state_enum.DELETED ∧
    ((check_debug_dump
      (find_and_clip_ear (init [[0, 0, 100, 0, 100, 100, 0, 100]] 0)).2).2.vert 0).m_next = 0 ∧
    ((check_debug_dump
      (find_and_clip_ear (init [[0, 0, 100, 0, 100, 100, 0, 100]] 0)).2).2.vert 0).m_prev = 0 :=
  ⟨by decide, by decide, by decide,
    (deleted_vertex_frozen (init [[0, 0, 100, 0, 100, 100, 0, 100]] 0) (by decide) 1
      (check_debug_dump (find_and_clip_ear (init [[0, 0, 100, 0, 100, 100, 0, 100]] 0)).2).2
      (by decide) 0 (by decide) (by decide)).1⟩

/-- C27, as the code has it: on the path (1,1), (3,2), (2,3), (1,1), (0,1) the
first clip is the ear `(3, 2, 4)` at the doubled point (1,1); its fixup branch
rewrites the backward link of vertex 0 (the old `next(v1)`) from 2 to 1, and the
dirty cursor is left at 1, past vertex 0. -/
theorem clip_cursor_past_relinked_vertex :
    ear_scan (init [[1, 1, 3, 2, 2, 3, 1, 1, 0, 1]] 0)
      = some ({ init [[1, 1, 3, 2, 2, 3, 1, 1, 0, 1]] 0 with m_next_dirty := 3 }, 3, 2, 4) ∧
    ((init [[1, 1, 3, 2, 2, 3, 1, 1, 0, 1]] 0).vert 2).m_next = 0 ∧
    ((init [[1, 1, 3, 2, 2, 3, 1, 1, 0, 1]] 0).vert 4).m_prev = 1 ∧
    ((init [[1, 1, 3, 2, 2, 3, 1, 1, 0, 1]] 0).vert 0).m_prev = 2 ∧
    ((find_and_clip_ear (init [[1, 1, 3, 2, 2, 3, 1, 1, 0, 1]] 0)).2.vert 0).m_prev = 1 ∧
    (find_and_clip_ear (init [[1, 1, 3, 2, 2, 3, 1, 1, 0, 1]] 0)).2.m_next_dirty = 1 := by
  decide

/-! ## Ingest, whatever the paths -/

theorem length_path_points : ∀ (n : Nat) (path : List Int), path.length ≤ n →
    (path_points path).length = path.length / 2 := by
  intro n
  induction n with
  | zero =>
    intro path hp
    have : path = [] := List.length_eq_zero.1 (Nat.le_zero.1 hp)
    subst this
    rfl
  | succ n ih =>
    intro path hp
    match path, hp with
    | [], _ => rfl
    | [a], _ => simp [path_points]
    | x :: y :: rest, hp =>
      simp only [path_points, List.length_cons]
      rw [ih rest (by simp only [List.length_cons] at hp; omega)]
      omega

theorem ingest_path_loop_points : ∀ (n : Nat) (path : List Int), path.length ≤ n →
    ∀ (verts : List poly_vert) (lm : Option Nat) (pv : Nat),
      ∃ tail, (ingest_path_loop verts lm pv path).1 = verts ++ tail ∧
        tail.map poly_vert.m_v = path_points path := by
  intro n
  induction n with
  | zero =>
    intro path hp verts lm pv
    have : path = [] := List.length_eq_zero.1 (Nat.le_zero.1 hp)
    subst this
    exact ⟨[], by simp [ingest_path_loop], rfl⟩
  | succ n ih =>
    intro path hp verts lm pv
    match path, hp with
    | [], _ => exact ⟨[], by simp [ingest_path_loop], rfl⟩
    | [a], _ => exact ⟨[], by simp [ingest_path_loop], rfl⟩
    | x :: y :: rest, hp =>
      obtain ⟨tail, h1, h2⟩ := ih rest (by simp only [List.length_cons] at hp; omega)
        (verts ++ [poly_vert.mk4 x y pv (verts.length + 1)])
        (leftmost_update (verts ++ [poly_vert.mk4 x y pv (verts.length + 1)]) lm verts.length)
        verts.length
      refine ⟨poly_vert.mk4 x y pv (verts.length + 1) :: tail, ?_, ?_⟩
      · have e : ingest_path_loop verts lm pv (x :: y :: rest) =
            ingest_path_loop (verts ++ [poly_vert.mk4 x y pv (verts.length + 1)])
              (leftmost_update (verts ++ [poly_vert.mk4 x y pv (verts.length + 1)]) lm
                verts.length) verts.length rest := rfl
        rw [e, h1]
        simp
      · simp only [List.map_cons, path_points, h2]
        rfl

theorem map_pos_set_next (verts : List poly_vert) (i n : Nat) :
    (set_next verts i n).map poly_vert.m_v = verts.map poly_vert.m_v := by
  apply List.ext_getElem
  · simp [length_set_next]
  · intro k h1 h2
    simp only [List.getElem_map]
    have hk : k < verts.length := by simpa using h2
    have := pos_set_next verts i n k
    rw [getD_eq_getElem_of_lt _ _ (by rw [length_set_next]; exact hk),
      getD_eq_getElem_of_lt _ _ hk] at this
    exact this

theorem map_pos_ingest_path (acc : List poly_vert × List path_info) (path : List Int) :
    (ingest_path acc path).1.map poly_vert.m_v = acc.1.map poly_vert.m_v ++ path_points path := by
  obtain ⟨tail, h1, h2⟩ := ingest_path_loop_points path.length path (le_refl _) acc.1 none
    (acc.1.length + path.length / 2 - 1)
  unfold ingest_path
  simp only
  rw [map_pos_set_next, h1, List.map_append, h2]

theorem pos_getD_of_map (verts : List poly_vert) (i : Nat) (h : i < verts.length) :
    (verts.getD i poly_vert.dflt).m_v = (verts.map poly_vert.m_v).getD i { x := 0, y := 0 } := by
  rw [getD_map_of_lt poly_vert.m_v verts i h _ poly_vert.dflt]

/-- One step of the ingest, whatever the path: the array grows by one vertex per
coordinate pair, the positions already there stay, the new positions are those
of the path, and a descriptor for the new range is appended. -/
theorem ingest_path_frame (acc : List poly_vert × List path_info) (path : List Int) :
    (ingest_path acc path).1.length = acc.1.length + path.length / 2 ∧
    (∀ i, i < acc.1.length →
      ((ingest_path acc path).1.getD i poly_vert.dflt).m_v = (acc.1.getD i poly_vert.dflt).m_v) ∧
    ∃ pi, (ingest_path acc path).2 = acc.2 ++ [pi] ∧
      pi.m_begin_vert_orig = acc.1.length ∧
      path_ingested (ingest_path acc path).1 path pi := by
  obtain ⟨s1, s2, s3, s4⟩ := ingest_path_loop_spec path.length path (le_refl _) acc.1 none
    (acc.1.length + path.length / 2 - 1)
  have hmap := map_pos_ingest_path acc path
  have hlen : (ingest_path acc path).1.length = acc.1.length + path.length / 2 := by
    unfold ingest_path
    simp only
    rw [length_set_next, s1]
  have hpp := length_path_points path.length path (le_refl _)
  refine ⟨hlen, ?_, ?_⟩
  · intro i hi
    rw [pos_getD_of_map _ i (by rw [hlen]; omega), hmap, pos_getD_of_map _ i hi,
      getD_append_left_of_lt _ _ _ _ (by simpa using hi)]
  · refine ⟨_, rfl, rfl, ?_, ?_, ?_, ?_⟩
    · show (set_next _ _ _).length = _
      rw [length_set_next, s1]
    · show (set_next _ _ _).length ≤ _
      exact le_refl _
    · intro t ht
      show ((ingest_path acc path).1.getD (acc.1.length + t) poly_vert.dflt).m_v = _
      rw [pos_getD_of_map _ _ (by rw [hlen]; omega), hmap,
        getD_append_right_of_le _ _ _ _ (by simp)]
      congr 1
      simp
    · intro hp
      obtain ⟨k1, k2⟩ := s4 acc.1.length (fun _ => rfl) (fun l h => by cases h)
      cases hlm : (ingest_path_loop acc.1 none (acc.1.length + path.length / 2 - 1) path).2 with
      | none => exact absurd (k1 hlm).2 (by omega)
      | some l =>
        have hfm := first_min_congr _ (ingest_path acc path).1 _ _ l
          (fun i _ => pos_set_next _ _ _ i) (k2 l hlm)
        refine ⟨l, ?_, hfm.1, ?_, ?_⟩
        · rfl
        · show l < (set_next _ _ _).length
          rw [length_set_next, s1]
          exact hfm.2.1
        · intro j hj1 hj2
          have hj2b : j < (set_next
              (ingest_path_loop acc.1 none (acc.1.length + path.length / 2 - 1) path).1
              ((ingest_path_loop acc.1 none (acc.1.length + path.length / 2 - 1) path).1.length
                - 1) acc.1.length).length := hj2
          rw [length_set_next, s1] at hj2b
          exact hfm.2.2.1 j hj1 hj2b

theorem path_ingested_congr (verts verts2 : List poly_vert) (path : List Int) (pi : path_info)
    (h : ∀ i, i < verts.length →
      (verts2.getD i poly_vert.dflt).m_v = (verts.getD i poly_vert.dflt).m_v)
    (hl : verts.length ≤ verts2.length) (hp : path_ingested verts path pi) :
    path_ingested verts2 path pi := by
  obtain ⟨h1, h2, h3, h4⟩ := hp
  refine ⟨h1, by omega, ?_, ?_⟩
  · intro t ht
    rw [h _ (by omega)]
    exact h3 t ht
  · intro hne
    obtain ⟨l, a1, a2, a3, a4⟩ := h4 hne
    refine ⟨l, a1, a2, a3, ?_⟩
    intro j hj1 hj2
    rw [h j (by omega), h l (by omega)]
    exact a4 j hj1 hj2

theorem path_ingested_foldl (paths : List (List Int)) :
    ∀ (acc : List poly_vert × List path_info) (done : List (List Int)),
      List.Forall₂ (path_ingested acc.1) done acc.2 →
      List.Forall₂ (path_ingested (paths.foldl ingest_path acc).1) (done ++ paths)
        (paths.foldl ingest_path acc).2 := by
  induction paths with
  | nil => intro acc done h; simpa using h
  | cons p rest ih =>
    intro acc done h
    rw [List.foldl_cons]
    obtain ⟨s1, s2, pi, s3, s4, s5⟩ := ingest_path_frame acc p
    have := ih (ingest_path acc p) (done ++ [p]) (by
      rw [s3]
      refine List.rel_append ?_ (List.Forall₂.cons s5 List.Forall₂.nil)
      exact List.Forall₂.imp (fun a b hab =>
        path_ingested_congr acc.1 _ a b s2 (by rw [s1]; omega) hab) h)
    simpa using this

/-- C23: after ingest and before sorting, whatever the input, the descriptor of
each path has the range of the path's vertices (one index per coordinate pair,
with the positions of the path in order), and for each non-empty path the
leftmost index lies in that range `[begin, end)` and no vertex of the range is
lexicographically (x, then y) smaller than the vertex at that index. -/
theorem ingest_leftmost_is_smallest (paths : List (List Int)) :
    List.Forall₂ (path_ingested (paths.foldl ingest_path ([], [])).1) paths
      (paths.foldl ingest_path ([], [])).2 := by
  have := path_ingested_foldl paths ([], []) [] List.Forall₂.nil
  simpa using this

/-! ## The reflex point index -/

theorem reflex_sort_and_remap (ts : tristate) :
    (sort_and_remap ts).m_reflex_point_index = ts.m_reflex_point_index := rfl

theorem reflex_join_one_path (ts : tristate) (v1 : Nat) :
    (join_one_path ts v1).m_reflex_point_index = ts.m_reflex_point_index := rfl

theorem reflex_join_paths_into_one_poly (ts : tristate) :
    (join_paths_into_one_poly ts).m_reflex_point_index = ts.m_reflex_point_index := by
  unfold join_paths_into_one_poly
  split_ifs
  · simp only
    generalize (List.drop 1 (std_sort path_info.lt ts.m_input_paths)) = l
    have : ∀ t : tristate, t.m_reflex_point_index = ts.m_reflex_point_index →
        (l.foldl (fun t pi =>
          match pi.m_leftmost_vert with
          | some v1 => if v1 > 0 then join_one_path t v1 else t
          | none => t) t).m_reflex_point_index = ts.m_reflex_point_index := by
      induction l with
      | nil => intro t ht; exact ht
      | cons pi rest ih =>
        intro t ht
        rw [List.foldl_cons]
        apply ih
        split
        · split_ifs
          · rw [reflex_join_one_path]; exact ht
          · exact ht
        · exact ht
    exact this _ rfl
  · rfl

theorem reflex_init (paths : List (List Int)) (debug_halt_step : Int) :
    (init paths debug_halt_step).m_reflex_point_index =
      (paths.foldl ingest_path ([], [])).2.foldl
        (add_reflex_of_path (paths.foldl ingest_path ([], [])).1) [] := by
  unfold init
  simp only
  split_ifs
  · rw [reflex_sort_and_remap, reflex_join_paths_into_one_poly, reflex_sort_and_remap]
  · rw [reflex_sort_and_remap]

/-- The loop over the triples of a path appends the position of the middle
index of every triple with `turn <= 0`; the triples go up by one from `j`. -/
theorem reflex_loop_regular (verts : List poly_vert) :
    ∀ (n j : Nat) (idx : List vec2),
      reflex_loop verts n (j + 2) (j + 1) j idx =
        idx ++ ((List.range' (j + 1) n).filter (fun h => decide (vertex_left_test
            (verts.getD (h - 1) poly_vert.dflt).m_v (verts.getD h poly_vert.dflt).m_v
            (verts.getD (h + 1) poly_vert.dflt).m_v ≤ 0))).map
          (fun h => (verts.getD h poly_vert.dflt).m_v) := by
  intro n
  induction n with
  | zero => intro j idx; simp [reflex_loop]
  | succ n ih =>
    intro j idx
    unfold reflex_loop
    simp only
    rw [ih (j + 1), List.range'_succ, List.filter_cons]
    simp only [Nat.add_sub_cancel]
    split_ifs with c1 c2 c2
    · simp [List.append_assoc]
    · exact absurd (by simpa using c1) c2
    · exact absurd (by simpa using c2) c1
    · rfl

theorem reflex_loop_succ (verts : List poly_vert) (n j k l : Nat) (idx : List vec2) :
    reflex_loop verts (n + 1) j k l idx =
      reflex_loop verts n (j + 1) j k
        (if vertex_left_test (verts.getD l poly_vert.dflt).m_v (verts.getD k poly_vert.dflt).m_v
            (verts.getD j poly_vert.dflt).m_v ≤ 0
          then idx ++ [(verts.getD k poly_vert.dflt).m_v] else idx) := rfl

theorem filter_map_cons_eq (p : Nat → Bool) (f : Nat → vec2) (a : Nat) (l : List Nat)
    (idx : List vec2) :
    (if p a = true then idx ++ [f a] else idx) ++ (l.filter p).map f
      = idx ++ ((a :: l).filter p).map f := by
  rw [List.filter_cons]
  split_ifs <;> simp

/-- The loop over the triples of a ring of `k + 3` vertices that starts at
`b`. -/
theorem reflex_loop_ring (verts : List poly_vert) (b k : Nat) (idx : List vec2) :
    reflex_loop verts (k + 3) b (b + k + 2) (b + k + 1) idx =
      idx ++ (((b + k + 2) :: List.range' b (k + 2)).filter
        (fun h => decide (vertex_left_test
          (verts.getD (cyc_prev b (b + k + 3) h) poly_vert.dflt).m_v
          (verts.getD h poly_vert.dflt).m_v
          (verts.getD (cyc_next b (b + k + 3) h) poly_vert.dflt).m_v ≤ 0))).map
        (fun h => (verts.getD h poly_vert.dflt).m_v) := by
  rw [reflex_loop_succ, reflex_loop_succ, reflex_loop_regular]
  have hreg : (List.range' (b + 1) (k + 1)).filter (fun h => decide (vertex_left_test
        (verts.getD (h - 1) poly_vert.dflt).m_v (verts.getD h poly_vert.dflt).m_v
        (verts.getD (h + 1) poly_vert.dflt).m_v ≤ 0))
      = (List.range' (b + 1) (k + 1)).filter (fun h => decide (vertex_left_test
          (verts.getD (cyc_prev b (b + k + 3) h) poly_vert.dflt).m_v
          (verts.getD h poly_vert.dflt).m_v
          (verts.getD (cyc_next b (b + k + 3) h) poly_vert.dflt).m_v ≤ 0)) := by
    apply List.filter_congr
    intro h hh
    rw [List.mem_range'_1] at hh
    unfold cyc_prev cyc_next
    rw [if_neg (by omega), if_neg (by omega)]
  rw [hreg]
  have e1 : cyc_prev b (b + k + 3) (b + k + 2) = b + k + 1 := by
    unfold cyc_prev; rw [if_neg (by omega)]; rfl
  have e2 : cyc_next b (b + k + 3) (b + k + 2) = b := by
    unfold cyc_next; rw [if_pos rfl]
  have e3 : cyc_prev b (b + k + 3) b = b + k + 2 := by
    unfold cyc_prev; rw [if_pos rfl]; rfl
  have e4 : cyc_next b (b + k + 3) b = b + 1 := by
    unfold cyc_next; rw [if_neg (by omega)]
  rw [show List.range' b (k + 2) = b :: List.range' (b + 1) (k + 1) from List.range'_succ _ _ _]
  rw [← filter_map_cons_eq _ _ (b + k + 2), ← filter_map_cons_eq _ _ b]
  simp only [e1, e2, e3, e4, decide_eq_true_eq]

theorem add_reflex_of_path_eq (verts : List poly_vert) (idx : List vec2) (pi : path_info) :
    add_reflex_of_path verts idx pi = idx ++ reflex_entries verts pi := by
  unfold add_reflex_of_path reflex_entries
  simp only
  split_ifs with c
  · obtain ⟨k, hk⟩ : ∃ k, pi.m_end_vert_orig = pi.m_begin_vert_orig + k + 3 :=
      ⟨pi.m_end_vert_orig - pi.m_begin_vert_orig - 3, by omega⟩
    rw [hk]
    have a1 : pi.m_begin_vert_orig + k + 3 - pi.m_begin_vert_orig = k + 3 := by omega
    have a2 : pi.m_begin_vert_orig + k + 3 - 1 = pi.m_begin_vert_orig + k + 2 := by omega
    have a3 : pi.m_begin_vert_orig + k + 3 - 2 = pi.m_begin_vert_orig + k + 1 := by omega
    have a4 : k + 3 - 1 = k + 2 := by omega
    rw [a1, a2, a3, a4]
    exact reflex_loop_ring verts pi.m_begin_vert_orig k idx
  · simp

theorem foldl_add_reflex (verts : List poly_vert) (pis : List path_info) :
    ∀ idx, pis.foldl (add_reflex_of_path verts) idx
      = idx ++ (pis.map (reflex_entries verts)).flatten := by
  induction pis with
  | nil => intro idx; simp
  | cons pi rest ih =>
    intro idx
    rw [List.foldl_cons, ih, add_reflex_of_path_eq]
    simp [List.append_assoc]

/-- C24, as the code has it: after ingest the reflex point index holds, for each
ring of the input with more than two vertices, exactly one entry for each vertex
`here` of the ring with `turn(prev, here, next) <= 0`, at the position of
`here`, and no other entries; a ring of one or two vertices gives no entry. -/
theorem init_reflex_point_index (paths : List (List Int)) (debug_halt_step : Int) :
    (init paths debug_halt_step).m_reflex_point_index =
      ((paths.foldl ingest_path ([], [])).2.map
        (reflex_entries (paths.foldl ingest_path ([], [])).1)).flatten := by
  rw [reflex_init, foldl_add_reflex]
  simp

/-- C24 fails for a ring of two vertices: on the path (0,0), (1,0) the vertex 0
has `prev = next = 1` and `turn(prev, here, next) = 0`, and the reflex point
index is empty. -/
theorem init_reflex_two_vertex_ring_counterexample :
    (([[0, 0, 1, 0]] : List (List Int)).foldl ingest_path ([], [])).1
      = [poly_vert.mk4 0 0 1 1, poly_vert.mk4 1 0 0 0] ∧
    vertex_left_test ({ x := 1, y := 0 } : vec2) { x := 0, y := 0 } { x := 1, y := 0 } ≤ 0 ∧
    (init [[0, 0, 1, 0]] 0).m_reflex_point_index = [] := by
  decide

/-- C22, as the code has it: an empty path that follows a non-empty one makes
the closing write of line 520 land on the last vertex of the path before it:
on the paths (0,0), (1,0), (0,1) and the empty path, the first path has the
range `[0, 3)` and `next(2)` is 3, not 0. -/
theorem ingest_empty_path_reopens_ring :
    (([[0, 0, 1, 0, 0, 1], []] : List (List Int)).foldl ingest_path ([], [])).2
      = [{ m_begin_vert_orig := 0, m_end_vert_orig := 3, m_leftmost_vert := some 0 },
         { m_begin_vert_orig := 3, m_end_vert_orig := 3, m_leftmost_vert := none }] ∧
    (([[0, 0, 1, 0, 0, 1], []] : List (List Int)).foldl ingest_path ([], [])).1.length = 3 ∧
    ((([[0, 0, 1, 0, 0, 1], []] : List (List Int)).foldl ingest_path ([], [])).1.getD 2
      poly_vert.dflt).m_next = 3 ∧
    ((([[0, 0, 1, 0, 0, 1]] : List (List Int)).foldl ingest_path ([], [])).1.getD 2
      poly_vert.dflt).m_next = 0 := by
  decide

/-- When no path of the input is empty, the ingest links every path as a ring on
its own range: `next(i) = i + 1` and `prev(i) = i - 1` inside the range,
`next(e - 1) = b` and `prev(b) = e - 1`, and so `next(prev(v)) = v` and
`prev(next(v)) = v` for every vertex. -/
theorem ingest_rings_of_nonempty_paths (paths : List (List Int))
    (hne : ∀ p ∈ paths, 2 ≤ p.length) :
    (∀ pi ∈ (paths.foldl ingest_path ([], [])).2,
      pi.m_begin_vert_orig < pi.m_end_vert_orig ∧
      pi.m_end_vert_orig ≤ (paths.foldl ingest_path ([], [])).1.length ∧
      ∀ i, pi.m_begin_vert_orig ≤ i → i < pi.m_end_vert_orig →
        ((paths.foldl ingest_path ([], [])).1.getD i poly_vert.dflt).m_next
          = (if i + 1 = pi.m_end_vert_orig then pi.m_begin_vert_orig else i + 1) ∧
        ((paths.foldl ingest_path ([], [])).1.getD i poly_vert.dflt).m_prev
          = (if i = pi.m_begin_vert_orig then pi.m_end_vert_orig - 1 else i - 1)) ∧
    ∀ v, v < (paths.foldl ingest_path ([], [])).1.length →
      ((paths.foldl ingest_path ([], [])).1.getD
        ((paths.foldl ingest_path ([], [])).1.getD v poly_vert.dflt).m_prev
          poly_vert.dflt).m_next = v ∧
      ((paths.foldl ingest_path ([], [])).1.getD
        ((paths.foldl ingest_path ([], [])).1.getD v poly_vert.dflt).m_next
          poly_vert.dflt).m_prev = v := by
  obtain ⟨hI, -⟩ := ingest_ok_foldl paths hne ([], []) ingest_ok_nil
  constructor
  · intro pi hpi
    obtain ⟨h1, h2, h3, -⟩ := hI.2.1 pi hpi
    exact ⟨h1, h2, h3⟩
  · intro v hv
    have H := loops_valid_of_ingest_ok _ hI v hv
    have hs := state_getD_of_all_dirty _ hI.1 v
    rw [if_neg (by rw [hs]; decide)] at H
    exact ⟨H.2.2.1, H.2.2.2⟩

/-! ## The bridge vertex -/

theorem find_valid_bridge_vert_loop_some (ts : tristate) (v1 : Nat)
    (edge_index : List (index_box × Bool)) :
    ∀ n r, find_valid_bridge_vert_loop ts v1 edge_index n = some r →
      r < n ∧ any_edge_intersects ts v1 r edge_index = false ∧
      ∀ i, r < i → i < n → any_edge_intersects ts v1 i edge_index = true := by
  intro n
  induction n with
  | zero => intro r h; simp [find_valid_bridge_vert_loop] at h
  | succ n ih =>
    intro r h
    unfold find_valid_bridge_vert_loop at h
    split_ifs at h with c
    · simp only [Option.some.injEq] at h
      subst h
      refine ⟨by omega, by simpa using c, fun i h1 h2 => by omega⟩
    · obtain ⟨a1, a2, a3⟩ := ih r h
      refine ⟨by omega, a2, ?_⟩
      intro i h1 h2
      by_cases e : i = n
      · subst e
        simpa using c
      · exact a3 i h1 (by omega)

/-- C28: in a sorted vertex array with `v1 > 0`, if some index below `v1` gives
a segment `(v1, i)` that `any_edge_intersects` finds crossing no indexed edge,
`find_valid_bridge_vert` returns the largest such index `r`; it satisfies
`0 <= r < v1`, and the position of `r` is lexicographically not after the
position of `v1`. -/
theorem find_valid_bridge_vert_largest (ts : tristate) (v1 : Nat)
    (edge_index : List (index_box × Bool)) (hs : verts_sorted ts.m_verts) (h0 : 0 < v1)
    (h1 : v1 < ts.m_verts.length)
    (hex : ∃ i, i < v1 ∧ any_edge_intersects ts v1 i edge_index = false) :
    find_valid_bridge_vert ts v1 edge_index < v1 ∧
    any_edge_intersects ts v1 (find_valid_bridge_vert ts v1 edge_index) edge_index = false ∧
    (∀ i, find_valid_bridge_vert ts v1 edge_index < i → i < v1 →
      any_edge_intersects ts v1 i edge_index = true) ∧
    lex_le (ts.vert (find_valid_bridge_vert ts v1 edge_index)).m_v (ts.vert v1).m_v := by
  have hlt := find_valid_bridge_vert_lt ts v1 edge_index h0
  refine ⟨hlt, ?_, ?_, hs _ h1 _ hlt⟩
  · unfold find_valid_bridge_vert
    cases hl : find_valid_bridge_vert_loop ts v1 edge_index v1 with
    | none =>
      exfalso
      obtain ⟨i, hi, hf⟩ := hex
      have hall : ∀ n, find_valid_bridge_vert_loop ts v1 edge_index n = none →
          ∀ j, j < n → any_edge_intersects ts v1 j edge_index = true := by
        intro n
        induction n with
        | zero => intro _ j hj; omega
        | succ n ih =>
          intro hn j hj
          unfold find_valid_bridge_vert_loop at hn
          split_ifs at hn with c
          by_cases e : j = n
          · subst e
            simpa using c
          · exact ih hn j (by omega)
      rw [hall v1 hl i hi] at hf
      exact Bool.noConfusion hf
    | some r => exact (find_valid_bridge_vert_loop_some ts v1 edge_index v1 r hl).2.1
  · unfold find_valid_bridge_vert
    cases hl : find_valid_bridge_vert_loop ts v1 edge_index v1 with
    | none =>
      intro i hi1 hi2
      simp only at hi1
      omega
    | some r => exact (find_valid_bridge_vert_loop_some ts v1 edge_index v1 r hl).2.2

/-- C28 on the two vertices (0,0) and (10,0) with an empty edge index: the
bridge vertex of vertex 1 is vertex 0. -/
theorem find_valid_bridge_vert_largest_witness :
    verts_sorted blocked_bridge_state.m_verts ∧ 0 < 1 ∧
    1 < blocked_bridge_state.m_verts.length ∧
    (∃ i, i < 1 ∧ any_edge_intersects blocked_bridge_state 1 i [] = false) ∧
    find_valid_bridge_vert blocked_bridge_state 1 [] < 1 :=
  ⟨by decide, by decide, by decide, ⟨0, by decide, by decide⟩,
    (find_valid_bridge_vert_largest blocked_bridge_state 1 [] (by decide)
      (by decide) (by decide) ⟨0, by decide, by decide⟩).1⟩

/-! ## The two results of `edges_intersect_sub` -/

theorem determinant_exact_same_01 (a c : vec2) : determinant_exact a a c = 0 := by
  unfold determinant_exact; ring

/-- C30: for all 16-bit segments `e0` and `e1` (zero-length ones included),
`edges_intersect_sub` sets `e1_vs_e0` to 1 when both endpoints of `e1` lie
strictly on the same side of the line of `e0`, to -1 when they lie strictly on
opposite sides, and to 0 when at least one of them lies on that line; and it
sets `e0_vs_e1` in the same way with the roles of `e0` and `e1` exchanged. The
side of a point is the sign of the exact determinant. -/
theorem edges_intersect_sub_sides (e0v0 e0v1 e1v0 e1v1 : vec2)
    (h00 : e0v0.is_sint16) (h01 : e0v1.is_sint16) (h10 : e1v0.is_sint16)
    (h11 : e1v1.is_sint16) :
    (((determinant_exact e0v0 e0v1 e1v0 > 0 ∧ determinant_exact e0v0 e0v1 e1v1 > 0) ∨
      (determinant_exact e0v0 e0v1 e1v0 < 0 ∧ determinant_exact e0v0 e0v1 e1v1 < 0)) →
      (edges_intersect_sub e0v0 e0v1 e1v0 e1v1).2 = 1) ∧
    (((determinant_exact e0v0 e0v1 e1v0 > 0 ∧ determinant_exact e0v0 e0v1 e1v1 < 0) ∨
      (determinant_exact e0v0 e0v1 e1v0 < 0 ∧ determinant_exact e0v0 e0v1 e1v1 > 0)) →
      (edges_intersect_sub e0v0 e0v1 e1v0 e1v1).2 = -1) ∧
    ((determinant_exact e0v0 e0v1 e1v0 = 0 ∨ determinant_exact e0v0 e0v1 e1v1 = 0) →
      (edges_intersect_sub e0v0 e0v1 e1v0 e1v1).2 = 0) ∧
    (((determinant_exact e1v0 e1v1 e0v0 > 0 ∧ determinant_exact e1v0 e1v1 e0v1 > 0) ∨
      (determinant_exact e1v0 e1v1 e0v0 < 0 ∧ determinant_exact e1v0 e1v1 e0v1 < 0)) →
      (edges_intersect_sub e0v0 e0v1 e1v0 e1v1).1 = 1) ∧
    (((determinant_exact e1v0 e1v1 e0v0 > 0 ∧ determinant_exact e1v0 e1v1 e0v1 < 0) ∨
      (determinant_exact e1v0 e1v1 e0v0 < 0 ∧ determinant_exact e1v0 e1v1 e0v1 > 0)) →
      (edges_intersect_sub e0v0 e0v1 e1v0 e1v1).1 = -1) ∧
    ((determinant_exact e1v0 e1v1 e0v0 = 0 ∨ determinant_exact e1v0 e1v1 e0v1 = 0) →
      (edges_intersect_sub e0v0 e0v1 e1v0 e1v1).1 = 0) := by
  unfold edges_intersect_sub
  by_cases hz : e0v0.x = e0v1.x ∧ e0v0.y = e0v1.y ∧ e1v0.x = e1v1.x ∧ e1v0.y = e1v1.y ∧
      e1v0.x = e0v0.x ∧ e1v0.y = e0v0.y
  · rw [if_pos hz]
    have e0 : e0v0 = e0v1 := by
      cases e0v0; cases e0v1; simp only [vec2.mk.injEq]; exact ⟨hz.1, hz.2.1⟩
    have e1 : e1v0 = e1v1 := by
      cases e1v0; cases e1v1; simp only [vec2.mk.injEq]; exact ⟨hz.2.2.1, hz.2.2.2.1⟩
    rw [e0, e1]
    simp [determinant_exact_same_01]
  · rw [if_neg hz]
    simp only
    rw [determinant_sint16_eq_exact e0v0 e0v1 e1v0 h00 h01 h10,
      determinant_sint16_eq_exact e0v0 e0v1 e1v1 h00 h01 h11,
      determinant_sint16_eq_exact e1v0 e1v1 e0v0 h10 h11 h00,
      determinant_sint16_eq_exact e1v0 e1v1 e0v1 h10 h11 h01]
    generalize determinant_exact e0v0 e0v1 e1v0 = d10
    generalize determinant_exact e0v0 e0v1 e1v1 = d11
    generalize determinant_exact e1v0 e1v1 e0v0 = d00
    generalize determinant_exact e1v0 e1v1 e0v1 = d01
    refine ⟨?_, ?_, ?_, ?_, ?_, ?_⟩ <;> intro h <;> split_ifs <;> omega

/-- C30 on the segment from (0,0) to (4,0) and the segment from (2,-1) to (2,1)
that crosses it: both results are -1. -/
theorem edges_intersect_sub_sides_witness :
    ({ x := 0, y := 0 } : vec2).is_sint16 ∧ ({ x := 4, y := 0 } : vec2).is_sint16 ∧
    ({ x := 2, y := -1 } : vec2).is_sint16 ∧ ({ x := 2, y := 1 } : vec2).is_sint16 ∧
    (((determinant_exact { x := 0, y := 0 } { x := 4, y := 0 } { x := 2, y := -1 } > 0 ∧
        determinant_exact { x := 0, y := 0 } { x := 4, y := 0 } { x := 2, y := 1 } < 0) ∨
      (determinant_exact { x := 0, y := 0 } { x := 4, y := 0 } { x := 2, y := -1 } < 0 ∧
        determinant_exact { x := 0, y := 0 } { x := 4, y := 0 } { x := 2, y := 1 } > 0)) →
      (edges_intersect_sub { x := 0, y := 0 } { x := 4, y := 0 } { x := 2, y := -1 }
        { x := 2, y := 1 }).2 = -1) :=
  ⟨by decide, by decide, by decide, by decide,
    (edges_intersect_sub_sides { x := 0, y := 0 } { x := 4, y := 0 } { x := 2, y := -1 }
      { x := 2, y := 1 } (by decide) (by decide) (by decide) (by decide)).2.1⟩

/-! ## The bridge splice keeps the ring invariant -/

/-- Two fresh vertices `n` and `n + 1` that point at each other extend a ring
structure. -/
theorem ring_ok_extend (n : Nat) (N P : Nat → Nat) (D D2 : Nat → Prop) (H : ring_ok n N P D)
    (hD : ∀ x, x < n → (D2 x ↔ D x)) (hDn : ¬ D2 n) (hDn1 : ¬ D2 (n + 1)) :
    ring_ok (n + 2) (fun x => if x = n then n + 1 else if x = n + 1 then n else N x)
      (fun x => if x = n then n + 1 else if x = n + 1 then n else P x) D2 := by
  intro j hj
  by_cases c1 : j = n
  · subst c1
    refine ⟨fun h => absurd h hDn, fun _ => ?_⟩
    simp
  · by_cases c2 : j = n + 1
    · subst c2
      refine ⟨fun h => absurd h hDn1, fun _ => ?_⟩
      simp
    · have hjn : j < n := by omega
      obtain ⟨H1, H2⟩ := H j hjn
      constructor
      · intro h
        have := H1 ((hD j hjn).1 h)
        simp only [c1, c2, if_false]
        exact this
      · intro h
        obtain ⟨a, b, c, d⟩ := H2 (fun h2 => h ((hD j hjn).2 h2))
        have e1 : P j ≠ n := by omega
        have e2 : P j ≠ n + 1 := by omega
        have e3 : N j ≠ n := by omega
        have e4 : N j ≠ n + 1 := by omega
        simp only [c1, c2, e1, e2, e3, e4, if_false]
        exact ⟨by omega, by omega, c, d⟩

/-- The bridge splice on link functions: with `u = P v1` and `w = N v2`, the
six writes keep the ring invariant, the two copies at `n` and `n + 1`
included. -/
theorem ring_ok_bridge (n : Nat) (N P : Nat → Nat) (D D2 : Nat → Prop) (H : ring_ok n N P D)
    (v1 v2 : Nat) (hv1 : v1 < n) (hv2 : v2 < n) (hD1 : ¬ D v1) (hD2 : ¬ D v2)
    (hD : ∀ x, x < n → (D2 x ↔ D x)) (hDn : ¬ D2 n) (hDn1 : ¬ D2 (n + 1)) :
    ring_ok (n + 2)
      (fun x => if x = P v1 then n else if x = n then n + 1 else if x = v2 then v1
        else if x = n + 1 then N v2 else N x)
      (fun x => if x = N v2 then n + 1 else if x = n + 1 then n else if x = v1 then v2
        else if x = n then P v1 else P x) D2 := by
  obtain ⟨hu, -, hNP, -⟩ := (H v1 hv1).2 hD1
  obtain ⟨-, hw, -, hPN⟩ := (H v2 hv2).2 hD2
  have hDu : ¬ D (P v1) := by
    intro h
    have := ((H _ hu).1 h).1
    rw [hNP] at this
    rw [← this] at h
    exact hD1 h
  have H0 := ring_ok_extend n N P D D2 H hD hDn hDn1
  have hD2u : ¬ D2 (P v1) := fun h => hDu ((hD _ hu).1 h)
  have hD2v2 : ¬ D2 v2 := fun h => hD2 ((hD _ hv2).1 h)
  -- first exchange: the edge from `u` and the edge from `n + 1`
  have S1 := ring_ok_splice (n + 2) _ _ D2 H0 (P v1) (n + 1) (by omega) (by omega) hD2u hDn1
    (by omega)
  have e1 : (if P v1 = n then n + 1 else if P v1 = n + 1 then n else N (P v1)) = v1 := by
    rw [if_neg (by omega), if_neg (by omega), hNP]
  simp only [e1, if_true, if_neg (show n + 1 ≠ n by omega)] at S1
  by_cases c : v2 = P v1
  · refine ring_ok_congr _ _ _ _ _ _ _ S1 ?_ ?_ (fun _ _ => Iff.rfl)
    · intro i _
      have hw2 : N v2 = v1 := by rw [c, hNP]
      simp only [hw2]
      split_ifs <;> omega
    · intro i _
      have hw2 : N v2 = v1 := by rw [c, hNP]
      simp only [hw2]
      split_ifs <;> omega
  · -- second exchange: the edge from `v2` and the edge from `n + 1`
    have S2 := ring_ok_splice (n + 2) _ _ D2 S1 v2 (n + 1) (by omega) (by omega) hD2v2 hDn1
      (by omega)
    have e2 : (if v2 = n + 1 then v1 else if v2 = P v1 then n else
        if v2 = n then n + 1 else if v2 = n + 1 then n else N v2) = N v2 := by
      rw [if_neg (by omega), if_neg c, if_neg (by omega), if_neg (by omega)]
    simp only [e2, if_true] at S2
    refine ring_ok_congr _ _ _ _ _ _ _ S2 ?_ ?_ (fun _ _ => Iff.rfl)
    · intro i _
      split_ifs <;> omega
    · intro i _
      have hwv : N v2 ≠ v1 := by
        intro h
        rw [h] at hPN
        exact c (by omega)
      split_ifs <;> omega

theorem join_one_path_state_pos (ts : tristate) (v1 x : Nat) :
    ((join_one_path ts v1).m_verts.getD x poly_vert.dflt).m_state =
      ((ts.m_verts ++ [ts.vert v1,
        ts.vert (find_valid_bridge_vert ts v1 (ts.m_edge_index.getD []))]).getD x
          poly_vert.dflt).m_state ∧
    ((join_one_path ts v1).m_verts.getD x poly_vert.dflt).m_v =
      ((ts.m_verts ++ [ts.vert v1,
        ts.vert (find_valid_bridge_vert ts v1 (ts.m_edge_index.getD []))]).getD x
          poly_vert.dflt).m_v := by
  unfold join_one_path
  simp only [state_set_prev, state_set_next, pos_set_prev, pos_set_next, and_self]

/-- The bridge splice keeps the ring invariant of the vertex array. -/
theorem loops_valid_join_one_path (ts : tristate) (v1 v2 : Nat)
    (hv2e : find_valid_bridge_vert ts v1 (ts.m_edge_index.getD []) = v2)
    (H : loops_valid ts.m_verts) (hv1 : v1 < ts.m_verts.length) (hv2 : v2 < ts.m_verts.length)
    (hs1 : (ts.vert v1).m_state ≠ state_enum.DELETED)
    (hs2 : (ts.vert v2).m_state ≠ state_enum.DELETED) :
    loops_valid (join_one_path ts v1).m_verts := by
  unfold tristate.vert at hs1 hs2
  obtain ⟨hu, -, -, -, -, -⟩ := loops_valid_live ts.m_verts H v1 hv1 hs1
  obtain ⟨-, hw, -, -, -, -⟩ := loops_valid_live ts.m_verts H v2 hv2 hs2
  have key := fun x => join_one_path_links ts v1 v2 x hv2e hv1 hv2 hu hw
  have hst := fun x => (join_one_path_state_pos ts v1 x).1
  rw [hv2e] at hst
  unfold tristate.vert at hst
  rw [loops_valid_iff_ring_ok] at H ⊢
  rw [(key 0).1]
  have B := ring_ok_bridge ts.m_verts.length _ _ _
    (fun x => ((join_one_path ts v1).m_verts.getD x poly_vert.dflt).m_state = state_enum.DELETED)
    H v1 v2 hv1 hv2 hs1 hs2
    (by
      intro x hx
      simp only
      rw [hst x, getD_append_two, if_pos hx])
    (by
      simp only
      rw [hst, getD_append_two, if_neg (by omega), if_pos rfl]
      exact hs1)
    (by
      simp only
      rw [hst, getD_append_two, if_neg (by omega), if_neg (by omega), if_pos rfl]
      exact hs2)
  refine ring_ok_congr _ _ _ _ _ _ _ B ?_ ?_ (fun _ _ => Iff.rfl)
  · intro i _
    exact (key i).2.1
  · intro i _
    exact (key i).2.2

/-- C29: if the ring invariant holds before the bridge splice of `v1` and `v2`
(two vertices of the array that are not DELETED), it holds after the splice for
every vertex, the appended copies `n1` and `n2` included, so that the eight
assertions that follow the splice hold, and the copies carry the positions of
`v1` and `v2`. -/
theorem bridge_splice_keeps_ring (ts : tristate) (v1 v2 : Nat)
    (hv2e : find_valid_bridge_vert ts v1 (ts.m_edge_index.getD []) = v2)
    (H : loops_valid ts.m_verts) (hv1 : v1 < ts.m_verts.length) (hv2 : v2 < ts.m_verts.length)
    (hs1 : (ts.vert v1).m_state ≠ state_enum.DELETED)
    (hs2 : (ts.vert v2).m_state ≠ state_enum.DELETED) :
    loops_valid (join_one_path ts v1).m_verts ∧
    (join_one_path ts v1).m_verts.length = ts.m_verts.length + 2 ∧
    (∀ x, x = v1 ∨ x = v2 ∨ x = ts.m_verts.length ∨ x = ts.m_verts.length + 1 →
      ((join_one_path ts v1).vert ((join_one_path ts v1).vert x).m_prev).m_next = x ∧
      ((join_one_path ts v1).vert ((join_one_path ts v1).vert x).m_next).m_prev = x) ∧
    ((join_one_path ts v1).vert ts.m_verts.length).m_v = (ts.vert v1).m_v ∧
    ((join_one_path ts v1).vert (ts.m_verts.length + 1)).m_v = (ts.vert v2).m_v := by
  have L := loops_valid_join_one_path ts v1 v2 hv2e H hv1 hv2 hs1 hs2
  have hp := fun x => (join_one_path_state_pos ts v1 x).2
  have hst := fun x => (join_one_path_state_pos ts v1 x).1
  rw [hv2e] at hp hst
  unfold tristate.vert at hs1 hs2 hp hst ⊢
  obtain ⟨hu, -, -, -, -, -⟩ := loops_valid_live ts.m_verts H v1 hv1 hs1
  obtain ⟨-, hw, -, -, -, -⟩ := loops_valid_live ts.m_verts H v2 hv2 hs2
  have hlen := (join_one_path_links ts v1 v2 0 hv2e hv1 hv2 hu hw).1
  refine ⟨L, hlen, ?_, ?_, ?_⟩
  · intro x hx
    have hxl : x < (join_one_path ts v1).m_verts.length := by rw [hlen]; omega
    have hxs : ((join_one_path ts v1).m_verts.getD x poly_vert.dflt).m_state
        ≠ state_enum.DELETED := by
      rw [hst x, getD_append_two]
      rcases hx with rfl | rfl | rfl | rfl
      · rw [if_pos hv1]; exact hs1
      · rw [if_pos hv2]; exact hs2
      · rw [if_neg (by omega), if_pos rfl]; exact hs1
      · rw [if_neg (by omega), if_neg (by omega), if_pos rfl]; exact hs2
    obtain ⟨-, -, a, b, -, -⟩ := loops_valid_live _ L x hxl hxs
    exact ⟨a, b⟩
  · rw [hp, getD_append_two, if_neg (by omega), if_pos rfl]
  · rw [hp, getD_append_two, if_neg (by omega), if_neg (by omega), if_pos rfl]

/-- C29 on two single-vertex rings: vertex 1 at (10,0) is bridged to vertex 0 at
(0,0), the fallback of the blocked search. -/
theorem bridge_splice_keeps_ring_witness :
    find_valid_bridge_vert blocked_bridge_state 1 (blocked_bridge_state.m_edge_index.getD []) = 0 ∧
    loops_valid blocked_bridge_state.m_verts ∧
    1 < blocked_bridge_state.m_verts.length ∧ 0 < blocked_bridge_state.m_verts.length ∧
    (blocked_bridge_state.vert 1).m_state ≠ state_enum.DELETED ∧
    (blocked_bridge_state.vert 0).m_state ≠ state_enum.DELETED ∧
    loops_valid (join_one_path blocked_bridge_state 1).m_verts :=
  ⟨by decide, by decide, by decide, by decide, by decide, by decide,
    (bridge_splice_keeps_ring blocked_bridge_state 1 0 (by decide) (by decide) (by decide)
      (by decide) (by decide) (by decide)).1⟩

/-! ## The state after `init` -/

/-- A ring that holds every index of an array without DELETED vertices gives the
ring invariant. -/
theorem loops_valid_of_ring (verts : List poly_vert) (L : List Nat) (hr : is_ring verts L)
    (hp : L.Perm (List.range verts.length)) (hd : all_dirty verts) : loops_valid verts := by
  intro i hi
  have hs := state_getD_of_all_dirty verts hd i
  rw [if_neg (by rw [hs]; decide)]
  have hmem : i ∈ L := by rw [hp.mem_iff, List.mem_range]; exact hi
  obtain ⟨l, hrl, hpl⟩ := is_ring_rotate_to verts L i hr hmem
  have hlt : ∀ x, x ∈ i :: l → x < verts.length := fun x hx =>
    List.mem_range.1 (hp.mem_iff.1 (hpl.mem_iff.1 hx))
  obtain ⟨-, -, hcl⟩ := (is_ring_iff verts (i :: l)).1 hrl
  have hu := List.getLast?_eq_getLast (i :: l) (List.cons_ne_nil _ _)
  have huC : (i :: l).getLast (List.cons_ne_nil _ _) ∈ i :: l := List.getLast_mem _
  generalize (i :: l).getLast (List.cons_ne_nil _ _) = u at hu huC
  have hlu := hcl u hu i rfl
  have hch : List.Chain' (linked verts) (i :: (l ++ [i])) := hrl
  rw [List.chain'_cons'] at hch
  have hne : l ++ [i] ≠ [] := by simp
  have hw := List.head?_eq_head hne
  have hwM : (l ++ [i]).head hne ∈ l ++ [i] := List.head_mem _
  generalize (l ++ [i]).head hne = w at hw hwM
  have hlw := hch.1 w hw
  have hwl : w < verts.length := by
    refine hlt w ?_
    rw [List.mem_append, List.mem_singleton] at hwM
    rcases hwM with h | h
    · exact List.mem_cons_of_mem _ h
    · rw [h]; exact List.mem_cons_self _ _
  unfold linked at hlu hlw
  refine ⟨?_, ?_, ?_, ?_⟩
  · rw [hlu.2]; exact hlt u huC
  · rw [hlw.1]; exact hwl
  · rw [hlu.2]; exact hlu.1
  · rw [hlw.1]; exact hlw.2

/-- The join loop keeps the ring invariant and appends two vertices for every
path whose leftmost index is a valid index above zero. -/
theorem join_fold_loops_valid :
    ∀ (rest : List path_info) (t : tristate), loops_valid t.m_verts → all_dirty t.m_verts →
      (∀ pi ∈ rest, ∃ l, pi.m_leftmost_vert = some l ∧ 0 < l ∧ l < t.m_verts.length) →
      loops_valid (rest.foldl (fun t pi =>
          match pi.m_leftmost_vert with
          | some v1 => if v1 > 0 then join_one_path t v1 else t
          | none => t) t).m_verts ∧
      (rest.foldl (fun t pi =>
          match pi.m_leftmost_vert with
          | some v1 => if v1 > 0 then join_one_path t v1 else t
          | none => t) t).m_verts.length = t.m_verts.length + 2 * rest.length := by
  intro rest
  induction rest with
  | nil => intro t H _ _; exact ⟨H, rfl⟩
  | cons pi rest ih =>
    intro t H hd hl
    obtain ⟨l, hl1, hpos, hlt⟩ := hl pi (List.mem_cons_self _ _)
    have hstep : (match pi.m_leftmost_vert with
          | some v1 => if v1 > 0 then join_one_path t v1 else t
          | none => t) = join_one_path t l := by
      simp only [hl1]
      exact if_pos hpos
    rw [List.foldl_cons, hstep]
    have hv2 := find_valid_bridge_vert_lt t l (t.m_edge_index.getD []) hpos
    have hs : ∀ i, (t.vert i).m_state ≠ state_enum.DELETED := by
      intro i
      have := state_getD_of_all_dirty t.m_verts hd i
      unfold tristate.vert
      rw [this]
      decide
    have H2 := loops_valid_join_one_path t l _ rfl H hlt (by omega) (hs l) (hs _)
    have hlen : (join_one_path t l).m_verts.length = t.m_verts.length + 2 := by
      unfold join_one_path
      simp only [length_set_next, length_set_prev, List.length_append, List.length_cons,
        List.length_nil]
    obtain ⟨a1, a2⟩ := ih (join_one_path t l) H2 (all_dirty_join_one_path t l hd) (by
      intro pi2 hpi2
      obtain ⟨l2, b1, b2, b3⟩ := hl pi2 (List.mem_cons_of_mem _ hpi2)
      exact ⟨l2, b1, b2, by omega⟩)
    refine ⟨a1, ?_⟩
    rw [a2, hlen, List.length_cons]
    omega

/-- The join of the paths of an ingested and sorted state keeps the ring
invariant and appends two vertices for every path but one. -/
theorem join_after_sort_loops_valid (ts0 : tristate)
    (hI : ingest_ok (ts0.m_verts, ts0.m_input_paths)) (h2 : 2 ≤ ts0.m_input_paths.length) :
    loops_valid (join_paths_into_one_poly (sort_and_remap ts0)).m_verts ∧
    (join_paths_into_one_poly (sort_and_remap ts0)).m_verts.length
      = ts0.m_verts.length + 2 * (ts0.m_input_paths.length - 1) := by
  have hlen1 : (sort_and_remap ts0).m_input_paths.length = ts0.m_input_paths.length := by
    rw [sort_and_remap_paths, List.length_map]
  have hperm := std_sort_perm path_info.lt (sort_and_remap ts0).m_input_paths
  have hrest := leftmost_pos_after_first ts0 hI
  have H0 : loops_valid (sort_and_remap ts0).m_verts :=
    loops_valid_sort_and_remap ts0 (loops_valid_of_ingest_ok _ hI)
  have hd0 : all_dirty (sort_and_remap ts0).m_verts := all_dirty_sort_and_remap _ hI.1
  have hrl : ((std_sort path_info.lt (sort_and_remap ts0).m_input_paths).drop 1).length + 1
      = ts0.m_input_paths.length := by
    rw [List.length_drop, hperm.length_eq, hlen1]
    omega
  unfold join_paths_into_one_poly
  rw [if_pos (by rw [hlen1]; omega)]
  simp only
  obtain ⟨a1, a2⟩ := join_fold_loops_valid
    ((std_sort path_info.lt (sort_and_remap ts0).m_input_paths).drop 1)
    { sort_and_remap ts0 with
      m_input_paths := std_sort path_info.lt (sort_and_remap ts0).m_input_paths,
      m_edge_index := some (add_all_edges_into_index
        { sort_and_remap ts0 with
          m_input_paths := std_sort path_info.lt (sort_and_remap ts0).m_input_paths } []) }
    H0 hd0 hrest
  refine ⟨a1, a2.trans ?_⟩
  show (sort_and_remap ts0).m_verts.length + _ = _
  rw [length_sort_and_remap]
  omega

/-- The ring invariant holds in the state that `init` builds, when no path of
the input is empty. -/
theorem loops_valid_init (paths : List (List Int)) (debug_halt_step : Int)
    (hne : ∀ p ∈ paths, 2 ≤ p.length) : loops_valid (init paths debug_halt_step).m_verts := by
  obtain ⟨ts0, hv, hp, hinit⟩ := init_eq paths debug_halt_step
  obtain ⟨hI0, hlenp⟩ := ingest_ok_foldl paths hne ([], []) ingest_ok_nil
  have hI : ingest_ok (ts0.m_verts, ts0.m_input_paths) := by
    rw [hv, hp]; exact hI0
  have H0 : loops_valid ts0.m_verts := loops_valid_of_ingest_ok _ hI
  rw [hinit]
  split_ifs with hc
  · have hpl : 2 ≤ ts0.m_input_paths.length := by
      rw [sort_and_remap_paths, List.length_map] at hc
      omega
    exact loops_valid_sort_and_remap _ (join_after_sort_loops_valid ts0 hI hpl).1
  · exact loops_valid_sort_and_remap ts0 H0

theorem verts_sorted_sort_and_remap (ts : tristate) : verts_sorted (sort_and_remap ts).m_verts := by
  intro j hj i hij
  rw [length_sort_and_remap] at hj
  have := sort_and_remap_ordered ts i j hij hj
  unfold tristate.vert compare_vertices at this
  unfold lex_le
  split_ifs at this <;> omega

/-- The vertex array that `init` builds is sorted. -/
theorem verts_sorted_init (paths : List (List Int)) (debug_halt_step : Int) :
    verts_sorted (init paths debug_halt_step).m_verts := by
  unfold init
  simp only
  split_ifs
  · exact verts_sorted_sort_and_remap _
  · exact verts_sorted_sort_and_remap _

/-! ## How far the dirty cursor goes back -/

theorem coincident_begin_spec (verts : List poly_vert) (p : vec2) :
    ∀ k, coincident_begin verts p k ≤ k ∧
      ∀ j, coincident_begin verts p k ≤ j → j < k → (verts.getD j poly_vert.dflt).m_v = p := by
  intro k
  induction k with
  | zero => exact ⟨le_refl _, fun j _ h => by omega⟩
  | succ k ih =>
    unfold coincident_begin
    split_ifs with c
    · refine ⟨by omega, ?_⟩
      intro j hj1 hj2
      by_cases e : j = k
      · rw [e]; exact c
      · exact ih.2 j hj1 (by omega)
    · exact ⟨le_refl _, fun j h1 h2 => by omega⟩

theorem rewind_dirty_le_of_run (verts : List poly_vert) (b : Nat) :
    ∀ d, b ≤ d →
      (∀ j, b ≤ j → j < d →
        (verts.getD j poly_vert.dflt).m_v = (verts.getD d poly_vert.dflt).m_v) →
      rewind_dirty verts d ≤ b := by
  intro d
  induction d with
  | zero =>
    intro _ _
    exact Nat.zero_le _
  | succ d ih =>
    intro hb hrun
    by_cases e : b = d + 1
    · have := (rewind_dirty_spec verts (d + 1)).1
      omega
    · have hd := hrun d (by omega) (by omega)
      unfold rewind_dirty
      rw [if_pos hd]
      refine ih (by omega) ?_
      intro j hj1 hj2
      rw [hrun j hj1 (by omega), hd]

/-- The vertex that `find_ear_vertex` returns for an edge that is not
zero-length is the forward neighbour of an index of the coincident range of
`vi1`, at or after its begin. -/
theorem find_ear_vertex_source (ts : tristate) (vi0 vi1 vi2 : Nat)
    (h1 : vi1 < ts.m_verts.length) (c0 : (ts.vert vi0).m_v ≠ (ts.vert vi1).m_v)
    (h : find_ear_vertex ts vi0 vi1 = some vi2) :
    ∃ i, coincident_begin ts.m_verts (ts.vert vi1).m_v vi1 ≤ i ∧ i < ts.m_verts.length ∧
      vi2 = (ts.vert i).m_next := by
  unfold find_ear_vertex at h
  rw [if_neg c0] at h
  split_ifs at h with c1
  simp only at h
  have hfold := pick_out_edge_fold ts vi0 vi1
    (fun w => ∃ i, coincident_begin ts.m_verts (ts.vert vi1).m_v vi1 ≤ i ∧
      i < ts.m_verts.length ∧ w = (ts.vert i).m_next)
    (List.range' (coincident_begin ts.m_verts (ts.vert vi1).m_v vi1)
      (coincident_end ts.m_verts (ts.vert vi1).m_v (ts.m_verts.length - (vi1 + 1)) (vi1 + 1)
        - coincident_begin ts.m_verts (ts.vert vi1).m_v vi1))
    (by
      intro i hi _ _
      rw [List.mem_range'_1] at hi
      have := coincident_end_le ts.m_verts (ts.vert vi1).m_v (ts.m_verts.length - (vi1 + 1))
        (vi1 + 1) h1
      exact ⟨i, hi.1, by omega, rfl⟩)
    none (by intro w hw; cases hw)
  split at h
  · cases h
  · rename_i w hw
    have hq := hfold w hw
    split_ifs at h
    simp only [Option.some.injEq] at h
    rw [← h]
    exact hq

/-- After a successful clip in a state with the ring invariant the dirty cursor
is at or before `v0`, `v1`, `v2` and the old `prev(v2)`, the vertex whose forward
link the fixup branch rewrites. -/
theorem clip_cursor_covers (ts t : tristate) (v0 v1 v2 : Nat) (H : loops_valid ts.m_verts)
    (h : ear_scan ts = some (t, v0, v1, v2)) :
    (find_and_clip_ear ts).2.m_next_dirty ≤ v0 ∧
    (find_and_clip_ear ts).2.m_next_dirty ≤ v1 ∧
    (find_and_clip_ear ts).2.m_next_dirty ≤ v2 ∧
    (find_and_clip_ear ts).2.m_next_dirty ≤ (ts.vert v2).m_prev := by
  obtain ⟨he, hv, h1, hd, hs1, h0, hne, hf⟩ := ear_scan_spec ts t v0 v1 v2 h
  obtain ⟨f0, -, f2, -, -, -, -, s2, -, -, -, -, -, -, -⟩ := ear_scan_facts ts t v0 v1 v2 H h
  have htv : ∀ x, t.vert x = ts.vert x := by
    intro x; unfold tristate.vert; rw [hv]
  rw [he]
  simp only
  rw [next_dirty_clip_ear, hd, hv]
  have hm : min v2 (min v1 (min v0 (v1 + 1))) = min v0 (min v1 v2) := by
    simp only [Nat.min_def]
    split_ifs <;> omega
  rw [hm]
  have hc := (rewind_dirty_spec (clip_links ts.m_verts v0 v1 v2) (min v0 (min v1 v2))).1
  have m0 : min v0 (min v1 v2) ≤ v0 := Nat.min_le_left _ _
  have m1 : min v0 (min v1 v2) ≤ v1 := Nat.le_trans (Nat.min_le_right _ _) (Nat.min_le_left _ _)
  have m2 : min v0 (min v1 v2) ≤ v2 := Nat.le_trans (Nat.min_le_right _ _) (Nat.min_le_right _ _)
  refine ⟨by omega, by omega, by omega, ?_⟩
  obtain ⟨-, -, -, pn1, -, -⟩ := loops_valid_live ts.m_verts H v1 h1 hs1
  rcases find_ear_vertex_some t v0 v1 v2 (by rw [hv]; exact h1) hf with
    ⟨-, hv2⟩ | ⟨c0, -, hturn, -⟩
  · rw [htv] at hv2
    unfold tristate.vert at hv2 ⊢
    have ha : (ts.m_verts.getD v2 poly_vert.dflt).m_prev = v1 := by
      rw [hv2]; exact pn1
    rw [ha]
    omega
  · obtain ⟨i, hbi, hil, hv2i⟩ := find_ear_vertex_source t v0 v1 v2 (by rw [hv]; exact h1) c0 hf
    rw [hv] at hbi hil
    rw [htv] at hbi hv2i c0 hturn
    rw [htv, htv] at hturn
    rw [htv] at c0
    unfold tristate.vert at hv2i hbi c0 hturn ⊢
    have hsi : (ts.m_verts.getD i poly_vert.dflt).m_state ≠ state_enum.DELETED := by
      intro hdel
      have := (loops_valid_deleted ts.m_verts H i hil hdel).1
      rw [← hv2i] at this
      rw [this] at s2
      exact s2 hdel
    obtain ⟨-, -, -, pni, -, -⟩ := loops_valid_live ts.m_verts H i hil hsi
    rw [← hv2i] at pni
    rw [pni]
    obtain ⟨b1, b2⟩ := coincident_begin_spec ts.m_verts (ts.m_verts.getD v1 poly_vert.dflt).m_v v1
    have hp21 := (ne_of_vertex_left_test_pos _ _ _ hturn).2.1
    have hcase : min v0 (min v1 v2) = v0 ∨ min v0 (min v1 v2) = v1 ∨ min v0 (min v1 v2) = v2 := by
      simp only [Nat.min_def]
      split_ifs <;> simp
    have hlow : min v0 (min v1 v2) = v1 ∨
        min v0 (min v1 v2) < coincident_begin ts.m_verts
          (ts.m_verts.getD v1 poly_vert.dflt).m_v v1 := by
      rcases hcase with e | e | e
      · by_cases e1 : v0 = v1
        · exact absurd e1 hne
        · right
          rw [e] at m1 ⊢
          by_contra hge
          exact c0 (b2 v0 (by omega) (by omega))
      · exact Or.inl e
      · by_cases e1 : v2 = v1
        · left; rw [e, e1]
        · right
          rw [e] at m1 ⊢
          by_contra hge
          exact hp21 (b2 v2 (by omega) (by omega))
    rcases hlow with e | e
    · rw [e]
      have := rewind_dirty_le_of_run (clip_links ts.m_verts v0 v1 v2)
        (coincident_begin ts.m_verts (ts.m_verts.getD v1 poly_vert.dflt).m_v v1) v1 b1
        (by
          intro j hj1 hj2
          rw [pos_clip_links, pos_clip_links]
          exact b2 j hj1 hj2)
      omega
    · omega

/-! ## The slope flag of the edge index -/

theorem wrap_sint32_eq_self (z : Int) (h : -2147483648 ≤ z ∧ z ≤ 2147483647) :
    wrap_sint32 z = z := by
  unfold wrap_sint32
  omega

/-- While the product of the two coordinate differences fits the type `int`,
the entry `add_edge` stores rebuilds the edge: the two endpoints that
`any_edge_intersects` derives from the box and the flag are `v0` and `v1` in
one order or the other. -/
theorem add_edge_rebuilds_edge (edge_index : List (index_box × Bool)) (v0 v1 : vec2)
    (h0 : v0.is_sint16) (h1 : v1.is_sint16)
    (hp : -2147483648 ≤ (v1.x - v0.x) * (v1.y - v0.y) ∧
      (v1.x - v0.x) * (v1.y - v0.y) ≤ 2147483647) :
    ∃ entry, add_edge edge_index v0 v1 = edge_index ++ [entry] ∧
      ((entry_v0 entry = v0 ∧ entry_v1 entry = v1) ∨
        (entry_v0 entry = v1 ∧ entry_v1 entry = v0)) := by
  obtain ⟨⟨a1, a2⟩, b1, b2⟩ := h0
  obtain ⟨⟨c1, c2⟩, d1, d2⟩ := h1
  refine ⟨_, rfl, ?_⟩
  rw [wrap_sint32_eq_self (v1.x - v0.x) (by omega), wrap_sint32_eq_self (v1.y - v0.y) (by omega),
    wrap_sint32_eq_self _ hp]
  obtain ⟨x0, y0⟩ := v0
  obtain ⟨x1, y1⟩ := v1
  simp only at a1 a2 b1 b2 c1 c2 d1 d2 hp ⊢
  unfold entry_v0 entry_v1 index_box.expand_to_enclose index_box.of_point
  simp only [vec2.mk.injEq]
  by_cases hpos : (x1 - x0) * (y1 - y0) > 0
  · simp only [hpos, decide_True, Bool.true_eq_false, if_false]
    rcases mul_pos_iff.1 hpos with ⟨hx, hy⟩ | ⟨hx, hy⟩
    · left
      refine ⟨⟨?_, ?_⟩, ?_, ?_⟩ <;> simp only [min_def, max_def] <;> split_ifs <;> omega
    · right
      refine ⟨⟨?_, ?_⟩, ?_, ?_⟩ <;> simp only [min_def, max_def] <;> split_ifs <;> omega
  · simp only [hpos, decide_False, if_true]
    have hle : (x1 - x0) * (y1 - y0) ≤ 0 := not_lt.1 hpos
    rcases mul_nonpos_iff.1 hle with ⟨hx, hy⟩ | ⟨hx, hy⟩
    · left
      refine ⟨⟨?_, ?_⟩, ?_, ?_⟩ <;> simp only [min_def, max_def] <;> split_ifs <;> omega
    · right
      refine ⟨⟨?_, ?_⟩, ?_, ?_⟩ <;> simp only [min_def, max_def] <;> split_ifs <;> omega

/-- C31: for the 16-bit points `v0 = (-30000, -30000)` and `v1 = (30000, 30000)`
the edge runs from the lower-left to the upper-right corner of its box, but
the product `60000 * 60000` leaves the type `int`, its wrapped value is
negative, and `add_edge` stores the flag `false`; the segment that
`any_edge_intersects` rebuilds from the entry is the other diagonal, from
`(-30000, 30000)` to `(30000, -30000)`, and neither endpoint is `v0` or `v1`. -/
theorem add_edge_slope_flag_overflow :
    ({ x := -30000, y := -30000 } : vec2).is_sint16 ∧
    ({ x := 30000, y := 30000 } : vec2).is_sint16 ∧
    add_edge [] { x := -30000, y := -30000 } { x := 30000, y := 30000 }
      = [({ min := { x := -30000, y := -30000 }, max := { x := 30000, y := 30000 } }, false)] ∧
    entry_v0 ({ min := { x := -30000, y := -30000 }, max := { x := 30000, y := 30000 } }, false)
      = { x := -30000, y := 30000 } ∧
    entry_v1 ({ min := { x := -30000, y := -30000 }, max := { x := 30000, y := 30000 } }, false)
      = { x := 30000, y := -30000 } := by
  decide

/-! ## The triangles of one clip -/

theorem find_and_clip_ear_loop_appends (n : Nat) :
    ∀ ts : tristate,
      (find_and_clip_ear_loop n ts).2.m_results = ts.m_results ∨
      ∃ p0 p1 p2 : vec2,
        (find_and_clip_ear_loop n ts).2.m_results
          = ts.m_results ++ [p0.x, p0.y, p1.x, p1.y, p2.x, p2.y] ∧
        determinant_sint16 p0 p1 p2 ≥ 0 ∧ (determinant_sint16 p0 p1 p2 = 0 → p0 = p1) := by
  induction n with
  | zero => intro ts; exact Or.inl rfl
  | succ n ih =>
    intro ts
    rw [find_and_clip_ear_loop_succ]
    split_ifs with c1 c2 c3
    · exact ih _
    · exact ih _
    · split
      · rename_i vi2 hv
        simp only
        rw [results_clip_ear]
        split_ifs
        · right
          refine ⟨(ts.vert (ts.vert ts.m_next_dirty).m_prev).m_v, (ts.vert ts.m_next_dirty).m_v,
            (ts.vert vi2).m_v, rfl, ?_⟩
          rcases find_ear_vertex_some { ts with m_next_dirty := ts.m_next_dirty + 1 } _ _ vi2 c1 hv
            with ⟨he, -⟩ | ⟨-, -, hl, -⟩
          · have he2 : (ts.vert (ts.vert ts.m_next_dirty).m_prev).m_v
                = (ts.vert ts.m_next_dirty).m_v := he
            rw [he2, determinant_sint16_same_01]
            exact ⟨le_refl 0, fun _ => rfl⟩
          · rw [vertex_left_test_pos_iff] at hl
            have hl2 : determinant_sint16 (ts.vert (ts.vert ts.m_next_dirty).m_prev).m_v
                (ts.vert ts.m_next_dirty).m_v (ts.vert vi2).m_v > 0 := hl
            exact ⟨le_of_lt hl2, fun h0 => absurd h0 (ne_of_gt hl2)⟩
        · exact Or.inl rfl
      · exact ih _
    · exact Or.inl rfl

/-- C36: one call of `find_and_clip_ear` leaves the output as it is or appends
the six values of one triangle `(p0, p1, p2)`; the determinant of that
triangle is not negative (the triangle is not clockwise), and it is zero only
when `p0 = p1`, the clip of a zero-length edge. -/
theorem find_and_clip_ear_triangle_not_clockwise (ts : tristate) :
    (find_and_clip_ear ts).2.m_results = ts.m_results ∨
    ∃ p0 p1 p2 : vec2,
      (find_and_clip_ear ts).2.m_results
        = ts.m_results ++ [p0.x, p0.y, p1.x, p1.y, p2.x, p2.y] ∧
      determinant_sint16 p0 p1 p2 ≥ 0 ∧ (determinant_sint16 p0 p1 p2 = 0 → p0 = p1) :=
  find_and_clip_ear_loop_appends _ ts

/-! ## The closed triangle and its bounding box -/

theorem triangle_bound_contains (p v0 v1 v2 : vec2) (h : in_closed_triangle p v0 v1 v2) :
    (triangle_bound v0 v1 v2).contains_point p = true := by
  obtain ⟨a, b, c, ha, hb, hc, hsum, hx, hy⟩ := h
  unfold triangle_bound index_box.contains_point index_box.expand_to_enclose index_box.of_point
  simp only [Bool.and_eq_true, decide_eq_true_eq]
  have key : ∀ (u0 u1 u2 q : Int), (q : ℚ) = a * u0 + b * u1 + c * u2 →
      Min.min (Min.min u0 u1) u2 ≤ q ∧ q ≤ Max.max (Max.max u0 u1) u2 := by
    intro u0 u1 u2 q hq
    have m0 : ((Min.min (Min.min u0 u1) u2 : Int) : ℚ) ≤ u0 := by
      exact_mod_cast le_trans (min_le_left _ _) (min_le_left _ _)
    have m1 : ((Min.min (Min.min u0 u1) u2 : Int) : ℚ) ≤ u1 := by
      exact_mod_cast le_trans (min_le_left _ _) (min_le_right _ _)
    have m2 : ((Min.min (Min.min u0 u1) u2 : Int) : ℚ) ≤ u2 := by
      exact_mod_cast min_le_right _ _
    have M0 : (u0 : ℚ) ≤ ((Max.max (Max.max u0 u1) u2 : Int) : ℚ) := by
      exact_mod_cast le_trans (le_max_left _ _) (le_max_left _ _)
    have M1 : (u1 : ℚ) ≤ ((Max.max (Max.max u0 u1) u2 : Int) : ℚ) := by
      exact_mod_cast le_trans (le_max_right _ _) (le_max_left _ _)
    have M2 : (u2 : ℚ) ≤ ((Max.max (Max.max u0 u1) u2 : Int) : ℚ) := by
      exact_mod_cast le_max_right _ _
    generalize (Min.min (Min.min u0 u1) u2 : Int) = lo at m0 m1 m2 ⊢
    generalize (Max.max (Max.max u0 u1) u2 : Int) = hi at M0 M1 M2 ⊢
    constructor
    · have : (lo : ℚ) ≤ q := by
        rw [hq]
        have e : (lo : ℚ) = a * lo + b * lo + c * lo := by
          have : (lo : ℚ) = (a + b + c) * lo := by rw [hsum, one_mul]
          linarith
        rw [e]
        have t0 := mul_le_mul_of_nonneg_left m0 ha
        have t1 := mul_le_mul_of_nonneg_left m1 hb
        have t2 := mul_le_mul_of_nonneg_left m2 hc
        linarith
      exact_mod_cast this
    · have : (q : ℚ) ≤ hi := by
        rw [hq]
        have e : (hi : ℚ) = a * hi + b * hi + c * hi := by
          have : (hi : ℚ) = (a + b + c) * hi := by rw [hsum, one_mul]
          linarith
        rw [e]
        have t0 := mul_le_mul_of_nonneg_left M0 ha
        have t1 := mul_le_mul_of_nonneg_left M1 hb
        have t2 := mul_le_mul_of_nonneg_left M2 hc
        linarith
      exact_mod_cast this
  have kx := key v0.x v1.x v2.x p.x hx
  have ky := key v0.y v1.y v2.y p.y hy
  exact ⟨⟨⟨kx.1, kx.2⟩, ky.1⟩, ky.2⟩

/-- For 16-bit points and strictly counter-clockwise corners the three
determinant tests of `vert_in_triangle` pass exactly on the convex
combinations of the corners. -/
theorem vert_in_triangle_closed_of_ccw (p v0 v1 v2 : vec2)
    (hp : p.is_sint16) (h0 : v0.is_sint16) (h1 : v1.is_sint16) (h2 : v2.is_sint16)
    (hccw : determinant_sint16 v0 v1 v2 > 0) :
    vert_in_triangle p v0 v1 v2 = true ↔ in_closed_triangle p v0 v1 v2 := by
  rw [determinant_sint16_eq_exact v0 v1 v2 h0 h1 h2] at hccw
  rw [vert_in_triangle_eq_true_iff, determinant_sint16_eq_exact v0 v1 p h0 h1 hp,
    determinant_sint16_eq_exact v1 v2 p h1 h2 hp, determinant_sint16_eq_exact v2 v0 p h2 h0 hp]
  constructor
  · rintro ⟨a, b, c⟩
    exact in_closed_triangle_of_dets p v0 v1 v2 hccw a b c
  · intro h
    exact dets_of_in_closed_triangle p v0 v1 v2 hccw h

/-- C37: for 16-bit points and corners with `determinant(v0, v1, v2) > 0`,
`vert_in_triangle p v0 v1 v2` is true exactly when `p` is a point of the
closed triangle, a convex combination `a*v0 + b*v1 + c*v2` with `a, b, c ≥ 0`
and `a + b + c = 1`, and every such point lies inside the bounding box of the
three corners. -/
theorem vert_in_triangle_convex_combination_in_bound (p v0 v1 v2 : vec2)
    (hp : p.is_sint16) (h0 : v0.is_sint16) (h1 : v1.is_sint16) (h2 : v2.is_sint16)
    (hccw : determinant_sint16 v0 v1 v2 > 0) :
    (vert_in_triangle p v0 v1 v2 = true ↔ in_closed_triangle p v0 v1 v2) ∧
    (in_closed_triangle p v0 v1 v2 → (triangle_bound v0 v1 v2).contains_point p = true) :=
  ⟨vert_in_triangle_closed_of_ccw p v0 v1 v2 hp h0 h1 h2 hccw,
    triangle_bound_contains p v0 v1 v2⟩

theorem vert_in_triangle_convex_combination_in_bound_witness :
    (vert_in_triangle { x := 1, y := 1 } { x := 0, y := 0 } { x := 4, y := 0 } { x := 0, y := 4 }
        = true ↔
      in_closed_triangle { x := 1, y := 1 } { x := 0, y := 0 } { x := 4, y := 0 }
        { x := 0, y := 4 }) ∧
    (in_closed_triangle { x := 1, y := 1 } { x := 0, y := 0 } { x := 4, y := 0 }
        { x := 0, y := 4 } →
      (triangle_bound { x := 0, y := 0 } { x := 4, y := 0 } { x := 0, y := 4 }).contains_point
        { x := 1, y := 1 } = true) :=
  vert_in_triangle_convex_combination_in_bound { x := 1, y := 1 } { x := 0, y := 0 }
    { x := 4, y := 0 } { x := 0, y := 4 } (by decide) (by decide) (by decide) (by decide)
    (by decide)

/-! ## The size of the output -/

theorem find_and_clip_ear_results_length (ts : tristate) :
    ((find_and_clip_ear ts).1 = false →
      (find_and_clip_ear ts).2.m_results = ts.m_results) ∧
    (find_and_clip_ear ts).2.m_results.length ≤ ts.m_results.length + 6 := by
  constructor
  · intro hf
    unfold find_and_clip_ear at hf ⊢
    generalize ts.m_verts.length - ts.m_next_dirty = n at hf ⊢
    induction n generalizing ts with
    | zero => rfl
    | succ n ih =>
      rw [find_and_clip_ear_loop_succ] at hf ⊢
      split_ifs at hf ⊢ with c1 c2 c3
      · exact ih _ hf
      · exact ih _ hf
      · split at hf
        · simp at hf
        · exact ih _ hf
      · rfl
  · rcases find_and_clip_ear_loop_appends (ts.m_verts.length - ts.m_next_dirty) ts with h | h
    · unfold find_and_clip_ear
      rw [h]
      omega
    · obtain ⟨p0, p1, p2, h, -⟩ := h
      unfold find_and_clip_ear
      rw [h]
      simp

theorem triangulate_plane_loop_results_length (n : Nat) :
    ∀ ts : tristate,
      (triangulate_plane_loop n ts).m_results.length
        ≤ ts.m_results.length + 6 * live_count ts.m_verts := by
  induction n with
  | zero => intro ts; exact Nat.le_add_right _ _
  | succ n ih =>
    intro ts
    obtain ⟨hlen, ht, hf⟩ :=
      find_and_clip_ear_loop_deleted_count (ts.m_verts.length - ts.m_next_dirty) ts
    have hr := find_and_clip_ear_results_length ts
    change (find_and_clip_ear ts).2.m_verts.length = ts.m_verts.length at hlen
    change (find_and_clip_ear ts).1 = true → deleted_count (find_and_clip_ear ts).2.m_verts
      = deleted_count ts.m_verts + 1 at ht
    have hd := deleted_count_le (find_and_clip_ear ts).2.m_verts
    unfold triangulate_plane_loop
    simp only
    by_cases c : (find_and_clip_ear ts).1 = true
    · have hdc := ht c
      have hlive : live_count (find_and_clip_ear ts).2.m_verts + 1 = live_count ts.m_verts := by
        unfold live_count
        omega
      rw [if_pos c]
      split_ifs
      · rw [results_check_debug_dump]
        omega
      · have := ih (check_debug_dump (find_and_clip_ear ts).2).2
        rw [results_check_debug_dump, verts_check_debug_dump] at this
        omega
    · rw [if_neg c]
      have c2 : (find_and_clip_ear ts).1 = false := by
        cases h : (find_and_clip_ear ts).1
        · rfl
        · exact absurd h c
      rw [hr.1 c2]
      omega

/-- C39: the number of triangles `compute` emits is at most the number of
vertices of the array after `init`, and the number of output values is at most
six times that number, the capacity `init` reserves. -/
theorem compute_output_within_reserve (paths : List (List Int)) (debug_halt_step : Int) :
    (triangles_of (compute paths debug_halt_step)).length
      ≤ (init paths debug_halt_step).m_verts.length ∧
    (compute paths debug_halt_step).length
      ≤ 6 * (init paths debug_halt_step).m_verts.length := by
  have h := triangulate_plane_loop_results_length
    ((init paths debug_halt_step).m_verts.length + 1) (init paths debug_halt_step)
  rw [results_init] at h
  have hl : live_count (init paths debug_halt_step).m_verts
      ≤ (init paths debug_halt_step).m_verts.length := by
    unfold live_count
    omega
  have hc : (compute paths debug_halt_step).length
      ≤ 6 * (init paths debug_halt_step).m_verts.length := by
    unfold compute triangulate_plane
    simp only [List.length_nil] at h
    omega
  refine ⟨?_, hc⟩
  obtain ⟨tris, ht⟩ := compute_whole_triangles paths debug_halt_step
  rw [ht, triangles_of_values_of]
  rw [ht, length_values_of] at hc
  omega

/-! ## The number of vertices after `init` -/

theorem init_eq_ingest_state (paths : List (List Int)) (debug_halt_step : Int) :
    init paths debug_halt_step =
      if (sort_and_remap (ingest_state paths debug_halt_step)).m_input_paths.length > 1 then
        sort_and_remap (join_paths_into_one_poly
          (sort_and_remap (ingest_state paths debug_halt_step)))
      else sort_and_remap (ingest_state paths debug_halt_step) := rfl

theorem join_paths_into_one_poly_eq_join_step (ts : tristate) :
    join_paths_into_one_poly ts =
      if ts.m_input_paths.length > 1 then
        ((std_sort path_info.lt ts.m_input_paths).drop 1).foldl join_step
          { ts with
            m_input_paths := std_sort path_info.lt ts.m_input_paths,
            m_edge_index := some (add_all_edges_into_index
              { ts with m_input_paths := std_sort path_info.lt ts.m_input_paths } []) }
      else ts := rfl

theorem length_join_one_path (ts : tristate) (v1 : Nat) :
    (join_one_path ts v1).m_verts.length = ts.m_verts.length + 2 := by
  unfold join_one_path
  simp only [length_set_next, length_set_prev, List.length_append, List.length_cons,
    List.length_nil]

/-- C38: for an input of `k ≥ 1` non-empty paths (each with at least one
coordinate pair) and `N` vertices in total, the array after `init` holds
exactly `N + 2 * (k - 1)` vertices; every path after the first in the order of
the leftmost vertices has a leftmost index above zero, so its iteration of the
join loop is one bridge splice, which appends two vertices. -/
theorem init_vertex_count (paths : List (List Int)) (debug_halt_step : Int)
    (h1 : 1 ≤ paths.length) (hne : ∀ p ∈ paths, 2 ≤ p.length) :
    (init paths debug_halt_step).m_verts.length
      = (paths.map (fun p => p.length / 2)).sum + 2 * (paths.length - 1) ∧
    ∀ pi ∈ (std_sort path_info.lt
        (sort_and_remap (ingest_state paths debug_halt_step)).m_input_paths).drop 1,
      ∃ l, pi.m_leftmost_vert = some l ∧ 0 < l ∧
        ∀ t : tristate, join_step t pi = join_one_path t l ∧
          (join_step t pi).m_verts.length = t.m_verts.length + 2 := by
  obtain ⟨hI0, hlenp⟩ := ingest_ok_foldl paths hne ([], []) ingest_ok_nil
  have hI : ingest_ok ((ingest_state paths debug_halt_step).m_verts,
      (ingest_state paths debug_halt_step).m_input_paths) := hI0
  have hpl : (ingest_state paths debug_halt_step).m_input_paths.length = paths.length := by
    have : (ingest_state paths debug_halt_step).m_input_paths
        = (paths.foldl ingest_path ([], [])).2 := rfl
    rw [this, hlenp]; simp
  have hvl : (ingest_state paths debug_halt_step).m_verts.length
      = (paths.map (fun p => p.length / 2)).sum := by
    have : (ingest_state paths debug_halt_step).m_verts
        = (paths.foldl ingest_path ([], [])).1 := rfl
    rw [this, ingest_length_foldl paths hne]; simp
  constructor
  · rw [init_eq_ingest_state]
    by_cases hk : 2 ≤ paths.length
    · have hcond : (sort_and_remap (ingest_state paths debug_halt_step)).m_input_paths.length
          > 1 := by
        rw [sort_and_remap_paths, List.length_map, hpl]; omega
      rw [if_pos hcond]
      have a3 := (join_after_sort_loops_valid (ingest_state paths debug_halt_step) hI
        (by rw [hpl]; exact hk)).2
      rw [length_sort_and_remap, a3, hvl, hpl]
    · have hcond : ¬ (sort_and_remap (ingest_state paths debug_halt_step)).m_input_paths.length
          > 1 := by
        rw [sort_and_remap_paths, List.length_map, hpl]; omega
      rw [if_neg hcond, length_sort_and_remap, hvl]
      omega
  · intro pi hpi
    obtain ⟨l, hl, hpos, -⟩ :=
      leftmost_pos_after_first (ingest_state paths debug_halt_step) hI pi hpi
    have hstep : ∀ t : tristate, join_step t pi = join_one_path t l := by
      intro t
      unfold join_step
      simp only [hl]
      exact if_pos hpos
    refine ⟨l, hl, hpos, fun t => ⟨hstep t, ?_⟩⟩
    rw [hstep t, length_join_one_path]

theorem init_vertex_count_witness :
    1 ≤ [[0, 0, 4, 0, 4, 4, 0, 4], [1, 1, 1, 3, 3, 3, 3, 1]].length ∧
    (∀ p ∈ [[0, 0, 4, 0, 4, 4, 0, 4], [1, 1, 1, 3, 3, 3, 3, 1]], 2 ≤ p.length) ∧
    (init [[0, 0, 4, 0, 4, 4, 0, 4], [1, 1, 1, 3, 3, 3, 3, 1]] 0).m_verts.length
      = ([[0, 0, 4, 0, 4, 4, 0, 4], [1, 1, 1, 3, 3, 3, 3, 1]].map
          (fun p => p.length / 2)).sum + 2 * (2 - 1) ∧
    ∀ pi ∈ (std_sort path_info.lt
        (sort_and_remap (ingest_state [[0, 0, 4, 0, 4, 4, 0, 4], [1, 1, 1, 3, 3, 3, 3, 1]]
          0)).m_input_paths).drop 1,
      ∃ l, pi.m_leftmost_vert = some l ∧ 0 < l ∧
        ∀ t : tristate, join_step t pi = join_one_path t l ∧
          (join_step t pi).m_verts.length = t.m_verts.length + 2 :=
  ⟨by decide, by decide,
    init_vertex_count [[0, 0, 4, 0, 4, 4, 0, 4], [1, 1, 1, 3, 3, 3, 3, 1]] 0 (by decide)
      (by decide)⟩

/-! ## The coincident range -/

theorem find_ear_vertex_eq (ts : tristate) (vi0 vi1 : Nat) :
    find_ear_vertex ts vi0 vi1 =
      if (ts.vert vi0).m_v = (ts.vert vi1).m_v then some (ts.vert vi1).m_next
      else if (ts.vert vi1).m_state = state_enum.REFLEX then none
      else
        match select_apex ts vi0 vi1 with
        | none => none
        | some vi2 =>
          if (coincident_range ts vi1).any (in_edge_blocks ts vi0 vi1 vi2) then none
          else if (valence_counts ts vi0 vi1 vi2).1 < 1 ∧ (valence_counts ts vi0 vi1 vi2).2 < 1
            then none
          else if any_reflex_vert_in_triangle ts vi0 vi1 vi2 then none
          else some vi2 := rfl

theorem coincident_begin_max (verts : List poly_vert) (p : vec2) :
    ∀ k, coincident_begin verts p k = 0 ∨
      (verts.getD (coincident_begin verts p k - 1) poly_vert.dflt).m_v ≠ p := by
  intro k
  induction k with
  | zero => exact Or.inl rfl
  | succ k ih =>
    unfold coincident_begin
    split_ifs with c
    · exact ih
    · right
      simpa using c

theorem coincident_end_spec (verts : List poly_vert) (p : vec2) :
    ∀ n e, e ≤ verts.length →
      e ≤ coincident_end verts p n e ∧ coincident_end verts p n e ≤ verts.length ∧
      (∀ j, e ≤ j → j < coincident_end verts p n e → (verts.getD j poly_vert.dflt).m_v = p) ∧
      (verts.length - e ≤ n → coincident_end verts p n e = verts.length ∨
        (verts.getD (coincident_end verts p n e) poly_vert.dflt).m_v ≠ p) := by
  intro n
  induction n with
  | zero =>
    intro e he
    refine ⟨le_refl _, he, fun j h1 h2 => ?_, fun h => ?_⟩
    · unfold coincident_end at h2; omega
    · left; unfold coincident_end; omega
  | succ n ih =>
    intro e he
    unfold coincident_end
    split_ifs with c
    · obtain ⟨a1, a2, a3, a4⟩ := ih (e + 1) c.1
      refine ⟨by omega, a2, fun j h1 h2 => ?_, fun h => a4 (by omega)⟩
      by_cases ej : j = e
      · rw [ej]; exact c.2
      · exact a3 j (by omega) h2
    · refine ⟨le_refl _, he, fun j h1 h2 => by omega, fun _ => ?_⟩
      by_cases hl : e < verts.length
      · right
        intro hp
        exact c ⟨hl, hp⟩
      · left; omega

theorem lex_le_antisymm (p q : vec2) (h1 : lex_le p q) (h2 : lex_le q p) : p = q := by
  unfold lex_le at h1 h2
  obtain ⟨px, py⟩ := p
  obtain ⟨qx, qy⟩ := q
  simp only at h1 h2
  simp only [vec2.mk.injEq]
  omega

theorem mem_coincident_range (ts : tristate) (vi1 j : Nat) :
    j ∈ coincident_range ts vi1 ↔
      coincident_begin ts.m_verts (ts.vert vi1).m_v vi1 ≤ j ∧
      j < coincident_end ts.m_verts (ts.vert vi1).m_v
        (ts.m_verts.length - (vi1 + 1)) (vi1 + 1) := by
  unfold coincident_range
  simp only [List.mem_range'_1]
  have hb := (coincident_begin_spec ts.m_verts (ts.vert vi1).m_v vi1).1
  constructor
  · rintro ⟨a, b⟩
    exact ⟨a, by omega⟩
  · rintro ⟨a, b⟩
    exact ⟨a, by omega⟩

/-- Every index of the coincident range of a valid index `vi1` is a valid
index whose position is the position of `vi1`, and `vi1` is in the range. -/
theorem coincident_range_pos (ts : tristate) (vi1 : Nat) (h1 : vi1 < ts.m_verts.length) :
    vi1 ∈ coincident_range ts vi1 ∧
    ∀ j ∈ coincident_range ts vi1,
      j < ts.m_verts.length ∧ (ts.vert j).m_v = (ts.vert vi1).m_v := by
  obtain ⟨b1, b2⟩ := coincident_begin_spec ts.m_verts (ts.vert vi1).m_v vi1
  obtain ⟨e1, e2, e3, -⟩ := coincident_end_spec ts.m_verts (ts.vert vi1).m_v
    (ts.m_verts.length - (vi1 + 1)) (vi1 + 1) h1
  constructor
  · rw [mem_coincident_range]
    exact ⟨b1, by omega⟩
  · intro j hj
    rw [mem_coincident_range] at hj
    refine ⟨by omega, ?_⟩
    by_cases c : j < vi1
    · exact b2 j hj.1 c
    · by_cases c2 : j = vi1
      · rw [c2]
      · exact e3 j (by omega) hj.2

/-- C32: in a sorted vertex array, the interval `[vi1_begin, vi1_end)` that
`find_ear_vertex` computes for a valid index `vi1` contains `vi1`, and an
index of the array lies in the interval exactly when its position equals the
position of `vi1`. -/
theorem coincident_interval_exact (ts : tristate) (vi1 : Nat)
    (hs : verts_sorted ts.m_verts) (h1 : vi1 < ts.m_verts.length) :
    coincident_begin ts.m_verts (ts.vert vi1).m_v vi1 ≤ vi1 ∧
    vi1 < coincident_end ts.m_verts (ts.vert vi1).m_v
      (ts.m_verts.length - (vi1 + 1)) (vi1 + 1) ∧
    coincident_end ts.m_verts (ts.vert vi1).m_v
      (ts.m_verts.length - (vi1 + 1)) (vi1 + 1) ≤ ts.m_verts.length ∧
    ∀ j,
      (coincident_begin ts.m_verts (ts.vert vi1).m_v vi1 ≤ j ∧
        j < coincident_end ts.m_verts (ts.vert vi1).m_v
          (ts.m_verts.length - (vi1 + 1)) (vi1 + 1)) ↔
      (j < ts.m_verts.length ∧ (ts.vert j).m_v = (ts.vert vi1).m_v) := by
  obtain ⟨b1, b2⟩ := coincident_begin_spec ts.m_verts (ts.vert vi1).m_v vi1
  have b3 := coincident_begin_max ts.m_verts (ts.vert vi1).m_v vi1
  obtain ⟨e1, e2, e3, e4⟩ := coincident_end_spec ts.m_verts (ts.vert vi1).m_v
    (ts.m_verts.length - (vi1 + 1)) (vi1 + 1) h1
  have e5 := e4 (by omega)
  refine ⟨b1, by omega, e2, fun j => ⟨fun hj => ?_, fun hj => ?_⟩⟩
  · exact (coincident_range_pos ts vi1 h1).2 j ((mem_coincident_range ts vi1 j).2 hj)
  · obtain ⟨hjl, hjp⟩ := hj
    generalize coincident_begin ts.m_verts (ts.vert vi1).m_v vi1 = b at b1 b2 b3 ⊢
    generalize coincident_end ts.m_verts (ts.vert vi1).m_v
      (ts.m_verts.length - (vi1 + 1)) (vi1 + 1) = e at e1 e2 e3 e5 ⊢
    unfold tristate.vert at hjp
    constructor
    · by_contra hlt
      have hjb : j < b := by omega
      rcases b3 with b3 | b3
      · omega
      · have hne : j ≠ b - 1 := by
          intro e0
          rw [← e0] at b3
          exact b3 hjp
        have s1 := hs (b - 1) (by omega) j (by omega)
        have s2 := hs vi1 h1 (b - 1) (by omega)
        rw [hjp] at s1
        exact b3 (lex_le_antisymm _ _ s2 s1)
    · by_contra hge
      have hej : e ≤ j := by omega
      rcases e5 with e5 | e5
      · omega
      · have hne : j ≠ e := by
          intro e0
          rw [← e0] at e5
          exact e5 hjp
        have s1 := hs j hjl e (by omega)
        have s2 := hs e (by omega) vi1 (by omega)
        rw [hjp] at s1
        exact e5 (lex_le_antisymm _ _ s1 s2)

theorem coincident_interval_exact_witness :
    verts_sorted (init [[0, 0, 4, 0, 4, 4, 0, 4], [1, 1, 1, 3, 3, 3, 3, 1]] 0).m_verts ∧
    1 < (init [[0, 0, 4, 0, 4, 4, 0, 4], [1, 1, 1, 3, 3, 3, 3, 1]] 0).m_verts.length ∧
    coincident_begin (init [[0, 0, 4, 0, 4, 4, 0, 4], [1, 1, 1, 3, 3, 3, 3, 1]] 0).m_verts
      ((init [[0, 0, 4, 0, 4, 4, 0, 4], [1, 1, 1, 3, 3, 3, 3, 1]] 0).vert 1).m_v 1 ≤ 1 ∧
    1 < coincident_end (init [[0, 0, 4, 0, 4, 4, 0, 4], [1, 1, 1, 3, 3, 3, 3, 1]] 0).m_verts
      ((init [[0, 0, 4, 0, 4, 4, 0, 4], [1, 1, 1, 3, 3, 3, 3, 1]] 0).vert 1).m_v
      ((init [[0, 0, 4, 0, 4, 4, 0, 4], [1, 1, 1, 3, 3, 3, 3, 1]] 0).m_verts.length - (1 + 1))
      (1 + 1) ∧
    coincident_end (init [[0, 0, 4, 0, 4, 4, 0, 4], [1, 1, 1, 3, 3, 3, 3, 1]] 0).m_verts
      ((init [[0, 0, 4, 0, 4, 4, 0, 4], [1, 1, 1, 3, 3, 3, 3, 1]] 0).vert 1).m_v
      ((init [[0, 0, 4, 0, 4, 4, 0, 4], [1, 1, 1, 3, 3, 3, 3, 1]] 0).m_verts.length - (1 + 1))
      (1 + 1) ≤ (init [[0, 0, 4, 0, 4, 4, 0, 4], [1, 1, 1, 3, 3, 3, 3, 1]] 0).m_verts.length ∧
    ∀ j,
      (coincident_begin (init [[0, 0, 4, 0, 4, 4, 0, 4], [1, 1, 1, 3, 3, 3, 3, 1]] 0).m_verts
          ((init [[0, 0, 4, 0, 4, 4, 0, 4], [1, 1, 1, 3, 3, 3, 3, 1]] 0).vert 1).m_v 1 ≤ j ∧
        j < coincident_end (init [[0, 0, 4, 0, 4, 4, 0, 4], [1, 1, 1, 3, 3, 3, 3, 1]] 0).m_verts
          ((init [[0, 0, 4, 0, 4, 4, 0, 4], [1, 1, 1, 3, 3, 3, 3, 1]] 0).vert 1).m_v
          ((init [[0, 0, 4, 0, 4, 4, 0, 4], [1, 1, 1, 3, 3, 3, 3, 1]] 0).m_verts.length
            - (1 + 1)) (1 + 1)) ↔
      (j < (init [[0, 0, 4, 0, 4, 4, 0, 4], [1, 1, 1, 3, 3, 3, 3, 1]] 0).m_verts.length ∧
        ((init [[0, 0, 4, 0, 4, 4, 0, 4], [1, 1, 1, 3, 3, 3, 3, 1]] 0).vert j).m_v
          = ((init [[0, 0, 4, 0, 4, 4, 0, 4], [1, 1, 1, 3, 3, 3, 3, 1]] 0).vert 1).m_v) :=
  ⟨by decide, by decide,
    coincident_interval_exact (init [[0, 0, 4, 0, 4, 4, 0, 4], [1, 1, 1, 3, 3, 3, 3, 1]] 0) 1
      (by decide) (by decide)⟩

/-! ## The selection of the apex -/

theorem vert_is_sint16 (ts : tristate) (hS : ∀ v ∈ ts.m_verts, v.m_v.is_sint16) (i : Nat) :
    (ts.vert i).m_v.is_sint16 := by
  unfold tristate.vert
  by_cases h : i < ts.m_verts.length
  · rw [getD_eq_getElem_of_lt ts.m_verts i h]
    exact hS _ (List.getElem_mem h)
  · rw [List.getD_eq_default _ _ (by omega)]
    decide

theorem determinant_exact_swap (o a b : vec2) :
    determinant_exact o b a = - determinant_exact o a b := by
  unfold determinant_exact
  ring

/-- Three directions in the open half plane left of the line from `v0` to `v1`
are ordered by their turn around `v1`: the order is transitive. -/
theorem determinant_exact_left_trans (v0 v1 a b c : vec2)
    (ha : determinant_exact v0 v1 a > 0) (hb : determinant_exact v0 v1 b > 0)
    (hc : determinant_exact v0 v1 c > 0)
    (hab : determinant_exact v1 a b ≤ 0) (hbc : determinant_exact v1 b c ≤ 0) :
    determinant_exact v1 a c ≤ 0 := by
  have hid : determinant_exact v0 v1 b * determinant_exact v1 a c
      = determinant_exact v0 v1 a * determinant_exact v1 b c
        + determinant_exact v0 v1 c * determinant_exact v1 a b := by
    unfold determinant_exact
    ring
  by_contra hpos
  have hpos2 : determinant_exact v1 a c > 0 := not_le.1 hpos
  have t1 := mul_pos hb hpos2
  have t2 := mul_nonpos_of_nonneg_of_nonpos (le_of_lt ha) hbc
  have t3 := mul_nonpos_of_nonneg_of_nonpos (le_of_lt hc) hab
  omega

/-- One step of the selection loop on a current apex `w` that is a strict left
turn: the candidate `v` replaces `w` exactly when `v` is not right of the
line from `vi1` to `w`. -/
theorem pick_out_edge_some (ts : tristate) (vi0 vi1 w i : Nat)
    (hw : vertex_left_test (ts.vert vi0).m_v (ts.vert vi1).m_v (ts.vert w).m_v > 0) :
    pick_out_edge ts vi0 vi1 (some w) i =
      if (ts.vert (ts.vert i).m_next).m_state ≠ state_enum.DELETED ∧
          vertex_left_test (ts.vert vi0).m_v (ts.vert vi1).m_v
            (ts.vert (ts.vert i).m_next).m_v > 0 ∧
          determinant_sint16 (ts.vert vi1).m_v (ts.vert w).m_v
            (ts.vert (ts.vert i).m_next).m_v ≥ 0
      then some (ts.vert i).m_next else some w := by
  unfold pick_out_edge
  simp only
  by_cases c1 : (ts.vert (ts.vert i).m_next).m_state = state_enum.DELETED
  · rw [if_pos c1, if_neg (fun h => h.1 c1)]
  · rw [if_neg c1]
    by_cases c2 : vertex_left_test (ts.vert vi0).m_v (ts.vert vi1).m_v
        (ts.vert (ts.vert i).m_next).m_v > 0
    · rw [if_pos c2]
      have hge : vertex_left_test (ts.vert vi0).m_v (ts.vert vi1).m_v
          (ts.vert (ts.vert i).m_next).m_v ≥ 0 := le_of_lt c2
      unfold vertex_in_cone
      simp only [hw, hge, decide_True, if_true, Bool.true_and, decide_eq_true_eq,
        vertex_left_test_nonneg_iff]
      by_cases c3 : determinant_sint16 (ts.vert vi1).m_v (ts.vert w).m_v
          (ts.vert (ts.vert i).m_next).m_v ≥ 0
      · rw [if_pos c3, if_pos ⟨c1, c2, c3⟩]
      · rw [if_neg c3, if_neg (fun h => c3 h.2.2)]
    · rw [if_neg c2, if_neg (fun h => c2 h.2.1)]

theorem pick_out_edge_none (ts : tristate) (vi0 vi1 i : Nat) :
    pick_out_edge ts vi0 vi1 none i =
      if (ts.vert (ts.vert i).m_next).m_state ≠ state_enum.DELETED ∧
          vertex_left_test (ts.vert vi0).m_v (ts.vert vi1).m_v
            (ts.vert (ts.vert i).m_next).m_v > 0
      then some (ts.vert i).m_next else none := by
  unfold pick_out_edge
  simp only
  by_cases c1 : (ts.vert (ts.vert i).m_next).m_state = state_enum.DELETED
  · rw [if_pos c1, if_neg (fun h => h.1 c1)]
  · rw [if_neg c1]
    by_cases c2 : vertex_left_test (ts.vert vi0).m_v (ts.vert vi1).m_v
        (ts.vert (ts.vert i).m_next).m_v > 0
    · rw [if_pos c2, if_pos ⟨c1, c2⟩]
    · rw [if_neg c2, if_neg (fun h => c2 h.2)]

/-- The selection loop yields no apex exactly when it starts without one and
no index of the list has a live forward neighbour that is a strict left turn. -/
theorem pick_out_edge_fold_none (ts : tristate) (vi0 vi1 : Nat) (l : List Nat) :
    ∀ acc : Option Nat,
      l.foldl (pick_out_edge ts vi0 vi1) acc = none ↔
        acc = none ∧ ∀ i ∈ l,
          ¬ ((ts.vert (ts.vert i).m_next).m_state ≠ state_enum.DELETED ∧
            vertex_left_test (ts.vert vi0).m_v (ts.vert vi1).m_v
              (ts.vert (ts.vert i).m_next).m_v > 0) := by
  induction l with
  | nil => intro acc; simp
  | cons i rest ih =>
    intro acc
    rw [List.foldl_cons, ih]
    cases acc with
    | none =>
      rw [pick_out_edge_none]
      by_cases c : (ts.vert (ts.vert i).m_next).m_state ≠ state_enum.DELETED ∧
          vertex_left_test (ts.vert vi0).m_v (ts.vert vi1).m_v
            (ts.vert (ts.vert i).m_next).m_v > 0
      · rw [if_pos c]
        constructor
        · rintro ⟨h, -⟩; cases h
        · rintro ⟨-, h⟩
          exact absurd c (h i (List.mem_cons_self _ _))
      · rw [if_neg c]
        constructor
        · rintro ⟨-, h⟩
          refine ⟨rfl, fun j hj => ?_⟩
          rcases List.mem_cons.1 hj with e | hj2
          · rw [e]; exact c
          · exact h j hj2
        · rintro ⟨-, h⟩
          exact ⟨rfl, fun j hj => h j (List.mem_cons_of_mem _ hj)⟩
    | some w =>
      constructor
      · rintro ⟨h, -⟩
        unfold pick_out_edge at h
        simp only at h
        split_ifs at h
      · rintro ⟨h, -⟩; cases h

/-- The apex after the selection loop, started on an apex that is a strict
left turn or on none: it is the start value or a live strict left turn of the
list, and neither the start value nor any live strict left turn of the list
lies strictly left of the line from `vi1` to it. -/
theorem pick_out_edge_fold_innermost (ts : tristate) (vi0 vi1 : Nat)
    (hS : ∀ i, (ts.vert i).m_v.is_sint16) (l : List Nat) :
    ∀ acc : Option Nat,
      (∀ w, acc = some w →
        determinant_exact (ts.vert vi0).m_v (ts.vert vi1).m_v (ts.vert w).m_v > 0) →
      ∀ v, l.foldl (pick_out_edge ts vi0 vi1) acc = some v →
        (acc = some v ∨ ∃ i ∈ l, v = (ts.vert i).m_next ∧
          (ts.vert v).m_state ≠ state_enum.DELETED ∧
          determinant_exact (ts.vert vi0).m_v (ts.vert vi1).m_v (ts.vert v).m_v > 0) ∧
        determinant_exact (ts.vert vi0).m_v (ts.vert vi1).m_v (ts.vert v).m_v > 0 ∧
        (∀ w, acc = some w →
          determinant_exact (ts.vert vi1).m_v (ts.vert v).m_v (ts.vert w).m_v ≤ 0) ∧
        ∀ i ∈ l, (ts.vert (ts.vert i).m_next).m_state ≠ state_enum.DELETED →
          determinant_exact (ts.vert vi0).m_v (ts.vert vi1).m_v
            (ts.vert (ts.vert i).m_next).m_v > 0 →
          determinant_exact (ts.vert vi1).m_v (ts.vert v).m_v
            (ts.vert (ts.vert i).m_next).m_v ≤ 0 := by
  have hvl : ∀ c, vertex_left_test (ts.vert vi0).m_v (ts.vert vi1).m_v (ts.vert c).m_v > 0 ↔
      determinant_exact (ts.vert vi0).m_v (ts.vert vi1).m_v (ts.vert c).m_v > 0 := by
    intro c
    rw [vertex_left_test_pos_iff, determinant_sint16_eq_exact _ _ _ (hS vi0) (hS vi1) (hS c)]
  induction l with
  | nil =>
    intro acc hacc v hv
    have hv2 : acc = some v := hv
    refine ⟨Or.inl hv2, hacc v hv2, fun w hw => ?_, fun i hi => absurd hi (List.not_mem_nil i)⟩
    rw [hv2] at hw
    cases hw
    unfold determinant_exact
    have : ((ts.vert v).m_v.x - (ts.vert vi1).m_v.x) * ((ts.vert v).m_v.y - (ts.vert vi1).m_v.y)
        = ((ts.vert v).m_v.y - (ts.vert vi1).m_v.y) * ((ts.vert v).m_v.x - (ts.vert vi1).m_v.x) :=
      mul_comm _ _
    omega
  | cons i rest ih =>
    intro acc hacc v hv
    rw [List.foldl_cons] at hv
    cases acc with
    | none =>
      rw [pick_out_edge_none] at hv
      by_cases c : (ts.vert (ts.vert i).m_next).m_state ≠ state_enum.DELETED ∧
          vertex_left_test (ts.vert vi0).m_v (ts.vert vi1).m_v
            (ts.vert (ts.vert i).m_next).m_v > 0
      · rw [if_pos c] at hv
        have c2 := (hvl _).1 c.2
        obtain ⟨a1, a2, a3, a4⟩ := ih (some (ts.vert i).m_next)
          (fun w hw => by cases hw; exact c2) v hv
        refine ⟨Or.inr ?_, a2, (fun w hw => by cases hw), fun j hj hl hd => ?_⟩
        · rcases a1 with a1 | ⟨j, hj, a1⟩
          · cases a1
            exact ⟨i, List.mem_cons_self _ _, rfl, c.1, c2⟩
          · exact ⟨j, List.mem_cons_of_mem _ hj, a1⟩
        · rcases List.mem_cons.1 hj with e | hj2
          · rw [e]
            exact a3 _ rfl
          · exact a4 j hj2 hl hd
      · rw [if_neg c] at hv
        obtain ⟨a1, a2, a3, a4⟩ := ih none (fun w hw => by cases hw) v hv
        refine ⟨Or.inr ?_, a2, (fun w hw => by cases hw), fun j hj hl hd => ?_⟩
        · rcases a1 with a1 | ⟨j, hj, a1⟩
          · cases a1
          · exact ⟨j, List.mem_cons_of_mem _ hj, a1⟩
        · rcases List.mem_cons.1 hj with e | hj2
          · rw [e] at hl hd
            exact absurd ⟨hl, (hvl _).2 hd⟩ c
          · exact a4 j hj2 hl hd
    | some w =>
      have hw := hacc w rfl
      rw [pick_out_edge_some ts vi0 vi1 w i ((hvl w).2 hw)] at hv
      by_cases c : (ts.vert (ts.vert i).m_next).m_state ≠ state_enum.DELETED ∧
          vertex_left_test (ts.vert vi0).m_v (ts.vert vi1).m_v
            (ts.vert (ts.vert i).m_next).m_v > 0 ∧
          determinant_sint16 (ts.vert vi1).m_v (ts.vert w).m_v
            (ts.vert (ts.vert i).m_next).m_v ≥ 0
      · rw [if_pos c] at hv
        obtain ⟨c1, c2, c3⟩ := c
        have c2 := (hvl _).1 c2
        rw [determinant_sint16_eq_exact _ _ _ (hS vi1) (hS w) (hS _)] at c3
        obtain ⟨a1, a2, a3, a4⟩ := ih (some (ts.vert i).m_next)
          (fun u hu => by cases hu; exact c2) v hv
        have hvc := a3 _ rfl
        have hcw : determinant_exact (ts.vert vi1).m_v (ts.vert (ts.vert i).m_next).m_v
            (ts.vert w).m_v ≤ 0 := by
          rw [determinant_exact_swap]
          omega
        have hvw := determinant_exact_left_trans _ _ _ _ _ a2 c2 hw hvc hcw
        refine ⟨Or.inr ?_, a2, (fun u hu => by cases hu; exact hvw), fun j hj hl hd => ?_⟩
        · rcases a1 with a1 | ⟨j, hj, a1⟩
          · cases a1
            exact ⟨i, List.mem_cons_self _ _, rfl, c1, c2⟩
          · exact ⟨j, List.mem_cons_of_mem _ hj, a1⟩
        · rcases List.mem_cons.1 hj with e | hj2
          · rw [e]
            exact hvc
          · exact a4 j hj2 hl hd
      · rw [if_neg c] at hv
        obtain ⟨a1, a2, a3, a4⟩ := ih (some w) hacc v hv
        have hvw := a3 w rfl
        refine ⟨?_, a2, (fun u hu => by cases hu; exact hvw), fun j hj hl hd => ?_⟩
        · rcases a1 with a1 | ⟨j, hj, a1⟩
          · exact Or.inl a1
          · exact Or.inr ⟨j, List.mem_cons_of_mem _ hj, a1⟩
        · rcases List.mem_cons.1 hj with e | hj2
          · rw [e] at hl hd ⊢
            have c3 : ¬ determinant_sint16 (ts.vert vi1).m_v (ts.vert w).m_v
                (ts.vert (ts.vert i).m_next).m_v ≥ 0 := fun h => c ⟨hl, (hvl _).2 hd, h⟩
            rw [determinant_sint16_eq_exact _ _ _ (hS vi1) (hS w) (hS _)] at c3
            exact determinant_exact_left_trans _ _ _ _ _ a2 hw hd hvw (by omega)
          · exact a4 j hj2 hl hd

theorem select_apex_eq_none_iff (ts : tristate) (vi0 vi1 : Nat) :
    select_apex ts vi0 vi1 = none ↔ ¬ ∃ c, is_candidate ts vi0 vi1 c := by
  unfold select_apex
  rw [pick_out_edge_fold_none]
  constructor
  · rintro ⟨-, h⟩ ⟨c, i, hi, hc, hl, hd⟩
    rw [hc] at hl hd
    exact h i hi ⟨hl, hd⟩
  · intro h
    refine ⟨rfl, fun i hi hc => h ⟨(ts.vert i).m_next, i, hi, rfl, hc.1, hc.2⟩⟩

/-- C33: for 16-bit positions, an edge `(vi0, vi1)` that is not zero-length and
a vertex `vi1` that is not REFLEX, with the candidates being the non-DELETED
forward neighbours `c` of the indices of the coincident range of `vi1` that
have `turn(v0, v1, c) > 0`: the selection loop ends without an apex exactly
when there is no candidate, and then `find_ear_vertex` fails; an apex `vi2` it
ends with is a candidate with `turn(v1, vi2, c) ≤ 0` for every candidate `c`,
and any vertex `find_ear_vertex` returns is that apex. -/
theorem select_apex_innermost (ts : tristate) (vi0 vi1 : Nat)
    (hS : ∀ v ∈ ts.m_verts, v.m_v.is_sint16)
    (hne : (ts.vert vi0).m_v ≠ (ts.vert vi1).m_v)
    (hnr : (ts.vert vi1).m_state ≠ state_enum.REFLEX) :
    (select_apex ts vi0 vi1 = none ↔ ¬ ∃ c, is_candidate ts vi0 vi1 c) ∧
    (select_apex ts vi0 vi1 = none → find_ear_vertex ts vi0 vi1 = none) ∧
    (∀ vi2, find_ear_vertex ts vi0 vi1 = some vi2 → select_apex ts vi0 vi1 = some vi2) ∧
    ∀ vi2, select_apex ts vi0 vi1 = some vi2 →
      is_candidate ts vi0 vi1 vi2 ∧
      ∀ c, is_candidate ts vi0 vi1 c →
        vertex_left_test (ts.vert vi1).m_v (ts.vert vi2).m_v (ts.vert c).m_v ≤ 0 := by
  have hS2 := vert_is_sint16 ts hS
  refine ⟨select_apex_eq_none_iff ts vi0 vi1, fun h => ?_, fun vi2 h => ?_, fun vi2 h => ?_⟩
  · rw [find_ear_vertex_eq, if_neg hne, if_neg hnr, h]
  · rw [find_ear_vertex_eq, if_neg hne, if_neg hnr] at h
    cases hsel : select_apex ts vi0 vi1 with
    | none => rw [hsel] at h; cases h
    | some w =>
      rw [hsel] at h
      simp only at h
      split_ifs at h
      exact h ▸ rfl
  · obtain ⟨a1, a2, -, a4⟩ := pick_out_edge_fold_innermost ts vi0 vi1 hS2
      (coincident_range ts vi1) none (fun w hw => by cases hw) vi2 h
    have hvl : ∀ c, vertex_left_test (ts.vert vi0).m_v (ts.vert vi1).m_v (ts.vert c).m_v > 0 ↔
        determinant_exact (ts.vert vi0).m_v (ts.vert vi1).m_v (ts.vert c).m_v > 0 := by
      intro c
      rw [vertex_left_test_pos_iff,
        determinant_sint16_eq_exact _ _ _ (hS2 vi0) (hS2 vi1) (hS2 c)]
    constructor
    · rcases a1 with a1 | ⟨i, hi, e, hl, hd⟩
      · cases a1
      · exact ⟨i, hi, e, hl, (hvl vi2).2 hd⟩
    · rintro c ⟨i, hi, e, hl, hd⟩
      rw [e] at hl hd ⊢
      have := a4 i hi hl ((hvl _).1 hd)
      rw [← determinant_sint16_eq_exact _ _ _ (hS2 vi1) (hS2 vi2) (hS2 _)] at this
      unfold vertex_left_test
      simp only
      split_ifs <;> omega

/-! ## The reflex points and the ear -/

theorem any_reflex_vert_in_triangle_eq (ts : tristate) (vi0 vi1 vi2 : Nat) :
    any_reflex_vert_in_triangle ts vi0 vi1 vi2 =
      ts.m_reflex_point_index.any (fun location =>
        if (ts.vert vi0).m_v = location ∨ (ts.vert vi1).m_v = location ∨
            (ts.vert vi2).m_v = location then false
        else if (triangle_bound (ts.vert vi0).m_v (ts.vert vi1).m_v
            (ts.vert vi2).m_v).contains_point location
          then vert_in_triangle location (ts.vert vi0).m_v (ts.vert vi1).m_v (ts.vert vi2).m_v
        else false) := rfl

theorem any_congr_of_mem {α : Type} (l : List α) (f g : α → Bool)
    (h : ∀ x ∈ l, f x = g x) : l.any f = l.any g := by
  induction l with
  | nil => rfl
  | cons a rest ih =>
    rw [List.any_cons, List.any_cons, h a (List.mem_cons_self _ _),
      ih (fun x hx => h x (List.mem_cons_of_mem _ hx))]

/-- What `find_ear_vertex` has checked when it returns `vi2` for an edge that
is not zero-length: the selection loop ended with `vi2`, no incoming edge
blocks, the valence counters are not both below one, and the reflex test
found nothing. -/
theorem find_ear_vertex_passed (ts : tristate) (vi0 vi1 vi2 : Nat)
    (hne : (ts.vert vi0).m_v ≠ (ts.vert vi1).m_v)
    (h : find_ear_vertex ts vi0 vi1 = some vi2) :
    (ts.vert vi1).m_state ≠ state_enum.REFLEX ∧
    select_apex ts vi0 vi1 = some vi2 ∧
    (coincident_range ts vi1).any (in_edge_blocks ts vi0 vi1 vi2) = false ∧
    ¬ ((valence_counts ts vi0 vi1 vi2).1 < 1 ∧ (valence_counts ts vi0 vi1 vi2).2 < 1) ∧
    any_reflex_vert_in_triangle ts vi0 vi1 vi2 = false ∧
    vertex_left_test (ts.vert vi0).m_v (ts.vert vi1).m_v (ts.vert vi2).m_v > 0 := by
  rw [find_ear_vertex_eq, if_neg hne] at h
  by_cases hr : (ts.vert vi1).m_state = state_enum.REFLEX
  · rw [if_pos hr] at h; cases h
  · rw [if_neg hr] at h
    cases hsel : select_apex ts vi0 vi1 with
    | none => rw [hsel] at h; cases h
    | some w =>
      rw [hsel] at h
      simp only at h
      split_ifs at h with c1 c2 c3
      have e : w = vi2 := Option.some.inj h
      rw [e] at c1 c2 c3 hsel
      refine ⟨hr, congrArg some e, by simpa using c1, c2, by simpa using c3, ?_⟩
      exact pick_out_edge_fold ts vi0 vi1
        (fun c => vertex_left_test (ts.vert vi0).m_v (ts.vert vi1).m_v (ts.vert c).m_v > 0)
        (coincident_range ts vi1) (fun i _ _ hd => hd) none (fun w hw => by cases hw) vi2 hsel

/-- C34: for 16-bit positions, if `find_ear_vertex` returns the apex `vi2` for
an edge `(vi0, vi1)` that is not zero-length, then no point of the reflex
index other than the positions of `vi0`, `vi1` and `vi2` lies in the closed
triangle of the three positions; every stored point of the closed triangle
passes the bounding-box filter, so the reflex test gives the same answer with
the filter left out. -/
theorem find_ear_vertex_excludes_reflex_points (ts : tristate) (vi0 vi1 vi2 : Nat)
    (hS : ∀ v ∈ ts.m_verts, v.m_v.is_sint16)
    (hR : ∀ p ∈ ts.m_reflex_point_index, p.is_sint16)
    (hne : (ts.vert vi0).m_v ≠ (ts.vert vi1).m_v)
    (h : find_ear_vertex ts vi0 vi1 = some vi2) :
    (∀ p ∈ ts.m_reflex_point_index,
      p ≠ (ts.vert vi0).m_v → p ≠ (ts.vert vi1).m_v → p ≠ (ts.vert vi2).m_v →
      ¬ in_closed_triangle p (ts.vert vi0).m_v (ts.vert vi1).m_v (ts.vert vi2).m_v) ∧
    (∀ p ∈ ts.m_reflex_point_index,
      in_closed_triangle p (ts.vert vi0).m_v (ts.vert vi1).m_v (ts.vert vi2).m_v →
      (triangle_bound (ts.vert vi0).m_v (ts.vert vi1).m_v (ts.vert vi2).m_v).contains_point p
        = true) ∧
    any_reflex_vert_in_triangle ts vi0 vi1 vi2 =
      ts.m_reflex_point_index.any (fun location =>
        if (ts.vert vi0).m_v = location ∨ (ts.vert vi1).m_v = location ∨
            (ts.vert vi2).m_v = location then false
        else vert_in_triangle location (ts.vert vi0).m_v (ts.vert vi1).m_v
          (ts.vert vi2).m_v) := by
  have hS2 := vert_is_sint16 ts hS
  obtain ⟨-, -, -, -, hany, hl⟩ := find_ear_vertex_passed ts vi0 vi1 vi2 hne h
  rw [vertex_left_test_pos_iff] at hl
  have hiff : ∀ p ∈ ts.m_reflex_point_index,
      (vert_in_triangle p (ts.vert vi0).m_v (ts.vert vi1).m_v (ts.vert vi2).m_v = true ↔
        in_closed_triangle p (ts.vert vi0).m_v (ts.vert vi1).m_v (ts.vert vi2).m_v) := fun p hp =>
    vert_in_triangle_closed_of_ccw p _ _ _ (hR p hp) (hS2 vi0) (hS2 vi1) (hS2 vi2) hl
  have hfilter : ∀ p ∈ ts.m_reflex_point_index,
      (if (triangle_bound (ts.vert vi0).m_v (ts.vert vi1).m_v
          (ts.vert vi2).m_v).contains_point p
        then vert_in_triangle p (ts.vert vi0).m_v (ts.vert vi1).m_v (ts.vert vi2).m_v
        else false)
      = vert_in_triangle p (ts.vert vi0).m_v (ts.vert vi1).m_v (ts.vert vi2).m_v := by
    intro p hp
    cases hv : vert_in_triangle p (ts.vert vi0).m_v (ts.vert vi1).m_v (ts.vert vi2).m_v with
    | false => simp
    | true =>
      rw [if_pos (triangle_bound_contains p _ _ _ ((hiff p hp).1 hv))]
  have hunf : any_reflex_vert_in_triangle ts vi0 vi1 vi2 =
      ts.m_reflex_point_index.any (fun location =>
        if (ts.vert vi0).m_v = location ∨ (ts.vert vi1).m_v = location ∨
            (ts.vert vi2).m_v = location then false
        else vert_in_triangle location (ts.vert vi0).m_v (ts.vert vi1).m_v
          (ts.vert vi2).m_v) := by
    rw [any_reflex_vert_in_triangle_eq]
    apply any_congr_of_mem
    intro p hp
    simp only [hfilter p hp]
  refine ⟨fun p hp n0 n1 n2 hin => ?_, fun p _ hin => triangle_bound_contains p _ _ _ hin,
    hunf⟩
  rw [hunf, List.any_eq_false] at hany
  have := hany p hp
  rw [if_neg (by
    rintro (e | e | e)
    · exact n0 e.symm
    · exact n1 e.symm
    · exact n2 e.symm)] at this
  exact this ((hiff p hp).2 hin)

/-! ## The valence rule -/

/-- Under the ring invariant the valence step of the code and the step in the
words of the specification agree on a valid index: an index whose backward
neighbour is DELETED is DELETED itself and a self-loop, and the two updates of
the rule cancel on it. -/
theorem valence_step_eq_spec (ts : tristate) (vi0 vi2 : Nat) (H : loops_valid ts.m_verts)
    (val : Int × Int) (i : Nat) (hi : i < ts.m_verts.length) :
    valence_step ts vi0 vi2 val i = valence_step_spec ts vi0 vi2 val i := by
  unfold valence_step valence_step_spec
  simp only
  by_cases hd : (ts.vert (ts.vert i).m_prev).m_state = state_enum.DELETED
  · rw [if_pos hd]
    have hid : (ts.m_verts.getD i poly_vert.dflt).m_state = state_enum.DELETED := by
      by_contra hlive
      exact (loops_valid_live ts.m_verts H i hi hlive).2.2.2.2.1 hd
    obtain ⟨hn, hp⟩ := loops_valid_deleted ts.m_verts H i hi hid
    have hn2 : (ts.vert i).m_next = i := hn
    have hp2 : (ts.vert i).m_prev = i := hp
    rw [hn2, hp2]
    by_cases c2 : (ts.vert i).m_v = (ts.vert vi2).m_v
    · simp [c2]
    · by_cases c0 : (ts.vert i).m_v = (ts.vert vi0).m_v
      · have c3 : ¬ (ts.vert vi0).m_v = (ts.vert vi2).m_v := fun h => c2 (c0.trans h)
        simp [c2, c0, c3]
      · simp [c2, c0]
  · rw [if_neg hd]

theorem valence_fold_eq_spec (ts : tristate) (vi0 vi2 : Nat) (H : loops_valid ts.m_verts)
    (l : List Nat) (hl : ∀ i ∈ l, i < ts.m_verts.length) :
    ∀ acc : Int × Int,
      l.foldl (valence_step ts vi0 vi2) acc = l.foldl (valence_step_spec ts vi0 vi2) acc := by
  induction l with
  | nil => intro acc; rfl
  | cons i rest ih =>
    intro acc
    rw [List.foldl_cons, List.foldl_cons,
      valence_step_eq_spec ts vi0 vi2 H acc i (hl i (List.mem_cons_self _ _))]
    exact ih (fun j hj => hl j (List.mem_cons_of_mem _ hj)) _

/-- C35: under the ring invariant (DELETED vertices self-looped) and for a
valid index `vi1`, the counters `(valence0, valence1)` that the valence loop
of `find_ear_vertex` computes, skipping every index whose backward neighbour
is DELETED, equal the counters of the specification, which applies the rule to
every index of the coincident range; and once the selection gave `vi2` and no
incoming edge blocks, `find_ear_vertex` fails at the valence step exactly when
`valence0 < 1` and `valence1 < 1`, and goes on to the reflex test otherwise. -/
theorem valence_counts_refine_spec (ts : tristate) (vi0 vi1 vi2 : Nat)
    (H : loops_valid ts.m_verts) (h1 : vi1 < ts.m_verts.length) :
    valence_counts ts vi0 vi1 vi2 = valence_counts_spec ts vi0 vi1 vi2 ∧
    ((ts.vert vi0).m_v ≠ (ts.vert vi1).m_v → (ts.vert vi1).m_state ≠ state_enum.REFLEX →
      select_apex ts vi0 vi1 = some vi2 →
      (coincident_range ts vi1).any (in_edge_blocks ts vi0 vi1 vi2) = false →
      (((valence_counts_spec ts vi0 vi1 vi2).1 < 1 ∧ (valence_counts_spec ts vi0 vi1 vi2).2 < 1) →
        find_ear_vertex ts vi0 vi1 = none) ∧
      (¬ ((valence_counts_spec ts vi0 vi1 vi2).1 < 1 ∧
          (valence_counts_spec ts vi0 vi1 vi2).2 < 1) →
        find_ear_vertex ts vi0 vi1 =
          if any_reflex_vert_in_triangle ts vi0 vi1 vi2 then none else some vi2)) := by
  have heq : valence_counts ts vi0 vi1 vi2 = valence_counts_spec ts vi0 vi1 vi2 :=
    valence_fold_eq_spec ts vi0 vi2 H (coincident_range ts vi1)
      (fun i hi => ((coincident_range_pos ts vi1 h1).2 i hi).1) (0, 0)
  refine ⟨heq, fun hne hnr hsel hblk => ?_⟩
  rw [← heq, find_ear_vertex_eq, if_neg hne, if_neg hnr, hsel]
  simp only
  rw [hblk]
  constructor
  · intro hv
    simp [hv]
  · intro hv
    simp [hv]

/-! ## A vertex whose position no other vertex shares -/

theorem coincident_range_singleton (ts : tristate) (vi1 : Nat)
    (hu : ∀ j, j < ts.m_verts.length → j ≠ vi1 → (ts.vert j).m_v ≠ (ts.vert vi1).m_v)
    (h1 : vi1 < ts.m_verts.length) :
    coincident_range ts vi1 = [vi1] := by
  have hb : coincident_begin ts.m_verts (ts.vert vi1).m_v vi1 = vi1 := by
    cases vi1 with
    | zero => rfl
    | succ k =>
      unfold coincident_begin
      exact if_neg (hu k (by omega) (by omega))
  have he : coincident_end ts.m_verts (ts.vert vi1).m_v
      (ts.m_verts.length - (vi1 + 1)) (vi1 + 1) = vi1 + 1 := by
    cases ts.m_verts.length - (vi1 + 1) with
    | zero => rfl
    | succ n =>
      unfold coincident_end
      exact if_neg (fun h => hu (vi1 + 1) h.1 (by omega) h.2)
  unfold coincident_range
  simp only [hb, he]
  simp

/-- C40: under the ring invariant, for a valid index `vi1` with
`vi0 = prev(vi1)`, different positions of `vi0` and `vi1`, and no other vertex
of the array at the position of `vi1`: when a candidate apex exists the
selection loop ends with an apex, and for the apex `vi2` it ends with the
counters are `valence0 = 1` and `valence1 = 1`, so the valence step does not
reject the ear. -/
theorem valence_counts_one_of_unique_position (ts : tristate) (vi0 vi1 : Nat)
    (H : loops_valid ts.m_verts) (h1 : vi1 < ts.m_verts.length)
    (h0 : vi0 = (ts.vert vi1).m_prev)
    (hne : (ts.vert vi0).m_v ≠ (ts.vert vi1).m_v)
    (hu : ∀ j, j < ts.m_verts.length → j ≠ vi1 → (ts.vert j).m_v ≠ (ts.vert vi1).m_v) :
    ((∃ c, is_candidate ts vi0 vi1 c) → ∃ vi2, select_apex ts vi0 vi1 = some vi2) ∧
    ∀ vi2, select_apex ts vi0 vi1 = some vi2 →
      valence_counts ts vi0 vi1 vi2 = (1, 1) ∧
      ¬ ((valence_counts ts vi0 vi1 vi2).1 < 1 ∧ (valence_counts ts vi0 vi1 vi2).2 < 1) := by
  constructor
  · intro hc
    cases hsel : select_apex ts vi0 vi1 with
    | none => exact absurd hc ((select_apex_eq_none_iff ts vi0 vi1).1 hsel)
    | some w => exact ⟨w, rfl⟩
  · intro vi2 hsel
    have hrange := coincident_range_singleton ts vi1 hu h1
    have hlive1 : (ts.m_verts.getD vi1 poly_vert.dflt).m_state ≠ state_enum.DELETED := by
      intro hd
      have hp := (loops_valid_deleted ts.m_verts H vi1 h1 hd).2
      have hp2 : (ts.vert vi1).m_prev = vi1 := hp
      rw [hp2] at h0
      rw [h0] at hne
      exact hne rfl
    have hlive0 : (ts.vert (ts.vert vi1).m_prev).m_state ≠ state_enum.DELETED :=
      (loops_valid_live ts.m_verts H vi1 h1 hlive1).2.2.2.2.1
    unfold select_apex at hsel
    rw [hrange, List.foldl_cons, List.foldl_nil, pick_out_edge_none] at hsel
    split_ifs at hsel with c
    have e : (ts.vert vi1).m_next = vi2 := Option.some.inj hsel
    rw [e] at c
    obtain ⟨-, -, hn20⟩ := ne_of_vertex_left_test_pos _ _ _ c.2
    have hval : valence_counts ts vi0 vi1 vi2 = (1, 1) := by
      unfold valence_counts
      rw [hrange, List.foldl_cons, List.foldl_nil]
      unfold valence_step
      simp only
      rw [if_neg hlive0, e, ← h0]
      simp [Ne.symm hn20]
    rw [hval]
    exact ⟨rfl, by decide⟩

theorem select_apex_innermost_witness :
    (∀ v ∈ square_with_hole_state.m_verts, v.m_v.is_sint16) ∧
    (square_with_hole_state.vert 1).m_v ≠ (square_with_hole_state.vert 3).m_v ∧
    (square_with_hole_state.vert 3).m_state ≠ state_enum.REFLEX ∧
    (select_apex square_with_hole_state 1 3 = none ↔
      ¬ ∃ c, is_candidate square_with_hole_state 1 3 c) ∧
    (select_apex square_with_hole_state 1 3 = none →
      find_ear_vertex square_with_hole_state 1 3 = none) ∧
    (∀ vi2, find_ear_vertex square_with_hole_state 1 3 = some vi2 →
      select_apex square_with_hole_state 1 3 = some vi2) ∧
    ∀ vi2, select_apex square_with_hole_state 1 3 = some vi2 →
      is_candidate square_with_hole_state 1 3 vi2 ∧
      ∀ c, is_candidate square_with_hole_state 1 3 c →
        vertex_left_test (square_with_hole_state.vert 3).m_v
          (square_with_hole_state.vert vi2).m_v (square_with_hole_state.vert c).m_v ≤ 0 :=
  ⟨by decide, by decide, by decide,
    select_apex_innermost square_with_hole_state 1 3 (by decide) (by decide) (by decide)⟩

theorem find_ear_vertex_excludes_reflex_points_witness :
    (∀ v ∈ square_with_hole_state.m_verts, v.m_v.is_sint16) ∧
    (∀ p ∈ square_with_hole_state.m_reflex_point_index, p.is_sint16) ∧
    (square_with_hole_state.vert 4).m_v ≠ (square_with_hole_state.vert 2).m_v ∧
    find_ear_vertex square_with_hole_state 4 2 = some 0 ∧
    (∀ p ∈ square_with_hole_state.m_reflex_point_index,
      p ≠ (square_with_hole_state.vert 4).m_v → p ≠ (square_with_hole_state.vert 2).m_v →
      p ≠ (square_with_hole_state.vert 0).m_v →
      ¬ in_closed_triangle p (square_with_hole_state.vert 4).m_v
        (square_with_hole_state.vert 2).m_v (square_with_hole_state.vert 0).m_v) ∧
    (∀ p ∈ square_with_hole_state.m_reflex_point_index,
      in_closed_triangle p (square_with_hole_state.vert 4).m_v
        (square_with_hole_state.vert 2).m_v (square_with_hole_state.vert 0).m_v →
      (triangle_bound (square_with_hole_state.vert 4).m_v (square_with_hole_state.vert 2).m_v
        (square_with_hole_state.vert 0).m_v).contains_point p = true) ∧
    any_reflex_vert_in_triangle square_with_hole_state 4 2 0 =
      square_with_hole_state.m_reflex_point_index.any (fun location =>
        if (square_with_hole_state.vert 4).m_v = location ∨
            (square_with_hole_state.vert 2).m_v = location ∨
            (square_with_hole_state.vert 0).m_v = location then false
        else vert_in_triangle location (square_with_hole_state.vert 4).m_v
          (square_with_hole_state.vert 2).m_v (square_with_hole_state.vert 0).m_v) :=
  ⟨by decide, by decide, by decide, by decide,
    find_ear_vertex_excludes_reflex_points square_with_hole_state 4 2 0 (by decide) (by decide)
      (by decide) (by decide)⟩

theorem valence_counts_refine_spec_witness :
    loops_valid square_with_hole_clipped.m_verts ∧
    1 < square_with_hole_clipped.m_verts.length ∧
    (square_with_hole_clipped.vert 2).m_state = state_enum.DELETED ∧
    2 ∈ coincident_range square_with_hole_clipped 1 ∧
    valence_counts square_with_hole_clipped 9 1 3
      = valence_counts_spec square_with_hole_clipped 9 1 3 ∧
    ((square_with_hole_clipped.vert 9).m_v ≠ (square_with_hole_clipped.vert 1).m_v →
      (square_with_hole_clipped.vert 1).m_state ≠ state_enum.REFLEX →
      select_apex square_with_hole_clipped 9 1 = some 3 →
      (coincident_range square_with_hole_clipped 1).any
        (in_edge_blocks square_with_hole_clipped 9 1 3) = false →
      (((valence_counts_spec square_with_hole_clipped 9 1 3).1 < 1 ∧
          (valence_counts_spec square_with_hole_clipped 9 1 3).2 < 1) →
        find_ear_vertex square_with_hole_clipped 9 1 = none) ∧
      (¬ ((valence_counts_spec square_with_hole_clipped 9 1 3).1 < 1 ∧
          (valence_counts_spec square_with_hole_clipped 9 1 3).2 < 1) →
        find_ear_vertex square_with_hole_clipped 9 1 =
          if any_reflex_vert_in_triangle square_with_hole_clipped 9 1 3 then none
          else some 3)) :=
  ⟨by decide, by decide, by decide, by decide,
    valence_counts_refine_spec square_with_hole_clipped 9 1 3 (by decide) (by decide)⟩

theorem valence_counts_one_of_unique_position_witness :
    loops_valid reflex_quad_state.m_verts ∧
    1 < reflex_quad_state.m_verts.length ∧
    2 = (reflex_quad_state.vert 1).m_prev ∧
    (reflex_quad_state.vert 2).m_v ≠ (reflex_quad_state.vert 1).m_v ∧
    (∀ j, j < reflex_quad_state.m_verts.length → j ≠ 1 →
      (reflex_quad_state.vert j).m_v ≠ (reflex_quad_state.vert 1).m_v) ∧
    (∃ c, is_candidate reflex_quad_state 2 1 c) ∧
    ((∃ c, is_candidate reflex_quad_state 2 1 c) →
      ∃ vi2, select_apex reflex_quad_state 2 1 = some vi2) ∧
    ∀ vi2, select_apex reflex_quad_state 2 1 = some vi2 →
      valence_counts reflex_quad_state 2 1 vi2 = (1, 1) ∧
      ¬ ((valence_counts reflex_quad_state 2 1 vi2).1 < 1 ∧
        (valence_counts reflex_quad_state 2 1 vi2).2 < 1) :=
  ⟨by decide, by decide, by decide, by decide, by decide, ⟨0, by decide⟩,
    valence_counts_one_of_unique_position reflex_quad_state 2 1 (by decide) (by decide)
      (by decide) (by decide) (by decide)⟩

/-! ## The sorts of `init` and the order of equal positions -/

theorem sort_and_remap_eq_with (ts : tristate) :
    sort_and_remap ts = sort_and_remap_with (sorted_indices ts.m_verts) ts := rfl

theorem init_eq_with (paths : List (List Int)) (debug_halt_step : Int) :
    init paths debug_halt_step =
      init_with (sorted_indices (ingest_state paths debug_halt_step).m_verts)
        (sorted_indices (join_paths_into_one_poly
          (sort_and_remap (ingest_state paths debug_halt_step))).m_verts)
        paths debug_halt_step := rfl

/-- The order that the sort of the model leaves is one of the orders that
`std::sort` may leave. -/
theorem is_sorted_order_sorted_indices (verts : List poly_vert) :
    is_sorted_order verts (sorted_indices verts) := by
  refine ⟨length_sorted_indices verts, sorted_indices_nodup verts, ?_,
    sorted_indices_pairwise verts⟩
  intro i hi
  exact List.mem_range.1 ((sorted_indices_perm verts).mem_iff.1 hi)

/-- C14: on the input of two islands `doubled_leftmost_input` (17 vertices,
the second path starts with two vertices at its smallest position (20,0)),
with the index arrays that the sorts of the program leave, which have the two
vertices at (20,0) in the other order than the insertion sort of `std_sort`,
the leftmost vertex of the second path has index 8 after the first sort and
`find_valid_bridge_vert` returns for it vertex 7, the other vertex at (20,0)
of the same path; after `init` the 19 vertices are not on one ring: following
forward links from vertex 0 comes back to vertex 0 after 7 steps and never
reaches vertex 9, and from vertex 9 it comes back to vertex 9 after 2 steps. -/
theorem init_doubled_leftmost_vertex_splits_ring :
    sorted_indices (ingest_state doubled_leftmost_input 0).m_verts
      = [0, 6, 1, 5, 2, 3, 4, 7, 8, 16, 15, 14, 9, 13, 10, 11, 12] ∧
    is_sorted_order (ingest_state doubled_leftmost_input 0).m_verts doubled_leftmost_order1 ∧
    (sort_and_remap_with doubled_leftmost_order1
      (ingest_state doubled_leftmost_input 0)).m_input_paths.map path_info.m_leftmost_vert
      = [some 0, some 8] ∧
    find_valid_bridge_vert
      (sort_and_remap_with doubled_leftmost_order1 (ingest_state doubled_leftmost_input 0)) 8
      (add_all_edges_into_index
        (sort_and_remap_with doubled_leftmost_order1 (ingest_state doubled_leftmost_input 0)) [])
      = 7 ∧
    is_sorted_order
      (join_paths_into_one_poly (sort_and_remap_with doubled_leftmost_order1
        (ingest_state doubled_leftmost_input 0))).m_verts doubled_leftmost_order2 ∧
    (init_with doubled_leftmost_order1 doubled_leftmost_order2
      doubled_leftmost_input 0).m_verts.length = 19 ∧
    next_steps (init_with doubled_leftmost_order1 doubled_leftmost_order2
      doubled_leftmost_input 0).m_verts 7 0 = 0 ∧
    (∀ k, k < 19 → next_steps (init_with doubled_leftmost_order1 doubled_leftmost_order2
      doubled_leftmost_input 0).m_verts k 0 ≠ 9) ∧
    next_steps (init_with doubled_leftmost_order1 doubled_leftmost_order2
      doubled_leftmost_input 0).m_verts 2 9 = 9 := by
  decide

/-! ## One ring when no path repeats its smallest position -/

theorem lex_lt_of_ne_of_not_lt (p q : vec2) (hne : p ≠ q) (h : ¬ lex_lt p q) : lex_lt q p := by
  obtain ⟨px, py⟩ := p
  obtain ⟨qx, qy⟩ := q
  unfold lex_lt at h ⊢
  simp only [ne_eq, vec2.mk.injEq] at hne h ⊢
  omega

/-- The leftmost vertex of a path gets the smallest new index of its path when
no other vertex of the path is at its position; only the order of the sorted
index array is used, not how the sort places equal positions. -/
theorem relabel_le_of_unique_min (verts : List poly_vert) (b e l x : Nat) (he : e ≤ verts.length)
    (hm : first_min verts b e l)
    (hu : ∀ y, b ≤ y → y < e →
      (verts.getD y poly_vert.dflt).m_v = (verts.getD l poly_vert.dflt).m_v → y = l)
    (hx1 : b ≤ x) (hx2 : x < e) :
    relabel verts l ≤ relabel verts x := by
  by_cases hxl : x = l
  · rw [hxl]
  by_contra hlt
  rw [not_le] at hlt
  obtain ⟨m1, m2, m3, -⟩ := hm
  have hl : l < verts.length := by omega
  have hx : x < verts.length := by omega
  have hne : (verts.getD x poly_vert.dflt).m_v ≠ (verts.getD l poly_vert.dflt).m_v :=
    fun h => hxl (hu x hx1 hx2 h)
  have hlx := lex_lt_of_ne_of_not_lt _ _ hne (m3 x hx1 hx2)
  have hp := sorted_indices_pairwise verts
  rw [List.pairwise_iff_getElem] at hp
  have hrl := relabel_lt verts l hl
  have hrx := relabel_lt verts x hx
  have h := hp (relabel verts x) (relabel verts l)
    (by rw [length_sorted_indices]; exact hrx) (by rw [length_sorted_indices]; exact hrl) hlt
  rw [← getD_nat_eq_getElem, ← getD_nat_eq_getElem, sorted_indices_relabel verts l hl,
    sorted_indices_relabel verts x hx] at h
  rw [(vert_index_sorter_iff verts l x).2 hlx] at h
  exact Bool.noConfusion h

/-- After the first sort every path has its ring, on which its leftmost vertex
has the smallest index, and the rings hold every index once, when no path has
another vertex at the position of its leftmost vertex. -/
theorem path_rings_after_sort_of_once (ts0 : tristate)
    (hI : ingest_ok (ts0.m_verts, ts0.m_input_paths))
    (hU : ∀ pi ∈ ts0.m_input_paths, leftmost_once ts0.m_verts pi) :
    (∀ pi ∈ (sort_and_remap ts0).m_input_paths,
      path_ring (sort_and_remap ts0).m_verts pi (pi.range_of.map (relabel ts0.m_verts))) ∧
    (((sort_and_remap ts0).m_input_paths.map
      (fun pi => pi.range_of.map (relabel ts0.m_verts))).flatten).Perm
      (List.range (sort_and_remap ts0).m_verts.length) := by
  refine ⟨?_, (path_leftmost_after_sort ts0 hI).2⟩
  obtain ⟨-, hok, -⟩ := hI
  simp only at hok
  intro pi hpi
  rw [sort_and_remap_paths, List.mem_map] at hpi
  obtain ⟨pi0, hpi0, rfl⟩ := hpi
  have hpo := hok pi0 hpi0
  have hring := is_ring_range_of ts0.m_verts pi0 hpo
  obtain ⟨h1, h2, h3, l, hl, hfm⟩ := hpo
  have hlt : ∀ x ∈ pi0.range_of, x < ts0.m_verts.length := by
    intro x hx
    rw [mem_range_of] at hx
    omega
  refine ⟨is_ring_sort_and_remap ts0 pi0.range_of hlt hring, relabel ts0.m_verts l, ?_, ?_, ?_⟩
  · show pi0.m_leftmost_vert.map (relabel ts0.m_verts) = some (relabel ts0.m_verts l)
    rw [hl]; rfl
  · refine List.mem_map_of_mem _ ?_
    show l ∈ pi0.range_of
    rw [mem_range_of]
    exact ⟨hfm.1, hfm.2.1⟩
  · intro x hx
    rw [List.mem_map] at hx
    obtain ⟨x0, hx0, rfl⟩ := hx
    have hx1 : x0 ∈ pi0.range_of := hx0
    rw [mem_range_of] at hx1
    exact relabel_le_of_unique_min ts0.m_verts _ _ l x0 h2 hfm (hU pi0 hpi0 l hl) hx1.1 hx1.2

/-- The join of the paths of an ingested and sorted state leaves one ring that
holds every index of the array, the two copies made for each bridge included,
when no path has another vertex at the position of its leftmost vertex. -/
theorem join_after_sort_ring_of_once (ts0 : tristate)
    (hI : ingest_ok (ts0.m_verts, ts0.m_input_paths))
    (hU : ∀ pi ∈ ts0.m_input_paths, leftmost_once ts0.m_verts pi)
    (h2 : 2 ≤ ts0.m_input_paths.length) :
    ∃ M, is_ring (join_paths_into_one_poly (sort_and_remap ts0)).m_verts M ∧
      M.Perm (List.range (join_paths_into_one_poly (sort_and_remap ts0)).m_verts.length) := by
  obtain ⟨hA, hB⟩ := path_rings_after_sort_of_once ts0 hI hU
  have hlen1 : (sort_and_remap ts0).m_input_paths.length = ts0.m_input_paths.length := by
    rw [sort_and_remap_paths, List.length_map]
  have hperm := std_sort_perm path_info.lt (sort_and_remap ts0).m_input_paths
  have hsorted := std_sort_pairwise path_info.lt path_info_lt_asymm path_info_lt_trans
    (sort_and_remap ts0).m_input_paths
  unfold join_paths_into_one_poly
  rw [if_pos (by rw [hlen1]; omega)]
  simp only
  obtain ⟨p0, rest, hpr⟩ : ∃ p0 rest,
      std_sort path_info.lt (sort_and_remap ts0).m_input_paths = p0 :: rest := by
    cases hs : std_sort path_info.lt (sort_and_remap ts0).m_input_paths with
    | nil =>
      have := hperm.length_eq
      rw [hs, hlen1] at this
      simp only [List.length_nil] at this
      omega
    | cons p0 rest => exact ⟨p0, rest, rfl⟩
  rw [hpr] at hperm hsorted ⊢
  simp only [List.drop_succ_cons, List.drop_zero]
  obtain ⟨hr0, l0, hl0, hl0C, hmin0⟩ := hA p0 (hperm.mem_iff.1 (List.mem_cons_self _ _))
  have hinv : join_inv (fun pi => pi.range_of.map (relabel ts0.m_verts))
      (sort_and_remap ts0).m_verts (p0.range_of.map (relabel ts0.m_verts)) rest := by
    refine ⟨hr0, fun pi hpi => hA pi (hperm.mem_iff.1 (List.mem_cons_of_mem _ hpi)), ?_,
      (List.pairwise_cons.1 hsorted).2, l0, hl0C, ?_⟩
    · refine List.Perm.trans ?_ hB
      have := (hperm.map (fun pi : path_info => pi.range_of.map (relabel ts0.m_verts))).flatten
      simpa using this
    · intro pi hpi l hl
      exact path_info_lt_false_iff p0 pi l0 l hl0 hl ((List.pairwise_cons.1 hsorted).1 pi hpi)
  obtain ⟨M, a1, a2, -⟩ := join_fold_ring _ rest
    { sort_and_remap ts0 with
      m_input_paths := p0 :: rest,
      m_edge_index := some (add_all_edges_into_index
        { sort_and_remap ts0 with m_input_paths := p0 :: rest } []) } _ hinv
  exact ⟨M, a1, a2⟩

theorem forall₂_exists_left {α β : Type} (R : α → β → Prop) :
    ∀ (l1 : List α) (l2 : List β), List.Forall₂ R l1 l2 → ∀ b ∈ l2, ∃ a ∈ l1, R a b := by
  intro l1 l2 h
  induction h with
  | nil => intro b hb; exact absurd hb (List.not_mem_nil b)
  | cons hab _ ih =>
    intro b hb
    rcases List.mem_cons.1 hb with e | hb2
    · rw [e]
      exact ⟨_, List.mem_cons_self _ _, hab⟩
    · obtain ⟨a, ha, hR⟩ := ih b hb2
      exact ⟨a, List.mem_cons_of_mem _ ha, hR⟩

/-- A path whose smallest position occurs once is ingested into an index range
with no other vertex at the position of the leftmost vertex. -/
theorem leftmost_once_of_position_once (verts : List poly_vert) (path : List Int)
    (pi : path_info) (hp : path_ingested verts path pi) (ho : leftmost_position_once path) :
    leftmost_once verts pi := by
  obtain ⟨he, -, hpos, hmin⟩ := hp
  intro l hl x hx1 hx2 hxl
  have h2 : 2 ≤ path.length := by omega
  obtain ⟨l2, hl2, b1, b2, b3⟩ := hmin h2
  rw [hl] at hl2
  have e : l2 = l := (Option.some.inj hl2).symm
  rw [e] at b1 b2 b3
  have hi := hpos (l - pi.m_begin_vert_orig) (by omega)
  have hj := hpos (x - pi.m_begin_vert_orig) (by omega)
  rw [Nat.add_sub_cancel' b1] at hi
  rw [Nat.add_sub_cancel' hx1] at hj
  have := ho (l - pi.m_begin_vert_orig) (by omega) (x - pi.m_begin_vert_orig) (by omega)
    (by rw [← hi, ← hj, hxl]) (by
      intro t ht
      have ht2 := hpos t ht
      rw [← ht2, ← hi]
      exact b3 _ (by omega) (by omega))
  omega

/-- For every input of two or more non-empty paths (each with at least one
coordinate pair) in which no path repeats its lexicographically smallest
position, after `init` the vertex array holds the input vertices and the two
copies appended for each of the `paths.length - 1` bridges, and all of them
lie on a single ring: following forward links from any vertex reaches every
vertex of the array in fewer steps than the array is long, and comes back to
the start after exactly as many steps as the array is long, not sooner. -/
theorem init_single_ring_of_unique_leftmost (paths : List (List Int)) (debug_halt_step : Int)
    (h2 : 2 ≤ paths.length) (hne : ∀ p ∈ paths, 2 ≤ p.length)
    (ho : ∀ p ∈ paths, leftmost_position_once p) :
    (init paths debug_halt_step).m_verts.length
      = (paths.map (fun p => p.length / 2)).sum + 2 * (paths.length - 1) ∧
    ∀ i, i < (init paths debug_halt_step).m_verts.length →
      (∀ j, j < (init paths debug_halt_step).m_verts.length →
        ∃ k, k < (init paths debug_halt_step).m_verts.length ∧
          next_steps (init paths debug_halt_step).m_verts k i = j) ∧
      next_steps (init paths debug_halt_step).m_verts
        (init paths debug_halt_step).m_verts.length i = i ∧
      ∀ m, 0 < m → m < (init paths debug_halt_step).m_verts.length →
        next_steps (init paths debug_halt_step).m_verts m i ≠ i := by
  obtain ⟨ts0, hv, hp, hinit⟩ := init_eq paths debug_halt_step
  obtain ⟨hI0, hlenp⟩ := ingest_ok_foldl paths hne ([], []) ingest_ok_nil
  have hI : ingest_ok (ts0.m_verts, ts0.m_input_paths) := by
    rw [hv, hp]; exact hI0
  have hpl : ts0.m_input_paths.length = paths.length := by
    rw [hp, hlenp]; simp
  have hU : ∀ pi ∈ ts0.m_input_paths, leftmost_once ts0.m_verts pi := by
    intro pi hpi
    have hF := path_ingested_foldl paths ([], []) [] List.Forall₂.nil
    rw [List.nil_append] at hF
    rw [hp] at hpi
    obtain ⟨p, hpm, hR⟩ := forall₂_exists_left _ _ _ hF pi hpi
    rw [hv]
    exact leftmost_once_of_position_once _ p pi hR (ho p hpm)
  have hcond : (sort_and_remap ts0).m_input_paths.length > 1 := by
    rw [sort_and_remap_paths, List.length_map, hpl]; omega
  rw [if_pos hcond] at hinit
  obtain ⟨M, a1, a2⟩ := join_after_sort_ring_of_once ts0 hI hU (by rw [hpl]; exact h2)
  have a3 := (join_after_sort_loops_valid ts0 hI (by rw [hpl]; exact h2)).2
  have hring := is_ring_sort_and_remap (join_paths_into_one_poly (sort_and_remap ts0)) M
    (fun x hx => List.mem_range.1 (a2.mem_iff.1 hx)) a1
  have hperm := (a2.map (relabel (join_paths_into_one_poly (sort_and_remap ts0)).m_verts)).trans
    (map_relabel_range_perm _)
  rw [← length_sort_and_remap] at hperm
  rw [hinit]
  refine ⟨?_, fun i hi => ring_steps _ _ hring hperm i hi⟩
  rw [length_sort_and_remap, a3, hv, hpl, ingest_length_foldl paths hne]
  simp

theorem init_single_ring_of_unique_leftmost_witness :
    2 ≤ doubled_inner_input.length ∧ (∀ p ∈ doubled_inner_input, 2 ≤ p.length) ∧
    (∀ p ∈ doubled_inner_input, leftmost_position_once p) ∧
    (init doubled_inner_input 0).m_verts.length
      = (doubled_inner_input.map (fun p => p.length / 2)).sum
        + 2 * (doubled_inner_input.length - 1) ∧
    ∀ i, i < (init doubled_inner_input 0).m_verts.length →
      (∀ j, j < (init doubled_inner_input 0).m_verts.length →
        ∃ k, k < (init doubled_inner_input 0).m_verts.length ∧
          next_steps (init doubled_inner_input 0).m_verts k i = j) ∧
      next_steps (init doubled_inner_input 0).m_verts
        (init doubled_inner_input 0).m_verts.length i = i ∧
      ∀ m, 0 < m → m < (init doubled_inner_input 0).m_verts.length →
        next_steps (init doubled_inner_input 0).m_verts m i ≠ i :=
  ⟨by decide, by decide, by decide,
    init_single_ring_of_unique_leftmost doubled_inner_input 0 (by decide) (by decide)
      (by decide)⟩

/-- The second path of `doubled_leftmost_input` repeats its smallest position,
so the input is outside `init_single_ring_of_unique_leftmost`; each path has
at least one coordinate pair. -/
theorem doubled_leftmost_input_repeats_leftmost :
    (∀ p ∈ doubled_leftmost_input, 2 ≤ p.length) ∧
    ¬ ∀ p ∈ doubled_leftmost_input, leftmost_position_once p := by
  decide

end ConstrainedTriangulate
